import Mathlib

/-! # saft: lexer and parser, embedded in Lean

A shallow embedding of `lex.go`, `parse.go`, `elem.go`, `assoc.go`, `list.go` and
`string.go`.  Mutable receivers become explicit state passing; every Go loop is a
recursive function on a fuel argument and returns `none` when the fuel runs out.
The theorems show that a fuel linear in the input length always suffices.

Runes are Go `rune` values (`int32`), modelled as integers.  Go strings built by a
`strings.Builder` are modelled as the list of the runes written to them.
-/

set_option autoImplicit false

namespace saft

/-! ## Runes and text -/

/-- A Go rune. -/
abbrev rune := Int

/-- A Go string, as the list of runes it encodes. -/
abbrev Text := List rune

/-- End of file is coded using a sentinel rune value. -/
def runeEof : rune := -1

/-- Unicode scalar values: what `ReadRune` of a string or byte reader delivers. -/
def validRune (r : rune) : Prop :=
  0 ≤ r ∧ r ≤ 1114111 ∧ ¬ (55296 ≤ r ∧ r ≤ 57343)

instance (r : rune) : Decidable (validRune r) := by
  unfold validRune; infer_instance

/-- The rune that `strings.Builder.WriteRune` appends: an invalid rune is written as U+FFFD. -/
def writeRune (r : rune) : rune :=
  if validRune r then r else 65533

/-- Go `unicode.IsSpace`: the Latin-1 spaces and the runes with the White_Space property. -/
def isSpace (r : rune) : Bool :=
  r = 9 || r = 10 || r = 11 || r = 12 || r = 13 || r = 32 || r = 133 || r = 160 ||
  r = 5760 || (8192 ≤ r && r ≤ 8202) || r = 8232 || r = 8233 || r = 8239 ||
  r = 8287 || r = 12288

/-! ## Positions -/

/-- Two's complement wrap-around of `int32` arithmetic. -/
def wrapInt32 (x : Int) : Int :=
  (x + 2147483648) % 4294967296 - 2147483648

/-- LexPos contain line and column information of lexed runes and tokens. -/
structure LexPos where
  Line : Int
  Column : Int
deriving DecidableEq, Repr

/-- Update position based on input rune (`'\t'` is 9, `'\n'` is 10). -/
def LexPos.update (pos : LexPos) (r : rune) : LexPos :=
  if r = 9 then
    { pos with Column := wrapInt32 (pos.Column + (8 - Int.tmod pos.Column 8)) }
  else if r = 10 then
    { Line := wrapInt32 (pos.Line + 1), Column := 0 }
  else
    { pos with Column := wrapInt32 (pos.Column + 1) }

/-- String implements the fmt.Stringer interface: `%d:%d`. -/
def LexPos.String (pos : LexPos) : String :=
  toString pos.Line ++ ":" ++ toString pos.Column

/-! ## Errors -/

/-- Modelled from the spec: the error values of package `github.com/johan-bolmsjo/errors`,
which is not part of the sources.  `New` makes an error from a message and `Wrap`
puts a context in front of a cause. -/
inductive error where
  | New (msg : String)
  | Wrap (cause : error) (msg : String)
deriving DecidableEq, Repr

/-- Modelled from the spec: the text of an error, `<context>: <cause>` for a wrapped one. -/
def error.Error : error → String
  | error.New msg => msg
  | error.Wrap cause msg => msg ++ ": " ++ cause.Error

/-- Modelled from the spec: the sticky error sink of package
`github.com/johan-bolmsjo/errors` (a single slot, first write wins). -/
structure Sink where
  cause : Option error
deriving DecidableEq, Repr

/-- Modelled from the spec: `send(err)` stores `err` only if no error is stored. -/
def Sink.Send (es : Sink) (err : Option error) : Sink :=
  match es.cause with
  | some _ => es
  | none => { cause := err }

/-- Modelled from the spec: `ok()` reports whether the slot is still empty. -/
def Sink.Ok (es : Sink) : Bool := es.cause.isNone

/-- Modelled from the spec: `cause()` returns the stored error or none. -/
def Sink.Cause (es : Sink) : Option error := es.cause

/-! ## Tokens -/

/-- The type of token emitted. -/
inductive lexKind where
  | Eof
  | Space
  | SymbolString
  | InterpString
  | RawString
  | Colon
  | LBrace
  | RBrace
  | LBracket
  | RBracket
deriving DecidableEq, Repr

def lexKind.isString (kind : lexKind) : Bool :=
  kind = lexKind.SymbolString || kind = lexKind.InterpString || kind = lexKind.RawString

/-- A lexed token emitted to the parser. -/
structure lexToken where
  k : lexKind
  s : Text
  pos : LexPos
deriving DecidableEq, Repr

def lexToken.isString (tok : lexToken) : Bool := tok.k.isString

structure lexRune where
  r : rune
  pos : LexPos
deriving DecidableEq, Repr

/-! ## The rune source and the lexer state -/

/-- An `io.RuneReader`: the runes it still delivers, and the error it reports once they
are exhausted (`none` stands for a clean `io.EOF`). -/
structure RuneReader where
  runes : List rune
  err : Option error
deriving DecidableEq, Repr

/-- State for lexing from a rune reader.  `unreadRunes` is the pushback stack with its
top (the last element of the Go slice) at the head of the list. -/
structure lexer where
  rr : RuneReader
  unreadRunes : List lexRune
  pos : LexPos
  prevKind : lexKind
  eof : Bool
  es : Sink
deriving DecidableEq, Repr

/-- A new lexer lexing from the given input stream. -/
def newLexer (rr : RuneReader) : lexer :=
  { rr := rr, unreadRunes := [], pos := { Line := 1, Column := 0 },
    prevKind := lexKind.Eof, eof := false, es := { cause := none } }

def lexer.emitPosError (lex : lexer) (err : Option error) (pos : LexPos) : lexer :=
  match err with
  | none => lex
  | some e => { lex with eof := true, es := lex.es.Send (some (error.Wrap e pos.String)) }

def lexer.readRune (lex : lexer) : lexRune × lexer :=
  match lex.unreadRunes with
  | lr :: rest => (lr, { lex with unreadRunes := rest })
  | [] =>
    if lex.eof then ({ r := runeEof, pos := lex.pos }, lex)
    else
      match lex.rr.runes with
      | [] =>
        ({ r := runeEof, pos := lex.pos },
          ({ lex with eof := true }).emitPosError lex.rr.err lex.pos)
      | r :: rs =>
        ({ r := r, pos := lex.pos },
          { lex with rr := { lex.rr with runes := rs }, pos := lex.pos.update r })

def lexer.unreadRune (lex : lexer) (lr : lexRune) : lexer :=
  if lr.r ≠ runeEof then { lex with unreadRunes := lr :: lex.unreadRunes } else lex

def lexer.peekRune (lex : lexer) : lexRune × lexer :=
  let res := lex.readRune
  (res.1, res.2.unreadRune res.1)

/-! ## Scanning loops -/

/-- The loop of `lexSpace`: read while the rune is a space; the rune that ended the loop
is returned with the state. -/
def lexer.lexSpaceLoop : Nat → lexer → Option (lexRune × lexer)
  | 0, _ => none
  | fuel + 1, lex =>
    let res := lex.readRune
    if isSpace res.1.r then lexer.lexSpaceLoop fuel res.2 else some res

/-- Scans a run of space characters.
One space has already been consumed and is passed as firstRune. -/
def lexer.lexSpace (fuel : Nat) (lex : lexer) (firstRune : lexRune) :
    Option (lexToken × lexer) :=
  match lex.lexSpaceLoop fuel with
  | none => none
  | some (lr, lex1) =>
    some ({ k := lexKind.Space, s := [], pos := firstRune.pos }, lex1.unreadRune lr)

/-- Check that double strings are not allowed: there must always be some separator
between two strings. -/
def lexer.checkJoinedStrings (lex : lexer) (pos : LexPos) : lexToken × Bool × lexer :=
  if lex.prevKind.isString then
    let lex1 := lex.emitPosError (some (error.New "strings must be separated")) pos
    ({ k := lexKind.Eof, s := [], pos := lex1.pos }, false, lex1)
  else
    ({ k := lexKind.Eof, s := [], pos := { Line := 0, Column := 0 } }, true, lex)

/-- The rune loop of `lexInterpretedString` (backslash is 92, the double quote 34).
The result is the token of an early error return, or the builder and the last rune read. -/
def lexer.lexInterpretedLoop :
    Nat → lexer → Text → Bool → Option ((lexToken ⊕ (Text × lexRune)) × lexer)
  | 0, _, _, _ => none
  | fuel + 1, lex, sb, parseEscape =>
    let res := lex.readRune
    let lr := res.1
    let lex1 := res.2
    if lr.r = runeEof then some (Sum.inr (sb, lr), lex1)
    else if parseEscape then
      if lr.r = 92 ∨ lr.r = 34 then lexer.lexInterpretedLoop fuel lex1 (sb ++ [lr.r]) false
      else if lr.r = 110 then lexer.lexInterpretedLoop fuel lex1 (sb ++ [10]) false
      else if lr.r = 114 then lexer.lexInterpretedLoop fuel lex1 (sb ++ [13]) false
      else if lr.r = 116 then lexer.lexInterpretedLoop fuel lex1 (sb ++ [9]) false
      else
        let lex2 := lex1.emitPosError (some (error.New "unknown escape sequence")) lr.pos
        some (Sum.inl { k := lexKind.Eof, s := [], pos := lex2.pos }, lex2)
    else
      if lr.r = 92 then lexer.lexInterpretedLoop fuel lex1 sb true
      else if lr.r = 10 ∨ lr.r = 13 then
        let lex2 := lex1.emitPosError (some (error.New "newline in string")) lr.pos
        some (Sum.inl { k := lexKind.Eof, s := [], pos := lex2.pos }, lex2)
      else if lr.r = 34 then some (Sum.inr (sb, lr), lex1)
      else lexer.lexInterpretedLoop fuel lex1 (sb ++ [writeRune lr.r]) false

def lexer.lexInterpretedString (fuel : Nat) (lex : lexer) (firstRune : lexRune) :
    Option (lexToken × lexer) :=
  match lex.checkJoinedStrings firstRune.pos with
  | (errToken, false, lex1) => some (errToken, lex1)
  | (_, true, lex1) =>
    match lex1.lexInterpretedLoop fuel [] false with
    | none => none
    | some (Sum.inl errToken, lex2) => some (errToken, lex2)
    | some (Sum.inr (sb, lr), lex2) =>
      if lr.r ≠ 34 then
        let lex3 := lex2.emitPosError (some (error.New "unterminated string")) lr.pos
        some ({ k := lexKind.Eof, s := [], pos := lex3.pos }, lex3)
      else
        some ({ k := lexKind.InterpString, s := sb, pos := firstRune.pos }, lex2)

/-- The rune loop of `lexRawString` (the backtick is 96): the builder and the last rune read. -/
def lexer.lexRawLoop : Nat → lexer → Text → Option (Text × lexRune × lexer)
  | 0, _, _ => none
  | fuel + 1, lex, sb =>
    let res := lex.readRune
    if res.1.r = runeEof then some (sb, res.1, res.2)
    else if res.1.r = 96 then some (sb, res.1, res.2)
    else lexer.lexRawLoop fuel res.2 (sb ++ [writeRune res.1.r])

def lexer.lexRawString (fuel : Nat) (lex : lexer) (firstRune : lexRune) :
    Option (lexToken × lexer) :=
  match lex.checkJoinedStrings firstRune.pos with
  | (errToken, false, lex1) => some (errToken, lex1)
  | (_, true, lex1) =>
    match lex1.lexRawLoop fuel [] with
    | none => none
    | some (sb, lr, lex2) =>
      if lr.r ≠ 96 then
        let lex3 := lex2.emitPosError (some (error.New "unterminated string")) lr.pos
        some ({ k := lexKind.Eof, s := [], pos := lex3.pos }, lex3)
      else
        some ({ k := lexKind.RawString, s := sb, pos := firstRune.pos }, lex2)

/-- The predicate of `lexSymbolString`: the runes that continue a symbol string. -/
def symbolPredicate (r : rune) : Bool :=
  !(isSpace r || r = 92 || r = 96 || r = 34 || r = 123 || r = 125 || r = 91 || r = 93 ||
    r = 58 || r = 47 || r = runeEof)

/-- The scan of `lexSymbolString` from the label `keepScanning` on: the inner loop while
the predicate holds, then the check that lets a single slash (47) continue the scan. -/
def lexer.lexSymbolLoop : Nat → lexer → Text → Option (Text × lexRune × lexer)
  | 0, _, _ => none
  | fuel + 1, lex, sb =>
    let res := lex.readRune
    let lr := res.1
    if symbolPredicate lr.r then lexer.lexSymbolLoop fuel res.2 (sb ++ [writeRune lr.r])
    else if lr.r = 47 then
      let pk := res.2.peekRune
      if pk.1.r ≠ 47 then lexer.lexSymbolLoop fuel pk.2 (sb ++ [writeRune lr.r])
      else some (sb, lr, pk.2)
    else some (sb, lr, res.2)

def lexer.lexSymbolString (fuel : Nat) (lex : lexer) (firstRune : lexRune) :
    Option (lexToken × lexer) :=
  match lex.checkJoinedStrings firstRune.pos with
  | (errToken, false, lex1) => some (errToken, lex1)
  | (_, true, lex1) =>
    match lex1.lexSymbolLoop fuel [writeRune firstRune.r] with
    | none => none
    | some (sb, lr, lex2) =>
      some ({ k := lexKind.SymbolString, s := sb, pos := firstRune.pos }, lex2.unreadRune lr)

/-- The loop of `lexComment`: read until a newline or the end of the input. -/
def lexer.lexCommentLoop : Nat → lexer → Option (lexRune × lexer)
  | 0, _ => none
  | fuel + 1, lex =>
    let res := lex.readRune
    if res.1.r ≠ 10 ∧ res.1.r ≠ runeEof then lexer.lexCommentLoop fuel res.2 else some res

/-- Scans characters until EOL or EOF.
The comment marker has already been consumed. -/
def lexer.lexComment (fuel : Nat) (lex : lexer) : Option lexer :=
  match lex.lexCommentLoop fuel with
  | none => none
  | some (lr, lex1) => some (lex1.unreadRune lr)

/-! ## readToken -/

/-- The body of `readToken` from the label `begin` on; every jump back to the label is a
recursive call. -/
def lexer.readTokenBegin : Nat → lexer → Option (lexToken × lexer)
  | 0, _ => none
  | fuel + 1, lex =>
    let res := lex.readRune
    let lr := res.1
    let lex1 := res.2
    let r := lr.r
    if r = runeEof then some ({ k := lexKind.Eof, s := [], pos := lr.pos }, lex1)
    else if r = 47 then
      let res2 := lex1.readRune
      if res2.1.r = 47 then
        match res2.2.lexComment fuel with
        | none => none
        | some lex2 => lexer.readTokenBegin fuel lex2
      else (res2.2.unreadRune res2.1).lexSymbolString fuel lr
    else if isSpace r then
      match lex1.lexSpace fuel lr with
      | none => none
      | some (tok, lex2) =>
        if lex2.prevKind = lexKind.Space then lexer.readTokenBegin fuel lex2
        else some (tok, lex2)
    else if r = 58 then some ({ k := lexKind.Colon, s := [], pos := lr.pos }, lex1)
    else if r = 123 then some ({ k := lexKind.LBrace, s := [], pos := lr.pos }, lex1)
    else if r = 125 then some ({ k := lexKind.RBrace, s := [], pos := lr.pos }, lex1)
    else if r = 91 then some ({ k := lexKind.LBracket, s := [], pos := lr.pos }, lex1)
    else if r = 93 then some ({ k := lexKind.RBracket, s := [], pos := lr.pos }, lex1)
    else if r = 34 then lex1.lexInterpretedString fuel lr
    else if r = 96 then lex1.lexRawString fuel lr
    else lex1.lexSymbolString fuel lr

/-- Returns the next token from the input stream.
lexKindEof is returned as the last token, possibly with an error. -/
def lexer.readToken (fuel : Nat) (lex : lexer) : Option (lexToken × Option error × lexer) :=
  match lex.readTokenBegin fuel with
  | none => none
  | some (tok, lex1) =>
    let lex2 := { lex1 with prevKind := tok.k }
    match lex2.es.Cause with
    | some e =>
      some ({ k := lexKind.Eof, s := [], pos := lex2.pos }, some e,
        { lex2 with prevKind := lexKind.Eof })
    | none => some (tok, none, lex2)

/-- The loop of the test helper `lex` of `lex_test.go`. -/
def lexLoop : Nat → lexer → List lexToken → Option (Except error (List lexToken))
  | 0, _, _ => none
  | fuel + 1, lex, tokens =>
    match lex.readToken fuel with
    | none => none
    | some (_, some e, _) => some (Except.error e)
    | some (tok, none, lex1) =>
      if tok.k = lexKind.Eof then some (Except.ok (tokens ++ [tok]))
      else lexLoop fuel lex1 (tokens ++ [tok])

/-- The test helper `lex` of `lex_test.go`: all tokens of the input up to and including
the end-of-stream token, or the first error. -/
def lex (fuel : Nat) (input : List rune) : Option (Except error (List lexToken)) :=
  lexLoop fuel (newLexer { runes := input, err := none }) []

/-! ## The element tree -/

/-- String is surprisingly a string (`string.go`). -/
structure Str where
  pos : LexPos
  V : Text
deriving DecidableEq, Repr

mutual
/-- Elem is any of the Saft data types String, List or Assoc: the Go interface value
`any` holds a `*String`, a `*List` (position and elements) or an `*Assoc` (position and
pairs). -/
inductive Elem where
  | String (s : Str)
  | List (pos : LexPos) (L : List Elem)
  | Assoc (pos : LexPos) (L : List Pair)
/-- Pair is a key value pair in an association list. -/
inductive Pair where
  | mk (K : Str) (V : Elem)
end

/-- Pairs is the list of pairs in an association list. -/
abbrev Pairs := List Pair

def Pair.K : Pair → Str
  | Pair.mk K _ => K

def Pair.V : Pair → Elem
  | Pair.mk _ V => V

/-- List is a regular list of elements (`list.go`): what a `*List` points to. -/
structure ElemList where
  pos : LexPos
  L : List Elem

/-- Assoc is an association list (`assoc.go`): what an `*Assoc` points to. -/
structure Assoc where
  pos : LexPos
  L : Pairs

/-- The constants `elemTypeString`, `elemTypeList` and `elemTypeAssoc` of `elem.go`. -/
inductive elemType where
  | elemTypeString
  | elemTypeList
  | elemTypeAssoc
deriving DecidableEq, Repr

def elemType.String : elemType → String
  | elemType.elemTypeString => "string"
  | elemType.elemTypeList => "list"
  | elemType.elemTypeAssoc => "assoc"

/-- Pos returns the lexed position of the element. -/
def Elem.Pos : Elem → LexPos
  | Elem.String s => s.pos
  | Elem.List pos _ => pos
  | Elem.Assoc pos _ => pos

/-- The method `elemType` of the value held by the element. -/
def Elem.elemType : Elem → saft.elemType
  | Elem.String _ => saft.elemType.elemTypeString
  | Elem.List _ _ => saft.elemType.elemTypeList
  | Elem.Assoc _ _ => saft.elemType.elemTypeAssoc

/-- IsString asserts that e is a String.
Return values as regular type assertions (`none` is the nil pointer). -/
def Elem.IsString : Elem → Option Str × Bool
  | Elem.String s => (some s, true)
  | _ => (none, false)

/-- IsList asserts that e is a List.
Return values as regular type assertions. -/
def Elem.IsList : Elem → Option ElemList × Bool
  | Elem.List pos L => (some { pos := pos, L := L }, true)
  | _ => (none, false)

/-- IsAssoc asserts that e is an Assoc.
Return values as regular type assertions. -/
def Elem.IsAssoc : Elem → Option saft.Assoc × Bool
  | Elem.Assoc pos L => (some { pos := pos, L := L }, true)
  | _ => (none, false)

/-- The error of a failed expectation: `fmt.Errorf("%s: expected %s, found %s", ...)`. -/
def expectError (e : Elem) (expected : elemType) : error :=
  error.New (e.Pos.String ++ ": expected " ++ expected.String ++ ", found " ++
    e.elemType.String)

/-- ExpectString asserts and expects that e is a String.
Returns a string or an error containing positional information. -/
def Elem.ExpectString (e : Elem) : Option Str × Option error :=
  match e.IsString.1 with
  | none => (none, some (expectError e elemType.elemTypeString))
  | some t => (some t, none)

/-- ExpectList asserts and expects that e is a List.
Returns a List or an error containing positional information. -/
def Elem.ExpectList (e : Elem) : Option ElemList × Option error :=
  match e.IsList.1 with
  | none => (none, some (expectError e elemType.elemTypeList))
  | some t => (some t, none)

/-- ExpectAssoc asserts and expects that e is an Assoc.
Returns an Assoc or an error containing positional information. -/
def Elem.ExpectAssoc (e : Elem) : Option saft.Assoc × Option error :=
  match e.IsAssoc.1 with
  | none => (none, some (expectError e elemType.elemTypeAssoc))
  | some t => (some t, none)

/-- FindP is the same as Find but accepting a predicate function matching against pair
keys.  The result is the list cut so that the found pair is first, or nil (the empty
list) if no pair was found. -/
def Pairs.FindP : Pairs → (Text → Bool) → Pairs
  | [], _ => []
  | v :: rest, pred => if pred v.K.V then v :: rest else Pairs.FindP rest pred

/-- Find first pair in list of pairs with the specified key.
Returns a list cut so that the found pair is first or nil if no pair was found. -/
def Pairs.Find (lst : Pairs) (key : Text) : Pairs :=
  Pairs.FindP lst (fun pairKey => decide (key = pairKey))

/-- The loop of `TestAssoc_Find` in `assoc_test.go`, started with `l := lst.Find(key)`:
while `l` is not nil, visit `l[0]` and go on with `l[1:].Find(key)`.  The pairs visited
are collected in order. -/
def findLoop : Nat → Pairs → Text → List Pair → Option (List Pair)
  | 0, _, _, _ => none
  | fuel + 1, l, key, seen =>
    match l with
    | [] => some seen
    | p :: rest => findLoop fuel (Pairs.Find rest key) key (seen ++ [p])

/-- The whole iteration of `TestAssoc_Find` over `lst` for `key`. -/
def findAll (fuel : Nat) (lst : Pairs) (key : Text) : Option (List Pair) :=
  findLoop fuel (Pairs.Find lst key) key []

/-! ## The parser -/

structure parser where
  lexer : lexer
  next : lexToken
  prev : lexToken
  es : Sink

def newParser (reader : RuneReader) : parser :=
  { lexer := newLexer reader,
    next := { k := lexKind.Eof, s := [], pos := { Line := 0, Column := 0 } },
    prev := { k := lexKind.Eof, s := [], pos := { Line := 0, Column := 0 } },
    es := { cause := none } }

/-- Inject error into the parser error sink with positional information. -/
def parser.posError (p : parser) (err : error) (pos : LexPos) : parser :=
  { p with es := p.es.Send (some (error.Wrap err pos.String)) }

/-- Get any error injected into the error sink. -/
def parser.err (p : parser) : Option error := p.es.Cause

/-- Get token from lexer and store any error in the error sink. -/
def parser.lex (fuel : Nat) (p : parser) : Option (lexToken × parser) :=
  match p.lexer.readToken fuel with
  | none => none
  | some (tok, err, lx) => some (tok, { p with lexer := lx, es := p.es.Send err })

/-- Get the next token from the lexer. -/
def parser.consume (fuel : Nat) (p : parser) : Option parser :=
  let p1 := { p with prev := p.next }
  if p1.next.k ≠ lexKind.Eof then
    match p1.lex fuel with
    | none => none
    | some (tok, p2) => some { p2 with next := tok }
  else some p1

/-- Check if the next token is of the specified kind. -/
def parser.is (p : parser) (k : lexKind) : Bool := p.next.k = k

/-- Same as is but with a predicate function. -/
def parser.isP (p : parser) (pred : lexToken → Bool) : Bool := pred p.next

/-- Accept the next token if it is of the specified kind.
Returns true if the token was accepted. -/
def parser.accept (fuel : Nat) (p : parser) (k : lexKind) : Option (Bool × parser) :=
  if p.next.k = k then
    match p.consume fuel with
    | none => none
    | some p1 => some (true, p1)
  else some (false, p)

/-- Expect the next token to be of the specified kind or inject an error containing msg
into the parser error sink. Returns true if the token was as expected. -/
def parser.expect (fuel : Nat) (p : parser) (k : lexKind) (msg : String) :
    Option (Bool × parser) :=
  if p.next.k ≠ k then some (false, p.posError (error.New msg) p.next.pos)
  else
    match p.consume fuel with
    | none => none
    | some p1 => some (true, p1)

/-- Same as expect but with a predicate function. -/
def parser.expectP (fuel : Nat) (p : parser) (pred : lexToken → Bool) (msg : String) :
    Option (Bool × parser) :=
  if !pred p.next then some (false, p.posError (error.New msg) p.next.pos)
  else
    match p.consume fuel with
    | none => none
    | some p1 => some (true, p1)

def parser.parseString (fuel : Nat) (p : parser) : Option (Str × parser) :=
  match p.consume fuel with
  | none => none
  | some p1 => some ({ pos := p1.prev.pos, V := p1.prev.s }, p1)

/-- The key predicate of `parsePair`. -/
def keyPred (token : lexToken) : Bool :=
  token.k = lexKind.SymbolString || token.k = lexKind.InterpString

mutual
/-- The loop of `parseList`, with the elements appended to the list so far. -/
def parser.parseListLoop : Nat → parser → List Elem → Option (List Elem × parser)
  | 0, _, _ => none
  | fuel + 1, p, L =>
    if p.es.Ok then
      match p.accept fuel lexKind.Space with
      | none => none
      | some (true, p1) => parser.parseListLoop fuel p1 L
      | some (false, p1) =>
        if p1.isP lexToken.isString then
          match p1.parseString fuel with
          | none => none
          | some (s, p2) => parser.parseListLoop fuel p2 (L ++ [Elem.String s])
        else if p1.is lexKind.LBracket then
          match parser.parseList fuel p1 with
          | none => none
          | some (e, p2) => parser.parseListLoop fuel p2 (L ++ [e])
        else if p1.is lexKind.LBrace then
          match parser.parseAssoc fuel p1 with
          | none => none
          | some (e, p2) => parser.parseListLoop fuel p2 (L ++ [e])
        else
          match p1.accept fuel lexKind.RBracket with
          | none => none
          | some (true, p2) => some (L, p2)
          | some (false, p2) =>
            if p2.is lexKind.Eof then
              parser.parseListLoop fuel
                (p2.posError (error.New "unterminated list") p2.next.pos) L
            else
              parser.parseListLoop fuel
                (p2.posError (error.New "expected string, list or association list")
                  p2.next.pos) L
    else some (L, p)
def parser.parseList : Nat → parser → Option (Elem × parser)
  | 0, _ => none
  | fuel + 1, p =>
    match p.consume fuel with
    | none => none
    | some p1 =>
      match parser.parseListLoop fuel p1 [] with
      | none => none
      | some (L, p2) => some (Elem.List p1.prev.pos L, p2)
/-- The loop of `parseAssoc`, with the pairs appended to the list so far. -/
def parser.parseAssocLoop : Nat → parser → List Pair → Option (List Pair × parser)
  | 0, _, _ => none
  | fuel + 1, p, L =>
    if p.es.Ok then
      match p.accept fuel lexKind.Space with
      | none => none
      | some (true, p1) => parser.parseAssocLoop fuel p1 L
      | some (false, p1) =>
        match p1.accept fuel lexKind.RBrace with
        | none => none
        | some (true, p2) => some (L, p2)
        | some (false, p2) =>
          if p2.is lexKind.Eof then
            parser.parseAssocLoop fuel
              (p2.posError (error.New "unterminated association list") p2.next.pos) L
          else
            match parser.parsePair fuel p2 with
            | none => none
            | some (pair, p3) =>
              if !p3.is lexKind.RBrace && !p3.is lexKind.Eof then
                match p3.expect fuel lexKind.Space
                    "association list pairs must be separated by whitespace" with
                | none => none
                | some (_, p4) => parser.parseAssocLoop fuel p4 (L ++ [pair])
              else parser.parseAssocLoop fuel p3 (L ++ [pair])
    else some (L, p)
def parser.parseAssoc : Nat → parser → Option (Elem × parser)
  | 0, _ => none
  | fuel + 1, p =>
    match p.consume fuel with
    | none => none
    | some p1 =>
      match parser.parseAssocLoop fuel p1 [] with
      | none => none
      | some (L, p2) => some (Elem.Assoc p1.prev.pos L, p2)
/-- Parses one pair.  The value of a pair whose value position holds no element is the
zero `Elem` of Go; it is modelled as an empty list at position 0:0 and is never returned
by `Parse`, since an error is recorded in that case. -/
def parser.parsePair : Nat → parser → Option (Pair × parser)
  | 0, _ => none
  | fuel + 1, p =>
    match p.expectP fuel keyPred
        "key in association list pair must be of symbol or interpreted string form" with
    | none => none
    | some (_, p1) =>
      let K : Str := { pos := p1.prev.pos, V := p1.prev.s }
      match p1.accept fuel lexKind.Colon with
      | none => none
      | some (ok, p2) =>
        let p3 :=
          if !ok then
            p2.posError
              (error.New "key in association list pair must be immediately followed by colon")
              p2.prev.pos
          else p2
        match p3.accept fuel lexKind.Space with
        | none => none
        | some (_, p4) =>
          if p4.isP lexToken.isString then
            match p4.parseString fuel with
            | none => none
            | some (s, p5) => some (Pair.mk K (Elem.String s), p5)
          else if p4.is lexKind.LBracket then
            match parser.parseList fuel p4 with
            | none => none
            | some (e, p5) => some (Pair.mk K e, p5)
          else if p4.is lexKind.LBrace then
            match parser.parseAssoc fuel p4 with
            | none => none
            | some (e, p5) => some (Pair.mk K e, p5)
          else if p4.is lexKind.RBrace || p4.is lexKind.Eof then
            some (Pair.mk K (Elem.List { Line := 0, Column := 0 } []),
              p4.posError (error.New "unterminated association list pair") p4.next.pos)
          else
            some (Pair.mk K (Elem.List { Line := 0, Column := 0 } []),
              p4.posError (error.New "expected string, list or association list")
                p4.next.pos)
end

/-- The loop of `parseRoot`, with the elements appended to the list so far. -/
def parser.parseRootLoop : Nat → parser → List Elem → Option (List Elem × parser)
  | 0, _, _ => none
  | fuel + 1, p, elems =>
    if p.es.Ok then
      match p.accept fuel lexKind.Space with
      | none => none
      | some (true, p1) => parser.parseRootLoop fuel p1 elems
      | some (false, p1) =>
        if p1.isP lexToken.isString then
          match p1.parseString fuel with
          | none => none
          | some (s, p2) => parser.parseRootLoop fuel p2 (elems ++ [Elem.String s])
        else if p1.is lexKind.LBracket then
          match parser.parseList fuel p1 with
          | none => none
          | some (e, p2) => parser.parseRootLoop fuel p2 (elems ++ [e])
        else if p1.is lexKind.LBrace then
          match parser.parseAssoc fuel p1 with
          | none => none
          | some (e, p2) => parser.parseRootLoop fuel p2 (elems ++ [e])
        else if p1.is lexKind.Eof then some (elems, p1)
        else
          parser.parseRootLoop fuel
            (p1.posError (error.New "expected string, list or association list")
              p1.next.pos) elems
    else some (elems, p)

/-- Top level parser. -/
def parser.parseRoot (fuel : Nat) (p : parser) : Option (List Elem × parser) :=
  match p.lex fuel with
  | none => none
  | some (tok, p1) => parser.parseRootLoop fuel { p1 with next := tok } []

/-- Parse Saft document from reader. Zero or more root objects are returned in a slice
(the nil slice is the empty list, the nil error is `none`). -/
def Parse (fuel : Nat) (reader : RuneReader) : Option (List Elem × Option error) :=
  match (newParser reader).parseRoot fuel with
  | none => none
  | some (elems, p) =>
    if p.err = none then some (elems, none) else some ([], p.err)

/-! ## Vocabulary of the statements -/

/-- The number of runes the lexer can still deliver: pushed back or still in the source. -/
def lexer.measure (lex : lexer) : Nat := lex.unreadRunes.length + lex.rr.runes.length

/-- What the three string scanners have in common. -/
def stringScanOk (lex : lexer) (tok : lexToken) (lex1 : lexer) : Prop :=
  lex1.measure ≤ lex.measure ∧ lex1.prevKind = lex.prevKind ∧ tok.k ≠ lexKind.Space

/-- The number of tokens the parser can still consume, bounded through the runes left:
nothing once the lookahead is the end-of-stream token. -/
def parser.measure (p : parser) : Nat :=
  if p.next.k = lexKind.Eof then 0 else p.lexer.measure + 1

/-- A parser step from `p` to `p1` makes no token reappear and keeps a recorded error. -/
def parser.Prog (p p1 : parser) : Prop :=
  p1.measure ≤ p.measure ∧ (p.es.Ok = false → p1.es.Ok = false)

/-- A parser step from `p` to `p1` that consumed a token or recorded an error. -/
def parser.Strict (p p1 : parser) : Prop :=
  p.Prog p1 ∧ (p1.measure < p.measure ∨ p1.es.Ok = false)

/-- With `fuel`, the list, association list and pair parsers return and make progress. -/
def parseTotalAt (fuel : Nat) : Prop :=
  (∀ (p : parser) (L : List Elem),
    (3 * p.measure + 5 ≤ fuel ∨ (p.es.Ok = false ∧ 1 ≤ fuel)) →
    ∃ L1 p1, parser.parseListLoop fuel p L = some (L1, p1) ∧ p.Prog p1) ∧
  (∀ (p : parser), p.next.k ≠ lexKind.Eof → 3 * p.measure + 3 ≤ fuel →
    ∃ e p1, parser.parseList fuel p = some (e, p1) ∧ p.Strict p1) ∧
  (∀ (p : parser) (L : List Pair),
    (3 * p.measure + 5 ≤ fuel ∨ (p.es.Ok = false ∧ 1 ≤ fuel)) →
    ∃ L1 p1, parser.parseAssocLoop fuel p L = some (L1, p1) ∧ p.Prog p1) ∧
  (∀ (p : parser), p.next.k ≠ lexKind.Eof → 3 * p.measure + 3 ≤ fuel →
    ∃ e p1, parser.parseAssoc fuel p = some (e, p1) ∧ p.Strict p1) ∧
  (∀ (p : parser), 3 * p.measure + 4 ≤ fuel →
    ∃ pair p1, parser.parsePair fuel p = some (pair, p1) ∧ p.Strict p1)

/-- The next rune of the lexer begins a string: it is not the end of the input, not
whitespace, not one of the structural runes `:{}[]`, and when it is a slash (47) the rune
after it is not a second slash (which would begin a comment). -/
def lexer.startsString (lex : lexer) : Prop :=
  lex.readRune.1.r ≠ runeEof ∧ isSpace lex.readRune.1.r = false ∧
  lex.readRune.1.r ≠ 58 ∧ lex.readRune.1.r ≠ 123 ∧ lex.readRune.1.r ≠ 125 ∧
  lex.readRune.1.r ≠ 91 ∧ lex.readRune.1.r ≠ 93 ∧
  (lex.readRune.1.r = 47 → lex.readRune.2.readRune.1.r ≠ 47)

instance (lex : lexer) : Decidable lex.startsString := by
  unfold lexer.startsString; infer_instance

/-- The lexer of the input `a"a"` after its first token, the symbol `a`: the double quote
read ahead is pushed back. -/
def joinedSymbolExample : lexer :=
  { rr := { runes := [97, 34], err := none },
    unreadRunes := [{ r := 34, pos := { Line := 1, Column := 1 } }],
    pos := { Line := 1, Column := 2 }, prevKind := lexKind.SymbolString, eof := false,
    es := { cause := none } }

/-- The lexer of the input `"a"a` after its first token, the interpreted string. -/
def joinedInterpExample : lexer :=
  { rr := { runes := [97], err := none }, unreadRunes := [],
    pos := { Line := 1, Column := 3 }, prevKind := lexKind.InterpString, eof := false,
    es := { cause := none } }

/-- The position reached from `pos` after the runes `rs` have been consumed. -/
def posAfter (pos : LexPos) : List rune → LexPos
  | [] => pos
  | r :: rs => posAfter (pos.update r) rs

/-- The runes `rs` with the position each of them is read at, the first one at `pos`. -/
def annotate (pos : LexPos) : List rune → List lexRune
  | [] => []
  | r :: rs => { r := r, pos := pos } :: annotate (pos.update r) rs

/-- The lexer has recorded no error, reads from a source that ends cleanly, has returned a
token of kind `pk` last, and is about to deliver exactly the runes `input`, the first of
them at position `pos`: some of them may be waiting in the pushback stack, the others are
still in the source. -/
def lexer.Ready (lex : lexer) (pos : LexPos) (input : List rune) (pk : lexKind) : Prop :=
  lex.es.cause = none ∧ lex.rr.err = none ∧ lex.prevKind = pk ∧
  ∃ u, lex.unreadRunes = annotate pos u ∧ lex.pos = posAfter pos u ∧
    input = u ++ lex.rr.runes ∧ (∀ r ∈ u, r ≠ runeEof) ∧
    (lex.eof = true → lex.rr.runes = [])

/-- From every ready state that is about to deliver `input` at `pos` after a token of
kind `pk`, `readToken` with `fuel` returns the token `tok` without error and leaves a
ready state about to deliver `rest` at `pos1`. -/
def NextToken (fuel : Nat) (pos : LexPos) (input : List rune) (pk : lexKind)
    (tok : lexToken) (pos1 : LexPos) (rest : List rune) : Prop :=
  ∀ lex : lexer, lex.Ready pos input pk →
    ∃ lex1, lex.readToken fuel = some (tok, none, lex1) ∧ lex1.Ready pos1 rest tok.k

/-- The parser has recorded no error, its lookahead is `tok`, and its lexer is ready to
deliver `rest` at `pos`. -/
def parser.PReady (p : parser) (tok : lexToken) (pos : LexPos) (rest : List rune) : Prop :=
  p.es.cause = none ∧ p.next = tok ∧ p.lexer.Ready pos rest tok.k

/-- The kind of the token of a structural rune. -/
def structKind (r : rune) : Option lexKind :=
  if r = 58 then some lexKind.Colon
  else if r = 123 then some lexKind.LBrace
  else if r = 125 then some lexKind.RBrace
  else if r = 91 then some lexKind.LBracket
  else if r = 93 then some lexKind.RBracket
  else none

/-- The escaping of one rune, in the words of the claim: backslash (92) becomes `\\`, the
double quote (34) becomes `\"`, newline (10) becomes `\n`, carriage return (13) becomes
`\r`, tab (9) becomes `\t`, and every other rune is left unchanged. -/
def escRune (r : rune) : List rune :=
  if r = 92 then [92, 92]
  else if r = 34 then [92, 34]
  else if r = 10 then [92, 110]
  else if r = 13 then [92, 114]
  else if r = 9 then [92, 116]
  else [r]

/-- The escaping of a string, rune by rune. -/
def esc : List rune → List rune
  | [] => []
  | r :: rs => escRune r ++ esc rs

/-- The runes `rest` end a symbol string: there is nothing left, or the next rune does not
satisfy the predicate of the symbol scan and, when it is a slash (47), it is followed by a
second slash. -/
def symStop : List rune → Prop
  | [] => True
  | t :: rest => symbolPredicate t = false ∧ t ≠ runeEof ∧ (t = 47 → rest.head? = some 47)

/-- The runes `s`, followed by `rest`, are scanned as the body of one symbol string: each
of them satisfies the predicate of the symbol scan or is a slash that is not followed by
a second slash, and `rest` ends the symbol string. -/
def symBody : List rune → List rune → Prop
  | [], rest => symStop rest
  | r :: s, rest =>
    (symbolPredicate r = true ∨
      (r = 47 ∧ (s ++ rest).head? ≠ some 47 ∧ (s ++ rest).head? ≠ some runeEof)) ∧
    symBody s rest

/-- The runes `rest` end a run of whitespace: there is nothing left, or the next rune is
not whitespace. -/
def spaceStop : List rune → Prop
  | [] => True
  | t :: _ => isSpace t = false ∧ t ≠ runeEof

/-- From every ready state that is about to deliver `input` at `pos` after a token of
kind `pk`, the body of `readToken` with `fuel` yields the token `tok` and leaves a ready
state about to deliver `rest` at `pos1`. -/
def BeginToken (fuel : Nat) (pos : LexPos) (input : List rune) (pk : lexKind)
    (tok : lexToken) (pos1 : LexPos) (rest : List rune) : Prop :=
  ∀ lex : lexer, lex.Ready pos input pk →
    ∃ lex1, lex.readTokenBegin fuel = some (tok, lex1) ∧ lex1.Ready pos1 rest pk

/-- A rune a symbol string may be made of, in the words of the claims: a valid rune that
is not whitespace, backslash (92), backtick (96), double quote (34), one of `{}[]`
(123, 125, 91, 93) or colon (58).  The slash (47) is such a rune. -/
def symbolRune (r : rune) : Prop :=
  validRune r ∧ isSpace r = false ∧ r ≠ 92 ∧ r ≠ 96 ∧ r ≠ 34 ∧ r ≠ 123 ∧ r ≠ 125 ∧
  r ≠ 91 ∧ r ≠ 93 ∧ r ≠ 58

instance (r : rune) : Decidable (symbolRune r) := by
  unfold symbolRune; infer_instance

/-- No two consecutive runes of `s` are both slashes. -/
def noDoubleSlash : List rune → Bool
  | [] => true
  | a :: rest => !(decide (a = 47) && decide (rest.head? = some 47)) && noDoubleSlash rest

/-- The runes `rest` end a comment: there is nothing left, or the next rune is a newline. -/
def commentStop : List rune → Prop
  | [] => True
  | t :: _ => t = 10

/-- The lexer of the input ` //` + newline + ` x` after its first token, the whitespace
token of the leading space: the first slash, read ahead, is pushed back. -/
def mergeExample : lexer :=
  { rr := { runes := [47, 10, 32, 120], err := none },
    unreadRunes := [{ r := 47, pos := { Line := 1, Column := 1 } }],
    pos := { Line := 1, Column := 2 }, prevKind := lexKind.Space, eof := false,
    es := { cause := none } }

/-- The lexer of the same input after its second token, the symbol `x`. -/
def mergeExampleEnd : lexer :=
  { rr := { runes := [], err := none }, unreadRunes := [],
    pos := { Line := 2, Column := 2 }, prevKind := lexKind.SymbolString, eof := true,
    es := { cause := none } }

/-- An ASCII letter or digit. -/
def alnum (r : rune) : Bool :=
  (48 ≤ r && r ≤ 57) || (65 ≤ r && r ≤ 90) || (97 ≤ r && r ≤ 122)

/-- The text `k_1:v_1 k_2:v_2 ... k_n:v_n`: the pairs, each as key, colon (58) and value,
separated by single spaces (32). -/
def renderPairs : List (Text × Text) → List rune
  | [] => []
  | kv :: rest =>
    kv.1 ++ 58 :: (kv.2 ++ (match rest with
      | [] => []
      | _ :: _ => 32 :: renderPairs rest))

/-- The pairs that parsing `renderPairs kvs` from position `pos` on must give: the keys and
the String values in input order, each with the position of its first rune. -/
def expectPairs (pos : LexPos) : List (Text × Text) → List Pair
  | [] => []
  | kv :: rest =>
    Pair.mk { pos := pos, V := kv.1 }
        (Elem.String { pos := posAfter pos (kv.1 ++ [58]), V := kv.2 }) ::
      expectPairs (posAfter pos (kv.1 ++ 58 :: (kv.2 ++ [32]))) rest

/-- The text of a String element. -/
def Elem.stringValue : Elem → Option Text
  | Elem.String s => some s.V
  | _ => none

/-- What follows the value of a pair in `renderPairs` plus closing brace (125): a space and
the further pairs, if any, and the closing brace. -/
def pairsTail (rest : List (Text × Text)) : List rune :=
  (match rest with
    | [] => []
    | _ :: _ => 32 :: renderPairs rest) ++ [125]

/-- The runes that may follow a backslash in an interpreted string: backslash (92), double
quote (34), `n` (110), `r` (114) and `t` (116). -/
def knownEscape (c : rune) : Bool :=
  c = 92 || c = 34 || c = 110 || c = 114 || c = 116

/-- The runes `b` are the beginning of the body of an interpreted string, made of whole
items: every backslash is followed by a known escape rune, and outside the escapes there
is no double quote (34), no newline (10), no carriage return (13) and no sentinel. -/
def interpPrefix : List rune → Bool
  | [] => true
  | [a] => a != 92 && a != 34 && a != 10 && a != 13 && a != runeEof
  | a :: c :: rest =>
    if a = 92 then knownEscape c && interpPrefix rest
    else a != 34 && a != 10 && a != 13 && a != runeEof && interpPrefix (c :: rest)

/-- From every ready state that is about to deliver `input` at `pos` after a token of
kind `pk`, `readToken` with `fuel` fails with the error `e` and returns the end-of-stream
token. -/
def FailToken (fuel : Nat) (pos : LexPos) (input : List rune) (pk : lexKind) (e : error) :
    Prop :=
  ∀ lex : lexer, lex.Ready pos input pk →
    ∃ lex1, lex.readToken fuel =
      some ({ k := lexKind.Eof, s := [], pos := lex1.pos }, some e, lex1)

/-- The text `k_1:v_1 k_2:v_2 ... k_n:v_n x`: the pairs, each as key, colon (58) and
value and each followed by a single space (32), and then the runes `x`. -/
def pairsThen : List (Text × Text) → List rune → List rune
  | [], x => x
  | kv :: rest, x => kv.1 ++ 58 :: (kv.2 ++ 32 :: pairsThen rest x)

/-- The source text of a key with text `s`: the symbol `s` itself, or the interpreted
string `"esc s"` (the double quote is 34). -/
def keyText (interp : Bool) (s : Text) : List rune :=
  if interp then 34 :: (esc s ++ [34]) else s

/-- The kind of the token of a key. -/
def keyKind (interp : Bool) : lexKind :=
  if interp then lexKind.InterpString else lexKind.SymbolString

/-- The texts of the keys considered: an interpreted string of valid runes, or a non-empty
symbol of symbol runes without slash. -/
def keyOk (interp : Bool) (s : Text) : Prop :=
  if interp then ∀ r ∈ s, validRune r else s ≠ [] ∧ ∀ r ∈ s, symbolRune r ∧ r ≠ 47

instance (interp : Bool) (s : Text) : Decidable (keyOk interp s) := by
  unfold keyOk; infer_instance

/-- The runes `f` begin with a token that can follow a key and is not a colon: they are
empty (the end of the stream), or begin with a brace or a bracket (123, 125, 91, 93) or
with whitespace. -/
def afterKey (f : List rune) : Bool :=
  match f with
  | [] => true
  | r :: _ => r = 123 || r = 125 || r = 91 || r = 93 || isSpace r

/-- The lexicographic order on positions: line first, then column. -/
def LexPos.le (a b : LexPos) : Prop :=
  a.Line < b.Line ∨ (a.Line = b.Line ∧ a.Column ≤ b.Column)

instance (a b : LexPos) : Decidable (LexPos.le a b) := by
  unfold LexPos.le; infer_instance

/-- The position of the rune that `readRune` delivers next: that of the top of the
pushback stack, or the position of the lexer when the stack is empty. -/
def lexer.cur (lex : lexer) : LexPos :=
  match lex.unreadRunes with
  | [] => lex.pos
  | u :: _ => u.pos

/-- The positions in the pushback stack are non-decreasing from its top down, and none
is after the position `top` of the lexer. -/
def stackOk : List lexRune → LexPos → Prop
  | [], _ => True
  | u :: us, top =>
    LexPos.le u.pos (match us with
      | [] => top
      | v :: _ => v.pos) ∧ stackOk us top

/-- From `pos`, `n` further runes cannot make the line or the column leave the range of
`int32`: a rune adds at most 1 to the line and at most 8 to the column. -/
def posBounded (pos : LexPos) (n : Nat) : Prop :=
  1 ≤ pos.Line ∧ 0 ≤ pos.Column ∧ pos.Line + n < 2147483648 ∧
  pos.Column + 8 * n < 2147483648

/-- The invariant of the positions of a lexer. -/
def lexer.PosInv (lex : lexer) : Prop :=
  posBounded lex.pos lex.rr.runes.length ∧ stackOk lex.unreadRunes lex.pos

/-- A lexer step from `lex` to `lex1` that keeps the invariant, moves neither the next
read position nor the lexer position backwards, and keeps a recorded error. -/
def lexer.Step (lex lex1 : lexer) : Prop :=
  lex1.PosInv ∧ LexPos.le lex.cur lex1.cur ∧ LexPos.le lex.pos lex1.pos ∧
  (lex.es.cause ≠ none → lex1.es.cause ≠ none)

/-- A lexer step that ends with the rune `lr` read: its position lies between the next
read positions before and after the step. -/
def lexer.StepR (lex : lexer) (lr : lexRune) (lex1 : lexer) : Prop :=
  lex.Step lex1 ∧ LexPos.le lex.cur lr.pos ∧ LexPos.le lr.pos lex1.cur

/-- The position that bounds the next token from below: the next read position, or the
lexer position once an error is recorded. -/
def lexer.mark (lex : lexer) : LexPos :=
  if lex.es.cause = none then lex.cur else lex.pos

/-- The tokens returned by `k` successive calls of `readToken`, each with `fuel`. -/
def tokenRun (fuel : Nat) : Nat → lexer → Option (List lexToken)
  | 0, _ => some []
  | k + 1, lex =>
    match lex.readToken fuel with
    | none => none
    | some (tok, _, lex1) =>
      match tokenRun fuel k lex1 with
      | none => none
      | some toks => some (tok :: toks)

/-- Two lexers that were about to deliver the same runes `inp`, the first one at `pos`
after a token of kind `pk` and the second one at `pos1` after a token of kind `pk1`, have
both consumed the same beginning `c` of `inp` and are ready for what is left. -/
def BothAfter (lex lex1 : lexer) (pos pos1 : LexPos) (inp : List rune) (pk pk1 : lexKind) :
    Prop :=
  ∃ c rest, inp = c ++ rest ∧ lex.Ready (posAfter pos c) rest pk ∧
    lex1.Ready (posAfter pos1 c) rest pk1

/-- Two parsers without error whose lookaheads are of the same kind and whose lexers are
ready for the same runes (none of them the sentinel); the input of the second one ends at
position `E`, where its end-of-stream token is. -/
def parser.Sim (q p : parser) (E : LexPos) : Prop :=
  q.next.k = p.next.k ∧ (p.next.k = lexKind.Eof → p.next.pos = E) ∧
  ∃ inp pos pos1, q.PReady q.next pos inp ∧ p.PReady p.next pos1 inp ∧
    (∀ r ∈ inp, r ≠ runeEof) ∧ posAfter pos1 inp = E

/-- With `fuel` for the first parser, the list, association list and pair parsers keep two
parsers in step: when the first one returns without error and the second one returns,
they are in step again. -/
def parseSimAt (fuel : Nat) : Prop :=
  (∀ (m : Nat) (q p q1 p1 : parser) (E : LexPos) (L L1 M M1 : List Elem), q.Sim p E →
    parser.parseListLoop fuel q L = some (L1, q1) → q1.es.cause = none →
    parser.parseListLoop m p M = some (M1, p1) → q1.Sim p1 E) ∧
  (∀ (m : Nat) (q p q1 p1 : parser) (E : LexPos) (x y : Elem), q.Sim p E →
    parser.parseList fuel q = some (x, q1) → q1.es.cause = none →
    parser.parseList m p = some (y, p1) → q1.Sim p1 E) ∧
  (∀ (m : Nat) (q p q1 p1 : parser) (E : LexPos) (L L1 M M1 : List Pair), q.Sim p E →
    parser.parseAssocLoop fuel q L = some (L1, q1) → q1.es.cause = none →
    parser.parseAssocLoop m p M = some (M1, p1) → q1.Sim p1 E) ∧
  (∀ (m : Nat) (q p q1 p1 : parser) (E : LexPos) (x y : Elem), q.Sim p E →
    parser.parseAssoc fuel q = some (x, q1) → q1.es.cause = none →
    parser.parseAssoc m p = some (y, p1) → q1.Sim p1 E) ∧
  (∀ (m : Nat) (q p q1 p1 : parser) (E : LexPos) (x y : Pair), q.Sim p E →
    parser.parsePair fuel q = some (x, q1) → q1.es.cause = none →
    parser.parsePair m p = some (y, p1) → q1.Sim p1 E)

/-- Modelled from the spec: the name of the variant of an element, one of `string`,
`list` and `assoc`. -/
def kindName : Elem → String
  | Elem.String _ => "string"
  | Elem.List _ _ => "list"
  | Elem.Assoc _ _ => "assoc"

/-- Modelled from the spec: the text `<line>:<column>: expected <x>, found <y>` with the
position of `e` and the name `y` of the variant of `e`. -/
def expectText (e : Elem) (x : String) : String :=
  toString e.Pos.Line ++ ":" ++ toString e.Pos.Column ++ ": expected " ++ x ++
    ", found " ++ kindName e

/-- The results (token and error) of `k` successive calls of `readToken`, each with `fuel`. -/
def resultRun (fuel : Nat) : Nat → lexer → Option (List (lexToken × Option error))
  | 0, _ => some []
  | k + 1, lex =>
    match lex.readToken fuel with
    | none => none
    | some (tok, err, lex1) =>
      match resultRun fuel k lex1 with
      | none => none
      | some res => some ((tok, err) :: res)

/-- The lexer of the input `"a"/x` after its first token, the interpreted string `a`. -/
def stickyExample : lexer :=
  { rr := { runes := [47, 120], err := none }, unreadRunes := [],
    pos := { Line := 1, Column := 3 }, prevKind := lexKind.InterpString, eof := false,
    es := { cause := none } }

/-- The lexer of the same input after the second call of `readToken`, which recorded the
error of the joined strings: the rune `x`, read ahead after the slash, is still in the
pushback stack. -/
def stickyExampleFailed : lexer :=
  { rr := { runes := [], err := none },
    unreadRunes := [{ r := 120, pos := { Line := 1, Column := 4 } }],
    pos := { Line := 1, Column := 5 }, prevKind := lexKind.Eof, eof := true,
    es := { cause := some (error.Wrap (error.New "strings must be separated") "1:3") } }

/-- The runes that the lexer has in front of it: those of the pushback stack, from its
top down, and then those still in the source. -/
def lexer.pending (lex : lexer) : List rune :=
  lex.unreadRunes.map lexRune.r ++ lex.rr.runes

/-- The invariant of the pushback stack of a lexer on the runes `input`: what the lexer has
in front of it is an end piece of `input`, in the order of `input`; the stack holds no
sentinel; it holds at most one rune, or exactly two slashes (47); and the end-of-stream
flag is set only once the source is exhausted or an error is recorded. -/
def lexer.PushInv (input : List rune) (lex : lexer) : Prop :=
  lex.pending <:+ input ∧ (∀ lr ∈ lex.unreadRunes, lr.r ≠ runeEof) ∧
  (lex.unreadRunes.length ≤ 1 ∨ lex.unreadRunes.map lexRune.r = [47, 47]) ∧
  (lex.eof = true → lex.rr.runes = [] ∨ lex.es.cause ≠ none)

/-- The invariant after the rune `lr` has been read: pushing `lr` back keeps the
invariant of the pushback stack. -/
def lexer.PushInvR (input : List rune) (lr : lexRune) (lex : lexer) : Prop :=
  lex.PushInv input ∧ (lr.r ≠ runeEof → (lr.r :: lex.pending) <:+ input) ∧
  (lex.unreadRunes = [] ∨ (lr.r = 47 ∧ lex.unreadRunes.map lexRune.r = [47]))

/-- The lexer after `k` successive calls of `readToken`, each with `fuel`. -/
def lexer.afterCalls (fuel : Nat) : Nat → lexer → Option lexer
  | 0, lex => some lex
  | k + 1, lex =>
    match lex.readToken fuel with
    | none => none
    | some (_, _, lex1) => lexer.afterCalls fuel k lex1

/-- The lexer of the input `a//c` after its first token, the symbol `a`, which the comment
marker cut: both slashes are in the pushback stack, the first one on top. -/
def pushbackExample : lexer :=
  { rr := { runes := [99], err := none },
    unreadRunes := [{ r := 47, pos := { Line := 1, Column := 1 } },
      { r := 47, pos := { Line := 1, Column := 2 } }],
    pos := { Line := 1, Column := 3 }, prevKind := lexKind.SymbolString, eof := false,
    es := { cause := none } }

/-! ## The parser with a count of the late calls of readToken

The functions of `parse.go` once more, each with a ghost counter threaded through: the
number of calls of `readToken` made while the error sink of the parser already holds an
error.  The counter is touched in `lexC` only. -/

/-- The function `lex` of the parser, counting the call when an error is already recorded. -/
def parser.lexC (fuel : Nat) (p : parser) (c : Nat) : Option (lexToken × parser × Nat) :=
  match p.lexer.readToken fuel with
  | none => none
  | some (tok, err, lx) =>
    some (tok, { p with lexer := lx, es := p.es.Send err }, if p.es.Ok then c else c + 1)

/-- The function `consume`, with the counter. -/
def parser.consumeC (fuel : Nat) (p : parser) (c : Nat) : Option (parser × Nat) :=
  let p1 := { p with prev := p.next }
  if p1.next.k ≠ lexKind.Eof then
    match p1.lexC fuel c with
    | none => none
    | some (tok, p2, c1) => some ({ p2 with next := tok }, c1)
  else some (p1, c)

/-- The function `accept`, with the counter. -/
def parser.acceptC (fuel : Nat) (p : parser) (k : lexKind) (c : Nat) :
    Option (Bool × parser × Nat) :=
  if p.next.k = k then
    match p.consumeC fuel c with
    | none => none
    | some (p1, c1) => some (true, p1, c1)
  else some (false, p, c)

/-- The function `expect`, with the counter. -/
def parser.expectC (fuel : Nat) (p : parser) (k : lexKind) (msg : String) (c : Nat) :
    Option (Bool × parser × Nat) :=
  if p.next.k ≠ k then some (false, p.posError (error.New msg) p.next.pos, c)
  else
    match p.consumeC fuel c with
    | none => none
    | some (p1, c1) => some (true, p1, c1)

/-- The function `expectP`, with the counter. -/
def parser.expectPC (fuel : Nat) (p : parser) (pred : lexToken → Bool) (msg : String)
    (c : Nat) : Option (Bool × parser × Nat) :=
  if !pred p.next then some (false, p.posError (error.New msg) p.next.pos, c)
  else
    match p.consumeC fuel c with
    | none => none
    | some (p1, c1) => some (true, p1, c1)

/-- The function `parseString`, with the counter. -/
def parser.parseStringC (fuel : Nat) (p : parser) (c : Nat) : Option (Str × parser × Nat) :=
  match p.consumeC fuel c with
  | none => none
  | some (p1, c1) => some ({ pos := p1.prev.pos, V := p1.prev.s }, p1, c1)

mutual
/-- The loop of `parseList`, with the counter. -/
def parser.parseListLoopC :
    Nat → parser → List Elem → Nat → Option (List Elem × parser × Nat)
  | 0, _, _, _ => none
  | fuel + 1, p, L, c =>
    if p.es.Ok then
      match p.acceptC fuel lexKind.Space c with
      | none => none
      | some (true, p1, c1) => parser.parseListLoopC fuel p1 L c1
      | some (false, p1, c1) =>
        if p1.isP lexToken.isString then
          match p1.parseStringC fuel c1 with
          | none => none
          | some (s, p2, c2) => parser.parseListLoopC fuel p2 (L ++ [Elem.String s]) c2
        else if p1.is lexKind.LBracket then
          match parser.parseListC fuel p1 c1 with
          | none => none
          | some (e, p2, c2) => parser.parseListLoopC fuel p2 (L ++ [e]) c2
        else if p1.is lexKind.LBrace then
          match parser.parseAssocC fuel p1 c1 with
          | none => none
          | some (e, p2, c2) => parser.parseListLoopC fuel p2 (L ++ [e]) c2
        else
          match p1.acceptC fuel lexKind.RBracket c1 with
          | none => none
          | some (true, p2, c2) => some (L, p2, c2)
          | some (false, p2, c2) =>
            if p2.is lexKind.Eof then
              parser.parseListLoopC fuel
                (p2.posError (error.New "unterminated list") p2.next.pos) L c2
            else
              parser.parseListLoopC fuel
                (p2.posError (error.New "expected string, list or association list")
                  p2.next.pos) L c2
    else some (L, p, c)
termination_by structural fuel => fuel
/-- The function `parseList`, with the counter. -/
def parser.parseListC : Nat → parser → Nat → Option (Elem × parser × Nat)
  | 0, _, _ => none
  | fuel + 1, p, c =>
    match p.consumeC fuel c with
    | none => none
    | some (p1, c1) =>
      match parser.parseListLoopC fuel p1 [] c1 with
      | none => none
      | some (L, p2, c2) => some (Elem.List p1.prev.pos L, p2, c2)
termination_by structural fuel => fuel
/-- The loop of `parseAssoc`, with the counter. -/
def parser.parseAssocLoopC :
    Nat → parser → List Pair → Nat → Option (List Pair × parser × Nat)
  | 0, _, _, _ => none
  | fuel + 1, p, L, c =>
    if p.es.Ok then
      match p.acceptC fuel lexKind.Space c with
      | none => none
      | some (true, p1, c1) => parser.parseAssocLoopC fuel p1 L c1
      | some (false, p1, c1) =>
        match p1.acceptC fuel lexKind.RBrace c1 with
        | none => none
        | some (true, p2, c2) => some (L, p2, c2)
        | some (false, p2, c2) =>
          if p2.is lexKind.Eof then
            parser.parseAssocLoopC fuel
              (p2.posError (error.New "unterminated association list") p2.next.pos) L c2
          else
            match parser.parsePairC fuel p2 c2 with
            | none => none
            | some (pair, p3, c3) =>
              if !p3.is lexKind.RBrace && !p3.is lexKind.Eof then
                match p3.expectC fuel lexKind.Space
                    "association list pairs must be separated by whitespace" c3 with
                | none => none
                | some (_, p4, c4) => parser.parseAssocLoopC fuel p4 (L ++ [pair]) c4
              else parser.parseAssocLoopC fuel p3 (L ++ [pair]) c3
    else some (L, p, c)
termination_by structural fuel => fuel
/-- The function `parseAssoc`, with the counter. -/
def parser.parseAssocC : Nat → parser → Nat → Option (Elem × parser × Nat)
  | 0, _, _ => none
  | fuel + 1, p, c =>
    match p.consumeC fuel c with
    | none => none
    | some (p1, c1) =>
      match parser.parseAssocLoopC fuel p1 [] c1 with
      | none => none
      | some (L, p2, c2) => some (Elem.Assoc p1.prev.pos L, p2, c2)
termination_by structural fuel => fuel
/-- The function `parsePair`, with the counter. -/
def parser.parsePairC : Nat → parser → Nat → Option (Pair × parser × Nat)
  | 0, _, _ => none
  | fuel + 1, p, c =>
    match p.expectPC fuel keyPred
        "key in association list pair must be of symbol or interpreted string form" c with
    | none => none
    | some (_, p1, c1) =>
      let K : Str := { pos := p1.prev.pos, V := p1.prev.s }
      match p1.acceptC fuel lexKind.Colon c1 with
      | none => none
      | some (ok, p2, c2) =>
        let p3 :=
          if !ok then
            p2.posError
              (error.New "key in association list pair must be immediately followed by colon")
              p2.prev.pos
          else p2
        match p3.acceptC fuel lexKind.Space c2 with
        | none => none
        | some (_, p4, c4) =>
          if p4.isP lexToken.isString then
            match p4.parseStringC fuel c4 with
            | none => none
            | some (s, p5, c5) => some (Pair.mk K (Elem.String s), p5, c5)
          else if p4.is lexKind.LBracket then
            match parser.parseListC fuel p4 c4 with
            | none => none
            | some (e, p5, c5) => some (Pair.mk K e, p5, c5)
          else if p4.is lexKind.LBrace then
            match parser.parseAssocC fuel p4 c4 with
            | none => none
            | some (e, p5, c5) => some (Pair.mk K e, p5, c5)
          else if p4.is lexKind.RBrace || p4.is lexKind.Eof then
            some (Pair.mk K (Elem.List { Line := 0, Column := 0 } []),
              p4.posError (error.New "unterminated association list pair") p4.next.pos, c4)
          else
            some (Pair.mk K (Elem.List { Line := 0, Column := 0 } []),
              p4.posError (error.New "expected string, list or association list")
                p4.next.pos, c4)
termination_by structural fuel => fuel
end

/-- The loop of `parseRoot`, with the counter. -/
def parser.parseRootLoopC :
    Nat → parser → List Elem → Nat → Option (List Elem × parser × Nat)
  | 0, _, _, _ => none
  | fuel + 1, p, elems, c =>
    if p.es.Ok then
      match p.acceptC fuel lexKind.Space c with
      | none => none
      | some (true, p1, c1) => parser.parseRootLoopC fuel p1 elems c1
      | some (false, p1, c1) =>
        if p1.isP lexToken.isString then
          match p1.parseStringC fuel c1 with
          | none => none
          | some (s, p2, c2) => parser.parseRootLoopC fuel p2 (elems ++ [Elem.String s]) c2
        else if p1.is lexKind.LBracket then
          match parser.parseListC fuel p1 c1 with
          | none => none
          | some (e, p2, c2) => parser.parseRootLoopC fuel p2 (elems ++ [e]) c2
        else if p1.is lexKind.LBrace then
          match parser.parseAssocC fuel p1 c1 with
          | none => none
          | some (e, p2, c2) => parser.parseRootLoopC fuel p2 (elems ++ [e]) c2
        else if p1.is lexKind.Eof then some (elems, p1, c1)
        else
          parser.parseRootLoopC fuel
            (p1.posError (error.New "expected string, list or association list")
              p1.next.pos) elems c1
    else some (elems, p, c)

/-- The function `parseRoot`, with the counter. -/
def parser.parseRootC (fuel : Nat) (p : parser) (c : Nat) :
    Option (List Elem × parser × Nat) :=
  match p.lexC fuel c with
  | none => none
  | some (tok, p1, c1) => parser.parseRootLoopC fuel { p1 with next := tok } [] c1

/-- The function `Parse`, with the number of calls of `readToken` made after the first
error was recorded in the sink of the parser. -/
def ParseC (fuel : Nat) (reader : RuneReader) : Option (List Elem × Option error × Nat) :=
  match (newParser reader).parseRootC fuel 0 with
  | none => none
  | some (elems, p, c) =>
    if p.err = none then some (elems, none, c) else some ([], p.err, c)

/-- The two errors that `parsePair` records before it goes on consuming tokens: the key
is of a wrong form, or no colon follows the key. -/
def keyError (e : error) : Bool :=
  match e with
  | error.Wrap (error.New msg) _ =>
    msg = "key in association list pair must be of symbol or interpreted string form" ||
    msg = "key in association list pair must be immediately followed by colon"
  | _ => false

/-- The lookahead of the parser is the token that its lexer returned last. -/
def parser.Sync (p : parser) : Prop := p.lexer.prevKind = p.next.k

/-- What a counted parser step that started with the counter `c` and without error has
reached with the parser `p1` and the counter `c1`: when no error is recorded, the parser is
in step with the lexer and no call was counted; when an error other than the two key
errors is recorded, no call was counted and the lookahead is not whitespace. -/
def parser.Late (c : Nat) (p1 : parser) (c1 : Nat) : Prop :=
  (p1.es.cause = none → p1.Sync ∧ c1 = c) ∧
  (∀ e, p1.es.cause = some e → keyError e = false →
    c1 = c ∧ p1.next.k ≠ lexKind.Space)

/-- With `fuel`, the counted list, association list and pair parsers, started without
error and in step with the lexer, count no late call unless a key error is recorded. -/
def lateAt (fuel : Nat) : Prop :=
  (∀ (p p1 : parser) (L L1 : List Elem) (c c1 : Nat), p.es.cause = none → p.Sync →
    parser.parseListLoopC fuel p L c = some (L1, p1, c1) → parser.Late c p1 c1) ∧
  (∀ (p p1 : parser) (x : Elem) (c c1 : Nat), p.es.cause = none → p.Sync →
    parser.parseListC fuel p c = some (x, p1, c1) → parser.Late c p1 c1) ∧
  (∀ (p p1 : parser) (L L1 : List Pair) (c c1 : Nat), p.es.cause = none → p.Sync →
    parser.parseAssocLoopC fuel p L c = some (L1, p1, c1) → parser.Late c p1 c1) ∧
  (∀ (p p1 : parser) (x : Elem) (c c1 : Nat), p.es.cause = none → p.Sync →
    parser.parseAssocC fuel p c = some (x, p1, c1) → parser.Late c p1 c1) ∧
  (∀ (p p1 : parser) (x : Pair) (c c1 : Nat), p.es.cause = none → p.Sync →
    parser.parsePairC fuel p c = some (x, p1, c1) → parser.Late c p1 c1)

/-- With `fuel`, the counted parsers return what the parsers return, and a counter. -/
def eraseAt (fuel : Nat) : Prop :=
  (∀ (p : parser) (L : List Elem) (c : Nat),
    (parser.parseListLoopC fuel p L c).map (fun r => (r.1, r.2.1)) =
      parser.parseListLoop fuel p L) ∧
  (∀ (p : parser) (c : Nat),
    (parser.parseListC fuel p c).map (fun r => (r.1, r.2.1)) = parser.parseList fuel p) ∧
  (∀ (p : parser) (L : List Pair) (c : Nat),
    (parser.parseAssocLoopC fuel p L c).map (fun r => (r.1, r.2.1)) =
      parser.parseAssocLoop fuel p L) ∧
  (∀ (p : parser) (c : Nat),
    (parser.parseAssocC fuel p c).map (fun r => (r.1, r.2.1)) = parser.parseAssoc fuel p) ∧
  (∀ (p : parser) (c : Nat),
    (parser.parsePairC fuel p c).map (fun r => (r.1, r.2.1)) = parser.parsePair fuel p)

/-- What the plumbing functions reach from a start with the counter `c` and without error:
no call was counted, the parser is in step with the lexer as long as no error is
recorded, and an error is recorded only with the end-of-stream token as lookahead. -/
def parser.Calm (c : Nat) (q : parser) (c1 : Nat) : Prop :=
  c1 = c ∧ (q.es.cause = none → q.Sync) ∧
  (∀ e, q.es.cause = some e → q.next.k = lexKind.Eof)

/-- Modelled from the spec: the canonical rendering of a string value or of a key, the
double quote (34), the escaped text and the double quote. -/
def renderString (s : Text) : List rune := 34 :: (esc s ++ [34])

mutual
/-- Modelled from the spec: the canonical rendering of an element tree: a String as its
rendered text, a List as `[` (91), its rendered children joined by one space and `]` (93),
an Assoc as `{` (123), its rendered pairs joined by one space and `}` (125). -/
def renderElem : Elem → List rune
  | Elem.String s => renderString s.V
  | Elem.List _ L => 91 :: (renderElems L ++ [93])
  | Elem.Assoc _ L => 123 :: (renderPairList L ++ [125])
/-- Modelled from the spec: rendered elements joined by one space (32); this is also the
rendering of a document from its roots. -/
def renderElems : List Elem → List rune
  | [] => []
  | e :: rest =>
    renderElem e ++ (match rest with
      | [] => []
      | _ :: _ => 32 :: renderElems rest)
/-- Modelled from the spec: the rendering of a pair, the rendered key, the colon (58) and
the rendered value. -/
def renderPair : Pair → List rune
  | Pair.mk K V => renderString K.V ++ 58 :: renderElem V
/-- Modelled from the spec: rendered pairs joined by one space. -/
def renderPairList : List Pair → List rune
  | [] => []
  | q :: rest =>
    renderPair q ++ (match rest with
      | [] => []
      | _ :: _ => 32 :: renderPairList rest)
end

/-- What follows the first of several joined elements: nothing, or a space and the
further elements. -/
def moreElems (rest : List Elem) : List rune :=
  match rest with
  | [] => []
  | _ :: _ => 32 :: renderElems rest

/-- What follows the first of several joined pairs: nothing, or a space and the further
pairs. -/
def morePairs (rest : List Pair) : List rune :=
  match rest with
  | [] => []
  | _ :: _ => 32 :: renderPairList rest

mutual
/-- The element with every position in it set to 0:0: two trees are equal, positions
aside, when this makes them equal. -/
def Elem.strip : Elem → Elem
  | Elem.String s => Elem.String { pos := { Line := 0, Column := 0 }, V := s.V }
  | Elem.List _ L => Elem.List { Line := 0, Column := 0 } (stripElems L)
  | Elem.Assoc _ L => Elem.Assoc { Line := 0, Column := 0 } (stripPairs L)
/-- The elements with every position set to 0:0. -/
def stripElems : List Elem → List Elem
  | [] => []
  | e :: rest => e.strip :: stripElems rest
/-- The pair with every position in it set to 0:0. -/
def Pair.strip : Pair → Pair
  | Pair.mk K V => Pair.mk { pos := { Line := 0, Column := 0 }, V := K.V } V.strip
/-- The pairs with every position set to 0:0. -/
def stripPairs : List Pair → List Pair
  | [] => []
  | q :: rest => q.strip :: stripPairs rest
end

/-- Every rune of the text is a Unicode scalar value: the text is a Go string that is
valid UTF-8. -/
def validText (s : Text) : Bool := s.all (fun r => decide (validRune r))

mutual
/-- Every string value and every key of the element is a valid text. -/
def Elem.textsOk : Elem → Bool
  | Elem.String s => validText s.V
  | Elem.List _ L => elemsOk L
  | Elem.Assoc _ L => pairsOk L
/-- Every string value and every key of the elements is a valid text. -/
def elemsOk : List Elem → Bool
  | [] => true
  | e :: rest => e.textsOk && elemsOk rest
/-- The key and every string value and key of the value of the pair are valid texts. -/
def Pair.textsOk : Pair → Bool
  | Pair.mk K V => validText K.V && V.textsOk
/-- Every string value and every key of the pairs is a valid text. -/
def pairsOk : List Pair → Bool
  | [] => true
  | q :: rest => q.textsOk && pairsOk rest
end

/-- The kind of the token that the runes `X` begin with, for runes that follow a
rendered element: the end of the stream, a space (32), a closing bracket (93) or a
closing brace (125). -/
def stopKind (X : List rune) : lexKind :=
  match X with
  | [] => lexKind.Eof
  | r :: _ =>
    if r = 32 then lexKind.Space else if r = 93 then lexKind.RBracket else lexKind.RBrace

/-- The runes `X` may follow a rendered element: there is nothing left, or a single space
before something that is not whitespace, or a closing bracket or brace. -/
def stopOk (X : List rune) : Prop :=
  match X with
  | [] => True
  | r :: Y => (r = 32 ∧ spaceStop Y) ∨ r = 93 ∨ r = 125

/-- The first token of the rendering of `e` followed by `X`, read at `pos`, with the
position after it and the runes left. -/
def firstElem (pos : LexPos) (e : Elem) (X : List rune) : lexToken × LexPos × List rune :=
  match e with
  | Elem.String s =>
    ({ k := lexKind.InterpString, s := s.V, pos := pos }, posAfter pos (renderString s.V), X)
  | Elem.List _ L =>
    ({ k := lexKind.LBracket, s := [], pos := pos }, pos.update 91, renderElems L ++ 93 :: X)
  | Elem.Assoc _ L =>
    ({ k := lexKind.LBrace, s := [], pos := pos }, pos.update 123,
      renderPairList L ++ 125 :: X)

/-- The first token of the joined rendering of the elements `L` followed by `Z`. -/
def firstElems (pos : LexPos) (L : List Elem) (Z : List rune) :
    lexToken × LexPos × List rune :=
  match L with
  | [] => ({ k := stopKind Z, s := [], pos := pos }, posAfter pos (Z.take 1), Z.tail)
  | e :: rest => firstElem pos e (moreElems rest ++ Z)

/-- The first token of the rendering of a pair followed by `X`: its key. -/
def firstPair (pos : LexPos) (q : Pair) (X : List rune) : lexToken × LexPos × List rune :=
  ({ k := lexKind.InterpString, s := q.K.V, pos := pos }, posAfter pos (renderString q.K.V),
    58 :: (renderElem q.V ++ X))

/-- The first token of the joined rendering of the pairs `L` followed by `Z`. -/
def firstPairs (pos : LexPos) (L : List Pair) (Z : List rune) :
    lexToken × LexPos × List rune :=
  match L with
  | [] => ({ k := stopKind Z, s := [], pos := pos }, posAfter pos (Z.take 1), Z.tail)
  | q :: rest => firstPair pos q (morePairs rest ++ Z)

/-- The three branches by which `parseRoot`, `parseList` and `parsePair` parse a value
once the lookahead begins one: a string, a list or an association list. -/
def parser.parseValue (fuel : Nat) (p : parser) : Option (Elem × parser) :=
  if p.isP lexToken.isString then
    match p.parseString fuel with
    | none => none
    | some (s, p1) => some (Elem.String s, p1)
  else if p.is lexKind.LBracket then parser.parseList fuel p
  else if p.is lexKind.LBrace then parser.parseAssoc fuel p
  else none

/-- The parser is ready with the lookahead and the lexer state of the triple `t`. -/
def parser.ReadyAt (p : parser) (t : lexToken × LexPos × List rune) : Prop :=
  p.PReady t.1 t.2.1 t.2.2

/-- The value branches parse the rendering of `e`: from a parser whose lookahead is the
first token of the rendering of `e` followed by `X`, with enough fuel, they return an
element equal to `e`, positions aside, and leave the parser with the token that begins
`X` as lookahead. -/
def valueParses (e : Elem) : Prop :=
  ∀ (X : List rune) (n : Nat) (p : parser) (pos : LexPos), stopOk X → e.textsOk = true →
    3 * ((firstElem pos e X).2.2.length + 1) + 3 ≤ n → p.ReadyAt (firstElem pos e X) →
    ∃ e1 p1, p.parseValue n = some (e1, p1) ∧ e1.strip = e.strip ∧
      p1.PReady { k := stopKind X, s := [], pos := posAfter pos (renderElem e) }
        (posAfter (posAfter pos (renderElem e)) (X.take 1)) X.tail

/-- The loop of `parseList` parses the joined rendering of `L` and the closing bracket. -/
def listParses (L : List Elem) : Prop :=
  ∀ (X : List rune) (n : Nat) (p : parser) (pos : LexPos) (acc : List Elem), stopOk X →
    elemsOk L = true →
    3 * ((firstElems pos L (93 :: X)).2.2.length + 1) + 5 ≤ n →
    p.ReadyAt (firstElems pos L (93 :: X)) →
    ∃ L1 p1, parser.parseListLoop n p acc = some (acc ++ L1, p1) ∧
      stripElems L1 = stripElems L ∧
      p1.PReady { k := stopKind X, s := [], pos := posAfter pos (renderElems L ++ [93]) }
        (posAfter (posAfter pos (renderElems L ++ [93])) (X.take 1)) X.tail

/-- The function `parsePair` parses the rendering of the pair `q`. -/
def pairParses (q : Pair) : Prop :=
  ∀ (X : List rune) (n : Nat) (p : parser) (pos : LexPos), stopOk X → q.textsOk = true →
    3 * ((firstPair pos q X).2.2.length + 1) + 4 ≤ n → p.ReadyAt (firstPair pos q X) →
    ∃ q1 p1, parser.parsePair n p = some (q1, p1) ∧ q1.strip = q.strip ∧
      p1.PReady { k := stopKind X, s := [], pos := posAfter pos (renderPair q) }
        (posAfter (posAfter pos (renderPair q)) (X.take 1)) X.tail

/-- The loop of `parseAssoc` parses the joined rendering of `L` and the closing brace. -/
def assocParses (L : List Pair) : Prop :=
  ∀ (X : List rune) (n : Nat) (p : parser) (pos : LexPos) (acc : List Pair), stopOk X →
    pairsOk L = true →
    3 * ((firstPairs pos L (125 :: X)).2.2.length + 1) + 5 ≤ n →
    p.ReadyAt (firstPairs pos L (125 :: X)) →
    ∃ L1 p1, parser.parseAssocLoop n p acc = some (acc ++ L1, p1) ∧
      stripPairs L1 = stripPairs L ∧
      p1.PReady { k := stopKind X, s := [], pos := posAfter pos (renderPairList L ++ [125]) }
        (posAfter (posAfter pos (renderPairList L ++ [125])) (X.take 1)) X.tail

/-- The rendered elements `ts`, each followed by one space (32), and then the runes `Y`. -/
def prefixThen : List Elem → List rune → List rune
  | [], Y => Y
  | e :: rest, Y => renderElem e ++ 32 :: prefixThen rest Y

/-- The text that opens nested lists: for each entry `ts` of `more` an opening bracket (91)
and the rendered elements `ts`, each followed by one space, that come before the next
level. -/
def nestPre : List (List Elem) → List rune
  | [] => []
  | ts :: more => 91 :: prefixThen ts (nestPre more)

/-- Every string value and every key in the levels `more` is a valid text. -/
def levelsOk : List (List Elem) → Bool
  | [] => true
  | ts :: more => elemsOk ts && levelsOk more

/-- The first token of `prefixThen ts Y`, for runes `Y` that begin with one of the
structural runes `:{}[]`. -/
def firstPrefix (pos : LexPos) (ts : List Elem) (Y : List rune) :
    lexToken × LexPos × List rune :=
  match ts with
  | [] =>
    ({ k := (structKind (Y.headD 0)).getD lexKind.Eof, s := [], pos := pos },
      posAfter pos (Y.take 1), Y.tail)
  | e :: rest => firstElem pos e (32 :: prefixThen rest Y)

/-! ### The nesting recursion on a bounded call stack

`parseList`, `parseAssoc` and `parsePair` call one another, one Go frame per nesting
level, and the Go runtime ends the process with a fatal stack overflow once the stack of
the goroutine is full.  The copies below take, next to the fuel, the number `d` of frames
of these three functions that the stack can still hold.  The result `none` means that the
fuel ran out, `some none` that a call found no frame left (the process crashes), and
`some (some r)` that the function returned `r`.  The loops run inside the frame of their
function, and the calls of the token functions are not counted: they return before the
next nested call. -/

mutual
/-- The loop of `parseList`, on a stack with `d` frames left for nested calls. -/
def parser.parseListLoopS :
    Nat → Nat → parser → List Elem → Option (Option (List Elem × parser))
  | 0, _, _, _ => none
  | fuel + 1, d, p, L =>
    if p.es.Ok then
      match p.accept fuel lexKind.Space with
      | none => none
      | some (true, p1) => parser.parseListLoopS fuel d p1 L
      | some (false, p1) =>
        if p1.isP lexToken.isString then
          match p1.parseString fuel with
          | none => none
          | some (s, p2) => parser.parseListLoopS fuel d p2 (L ++ [Elem.String s])
        else if p1.is lexKind.LBracket then
          match parser.parseListS fuel d p1 with
          | none => none
          | some none => some none
          | some (some (e, p2)) => parser.parseListLoopS fuel d p2 (L ++ [e])
        else if p1.is lexKind.LBrace then
          match parser.parseAssocS fuel d p1 with
          | none => none
          | some none => some none
          | some (some (e, p2)) => parser.parseListLoopS fuel d p2 (L ++ [e])
        else
          match p1.accept fuel lexKind.RBracket with
          | none => none
          | some (true, p2) => some (some (L, p2))
          | some (false, p2) =>
            if p2.is lexKind.Eof then
              parser.parseListLoopS fuel d
                (p2.posError (error.New "unterminated list") p2.next.pos) L
            else
              parser.parseListLoopS fuel d
                (p2.posError (error.New "expected string, list or association list")
                  p2.next.pos) L
    else some (some (L, p))
termination_by structural fuel => fuel
/-- The function `parseList`, which needs one frame of the stack. -/
def parser.parseListS : Nat → Nat → parser → Option (Option (Elem × parser))
  | 0, _, _ => none
  | _ + 1, 0, _ => some none
  | fuel + 1, d + 1, p =>
    match p.consume fuel with
    | none => none
    | some p1 =>
      match parser.parseListLoopS fuel d p1 [] with
      | none => none
      | some none => some none
      | some (some (L, p2)) => some (some (Elem.List p1.prev.pos L, p2))
termination_by structural fuel => fuel
/-- The loop of `parseAssoc`, on a stack with `d` frames left for nested calls. -/
def parser.parseAssocLoopS :
    Nat → Nat → parser → List Pair → Option (Option (List Pair × parser))
  | 0, _, _, _ => none
  | fuel + 1, d, p, L =>
    if p.es.Ok then
      match p.accept fuel lexKind.Space with
      | none => none
      | some (true, p1) => parser.parseAssocLoopS fuel d p1 L
      | some (false, p1) =>
        match p1.accept fuel lexKind.RBrace with
        | none => none
        | some (true, p2) => some (some (L, p2))
        | some (false, p2) =>
          if p2.is lexKind.Eof then
            parser.parseAssocLoopS fuel d
              (p2.posError (error.New "unterminated association list") p2.next.pos) L
          else
            match parser.parsePairS fuel d p2 with
            | none => none
            | some none => some none
            | some (some (pair, p3)) =>
              if !p3.is lexKind.RBrace && !p3.is lexKind.Eof then
                match p3.expect fuel lexKind.Space
                    "association list pairs must be separated by whitespace" with
                | none => none
                | some (_, p4) => parser.parseAssocLoopS fuel d p4 (L ++ [pair])
              else parser.parseAssocLoopS fuel d p3 (L ++ [pair])
    else some (some (L, p))
termination_by structural fuel => fuel
/-- The function `parseAssoc`, which needs one frame of the stack. -/
def parser.parseAssocS : Nat → Nat → parser → Option (Option (Elem × parser))
  | 0, _, _ => none
  | _ + 1, 0, _ => some none
  | fuel + 1, d + 1, p =>
    match p.consume fuel with
    | none => none
    | some p1 =>
      match parser.parseAssocLoopS fuel d p1 [] with
      | none => none
      | some none => some none
      | some (some (L, p2)) => some (some (Elem.Assoc p1.prev.pos L, p2))
termination_by structural fuel => fuel
/-- The function `parsePair`, which needs one frame of the stack. -/
def parser.parsePairS : Nat → Nat → parser → Option (Option (Pair × parser))
  | 0, _, _ => none
  | _ + 1, 0, _ => some none
  | fuel + 1, d + 1, p =>
    match p.expectP fuel keyPred
        "key in association list pair must be of symbol or interpreted string form" with
    | none => none
    | some (_, p1) =>
      let K : Str := { pos := p1.prev.pos, V := p1.prev.s }
      match p1.accept fuel lexKind.Colon with
      | none => none
      | some (ok, p2) =>
        let p3 :=
          if !ok then
            p2.posError
              (error.New "key in association list pair must be immediately followed by colon")
              p2.prev.pos
          else p2
        match p3.accept fuel lexKind.Space with
        | none => none
        | some (_, p4) =>
          if p4.isP lexToken.isString then
            match p4.parseString fuel with
            | none => none
            | some (s, p5) => some (some (Pair.mk K (Elem.String s), p5))
          else if p4.is lexKind.LBracket then
            match parser.parseListS fuel d p4 with
            | none => none
            | some none => some none
            | some (some (e, p5)) => some (some (Pair.mk K e, p5))
          else if p4.is lexKind.LBrace then
            match parser.parseAssocS fuel d p4 with
            | none => none
            | some none => some none
            | some (some (e, p5)) => some (some (Pair.mk K e, p5))
          else if p4.is lexKind.RBrace || p4.is lexKind.Eof then
            some (some (Pair.mk K (Elem.List { Line := 0, Column := 0 } []),
              p4.posError (error.New "unterminated association list pair") p4.next.pos))
          else
            some (some (Pair.mk K (Elem.List { Line := 0, Column := 0 } []),
              p4.posError (error.New "expected string, list or association list")
                p4.next.pos))
termination_by structural fuel => fuel
end

/-- The loop of `parseRoot`, on a stack with `d` frames left for nested calls. -/
def parser.parseRootLoopS :
    Nat → Nat → parser → List Elem → Option (Option (List Elem × parser))
  | 0, _, _, _ => none
  | fuel + 1, d, p, elems =>
    if p.es.Ok then
      match p.accept fuel lexKind.Space with
      | none => none
      | some (true, p1) => parser.parseRootLoopS fuel d p1 elems
      | some (false, p1) =>
        if p1.isP lexToken.isString then
          match p1.parseString fuel with
          | none => none
          | some (s, p2) => parser.parseRootLoopS fuel d p2 (elems ++ [Elem.String s])
        else if p1.is lexKind.LBracket then
          match parser.parseListS fuel d p1 with
          | none => none
          | some none => some none
          | some (some (e, p2)) => parser.parseRootLoopS fuel d p2 (elems ++ [e])
        else if p1.is lexKind.LBrace then
          match parser.parseAssocS fuel d p1 with
          | none => none
          | some none => some none
          | some (some (e, p2)) => parser.parseRootLoopS fuel d p2 (elems ++ [e])
        else if p1.is lexKind.Eof then some (some (elems, p1))
        else
          parser.parseRootLoopS fuel d
            (p1.posError (error.New "expected string, list or association list")
              p1.next.pos) elems
    else some (some (elems, p))

/-- The function `parseRoot`, on a stack with `d` frames left for nested calls. -/
def parser.parseRootS (fuel d : Nat) (p : parser) : Option (Option (List Elem × parser)) :=
  match p.lex fuel with
  | none => none
  | some (tok, p1) => parser.parseRootLoopS fuel d { p1 with next := tok } []

/-- The function `Parse` on a stack that holds `d` nested frames of `parseList`,
`parseAssoc` and `parsePair`: `some none` is the stack overflow that ends the process. -/
def ParseS (fuel d : Nat) (reader : RuneReader) :
    Option (Option (List Elem × Option error)) :=
  match (newParser reader).parseRootS fuel d with
  | none => none
  | some none => some none
  | some (some (elems, p)) =>
    if p.err = none then some (some (elems, none)) else some (some ([], p.err))

/-- With `fuel` and a stack of `d` frames, the list, association list and pair parsers
return what the functions without a stack return, and make progress: the loops when the
stack holds two frames per token left, the functions with one frame more. -/
def parseSafeAt (fuel : Nat) : Prop :=
  (∀ (d : Nat) (p : parser) (L : List Elem),
    (3 * p.measure + 5 ≤ fuel ∨ (p.es.Ok = false ∧ 1 ≤ fuel)) → 2 * p.measure ≤ d →
    ∃ L1 p1, parser.parseListLoopS fuel d p L = some (some (L1, p1)) ∧
      parser.parseListLoop fuel p L = some (L1, p1) ∧ p.Prog p1) ∧
  (∀ (d : Nat) (p : parser), p.next.k ≠ lexKind.Eof → 3 * p.measure + 3 ≤ fuel →
    2 * p.measure ≤ d + 1 →
    ∃ e p1, parser.parseListS fuel d p = some (some (e, p1)) ∧
      parser.parseList fuel p = some (e, p1) ∧ p.Strict p1) ∧
  (∀ (d : Nat) (p : parser) (L : List Pair),
    (3 * p.measure + 5 ≤ fuel ∨ (p.es.Ok = false ∧ 1 ≤ fuel)) → 2 * p.measure ≤ d →
    ∃ L1 p1, parser.parseAssocLoopS fuel d p L = some (some (L1, p1)) ∧
      parser.parseAssocLoop fuel p L = some (L1, p1) ∧ p.Prog p1) ∧
  (∀ (d : Nat) (p : parser), p.next.k ≠ lexKind.Eof → 3 * p.measure + 3 ≤ fuel →
    2 * p.measure ≤ d + 1 →
    ∃ e p1, parser.parseAssocS fuel d p = some (some (e, p1)) ∧
      parser.parseAssoc fuel p = some (e, p1) ∧ p.Strict p1) ∧
  (∀ (d : Nat) (p : parser), p.next.k ≠ lexKind.Eof → 3 * p.measure + 4 ≤ fuel →
    2 * p.measure ≤ d →
    ∃ pair p1, parser.parsePairS fuel d p = some (some (pair, p1)) ∧
      parser.parsePair fuel p = some (pair, p1) ∧ p.Strict p1)

/-- The run `s` on a bounded stack overflows the stack, or it ends as the run `r` without
a stack does: out of fuel when `r` is, and with the result of `r` otherwise. -/
def overflowsOrAgrees {α : Type} (s : Option (Option α)) (r : Option α) : Prop :=
  s = some none ∨ s = r.map some

/-- With `fuel` and any stack, the list, association list and pair parsers overflow the
stack or end as the functions without a stack do. -/
def stackAt (fuel : Nat) : Prop :=
  (∀ (d : Nat) (p : parser) (L : List Elem),
    overflowsOrAgrees (parser.parseListLoopS fuel d p L) (parser.parseListLoop fuel p L)) ∧
  (∀ (d : Nat) (p : parser),
    overflowsOrAgrees (parser.parseListS fuel d p) (parser.parseList fuel p)) ∧
  (∀ (d : Nat) (p : parser) (L : List Pair),
    overflowsOrAgrees (parser.parseAssocLoopS fuel d p L) (parser.parseAssocLoop fuel p L)) ∧
  (∀ (d : Nat) (p : parser),
    overflowsOrAgrees (parser.parseAssocS fuel d p) (parser.parseAssoc fuel p)) ∧
  (∀ (d : Nat) (p : parser),
    overflowsOrAgrees (parser.parsePairS fuel d p) (parser.parsePair fuel p))

/-! # Theorems -/

/-! ## Runes left to deliver -/

theorem emitPosError_measure (lex : lexer) (err : Option error) (pos : LexPos) :
    (lex.emitPosError err pos).measure = lex.measure := by
  cases err <;> rfl

theorem emitPosError_prevKind (lex : lexer) (err : Option error) (pos : LexPos) :
    (lex.emitPosError err pos).prevKind = lex.prevKind := by
  cases err <;> rfl

theorem readRune_measure_le (lex : lexer) : lex.readRune.2.measure ≤ lex.measure := by
  unfold lexer.readRune
  split
  · next lr rest h => simp [lexer.measure, h]
  · next h =>
    split
    · exact le_refl _
    · split
      · next h2 => rw [emitPosError_measure]; simp [lexer.measure, h, h2]
      · next r rs h2 => simp [lexer.measure, h, h2]

theorem readRune_measure_lt (lex : lexer) (h : lex.readRune.1.r ≠ runeEof) :
    lex.readRune.2.measure + 1 = lex.measure := by
  unfold lexer.readRune at h ⊢
  split
  · next lr rest h1 => simp [lexer.measure, h1]; omega
  · next h1 =>
    split
    · next h2 => simp [h1, h2] at h
    · next h2 =>
      split
      · next h3 => simp [h1, h2, h3] at h
      · next r rs h3 => simp [lexer.measure, h1, h3]

theorem readRune_prevKind (lex : lexer) : lex.readRune.2.prevKind = lex.prevKind := by
  unfold lexer.readRune
  split
  · rfl
  · split
    · rfl
    · split
      · simp [emitPosError_prevKind]
      · rfl

theorem unreadRune_measure (lex : lexer) (lr : lexRune) :
    (lex.unreadRune lr).measure ≤ lex.measure + 1 := by
  unfold lexer.unreadRune
  split <;> simp [lexer.measure]; omega

theorem unreadRune_prevKind (lex : lexer) (lr : lexRune) :
    (lex.unreadRune lr).prevKind = lex.prevKind := by
  unfold lexer.unreadRune
  split <;> rfl

/-- Reading a rune and pushing it back never makes more runes available. -/
theorem read_unread_measure (lex : lexer) :
    (lex.readRune.2.unreadRune lex.readRune.1).measure ≤ lex.measure := by
  by_cases h : lex.readRune.1.r = runeEof
  · have := readRune_measure_le lex
    simp [lexer.unreadRune, h]; exact this
  · have := readRune_measure_lt lex h
    have := unreadRune_measure lex.readRune.2 lex.readRune.1
    omega

theorem isSpace_ne_eof (r : rune) (h : isSpace r = true) : r ≠ runeEof := by
  intro h1; subst h1; simp [isSpace, runeEof] at h

theorem symbolPredicate_ne_eof (r : rune) (h : symbolPredicate r = true) : r ≠ runeEof := by
  intro h1; subst h1; simp [symbolPredicate] at h

/-! ## The scanning loops: progress and what they preserve -/

theorem lexSpaceLoop_some (fuel : Nat) : ∀ (lex : lexer) (lr : lexRune) (lex1 : lexer),
    lex.lexSpaceLoop fuel = some (lr, lex1) →
    (lex1.unreadRune lr).measure ≤ lex.measure ∧ lex1.prevKind = lex.prevKind := by
  induction fuel with
  | zero => intro lex lr lex1 h; simp [lexer.lexSpaceLoop] at h
  | succ n ih =>
    intro lex lr lex1 h
    simp only [lexer.lexSpaceLoop] at h
    split at h
    · next hs =>
      obtain ⟨h1, h2⟩ := ih _ _ _ h
      have := readRune_measure_le lex
      exact ⟨by omega, by rw [h2, readRune_prevKind]⟩
    · next hs =>
      simp only [Option.some.injEq] at h
      have h1 : lr = lex.readRune.1 := by rw [h]
      have h2 : lex1 = lex.readRune.2 := by rw [h]
      subst h1 h2
      exact ⟨read_unread_measure lex, readRune_prevKind lex⟩

theorem lexSpaceLoop_total (fuel : Nat) : ∀ (lex : lexer), lex.measure < fuel →
    (lex.lexSpaceLoop fuel).isSome = true := by
  induction fuel with
  | zero => intro lex h; omega
  | succ n ih =>
    intro lex h
    simp only [lexer.lexSpaceLoop]
    split
    · next hs =>
      have := readRune_measure_lt lex (isSpace_ne_eof _ hs)
      exact ih _ (by omega)
    · rfl

theorem lexCommentLoop_some (fuel : Nat) : ∀ (lex : lexer) (lr : lexRune) (lex1 : lexer),
    lex.lexCommentLoop fuel = some (lr, lex1) →
    (lex1.unreadRune lr).measure ≤ lex.measure ∧ lex1.prevKind = lex.prevKind := by
  induction fuel with
  | zero => intro lex lr lex1 h; simp [lexer.lexCommentLoop] at h
  | succ n ih =>
    intro lex lr lex1 h
    simp only [lexer.lexCommentLoop] at h
    split at h
    · next hs =>
      obtain ⟨h1, h2⟩ := ih _ _ _ h
      have := readRune_measure_le lex
      exact ⟨by omega, by rw [h2, readRune_prevKind]⟩
    · next hs =>
      simp only [Option.some.injEq] at h
      have h1 : lr = lex.readRune.1 := by rw [h]
      have h2 : lex1 = lex.readRune.2 := by rw [h]
      subst h1 h2
      exact ⟨read_unread_measure lex, readRune_prevKind lex⟩

theorem lexCommentLoop_total (fuel : Nat) : ∀ (lex : lexer), lex.measure < fuel →
    (lex.lexCommentLoop fuel).isSome = true := by
  induction fuel with
  | zero => intro lex h; omega
  | succ n ih =>
    intro lex h
    simp only [lexer.lexCommentLoop]
    split
    · next hs =>
      have := readRune_measure_lt lex hs.2
      exact ih _ (by omega)
    · rfl

theorem lexRawLoop_some (fuel : Nat) : ∀ (lex : lexer) (sb sb1 : Text) (lr : lexRune)
    (lex1 : lexer), lex.lexRawLoop fuel sb = some (sb1, lr, lex1) →
    lex1.measure ≤ lex.measure ∧ lex1.prevKind = lex.prevKind := by
  induction fuel with
  | zero => intro lex sb sb1 lr lex1 h; simp [lexer.lexRawLoop] at h
  | succ n ih =>
    intro lex sb sb1 lr lex1 h
    simp only [lexer.lexRawLoop] at h
    have hm := readRune_measure_le lex
    have hp := readRune_prevKind lex
    split at h
    · simp only [Option.some.injEq, Prod.mk.injEq] at h
      obtain ⟨-, -, h3⟩ := h
      subst h3
      exact ⟨hm, hp⟩
    · split at h
      · simp only [Option.some.injEq, Prod.mk.injEq] at h
        obtain ⟨-, -, h3⟩ := h
        subst h3
        exact ⟨hm, hp⟩
      · obtain ⟨h1, h2⟩ := ih _ _ _ _ _ h
        exact ⟨by omega, by rw [h2, hp]⟩

theorem lexRawLoop_total (fuel : Nat) : ∀ (lex : lexer) (sb : Text), lex.measure < fuel →
    (lex.lexRawLoop fuel sb).isSome = true := by
  induction fuel with
  | zero => intro lex sb h; omega
  | succ n ih =>
    intro lex sb h
    simp only [lexer.lexRawLoop]
    split
    · rfl
    · next hs =>
      split
      · rfl
      · have := readRune_measure_lt lex hs
        exact ih _ _ (by omega)

theorem lexInterpretedLoop_some (fuel : Nat) : ∀ (lex : lexer) (sb : Text) (esc : Bool)
    (res : lexToken ⊕ (Text × lexRune)) (lex1 : lexer),
    lex.lexInterpretedLoop fuel sb esc = some (res, lex1) →
    lex1.measure ≤ lex.measure ∧ lex1.prevKind = lex.prevKind ∧
    ∀ tok, res = Sum.inl tok → tok.k = lexKind.Eof := by
  induction fuel with
  | zero => intro lex sb esc res lex1 h; simp [lexer.lexInterpretedLoop] at h
  | succ n ih =>
    intro lex sb esc res lex1 h
    simp only [lexer.lexInterpretedLoop] at h
    have hm := readRune_measure_le lex
    have hp := readRune_prevKind lex
    have step : ∀ sb2 esc2, lex.readRune.2.lexInterpretedLoop n sb2 esc2 = some (res, lex1) →
        lex1.measure ≤ lex.measure ∧ lex1.prevKind = lex.prevKind ∧
        ∀ tok, res = Sum.inl tok → tok.k = lexKind.Eof := by
      intro sb2 esc2 h2
      obtain ⟨h1, h2, h3⟩ := ih _ _ _ _ _ h2
      exact ⟨by omega, by rw [h2, hp], h3⟩
    have ret : ∀ x, some ((Sum.inr x : lexToken ⊕ (Text × lexRune)), lex.readRune.2)
        = some (res, lex1) →
        lex1.measure ≤ lex.measure ∧ lex1.prevKind = lex.prevKind ∧
        ∀ tok, res = Sum.inl tok → tok.k = lexKind.Eof := by
      intro x h2
      simp only [Option.some.injEq, Prod.mk.injEq] at h2
      obtain ⟨h3, h4⟩ := h2
      subst h3 h4
      exact ⟨hm, hp, by intro tok ht; cases ht⟩
    have fail : ∀ (t : lexToken) (lx : lexer), t.k = lexKind.Eof →
        lx.measure ≤ lex.measure → lx.prevKind = lex.prevKind →
        some ((Sum.inl t : lexToken ⊕ (Text × lexRune)), lx) = some (res, lex1) →
        lex1.measure ≤ lex.measure ∧ lex1.prevKind = lex.prevKind ∧
        ∀ tok, res = Sum.inl tok → tok.k = lexKind.Eof := by
      intro t lx ht hlm hlp h2
      simp only [Option.some.injEq, Prod.mk.injEq] at h2
      obtain ⟨h3, h4⟩ := h2
      subst h3 h4
      refine ⟨hlm, hlp, ?_⟩
      intro tok htok
      cases htok
      exact ht
    have hfm : ∀ msg pos, (lex.readRune.2.emitPosError (some (error.New msg)) pos).measure
        ≤ lex.measure := by
      intro msg pos; rw [emitPosError_measure]; exact hm
    have hfp : ∀ msg pos, (lex.readRune.2.emitPosError (some (error.New msg)) pos).prevKind
        = lex.prevKind := by
      intro msg pos; rw [emitPosError_prevKind]; exact hp
    split at h
    · exact ret _ h
    · split at h
      · split at h
        · exact step _ _ h
        · split at h
          · exact step _ _ h
          · split at h
            · exact step _ _ h
            · split at h
              · exact step _ _ h
              · exact fail _ _ rfl (hfm _ _) (hfp _ _) h
      · split at h
        · exact step _ _ h
        · split at h
          · exact fail _ _ rfl (hfm _ _) (hfp _ _) h
          · split at h
            · exact ret _ h
            · exact step _ _ h

theorem lexInterpretedLoop_total (fuel : Nat) : ∀ (lex : lexer) (sb : Text) (esc : Bool),
    lex.measure < fuel → (lex.lexInterpretedLoop fuel sb esc).isSome = true := by
  induction fuel with
  | zero => intro lex sb esc h; omega
  | succ n ih =>
    intro lex sb esc h
    simp only [lexer.lexInterpretedLoop]
    split
    · rfl
    · next hs =>
      have hlt := readRune_measure_lt lex hs
      have step : ∀ sb2 esc2, (lex.readRune.2.lexInterpretedLoop n sb2 esc2).isSome = true :=
        fun sb2 esc2 => ih _ _ _ (by omega)
      split
      · split
        · exact step _ _
        · split
          · exact step _ _
          · split
            · exact step _ _
            · split
              · exact step _ _
              · rfl
      · split
        · exact step _ _
        · split
          · rfl
          · split
            · rfl
            · exact step _ _

theorem peekRune_measure (lex : lexer) : lex.peekRune.2.measure ≤ lex.measure :=
  read_unread_measure lex

theorem peekRune_prevKind (lex : lexer) : lex.peekRune.2.prevKind = lex.prevKind := by
  simp [lexer.peekRune, unreadRune_prevKind, readRune_prevKind]

theorem lexSymbolLoop_some (fuel : Nat) : ∀ (lex : lexer) (sb sb1 : Text) (lr : lexRune)
    (lex1 : lexer), lex.lexSymbolLoop fuel sb = some (sb1, lr, lex1) →
    (lex1.unreadRune lr).measure ≤ lex.measure ∧ lex1.prevKind = lex.prevKind := by
  induction fuel with
  | zero => intro lex sb sb1 lr lex1 h; simp [lexer.lexSymbolLoop] at h
  | succ n ih =>
    intro lex sb sb1 lr lex1 h
    simp only [lexer.lexSymbolLoop] at h
    have hm := readRune_measure_le lex
    have hp := readRune_prevKind lex
    split at h
    · obtain ⟨h1, h2⟩ := ih _ _ _ _ _ h
      exact ⟨by omega, by rw [h2, hp]⟩
    · split at h
      · next hs =>
        have hne : lex.readRune.1.r ≠ runeEof := by rw [hs]; decide
        have hlt := readRune_measure_lt lex hne
        have hpk := peekRune_measure lex.readRune.2
        split at h
        · obtain ⟨h1, h2⟩ := ih _ _ _ _ _ h
          exact ⟨by omega, by rw [h2, peekRune_prevKind, hp]⟩
        · simp only [Option.some.injEq, Prod.mk.injEq] at h
          obtain ⟨-, h2, h3⟩ := h
          subst h2 h3
          have := unreadRune_measure lex.readRune.2.peekRune.2 lex.readRune.1
          exact ⟨by omega, by rw [peekRune_prevKind, hp]⟩
      · simp only [Option.some.injEq, Prod.mk.injEq] at h
        obtain ⟨-, h2, h3⟩ := h
        subst h2 h3
        exact ⟨read_unread_measure lex, hp⟩

theorem lexSymbolLoop_total (fuel : Nat) : ∀ (lex : lexer) (sb : Text), lex.measure < fuel →
    (lex.lexSymbolLoop fuel sb).isSome = true := by
  induction fuel with
  | zero => intro lex sb h; omega
  | succ n ih =>
    intro lex sb h
    simp only [lexer.lexSymbolLoop]
    split
    · next hs =>
      have := readRune_measure_lt lex (symbolPredicate_ne_eof _ hs)
      exact ih _ _ (by omega)
    · split
      · next hs =>
        have hne : lex.readRune.1.r ≠ runeEof := by rw [hs]; decide
        have hlt := readRune_measure_lt lex hne
        have hpk := peekRune_measure lex.readRune.2
        split
        · exact ih _ _ (by omega)
        · rfl
      · rfl

/-! ## The token scanners -/

theorem lexSpace_some (fuel : Nat) (lex : lexer) (first : lexRune) (tok : lexToken)
    (lex1 : lexer) (h : lex.lexSpace fuel first = some (tok, lex1)) :
    lex1.measure ≤ lex.measure ∧ lex1.prevKind = lex.prevKind ∧
    tok = { k := lexKind.Space, s := [], pos := first.pos } := by
  unfold lexer.lexSpace at h
  split at h
  · cases h
  · next lr lx hl =>
    simp only [Option.some.injEq, Prod.mk.injEq] at h
    obtain ⟨h1, h2⟩ := h
    subst h1 h2
    obtain ⟨h3, h4⟩ := lexSpaceLoop_some _ _ _ _ hl
    exact ⟨h3, by rw [unreadRune_prevKind, h4], rfl⟩

theorem lexSpace_total (fuel : Nat) (lex : lexer) (first : lexRune)
    (h : lex.measure < fuel) : (lex.lexSpace fuel first).isSome = true := by
  unfold lexer.lexSpace
  have := lexSpaceLoop_total fuel lex h
  split
  · next hn => rw [hn] at this; cases this
  · rfl

theorem lexComment_some (fuel : Nat) (lex lex1 : lexer)
    (h : lex.lexComment fuel = some lex1) :
    lex1.measure ≤ lex.measure ∧ lex1.prevKind = lex.prevKind := by
  unfold lexer.lexComment at h
  split at h
  · cases h
  · next lr lx hl =>
    simp only [Option.some.injEq] at h
    subst h
    obtain ⟨h3, h4⟩ := lexCommentLoop_some _ _ _ _ hl
    exact ⟨h3, by rw [unreadRune_prevKind, h4]⟩

theorem lexComment_total (fuel : Nat) (lex : lexer)
    (h : lex.measure < fuel) : (lex.lexComment fuel).isSome = true := by
  unfold lexer.lexComment
  have := lexCommentLoop_total fuel lex h
  split
  · next hn => rw [hn] at this; cases this
  · rfl

theorem checkJoinedStrings_snd (lex : lexer) (pos : LexPos) :
    (lex.checkJoinedStrings pos).2.2.measure = lex.measure ∧
    (lex.checkJoinedStrings pos).2.2.prevKind = lex.prevKind ∧
    (lex.checkJoinedStrings pos).1.k = lexKind.Eof := by
  unfold lexer.checkJoinedStrings
  split
  · exact ⟨emitPosError_measure _ _ _, emitPosError_prevKind _ _ _, rfl⟩
  · exact ⟨rfl, rfl, rfl⟩

theorem lexRawString_some (fuel : Nat) (lex : lexer) (first : lexRune) (tok : lexToken)
    (lex1 : lexer) (h : lex.lexRawString fuel first = some (tok, lex1)) :
    stringScanOk lex tok lex1 := by
  unfold lexer.lexRawString at h
  obtain ⟨c1, c2, c3⟩ := checkJoinedStrings_snd lex first.pos
  split at h
  · next t lx hc =>
    simp only [Option.some.injEq, Prod.mk.injEq] at h
    obtain ⟨h1, h2⟩ := h
    subst h1 h2
    rw [hc] at c1 c2 c3
    exact ⟨le_of_eq c1, c2, by simp at c3; rw [c3]; decide⟩
  · next t lx hc =>
    rw [hc] at c1 c2
    simp only at c1 c2
    split at h
    · cases h
    · next sb lr lx2 hl =>
      obtain ⟨h3, h4⟩ := lexRawLoop_some _ _ _ _ _ _ hl
      split at h
      · simp only [Option.some.injEq, Prod.mk.injEq] at h
        obtain ⟨h1, h2⟩ := h
        subst h1 h2
        refine ⟨by rw [emitPosError_measure]; omega, by rw [emitPosError_prevKind, h4, c2], ?_⟩
        simp
      · simp only [Option.some.injEq, Prod.mk.injEq] at h
        obtain ⟨h1, h2⟩ := h
        subst h1 h2
        exact ⟨by omega, by rw [h4, c2], by simp⟩

theorem lexRawString_total (fuel : Nat) (lex : lexer) (first : lexRune)
    (h : lex.measure < fuel) : (lex.lexRawString fuel first).isSome = true := by
  unfold lexer.lexRawString
  obtain ⟨c1, -, -⟩ := checkJoinedStrings_snd lex first.pos
  split
  · rfl
  · next t lx hc =>
    rw [hc] at c1
    simp only at c1
    have := lexRawLoop_total fuel lx [] (by omega)
    split
    · next hn => rw [hn] at this; cases this
    · split <;> rfl

theorem lexInterpretedString_some (fuel : Nat) (lex : lexer) (first : lexRune)
    (tok : lexToken) (lex1 : lexer)
    (h : lex.lexInterpretedString fuel first = some (tok, lex1)) :
    stringScanOk lex tok lex1 := by
  unfold lexer.lexInterpretedString at h
  obtain ⟨c1, c2, c3⟩ := checkJoinedStrings_snd lex first.pos
  split at h
  · next t lx hc =>
    simp only [Option.some.injEq, Prod.mk.injEq] at h
    obtain ⟨h1, h2⟩ := h
    subst h1 h2
    rw [hc] at c1 c2 c3
    exact ⟨le_of_eq c1, c2, by simp at c3; rw [c3]; decide⟩
  · next t lx hc =>
    rw [hc] at c1 c2
    simp only at c1 c2
    split at h
    · cases h
    · next et lx2 hl =>
      obtain ⟨h3, h4, h5⟩ := lexInterpretedLoop_some _ _ _ _ _ _ hl
      simp only [Option.some.injEq, Prod.mk.injEq] at h
      obtain ⟨h1, h2⟩ := h
      subst h1 h2
      exact ⟨by omega, by rw [h4, c2], by rw [h5 _ rfl]; decide⟩
    · next sb lr lx2 hl =>
      obtain ⟨h3, h4, -⟩ := lexInterpretedLoop_some _ _ _ _ _ _ hl
      split at h
      · simp only [Option.some.injEq, Prod.mk.injEq] at h
        obtain ⟨h1, h2⟩ := h
        subst h1 h2
        refine ⟨by rw [emitPosError_measure]; omega, by rw [emitPosError_prevKind, h4, c2], ?_⟩
        simp
      · simp only [Option.some.injEq, Prod.mk.injEq] at h
        obtain ⟨h1, h2⟩ := h
        subst h1 h2
        exact ⟨by omega, by rw [h4, c2], by simp⟩

theorem lexInterpretedString_total (fuel : Nat) (lex : lexer) (first : lexRune)
    (h : lex.measure < fuel) : (lex.lexInterpretedString fuel first).isSome = true := by
  unfold lexer.lexInterpretedString
  obtain ⟨c1, -, -⟩ := checkJoinedStrings_snd lex first.pos
  split
  · rfl
  · next t lx hc =>
    rw [hc] at c1
    simp only at c1
    have := lexInterpretedLoop_total fuel lx [] false (by omega)
    split
    · next hn => rw [hn] at this; cases this
    · rfl
    · split <;> rfl

theorem lexSymbolString_some (fuel : Nat) (lex : lexer) (first : lexRune)
    (tok : lexToken) (lex1 : lexer)
    (h : lex.lexSymbolString fuel first = some (tok, lex1)) :
    stringScanOk lex tok lex1 := by
  unfold lexer.lexSymbolString at h
  obtain ⟨c1, c2, c3⟩ := checkJoinedStrings_snd lex first.pos
  split at h
  · next t lx hc =>
    simp only [Option.some.injEq, Prod.mk.injEq] at h
    obtain ⟨h1, h2⟩ := h
    subst h1 h2
    rw [hc] at c1 c2 c3
    exact ⟨le_of_eq c1, c2, by simp at c3; rw [c3]; decide⟩
  · next t lx hc =>
    rw [hc] at c1 c2
    simp only at c1 c2
    split at h
    · cases h
    · next sb lr lx2 hl =>
      obtain ⟨h3, h4⟩ := lexSymbolLoop_some _ _ _ _ _ _ hl
      simp only [Option.some.injEq, Prod.mk.injEq] at h
      obtain ⟨h1, h2⟩ := h
      subst h1 h2
      exact ⟨by omega, by rw [unreadRune_prevKind, h4, c2], by simp⟩

theorem lexSymbolString_total (fuel : Nat) (lex : lexer) (first : lexRune)
    (h : lex.measure < fuel) : (lex.lexSymbolString fuel first).isSome = true := by
  unfold lexer.lexSymbolString
  obtain ⟨c1, -, -⟩ := checkJoinedStrings_snd lex first.pos
  split
  · rfl
  · next t lx hc =>
    rw [hc] at c1
    simp only at c1
    have := lexSymbolLoop_total fuel lx [writeRune first.r] (by omega)
    split
    · next hn => rw [hn] at this; cases this
    · rfl

/-! ## readToken: progress, totality, and the kind of the previous token -/

theorem readTokenBegin_some (fuel : Nat) : ∀ (lex : lexer) (tok : lexToken) (lex1 : lexer),
    lex.readTokenBegin fuel = some (tok, lex1) →
    lex1.measure ≤ lex.measure ∧ (tok.k ≠ lexKind.Eof → lex1.measure < lex.measure) ∧
    lex1.prevKind = lex.prevKind ∧ (lex.prevKind = lexKind.Space → tok.k ≠ lexKind.Space) := by
  induction fuel with
  | zero => intro lex tok lex1 h; simp [lexer.readTokenBegin] at h
  | succ n ih =>
    intro lex tok lex1 h
    simp only [lexer.readTokenBegin] at h
    have hm := readRune_measure_le lex
    have hp := readRune_prevKind lex
    have ret : ∀ (k : lexKind), k ≠ lexKind.Space → lex.readRune.1.r ≠ runeEof →
        some (({ k := k, s := [], pos := lex.readRune.1.pos } : lexToken), lex.readRune.2)
          = some (tok, lex1) →
        lex1.measure ≤ lex.measure ∧ (tok.k ≠ lexKind.Eof → lex1.measure < lex.measure) ∧
        lex1.prevKind = lex.prevKind ∧
        (lex.prevKind = lexKind.Space → tok.k ≠ lexKind.Space) := by
      intro k hk hne h2
      simp only [Option.some.injEq, Prod.mk.injEq] at h2
      obtain ⟨h3, h4⟩ := h2
      subst h3 h4
      have := readRune_measure_lt lex hne
      exact ⟨hm, fun _ => by omega, hp, fun _ => hk⟩
    have str : ∀ (lx : lexer), lx.measure + 1 ≤ lex.measure → lx.prevKind = lex.prevKind →
        stringScanOk lx tok lex1 →
        lex1.measure ≤ lex.measure ∧ (tok.k ≠ lexKind.Eof → lex1.measure < lex.measure) ∧
        lex1.prevKind = lex.prevKind ∧
        (lex.prevKind = lexKind.Space → tok.k ≠ lexKind.Space) := by
      intro lx h1 h2 h3
      obtain ⟨s1, s2, s3⟩ := h3
      exact ⟨by omega, fun _ => by omega, by rw [s2, h2], fun _ => s3⟩
    split at h
    · next he =>
      simp only [Option.some.injEq, Prod.mk.injEq] at h
      obtain ⟨h3, h4⟩ := h
      subst h3 h4
      exact ⟨hm, fun hk => absurd rfl hk, hp, fun _ => by simp⟩
    · next hne =>
      have hlt := readRune_measure_lt lex hne
      split at h
      · have hm2 := readRune_measure_le lex.readRune.2
        have hp2 := readRune_prevKind lex.readRune.2
        split at h
        · split at h
          · cases h
          · next lx hc =>
            obtain ⟨c1, c2⟩ := lexComment_some _ _ _ hc
            obtain ⟨i1, i2, i3, i4⟩ := ih _ _ _ h
            refine ⟨by omega, fun _ => by omega, by rw [i3, c2, hp2, hp], ?_⟩
            intro hs
            exact i4 (by rw [c2, hp2, hp, hs])
        · have hu := read_unread_measure lex.readRune.2
          refine str _ (by omega) ?_ (lexSymbolString_some _ _ _ _ _ h)
          rw [unreadRune_prevKind, hp2, hp]
      · split at h
        · split at h
          · cases h
          · next t lx hs =>
            obtain ⟨s1, s2, s3⟩ := lexSpace_some _ _ _ _ _ hs
            split at h
            · next hpk =>
              obtain ⟨i1, i2, i3, i4⟩ := ih _ _ _ h
              refine ⟨by omega, fun _ => by omega, by rw [i3, s2, hp], ?_⟩
              intro hsp
              exact i4 (by rw [s2, hp, hsp])
            · next hpk =>
              simp only [Option.some.injEq, Prod.mk.injEq] at h
              obtain ⟨h3, h4⟩ := h
              subst h3 h4
              refine ⟨by omega, fun _ => by omega, by rw [s2, hp], ?_⟩
              intro hsp
              rw [s2, hp] at hpk
              exact absurd hsp hpk
        · next hns =>
          by_cases h58 : lex.readRune.1.r = 58
          · rw [if_pos h58] at h; exact ret _ (by decide) hne h
          rw [if_neg h58] at h
          by_cases h123 : lex.readRune.1.r = 123
          · rw [if_pos h123] at h; exact ret _ (by decide) hne h
          rw [if_neg h123] at h
          by_cases h125 : lex.readRune.1.r = 125
          · rw [if_pos h125] at h; exact ret _ (by decide) hne h
          rw [if_neg h125] at h
          by_cases h91 : lex.readRune.1.r = 91
          · rw [if_pos h91] at h; exact ret _ (by decide) hne h
          rw [if_neg h91] at h
          by_cases h93 : lex.readRune.1.r = 93
          · rw [if_pos h93] at h; exact ret _ (by decide) hne h
          rw [if_neg h93] at h
          by_cases h34 : lex.readRune.1.r = 34
          · rw [if_pos h34] at h
            exact str _ (by omega) hp (lexInterpretedString_some _ _ _ _ _ h)
          rw [if_neg h34] at h
          by_cases h96 : lex.readRune.1.r = 96
          · rw [if_pos h96] at h
            exact str _ (by omega) hp (lexRawString_some _ _ _ _ _ h)
          rw [if_neg h96] at h
          exact str _ (by omega) hp (lexSymbolString_some _ _ _ _ _ h)

theorem readTokenBegin_total (fuel : Nat) : ∀ (lex : lexer), lex.measure < fuel →
    (lex.readTokenBegin fuel).isSome = true := by
  induction fuel with
  | zero => intro lex h; omega
  | succ n ih =>
    intro lex h
    simp only [lexer.readTokenBegin]
    split
    · rfl
    · next hne =>
      have hlt := readRune_measure_lt lex hne
      split
      · have hm2 := readRune_measure_le lex.readRune.2
        split
        · have hc := lexComment_total n lex.readRune.2.readRune.2 (by omega)
          split
          · next hn => rw [hn] at hc; cases hc
          · next lx hs =>
            obtain ⟨c1, -⟩ := lexComment_some _ _ _ hs
            exact ih _ (by omega)
        · have hu := read_unread_measure lex.readRune.2
          exact lexSymbolString_total _ _ _ (by omega)
      · split
        · have hc := lexSpace_total n lex.readRune.2 lex.readRune.1 (by omega)
          split
          · next hn => rw [hn] at hc; cases hc
          · next t lx hs =>
            obtain ⟨s1, -, -⟩ := lexSpace_some _ _ _ _ _ hs
            split
            · exact ih _ (by omega)
            · rfl
        · by_cases h58 : lex.readRune.1.r = 58
          · rw [if_pos h58]; rfl
          rw [if_neg h58]
          by_cases h123 : lex.readRune.1.r = 123
          · rw [if_pos h123]; rfl
          rw [if_neg h123]
          by_cases h125 : lex.readRune.1.r = 125
          · rw [if_pos h125]; rfl
          rw [if_neg h125]
          by_cases h91 : lex.readRune.1.r = 91
          · rw [if_pos h91]; rfl
          rw [if_neg h91]
          by_cases h93 : lex.readRune.1.r = 93
          · rw [if_pos h93]; rfl
          rw [if_neg h93]
          by_cases h34 : lex.readRune.1.r = 34
          · rw [if_pos h34]; exact lexInterpretedString_total _ _ _ (by omega)
          rw [if_neg h34]
          by_cases h96 : lex.readRune.1.r = 96
          · rw [if_pos h96]; exact lexRawString_total _ _ _ (by omega)
          rw [if_neg h96]
          exact lexSymbolString_total _ _ _ (by omega)

/-- What every returned token says about the state left behind. -/
theorem readToken_some (fuel : Nat) (lex : lexer) (tok : lexToken) (err : Option error)
    (lex1 : lexer) (h : lex.readToken fuel = some (tok, err, lex1)) :
    lex1.measure ≤ lex.measure ∧ (tok.k ≠ lexKind.Eof → lex1.measure < lex.measure) ∧
    lex1.prevKind = tok.k ∧ (lex.prevKind = lexKind.Space → tok.k ≠ lexKind.Space) ∧
    lex1.es.cause = err ∧ (err ≠ none → tok.k = lexKind.Eof) := by
  unfold lexer.readToken at h
  split at h
  · cases h
  · next t lx hb =>
    obtain ⟨b1, b2, b3, b4⟩ := readTokenBegin_some _ _ _ _ hb
    simp only at h
    split at h
    · next e he =>
      simp only [Option.some.injEq, Prod.mk.injEq] at h
      obtain ⟨h1, h2, h3⟩ := h
      subst h1 h2 h3
      exact ⟨b1, fun hk => absurd rfl hk, rfl, fun _ => by simp, he, fun _ => rfl⟩
    · next he =>
      simp only [Option.some.injEq, Prod.mk.injEq] at h
      obtain ⟨h1, h2, h3⟩ := h
      subst h1 h2 h3
      exact ⟨b1, b2, rfl, b4, he, fun hn => absurd rfl hn⟩

theorem readToken_total (fuel : Nat) (lex : lexer) (h : lex.measure < fuel) :
    (lex.readToken fuel).isSome = true := by
  unfold lexer.readToken
  have := readTokenBegin_total fuel lex h
  split
  · next hn => rw [hn] at this; cases this
  · simp only
    split <;> rfl

/-! ## The test helper `lex` returns -/

theorem lexLoop_total (fuel : Nat) : ∀ (lex : lexer) (tokens : List lexToken),
    lex.measure + 2 ≤ fuel → (lexLoop fuel lex tokens).isSome = true := by
  induction fuel with
  | zero => intro lex tokens h; omega
  | succ n ih =>
    intro lex tokens h
    simp only [lexLoop]
    have ht := readToken_total n lex (by omega)
    split
    · next hn => rw [hn] at ht; cases ht
    · rfl
    · next tok lx hr =>
      obtain ⟨-, r2, -⟩ := readToken_some _ _ _ _ _ hr
      split
      · rfl
      · next hk =>
        have := r2 hk
        exact ih _ _ (by omega)

/-! ## Parser plumbing: progress and totality -/

theorem Sink.Send_ok_false (es : Sink) (err : Option error) (h : es.Ok = false) :
    (es.Send err).Ok = false := by
  unfold Sink.Send
  split
  · exact h
  · next hn => simp [Sink.Ok, hn] at h

theorem parser.Prog.refl (p : parser) : p.Prog p := ⟨le_refl _, id⟩

theorem parser.Prog.trans {p p1 p2 : parser} (h1 : p.Prog p1) (h2 : p1.Prog p2) :
    p.Prog p2 := ⟨le_trans h2.1 h1.1, fun h => h2.2 (h1.2 h)⟩

theorem parser.Strict.of_lt {p p1 : parser} (h : p.Prog p1) (hlt : p1.measure < p.measure) :
    p.Strict p1 := ⟨h, Or.inl hlt⟩

theorem parser.Strict.trans_left {p p1 p2 : parser} (h1 : p.Strict p1) (h2 : p1.Prog p2) :
    p.Strict p2 := by
  refine ⟨h1.1.trans h2, ?_⟩
  rcases h1.2 with h | h
  · exact Or.inl (lt_of_le_of_lt h2.1 h)
  · exact Or.inr (h2.2 h)

theorem parser.Strict.trans_right {p p1 p2 : parser} (h1 : p.Prog p1) (h2 : p1.Strict p2) :
    p.Strict p2 := by
  refine ⟨h1.trans h2.1, ?_⟩
  rcases h2.2 with h | h
  · exact Or.inl (lt_of_lt_of_le h h1.1)
  · exact Or.inr h

theorem posError_Prog (p : parser) (err : error) (pos : LexPos) :
    p.Prog (p.posError err pos) ∧ (p.posError err pos).es.Ok = false ∧
    (p.posError err pos).next = p.next := by
  refine ⟨⟨le_refl _, fun h => Sink.Send_ok_false _ _ h⟩, ?_, rfl⟩
  simp only [parser.posError, Sink.Send]
  split
  · next e he => simp [Sink.Ok, he]
  · rfl

theorem posError_Strict (p : parser) (err : error) (pos : LexPos) :
    p.Strict (p.posError err pos) :=
  ⟨(posError_Prog p err pos).1, Or.inr (posError_Prog p err pos).2.1⟩

theorem consume_spec (fuel : Nat) (p : parser) (h : p.measure ≤ fuel) :
    ∃ p1, p.consume fuel = some p1 ∧ p.Prog p1 ∧ p1.prev = p.next ∧
      (p.next.k ≠ lexKind.Eof → p1.measure < p.measure) := by
  unfold parser.consume
  simp only
  split
  · next hk =>
    have hm : p.measure = p.lexer.measure + 1 := by simp [parser.measure, hk]
    have ht := readToken_total fuel p.lexer (by omega)
    unfold parser.lex
    simp only
    split
    · next hn =>
      split at hn
      · next hn2 => rw [hn2] at ht; cases ht
      · cases hn
    · next tok p2 hs =>
      split at hs
      · cases hs
      · next t e lx hr =>
        simp only [Option.some.injEq, Prod.mk.injEq] at hs
        obtain ⟨hs1, hs2⟩ := hs
        subst hs1 hs2
        obtain ⟨r1, r2, -⟩ := readToken_some _ _ _ _ _ hr
        have hm1 : ∀ q : parser, q.lexer = lx → q.next = t → q.measure < p.measure := by
          intro q hq1 hq2
          unfold parser.measure
          rw [hq1, hq2]
          split
          · simp [parser.measure, hk]
          · next hk2 => have := r2 hk2; simp [parser.measure, hk]; omega
        refine ⟨_, rfl, ⟨le_of_lt (hm1 _ rfl rfl), fun hok => Sink.Send_ok_false _ _ hok⟩,
          rfl, fun _ => hm1 _ rfl rfl⟩
  · next hk =>
    simp only [ne_eq, not_not] at hk
    exact ⟨_, rfl, ⟨le_refl _, id⟩, rfl, fun hne => absurd hk hne⟩

theorem accept_spec (fuel : Nat) (p : parser) (k : lexKind) (h : p.measure ≤ fuel) :
    ∃ b p1, p.accept fuel k = some (b, p1) ∧ p.Prog p1 ∧
      (b = true → p.next.k = k ∧ (k ≠ lexKind.Eof → p1.measure < p.measure)) ∧
      (b = false → p1 = p ∧ p.next.k ≠ k) := by
  unfold parser.accept
  split
  · next hk =>
    obtain ⟨p1, h1, h2, -, h4⟩ := consume_spec fuel p h
    rw [h1]
    exact ⟨true, p1, rfl, h2, fun _ => ⟨hk, fun hne => h4 (by rw [hk]; exact hne)⟩,
      fun hb => Bool.noConfusion hb⟩
  · next hk =>
    exact ⟨false, p, rfl, parser.Prog.refl p, fun hb => Bool.noConfusion hb,
      fun _ => ⟨rfl, hk⟩⟩

theorem expect_spec (fuel : Nat) (p : parser) (k : lexKind) (msg : String)
    (h : p.measure ≤ fuel) :
    ∃ b p1, p.expect fuel k msg = some (b, p1) ∧ p.Prog p1 := by
  unfold parser.expect
  split
  · exact ⟨_, _, rfl, (posError_Prog _ _ _).1⟩
  · obtain ⟨p1, h1, h2, -, -⟩ := consume_spec fuel p h
    rw [h1]
    exact ⟨_, _, rfl, h2⟩

theorem expectP_spec (fuel : Nat) (p : parser) (pred : lexToken → Bool) (msg : String)
    (hpred : pred p.next = true → p.next.k ≠ lexKind.Eof) (h : p.measure ≤ fuel) :
    ∃ b p1, p.expectP fuel pred msg = some (b, p1) ∧ p.Strict p1 := by
  unfold parser.expectP
  split
  · exact ⟨_, _, rfl, posError_Strict _ _ _⟩
  · next hp =>
    obtain ⟨p1, h1, h2, -, h4⟩ := consume_spec fuel p h
    rw [h1]
    simp only [Bool.not_eq_true, Bool.not_eq_false_eq_eq_true, Bool.not_eq_eq_eq_not,
      Bool.not_true, Bool.not_false] at hp
    exact ⟨_, _, rfl, parser.Strict.of_lt h2 (h4 (hpred (by simpa using hp)))⟩

theorem parseString_spec (fuel : Nat) (p : parser) (hk : p.next.k ≠ lexKind.Eof)
    (h : p.measure ≤ fuel) :
    ∃ s p1, p.parseString fuel = some (s, p1) ∧ p.Strict p1 := by
  unfold parser.parseString
  obtain ⟨p1, h1, h2, -, h4⟩ := consume_spec fuel p h
  rw [h1]
  exact ⟨_, _, rfl, parser.Strict.of_lt h2 (h4 hk)⟩

/-! ## The parser returns: enough fuel is three units per token -/

theorem isString_ne_eof (tok : lexToken) (h : tok.isString = true) : tok.k ≠ lexKind.Eof := by
  intro hk
  simp [lexToken.isString, lexKind.isString, hk] at h

theorem keyPred_ne_eof (tok : lexToken) (h : keyPred tok = true) : tok.k ≠ lexKind.Eof := by
  intro hk
  simp [keyPred, hk] at h

theorem strict_fuel {p p2 : parser} {n : Nat} (hs : p.Strict p2) (hn : 3 * p.measure + 4 ≤ n) :
    3 * p2.measure + 5 ≤ n ∨ (p2.es.Ok = false ∧ 1 ≤ n) := by
  rcases hs.2 with h | h
  · left; omega
  · right; exact ⟨h, by omega⟩

theorem parseListLoop_step (n : Nat) (ih : parseTotalAt n) (p : parser) (L : List Elem)
    (h : 3 * p.measure + 5 ≤ n + 1 ∨ (p.es.Ok = false ∧ 1 ≤ n + 1)) :
    ∃ L1 p1, parser.parseListLoop (n + 1) p L = some (L1, p1) ∧ p.Prog p1 := by
  obtain ⟨ihLL, ihL, -, ihA, -⟩ := ih
  rw [parser.parseListLoop]
  by_cases hok : p.es.Ok = true
  · rw [if_pos hok]
    have hb : 3 * p.measure + 4 ≤ n := by
      rcases h with h | h
      · omega
      · rw [hok] at h; cases h.1
    have cont : ∀ (p2 : parser) (L2 : List Elem), p.Strict p2 →
        ∃ L1 p1, parser.parseListLoop n p2 L2 = some (L1, p1) ∧ p.Prog p1 := by
      intro p2 L2 hs
      obtain ⟨L1, p1, e1, e2⟩ := ihLL p2 L2 (strict_fuel hs hb)
      exact ⟨L1, p1, e1, hs.1.trans e2⟩
    obtain ⟨b, p1, hacc, hpr, ht, hf⟩ := accept_spec n p lexKind.Space (by omega)
    rw [hacc]
    cases b
    · obtain ⟨hp1, -⟩ := hf rfl
      subst hp1
      simp only
      by_cases hstr : p1.isP lexToken.isString = true
      · rw [if_pos hstr]
        obtain ⟨s, p2, hps, hst⟩ := parseString_spec n p1 (isString_ne_eof _ hstr) (by omega)
        rw [hps]
        exact cont _ _ hst
      rw [if_neg hstr]
      by_cases hlb : p1.is lexKind.LBracket = true
      · rw [if_pos hlb]
        have hk : p1.next.k = lexKind.LBracket := by simpa [parser.is] using hlb
        obtain ⟨e, p2, hpl, hst⟩ := ihL p1 (by rw [hk]; decide) (by omega)
        rw [hpl]
        exact cont _ _ hst
      rw [if_neg hlb]
      by_cases hlc : p1.is lexKind.LBrace = true
      · rw [if_pos hlc]
        have hk : p1.next.k = lexKind.LBrace := by simpa [parser.is] using hlc
        obtain ⟨e, p2, hpl, hst⟩ := ihA p1 (by rw [hk]; decide) (by omega)
        rw [hpl]
        exact cont _ _ hst
      rw [if_neg hlc]
      obtain ⟨b2, p2, hacc2, hpr2, ht2, hf2⟩ := accept_spec n p1 lexKind.RBracket (by omega)
      rw [hacc2]
      cases b2
      · obtain ⟨hp2, -⟩ := hf2 rfl
        subst hp2
        simp only
        split
        · exact cont _ _ (posError_Strict _ _ _)
        · exact cont _ _ (posError_Strict _ _ _)
      · exact ⟨_, _, rfl, hpr2⟩
    · simp only
      exact cont _ _ (parser.Strict.of_lt hpr ((ht rfl).2 (by decide)))
  · rw [if_neg hok]
    exact ⟨_, _, rfl, parser.Prog.refl p⟩

theorem parseList_step (n : Nat) (ih : parseTotalAt n) (p : parser)
    (hk : p.next.k ≠ lexKind.Eof) (h : 3 * p.measure + 3 ≤ n + 1) :
    ∃ e p1, parser.parseList (n + 1) p = some (e, p1) ∧ p.Strict p1 := by
  obtain ⟨ihLL, -⟩ := ih
  rw [parser.parseList]
  obtain ⟨p1, hc, hpr, -, hlt⟩ := consume_spec n p (by omega)
  rw [hc]
  have h1 := hlt hk
  obtain ⟨L1, p2, e1, e2⟩ := ihLL p1 [] (Or.inl (by omega))
  simp only [e1]
  exact ⟨_, _, rfl, (parser.Strict.of_lt hpr h1).trans_left e2⟩

theorem parseAssoc_step (n : Nat) (ih : parseTotalAt n) (p : parser)
    (hk : p.next.k ≠ lexKind.Eof) (h : 3 * p.measure + 3 ≤ n + 1) :
    ∃ e p1, parser.parseAssoc (n + 1) p = some (e, p1) ∧ p.Strict p1 := by
  obtain ⟨-, -, ihAL, -⟩ := ih
  rw [parser.parseAssoc]
  obtain ⟨p1, hc, hpr, -, hlt⟩ := consume_spec n p (by omega)
  rw [hc]
  have h1 := hlt hk
  obtain ⟨L1, p2, e1, e2⟩ := ihAL p1 [] (Or.inl (by omega))
  simp only [e1]
  exact ⟨_, _, rfl, (parser.Strict.of_lt hpr h1).trans_left e2⟩

theorem parseAssocLoop_step (n : Nat) (ih : parseTotalAt n) (p : parser) (L : List Pair)
    (h : 3 * p.measure + 5 ≤ n + 1 ∨ (p.es.Ok = false ∧ 1 ≤ n + 1)) :
    ∃ L1 p1, parser.parseAssocLoop (n + 1) p L = some (L1, p1) ∧ p.Prog p1 := by
  obtain ⟨-, -, ihAL, -, ihP⟩ := ih
  rw [parser.parseAssocLoop]
  by_cases hok : p.es.Ok = true
  · rw [if_pos hok]
    have hb : 3 * p.measure + 4 ≤ n := by
      rcases h with h | h
      · omega
      · rw [hok] at h; cases h.1
    have cont : ∀ (p2 : parser) (L2 : List Pair), p.Strict p2 →
        ∃ L1 p1, parser.parseAssocLoop n p2 L2 = some (L1, p1) ∧ p.Prog p1 := by
      intro p2 L2 hs
      obtain ⟨L1, p1, e1, e2⟩ := ihAL p2 L2 (strict_fuel hs hb)
      exact ⟨L1, p1, e1, hs.1.trans e2⟩
    obtain ⟨b, p1, hacc, hpr, ht, hf⟩ := accept_spec n p lexKind.Space (by omega)
    rw [hacc]
    cases b
    · obtain ⟨hp1, -⟩ := hf rfl
      subst hp1
      simp only
      obtain ⟨b2, p2, hacc2, hpr2, ht2, hf2⟩ := accept_spec n p1 lexKind.RBrace (by omega)
      rw [hacc2]
      cases b2
      · obtain ⟨hp2, -⟩ := hf2 rfl
        subst hp2
        simp only
        split
        · exact cont _ _ (posError_Strict _ _ _)
        · obtain ⟨pair, p3, hpp, hst⟩ := ihP p2 (by omega)
          rw [hpp]
          simp only
          split
          · obtain ⟨b4, p4, hex, hpr4⟩ := expect_spec n p3 lexKind.Space
              "association list pairs must be separated by whitespace"
              (by have := hst.1.1; omega)
            rw [hex]
            exact cont _ _ (hst.trans_left hpr4)
          · exact cont _ _ hst
      · exact ⟨_, _, rfl, hpr2⟩
    · simp only
      exact cont _ _ (parser.Strict.of_lt hpr ((ht rfl).2 (by decide)))
  · rw [if_neg hok]
    exact ⟨_, _, rfl, parser.Prog.refl p⟩

theorem parsePair_step (n : Nat) (ih : parseTotalAt n) (p : parser)
    (h : 3 * p.measure + 4 ≤ n + 1) :
    ∃ pair p1, parser.parsePair (n + 1) p = some (pair, p1) ∧ p.Strict p1 := by
  obtain ⟨-, ihL, -, ihA, -⟩ := ih
  rw [parser.parsePair]
  obtain ⟨b1, p1, hex, hst1⟩ := expectP_spec n p keyPred
    "key in association list pair must be of symbol or interpreted string form"
    (keyPred_ne_eof _) (by omega)
  rw [hex]
  simp only
  have hm1 := hst1.1.1
  obtain ⟨ok, p2, hacc, hpr2, -, -⟩ := accept_spec n p1 lexKind.Colon (by omega)
  rw [hacc]
  simp only
  have hm2 := hpr2.1
  have hpr3 : p2.Prog (if (!ok) = true then
      p2.posError
        (error.New "key in association list pair must be immediately followed by colon")
        p2.prev.pos
      else p2) := by
    split
    · exact (posError_Prog _ _ _).1
    · exact parser.Prog.refl _
  generalize (if (!ok) = true then
      p2.posError
        (error.New "key in association list pair must be immediately followed by colon")
        p2.prev.pos
      else p2) = p3 at hpr3 ⊢
  have hm3 := hpr3.1
  obtain ⟨b4, p4, hacc4, hpr4, -, -⟩ := accept_spec n p3 lexKind.Space (by omega)
  rw [hacc4]
  simp only
  have hm4 := hpr4.1
  have h14 : p1.Prog p4 := (hpr2.trans hpr3).trans hpr4
  by_cases hstr : p4.isP lexToken.isString = true
  · rw [if_pos hstr]
    obtain ⟨s, p5, hps, hst⟩ := parseString_spec n p4 (isString_ne_eof _ hstr) (by omega)
    rw [hps]
    exact ⟨_, _, rfl, hst1.trans_left (h14.trans hst.1)⟩
  rw [if_neg hstr]
  by_cases hlb : p4.is lexKind.LBracket = true
  · rw [if_pos hlb]
    have hk : p4.next.k = lexKind.LBracket := by simpa [parser.is] using hlb
    obtain ⟨e, p5, hpl, hst⟩ := ihL p4 (by rw [hk]; decide) (by omega)
    rw [hpl]
    exact ⟨_, _, rfl, hst1.trans_left (h14.trans hst.1)⟩
  rw [if_neg hlb]
  by_cases hlc : p4.is lexKind.LBrace = true
  · rw [if_pos hlc]
    have hk : p4.next.k = lexKind.LBrace := by simpa [parser.is] using hlc
    obtain ⟨e, p5, hpl, hst⟩ := ihA p4 (by rw [hk]; decide) (by omega)
    rw [hpl]
    exact ⟨_, _, rfl, hst1.trans_left (h14.trans hst.1)⟩
  rw [if_neg hlc]
  split
  · exact ⟨_, _, rfl, hst1.trans_left (h14.trans (posError_Prog _ _ _).1)⟩
  · exact ⟨_, _, rfl, hst1.trans_left (h14.trans (posError_Prog _ _ _).1)⟩

theorem parseTotal (fuel : Nat) : parseTotalAt fuel := by
  induction fuel with
  | zero =>
    refine ⟨?_, ?_, ?_, ?_, ?_⟩
    · intro p L h; omega
    · intro p hk h; omega
    · intro p L h; omega
    · intro p hk h; omega
    · intro p h; omega
  | succ n ih =>
    exact ⟨parseListLoop_step n ih, parseList_step n ih, parseAssocLoop_step n ih,
      parseAssoc_step n ih, parsePair_step n ih⟩

theorem parseRootLoop_total (fuel : Nat) : ∀ (p : parser) (elems : List Elem),
    (3 * p.measure + 5 ≤ fuel ∨ (p.es.Ok = false ∧ 1 ≤ fuel)) →
    ∃ L1 p1, parser.parseRootLoop fuel p elems = some (L1, p1) ∧ p.Prog p1 := by
  induction fuel with
  | zero => intro p elems h; omega
  | succ n ihR =>
    intro p elems h
    obtain ⟨-, ihL, -, ihA, -⟩ := parseTotal n
    rw [parser.parseRootLoop]
    by_cases hok : p.es.Ok = true
    · rw [if_pos hok]
      have hb : 3 * p.measure + 4 ≤ n := by
        rcases h with h | h
        · omega
        · rw [hok] at h; cases h.1
      have cont : ∀ (p2 : parser) (L2 : List Elem), p.Strict p2 →
          ∃ L1 p1, parser.parseRootLoop n p2 L2 = some (L1, p1) ∧ p.Prog p1 := by
        intro p2 L2 hs
        obtain ⟨L1, p1, e1, e2⟩ := ihR p2 L2 (strict_fuel hs hb)
        exact ⟨L1, p1, e1, hs.1.trans e2⟩
      obtain ⟨b, p1, hacc, hpr, ht, hf⟩ := accept_spec n p lexKind.Space (by omega)
      rw [hacc]
      cases b
      · obtain ⟨hp1, -⟩ := hf rfl
        subst hp1
        simp only
        by_cases hstr : p1.isP lexToken.isString = true
        · rw [if_pos hstr]
          obtain ⟨s, p2, hps, hst⟩ :=
            parseString_spec n p1 (isString_ne_eof _ hstr) (by omega)
          rw [hps]
          exact cont _ _ hst
        rw [if_neg hstr]
        by_cases hlb : p1.is lexKind.LBracket = true
        · rw [if_pos hlb]
          have hk : p1.next.k = lexKind.LBracket := by simpa [parser.is] using hlb
          obtain ⟨e, p2, hpl, hst⟩ := ihL p1 (by rw [hk]; decide) (by omega)
          rw [hpl]
          exact cont _ _ hst
        rw [if_neg hlb]
        by_cases hlc : p1.is lexKind.LBrace = true
        · rw [if_pos hlc]
          have hk : p1.next.k = lexKind.LBrace := by simpa [parser.is] using hlc
          obtain ⟨e, p2, hpl, hst⟩ := ihA p1 (by rw [hk]; decide) (by omega)
          rw [hpl]
          exact cont _ _ hst
        rw [if_neg hlc]
        split
        · exact ⟨_, _, rfl, parser.Prog.refl _⟩
        · exact cont _ _ (posError_Strict _ _ _)
      · simp only
        exact cont _ _ (parser.Strict.of_lt hpr ((ht rfl).2 (by decide)))
    · rw [if_neg hok]
      exact ⟨_, _, rfl, parser.Prog.refl p⟩

theorem parseRoot_total (fuel : Nat) (reader : RuneReader)
    (h : 3 * reader.runes.length + 8 ≤ fuel) :
    ∃ elems p, (newParser reader).parseRoot fuel = some (elems, p) := by
  unfold parser.parseRoot parser.lex
  have hm : (newParser reader).lexer.measure = reader.runes.length := by
    simp [newParser, newLexer, lexer.measure]
  have ht := readToken_total fuel (newParser reader).lexer (by omega)
  split
  · next hn =>
    split at hn
    · next hn2 => rw [hn2] at ht; cases ht
    · cases hn
  · next tok p1 hs =>
    split at hs
    · cases hs
    · next t e lx hr =>
      simp only [Option.some.injEq, Prod.mk.injEq] at hs
      obtain ⟨hs1, hs2⟩ := hs
      subst hs1 hs2
      obtain ⟨r1, -⟩ := readToken_some _ _ _ _ _ hr
      have hm2 : ∀ q : parser, q.lexer = lx → q.measure ≤ reader.runes.length + 1 := by
        intro q hq
        unfold parser.measure
        rw [hq]
        split <;> omega
      have hq := hm2 ⟨lx, t, (newParser reader).prev, (newParser reader).es.Send e⟩ rfl
      obtain ⟨L1, p1, e1, -⟩ := parseRootLoop_total fuel
        ⟨lx, t, (newParser reader).prev, (newParser reader).es.Send e⟩ [] (Or.inl (by omega))
      exact ⟨L1, p1, e1⟩

theorem Parse_total (fuel : Nat) (reader : RuneReader)
    (h : 3 * reader.runes.length + 8 ≤ fuel) :
    ∃ elems err, Parse fuel reader = some (elems, err) ∧
      (err = none ∨ (elems = [] ∧ err ≠ none)) := by
  obtain ⟨elems, p, hp⟩ := parseRoot_total fuel reader h
  unfold Parse
  rw [hp]
  simp only
  split
  · exact ⟨_, _, rfl, Or.inl rfl⟩
  · next he => exact ⟨_, _, rfl, Or.inr ⟨rfl, he⟩⟩

/-! ## The claim on the result shape -/

/-- C1: for every rune source, once the fuel is at least three units per rune plus eight,
`Parse` returns, and what it returns is either a list of root elements with no error or
no element at all together with one error; elements and an error never come together. -/
theorem C1_Parse_result_shape (reader : RuneReader) (fuel : Nat)
    (h : 3 * reader.runes.length + 8 ≤ fuel) :
    ∃ elems err, Parse fuel reader = some (elems, err) ∧
      ((err = none) ∨ (elems = [] ∧ ∃ e, err = some e)) := by
  obtain ⟨elems, err, h1, h2⟩ := Parse_total fuel reader h
  refine ⟨elems, err, h1, ?_⟩
  rcases h2 with h2 | ⟨h2, h3⟩
  · exact Or.inl h2
  · cases err with
    | none => exact absurd rfl h3
    | some e => exact Or.inr ⟨h2, e, rfl⟩

theorem C1_Parse_result_shape_witness :
    3 * (RuneReader.mk [58] none).runes.length + 8 ≤ 11 ∧
    ∃ elems err, Parse 11 (RuneReader.mk [58] none) = some (elems, err) ∧
      ((err = none) ∨ (elems = [] ∧ ∃ e, err = some e)) :=
  ⟨by decide, C1_Parse_result_shape (RuneReader.mk [58] none) 11 (by decide)⟩

/-! ## Joined strings -/

theorem readRune_es (lex : lexer) (h : lex.rr.err = none) :
    lex.readRune.2.es = lex.es ∧ lex.readRune.2.rr.err = none := by
  unfold lexer.readRune
  split
  · exact ⟨rfl, h⟩
  · split
    · exact ⟨rfl, h⟩
    · split
      · rw [h]; exact ⟨rfl, h⟩
      · exact ⟨rfl, h⟩

theorem unreadRune_es (lex : lexer) (lr : lexRune) : (lex.unreadRune lr).es = lex.es := by
  unfold lexer.unreadRune
  split <;> rfl

/-- The state and the token after the joined-strings check has failed. -/
theorem checkJoinedStrings_fail (lx : lexer) (pos : LexPos)
    (hk : lx.prevKind.isString = true) (he : lx.es.cause = none) :
    ∃ lx1, lx.checkJoinedStrings pos = ({ k := lexKind.Eof, s := [], pos := lx1.pos }, false, lx1)
      ∧ lx1.es.cause = some (error.Wrap (error.New "strings must be separated") pos.String) := by
  refine ⟨lx.emitPosError (some (error.New "strings must be separated")) pos, ?_, ?_⟩
  · unfold lexer.checkJoinedStrings
    rw [if_pos hk]
  · simp [lexer.emitPosError, Sink.Send, he]

theorem lexSymbolString_joined (fuel : Nat) (lx : lexer) (first : lexRune)
    (hk : lx.prevKind.isString = true) (he : lx.es.cause = none) :
    ∃ lx1, lx.lexSymbolString fuel first = some ({ k := lexKind.Eof, s := [], pos := lx1.pos }, lx1)
      ∧ lx1.es.cause =
        some (error.Wrap (error.New "strings must be separated") first.pos.String) := by
  obtain ⟨lx1, h1, h2⟩ := checkJoinedStrings_fail lx first.pos hk he
  exact ⟨lx1, by unfold lexer.lexSymbolString; rw [h1], h2⟩

theorem lexInterpretedString_joined (fuel : Nat) (lx : lexer) (first : lexRune)
    (hk : lx.prevKind.isString = true) (he : lx.es.cause = none) :
    ∃ lx1, lx.lexInterpretedString fuel first =
        some ({ k := lexKind.Eof, s := [], pos := lx1.pos }, lx1)
      ∧ lx1.es.cause =
        some (error.Wrap (error.New "strings must be separated") first.pos.String) := by
  obtain ⟨lx1, h1, h2⟩ := checkJoinedStrings_fail lx first.pos hk he
  exact ⟨lx1, by unfold lexer.lexInterpretedString; rw [h1], h2⟩

theorem lexRawString_joined (fuel : Nat) (lx : lexer) (first : lexRune)
    (hk : lx.prevKind.isString = true) (he : lx.es.cause = none) :
    ∃ lx1, lx.lexRawString fuel first = some ({ k := lexKind.Eof, s := [], pos := lx1.pos }, lx1)
      ∧ lx1.es.cause =
        some (error.Wrap (error.New "strings must be separated") first.pos.String) := by
  obtain ⟨lx1, h1, h2⟩ := checkJoinedStrings_fail lx first.pos hk he
  exact ⟨lx1, by unfold lexer.lexRawString; rw [h1], h2⟩

theorem readTokenBegin_joined (fuel : Nat) (lex : lexer)
    (hk : lex.prevKind.isString = true) (he : lex.es.cause = none)
    (hc : lex.rr.err = none) (hb : lex.startsString) :
    ∃ lx1, lex.readTokenBegin (fuel + 1) =
        some ({ k := lexKind.Eof, s := [], pos := lx1.pos }, lx1)
      ∧ lx1.es.cause = some (error.Wrap (error.New "strings must be separated")
          lex.readRune.1.pos.String) := by
  obtain ⟨b1, b2, b3, b4, b5, b6, b7, b8⟩ := hb
  obtain ⟨e1, e2⟩ := readRune_es lex hc
  obtain ⟨e3, e4⟩ := readRune_es lex.readRune.2 e2
  have hp := readRune_prevKind lex
  have hp2 := readRune_prevKind lex.readRune.2
  rw [lexer.readTokenBegin]
  simp only
  rw [if_neg b1]
  by_cases h47 : lex.readRune.1.r = 47
  · rw [if_pos h47, if_neg (b8 h47)]
    apply lexSymbolString_joined
    · rw [unreadRune_prevKind, hp2, hp]; exact hk
    · rw [unreadRune_es, e3, e1]; exact he
  rw [if_neg h47, b2]
  simp only [Bool.false_eq_true, if_false]
  rw [if_neg b3, if_neg b4, if_neg b5, if_neg b6, if_neg b7]
  by_cases h34 : lex.readRune.1.r = 34
  · rw [if_pos h34]
    exact lexInterpretedString_joined _ _ _ (by rw [hp]; exact hk) (by rw [e1]; exact he)
  rw [if_neg h34]
  by_cases h96 : lex.readRune.1.r = 96
  · rw [if_pos h96]
    exact lexRawString_joined _ _ _ (by rw [hp]; exact hk) (by rw [e1]; exact he)
  rw [if_neg h96]
  exact lexSymbolString_joined _ _ _ (by rw [hp]; exact hk) (by rw [e1]; exact he)

/-- C4: when `readToken` has just returned a string token without error and the next rune
of a cleanly ending source begins a string (it is not the end of the input, not
whitespace, not a structural rune and not the first slash of a comment), the next call of
`readToken` fails with the error `strings must be separated` wrapped with the position of
that rune, and returns the end-of-stream token instead of a token for the second string. -/
theorem C4_joined_strings (fuel0 : Nat) (lex0 : lexer) (tok1 : lexToken) (lex1 : lexer)
    (h1 : lex0.readToken fuel0 = some (tok1, none, lex1)) (hs : tok1.isString = true)
    (hc : lex1.rr.err = none) (hb : lex1.startsString) (fuel : Nat) (hf : 1 ≤ fuel) :
    ∃ lex2, lex1.readToken fuel =
      some ({ k := lexKind.Eof, s := [], pos := lex2.pos },
        some (error.Wrap (error.New "strings must be separated") lex1.readRune.1.pos.String),
        lex2) := by
  obtain ⟨-, -, r3, -, r5, -⟩ := readToken_some _ _ _ _ _ h1
  obtain ⟨n, rfl⟩ : ∃ n, fuel = n + 1 := ⟨fuel - 1, by omega⟩
  obtain ⟨lx1, hb1, hb2⟩ := readTokenBegin_joined n lex1 (by rw [r3]; exact hs) r5 hc hb
  refine ⟨{ lx1 with prevKind := lexKind.Eof }, ?_⟩
  unfold lexer.readToken
  rw [hb1]
  simp only [Sink.Cause, hb2]

theorem C4_joined_strings_witness :
    ((newLexer { runes := [97, 34, 97, 34], err := none }).readToken 5 =
        some ({ k := lexKind.SymbolString, s := [97], pos := { Line := 1, Column := 0 } },
          none, joinedSymbolExample) ∧
      joinedSymbolExample.startsString ∧
      (error.Wrap (error.New "strings must be separated")
        joinedSymbolExample.readRune.1.pos.String).Error = "1:1: strings must be separated" ∧
      ∃ lex2, joinedSymbolExample.readToken 1 =
        some ({ k := lexKind.Eof, s := [], pos := lex2.pos },
          some (error.Wrap (error.New "strings must be separated")
            joinedSymbolExample.readRune.1.pos.String), lex2)) ∧
    ((newLexer { runes := [34, 97, 34, 97], err := none }).readToken 5 =
        some ({ k := lexKind.InterpString, s := [97], pos := { Line := 1, Column := 0 } },
          none, joinedInterpExample) ∧
      joinedInterpExample.startsString ∧
      (error.Wrap (error.New "strings must be separated")
        joinedInterpExample.readRune.1.pos.String).Error = "1:3: strings must be separated" ∧
      ∃ lex2, joinedInterpExample.readToken 1 =
        some ({ k := lexKind.Eof, s := [], pos := lex2.pos },
          some (error.Wrap (error.New "strings must be separated")
            joinedInterpExample.readRune.1.pos.String), lex2)) :=
  ⟨⟨by decide, by decide, by decide,
      C4_joined_strings 5 (newLexer { runes := [97, 34, 97, 34], err := none })
        { k := lexKind.SymbolString, s := [97], pos := { Line := 1, Column := 0 } }
        joinedSymbolExample (by decide) (by decide) (by decide) (by decide) 1 (by decide)⟩,
    ⟨by decide, by decide, by decide,
      C4_joined_strings 5 (newLexer { runes := [34, 97, 34, 97], err := none })
        { k := lexKind.InterpString, s := [97], pos := { Line := 1, Column := 0 } }
        joinedInterpExample (by decide) (by decide) (by decide) (by decide) 1 (by decide)⟩⟩

/-! ## A symbol string that begins with a backslash -/

/-- C6 (failing input): the input `\a` lexes as one symbol-string token whose text begins
with the backslash (92): the first rune of a symbol string is not checked against the
predicate that the scan loop applies to the following runes. -/
theorem C6_symbol_backslash :
    lex 4 [92, 97] =
      some (Except.ok [
        { k := lexKind.SymbolString, s := [92, 97], pos := { Line := 1, Column := 0 } },
        { k := lexKind.Eof, s := [], pos := { Line := 1, Column := 2 } }]) ∧
    symbolPredicate 92 = false := by
  constructor
  · rfl
  · decide

/-! ## The lexer as a cursor over the input -/

theorem posAfter_append (pos : LexPos) (a b : List rune) :
    posAfter pos (a ++ b) = posAfter (posAfter pos a) b := by
  induction a generalizing pos with
  | nil => rfl
  | cons r rs ih => simp only [List.cons_append, posAfter]; exact ih _

theorem newLexer_Ready (input : List rune) :
    (newLexer { runes := input, err := none }).Ready { Line := 1, Column := 0 } input
      lexKind.Eof :=
  ⟨rfl, rfl, rfl, [], rfl, rfl, rfl, by simp, by simp [newLexer]⟩

theorem lexer.Ready.readRune_cons {lex : lexer} {pos : LexPos} {r : rune} {rs : List rune}
    {pk : lexKind} (h : lex.Ready pos (r :: rs) pk) :
    lex.readRune.1 = { r := r, pos := pos } ∧ lex.readRune.2.Ready (pos.update r) rs pk := by
  obtain ⟨h1, h2, h3, u, h4, h5, h6, h7, h8⟩ := h
  cases u with
  | nil =>
    simp only [annotate] at h4
    simp only [posAfter] at h5
    simp only [List.nil_append] at h6
    have he : lex.eof = false := by
      cases hb : lex.eof with
      | false => rfl
      | true => rw [h8 hb] at h6; cases h6
    unfold lexer.readRune
    rw [h4]
    simp only [he, Bool.false_eq_true, if_false, ← h6, h5]
    refine ⟨trivial, h1, h2, h3, [], rfl, rfl, rfl, by simp, ?_⟩
    intro hb
    cases hb
  | cons a u1 =>
    simp only [annotate] at h4
    simp only [posAfter] at h5
    simp only [List.cons_append, List.cons.injEq] at h6
    obtain ⟨h6a, h6b⟩ := h6
    subst h6a
    unfold lexer.readRune
    rw [h4]
    exact ⟨rfl, h1, h2, h3, u1, rfl, h5, h6b, fun x hx => h7 x (List.mem_cons_of_mem _ hx), h8⟩

theorem lexer.Ready.readRune_nil {lex : lexer} {pos : LexPos} {pk : lexKind}
    (h : lex.Ready pos [] pk) :
    lex.readRune.1 = { r := runeEof, pos := pos } ∧ lex.readRune.2.Ready pos [] pk ∧
    lex.readRune.2.pos = pos := by
  obtain ⟨h1, h2, h3, u, h4, h5, h6, h7, h8⟩ := h
  have hu : u = [] := by
    cases u with
    | nil => rfl
    | cons a u1 => cases h6
  subst hu
  simp only [annotate] at h4
  simp only [posAfter] at h5
  simp only [List.nil_append] at h6
  unfold lexer.readRune
  rw [h4]
  simp only
  cases hb : lex.eof with
  | true =>
    simp only [if_true, h5]
    exact ⟨trivial, ⟨h1, h2, h3, [], h4, h5, by simpa using h6, by simp, h8⟩, trivial⟩
  | false =>
    simp only [Bool.false_eq_true, if_false, ← h6, h5, h2, lexer.emitPosError]
    exact ⟨trivial, ⟨h1, h2, h3, [], rfl, rfl, by simpa using h6, by simp,
      fun _ => h6.symm⟩, trivial⟩

theorem lexer.Ready.unreadRune {lex : lexer} {pos : LexPos} {r : rune} {rs : List rune}
    {pk : lexKind} (h : lex.Ready (pos.update r) rs pk) (hr : r ≠ runeEof) :
    (lex.unreadRune { r := r, pos := pos }).Ready pos (r :: rs) pk := by
  obtain ⟨h1, h2, h3, u, h4, h5, h6, h7, h8⟩ := h
  unfold lexer.unreadRune
  rw [if_pos hr]
  refine ⟨h1, h2, h3, r :: u, ?_, h5, by rw [h6]; rfl, ?_, h8⟩
  · simp only [annotate, h4]
  · intro x hx
    rcases List.mem_cons.mp hx with hx | hx
    · rw [hx]; exact hr
    · exact h7 x hx

theorem unreadRune_eof (lex : lexer) (pos : LexPos) :
    lex.unreadRune { r := runeEof, pos := pos } = lex := by
  simp [lexer.unreadRune]

theorem lexer.Ready.peekRune_cons {lex : lexer} {pos : LexPos} {r : rune} {rs : List rune}
    {pk : lexKind} (h : lex.Ready pos (r :: rs) pk) (hr : r ≠ runeEof) :
    lex.peekRune.1 = { r := r, pos := pos } ∧ lex.peekRune.2.Ready pos (r :: rs) pk := by
  obtain ⟨h1, h2⟩ := h.readRune_cons
  unfold lexer.peekRune
  simp only [h1]
  exact ⟨trivial, h2.unreadRune hr⟩

theorem lexer.Ready.peekRune_nil {lex : lexer} {pos : LexPos} {pk : lexKind}
    (h : lex.Ready pos [] pk) :
    lex.peekRune.1 = { r := runeEof, pos := pos } ∧ lex.peekRune.2.Ready pos [] pk := by
  obtain ⟨h1, h2, -⟩ := h.readRune_nil
  unfold lexer.peekRune
  simp only [h1, unreadRune_eof]
  exact ⟨trivial, h2⟩

theorem lexer.Ready.setPrevKind {lex : lexer} {pos : LexPos} {input : List rune} {pk : lexKind}
    (h : lex.Ready pos input pk) (k : lexKind) :
    ({ lex with prevKind := k } : lexer).Ready pos input k := by
  obtain ⟨h1, h2, h3, u, h4, h5, h6, h7, h8⟩ := h
  exact ⟨h1, h2, rfl, u, h4, h5, h6, h7, h8⟩

theorem lexer.Ready.pos_nil {lex : lexer} {pos : LexPos} {pk : lexKind}
    (h : lex.Ready pos [] pk) : lex.pos = pos := by
  obtain ⟨h1, h2, h3, u, h4, h5, h6, h7, h8⟩ := h
  cases u with
  | nil => exact h5
  | cons a u1 => cases h6

theorem lexer.Ready.measure {lex : lexer} {pos : LexPos} {input : List rune} {pk : lexKind}
    (h : lex.Ready pos input pk) : lex.measure = input.length := by
  obtain ⟨h1, h2, h3, u, h4, h5, h6, h7, h8⟩ := h
  have : ∀ (p : LexPos) (l : List rune), (annotate p l).length = l.length := by
    intro p l
    induction l generalizing p with
    | nil => rfl
    | cons a l ih => simp [annotate, ih]
  simp [lexer.measure, h4, h6, this]

theorem validRune_ne_eof {r : rune} (h : validRune r) : r ≠ runeEof := by
  intro h1; subst h1; exact absurd h.1 (by decide)

theorem writeRune_valid {r : rune} (h : validRune r) : writeRune r = r := by
  simp [writeRune, h]

theorem map_writeRune_valid {s : List rune} (h : ∀ r ∈ s, validRune r) :
    s.map writeRune = s := by
  induction s with
  | nil => rfl
  | cons a s ih =>
    simp only [List.map_cons, List.cons.injEq]
    exact ⟨writeRune_valid (h a (List.mem_cons_self _ _)),
      ih (fun r hr => h r (List.mem_cons_of_mem _ hr))⟩

/-- A token read without error from a state that is ready again afterwards. -/
theorem readToken_ready {fuel : Nat} {lex lex1 : lexer} {tok : lexToken} {pos : LexPos}
    {rest : List rune} {pk : lexKind}
    (hb : lex.readTokenBegin fuel = some (tok, lex1)) (hr : lex1.Ready pos rest pk) :
    ∃ lex2, lex.readToken fuel = some (tok, none, lex2) ∧ lex2.Ready pos rest tok.k := by
  refine ⟨{ lex1 with prevKind := tok.k }, ?_, hr.setPrevKind _⟩
  unfold lexer.readToken
  rw [hb]
  simp only [Sink.Cause, hr.1]

/-! ## Raw strings -/

theorem lexRawLoop_ready (rest : List rune) (pk : lexKind) :
    ∀ (s : List rune) (lex : lexer) (pos : LexPos) (sb : Text) (fuel : Nat),
    lex.Ready pos (s ++ 96 :: rest) pk → (∀ r ∈ s, r ≠ 96 ∧ r ≠ runeEof) →
    s.length < fuel →
    ∃ lex1, lex.lexRawLoop fuel sb =
        some (sb ++ s.map writeRune, { r := 96, pos := posAfter pos s }, lex1) ∧
      lex1.Ready (posAfter pos (s ++ [96])) rest pk := by
  intro s
  induction s with
  | nil =>
    intro lex pos sb fuel hr hs hf
    obtain ⟨n, rfl⟩ : ∃ n, fuel = n + 1 := ⟨fuel - 1, by simp at hf; omega⟩
    obtain ⟨h1, h2⟩ := lexer.Ready.readRune_cons hr
    refine ⟨lex.readRune.2, ?_, h2⟩
    rw [lexer.lexRawLoop]
    simp only [h1]
    rw [if_neg (by decide), if_pos trivial]
    simp [posAfter]
  | cons a s ih =>
    intro lex pos sb fuel hr hs hf
    obtain ⟨n, rfl⟩ : ∃ n, fuel = n + 1 := ⟨fuel - 1, by simp at hf; omega⟩
    obtain ⟨h1, h2⟩ := lexer.Ready.readRune_cons hr
    obtain ⟨ha1, ha2⟩ := hs a (List.mem_cons_self _ _)
    obtain ⟨lex1, e1, e2⟩ := ih lex.readRune.2 (pos.update a) (sb ++ [writeRune a]) n h2
      (fun r hr => hs r (List.mem_cons_of_mem _ hr)) (by simp at hf; omega)
    refine ⟨lex1, ?_, e2⟩
    rw [lexer.lexRawLoop]
    simp only [h1]
    rw [if_neg ha2, if_neg ha1, e1]
    simp [posAfter]

theorem readToken_raw {lex : lexer} {pos : LexPos} {s rest : List rune} {pk : lexKind}
    {fuel : Nat} (hr : lex.Ready pos (96 :: (s ++ 96 :: rest)) pk)
    (hpk : pk.isString = false) (hs : ∀ r ∈ s, r ≠ 96 ∧ r ≠ runeEof)
    (hf : s.length + 1 < fuel) :
    ∃ lex1, lex.readToken fuel =
        some ({ k := lexKind.RawString, s := s.map writeRune, pos := pos }, none, lex1) ∧
      lex1.Ready (posAfter pos (96 :: (s ++ [96]))) rest lexKind.RawString := by
  obtain ⟨n, rfl⟩ : ∃ n, fuel = n + 1 := ⟨fuel - 1, by omega⟩
  obtain ⟨h1, h2⟩ := lexer.Ready.readRune_cons hr
  obtain ⟨lex1, e1, e2⟩ := lexRawLoop_ready rest pk s lex.readRune.2 (pos.update 96) [] n h2 hs
    (by omega)
  refine readToken_ready ?_ e2
  rw [lexer.readTokenBegin]
  simp only [h1]
  rw [if_neg (by decide), if_neg (by decide)]
  simp only [show isSpace 96 = false by decide, Bool.false_eq_true, if_false]
  rw [if_neg (by decide), if_neg (by decide), if_neg (by decide), if_neg (by decide),
    if_neg (by decide), if_neg (by decide), if_pos trivial]
  unfold lexer.lexRawString lexer.checkJoinedStrings
  rw [h2.2.2.1, hpk]
  simp only [Bool.false_eq_true, if_false, e1, List.nil_append, ne_eq, not_true_eq_false]

/-! ## Tokens read from a ready state -/

theorem NextToken_raw (fuel : Nat) (pos : LexPos) (s rest : List rune) (pk : lexKind)
    (hpk : pk.isString = false) (hs : ∀ r ∈ s, r ≠ 96 ∧ r ≠ runeEof)
    (hf : s.length + 1 < fuel) :
    NextToken fuel pos (96 :: (s ++ 96 :: rest)) pk
      { k := lexKind.RawString, s := s.map writeRune, pos := pos }
      (posAfter pos (96 :: (s ++ [96]))) rest :=
  fun _ hr => readToken_raw hr hpk hs hf

theorem NextToken_eof (fuel : Nat) (pos : LexPos) (pk : lexKind) (hf : 0 < fuel) :
    NextToken fuel pos [] pk { k := lexKind.Eof, s := [], pos := pos } pos [] := by
  intro lex hr
  obtain ⟨n, rfl⟩ : ∃ n, fuel = n + 1 := ⟨fuel - 1, by omega⟩
  obtain ⟨h1, h2, -⟩ := lexer.Ready.readRune_nil hr
  refine readToken_ready ?_ h2
  rw [lexer.readTokenBegin]
  simp only [h1]
  rw [if_pos trivial]

theorem NextToken_struct (fuel : Nat) (pos : LexPos) (r : rune) (k : lexKind)
    (rest : List rune) (pk : lexKind) (hk : structKind r = some k) (hf : 0 < fuel) :
    NextToken fuel pos (r :: rest) pk { k := k, s := [], pos := pos } (pos.update r) rest := by
  intro lex hr
  obtain ⟨n, rfl⟩ : ∃ n, fuel = n + 1 := ⟨fuel - 1, by omega⟩
  obtain ⟨h1, h2⟩ := lexer.Ready.readRune_cons hr
  refine readToken_ready ?_ h2
  rw [lexer.readTokenBegin]
  simp only [h1]
  unfold structKind at hk
  by_cases h58 : r = 58
  · subst h58
    simp only [if_true, Option.some.injEq] at hk
    subst hk
    rfl
  rw [if_neg h58] at hk
  by_cases h123 : r = 123
  · subst h123
    simp only [if_true, Option.some.injEq] at hk
    subst hk
    rfl
  rw [if_neg h123] at hk
  by_cases h125 : r = 125
  · subst h125
    simp only [if_true, Option.some.injEq] at hk
    subst hk
    rfl
  rw [if_neg h125] at hk
  by_cases h91 : r = 91
  · subst h91
    simp only [if_true, Option.some.injEq] at hk
    subst hk
    rfl
  rw [if_neg h91] at hk
  by_cases h93 : r = 93
  · subst h93
    simp only [if_true, Option.some.injEq] at hk
    subst hk
    rfl
  rw [if_neg h93] at hk
  cases hk

/-! ## The token loop of the test helper -/

theorem lexLoop_next {n : Nat} {lex lex1 : lexer} {tok : lexToken} (toks : List lexToken)
    (h : lex.readToken n = some (tok, none, lex1)) (hk : tok.k ≠ lexKind.Eof) :
    lexLoop (n + 1) lex toks = lexLoop n lex1 (toks ++ [tok]) := by
  rw [lexLoop, h]
  simp only [if_neg hk]

theorem lexLoop_last {n : Nat} {lex lex1 : lexer} {tok : lexToken} (toks : List lexToken)
    (h : lex.readToken n = some (tok, none, lex1)) (hk : tok.k = lexKind.Eof) :
    lexLoop (n + 1) lex toks = some (Except.ok (toks ++ [tok])) := by
  rw [lexLoop, h]
  simp only [if_pos hk]

/-- A single token spanning the whole input, followed by the end-of-stream token. -/
theorem lex_single (fuel : Nat) (input : List rune) (tok : lexToken)
    (hk : tok.k ≠ lexKind.Eof) (hf : 3 ≤ fuel)
    (h : NextToken (fuel - 1) { Line := 1, Column := 0 } input lexKind.Eof tok
      (posAfter { Line := 1, Column := 0 } input) []) :
    lex fuel input = some (Except.ok [tok,
      { k := lexKind.Eof, s := [], pos := posAfter { Line := 1, Column := 0 } input }]) := by
  obtain ⟨n, rfl⟩ : ∃ n, fuel = n + 3 := ⟨fuel - 3, by omega⟩
  obtain ⟨lex1, h1, h2⟩ := h _ (newLexer_Ready input)
  obtain ⟨lex2, h3, -⟩ := NextToken_eof (n + 1) _ tok.k (by omega) lex1 h2
  have h1n : (newLexer { runes := input, err := none }).readToken (n + 2) =
      some (tok, none, lex1) := h1
  unfold lex
  rw [lexLoop_next [] h1n hk, lexLoop_last _ h3 rfl]
  rfl

/-! ## Parser steps from a ready state -/

theorem parser.PReady.es_ok {p : parser} {tok : lexToken} {pos : LexPos} {rest : List rune}
    (h : p.PReady tok pos rest) : p.es.Ok = true := by
  simp [Sink.Ok, h.1]

theorem consume_ready {n : Nat} {p : parser} {tok tok2 : lexToken} {pos pos2 : LexPos}
    {input rest : List rune} (h : p.PReady tok pos input) (hk : tok.k ≠ lexKind.Eof)
    (hn : NextToken n pos input tok.k tok2 pos2 rest) :
    ∃ p1, p.consume n = some p1 ∧ p1.PReady tok2 pos2 rest ∧ p1.prev = tok := by
  obtain ⟨h1, h2, h3⟩ := h
  obtain ⟨lex1, e1, e2⟩ := hn _ h3
  refine ⟨{ lexer := lex1, next := tok2, prev := tok, es := { cause := none } }, ?_,
    ⟨rfl, rfl, e2⟩, rfl⟩
  unfold parser.consume parser.lex
  simp only [h2, ne_eq, hk, not_false_eq_true, if_true, e1, Sink.Send, h1]

theorem accept_no {n : Nat} {p : parser} {k : lexKind} (h : p.next.k ≠ k) :
    p.accept n k = some (false, p) := by
  unfold parser.accept
  rw [if_neg h]

theorem accept_yes {n : Nat} {p : parser} {tok tok2 : lexToken} {pos pos2 : LexPos}
    {input rest : List rune} (h : p.PReady tok pos input) (hk : tok.k ≠ lexKind.Eof)
    (hn : NextToken n pos input tok.k tok2 pos2 rest) :
    ∃ p1, p.accept n tok.k = some (true, p1) ∧ p1.PReady tok2 pos2 rest ∧ p1.prev = tok := by
  obtain ⟨p1, e1, e2, e3⟩ := consume_ready h hk hn
  refine ⟨p1, ?_, e2, e3⟩
  unfold parser.accept
  rw [if_pos (by rw [h.2.1]), e1]

theorem parseString_ready {n : Nat} {p : parser} {tok tok2 : lexToken} {pos pos2 : LexPos}
    {input rest : List rune} (h : p.PReady tok pos input) (hk : tok.k ≠ lexKind.Eof)
    (hn : NextToken n pos input tok.k tok2 pos2 rest) :
    ∃ p1, p.parseString n = some ({ pos := tok.pos, V := tok.s }, p1) ∧
      p1.PReady tok2 pos2 rest := by
  obtain ⟨p1, e1, e2, e3⟩ := consume_ready h hk hn
  refine ⟨p1, ?_, e2⟩
  unfold parser.parseString
  simp only [e1, e3]

theorem parseRoot_ready {fuel : Nat} {input rest : List rune} {tok : lexToken} {pos : LexPos}
    (hn : NextToken fuel { Line := 1, Column := 0 } input lexKind.Eof tok pos rest) :
    ∃ p, (newParser { runes := input, err := none }).parseRoot fuel =
        parser.parseRootLoop fuel p [] ∧ p.PReady tok pos rest := by
  obtain ⟨lex1, e1, e2⟩ := hn _ (newLexer_Ready input)
  refine ⟨⟨lex1, tok, { k := lexKind.Eof, s := [], pos := { Line := 0, Column := 0 } },
      { cause := none }⟩, ?_, ⟨rfl, rfl, e2⟩⟩
  unfold parser.parseRoot parser.lex
  simp only [newParser, e1, Sink.Send]

theorem parseRootLoop_eof {n : Nat} {p : parser} {tok : lexToken} {pos : LexPos}
    {rest : List rune} (h : p.PReady tok pos rest) (hk : tok.k = lexKind.Eof)
    (elems : List Elem) :
    parser.parseRootLoop (n + 1) p elems = some (elems, p) := by
  have hk2 : p.next.k = lexKind.Eof := by rw [h.2.1]; exact hk
  rw [parser.parseRootLoop, if_pos h.es_ok, accept_no (by rw [hk2]; decide)]
  simp [parser.isP, parser.is, lexToken.isString, lexKind.isString, hk2]

theorem parseRootLoop_string {n : Nat} {p : parser} {tok tok2 : lexToken} {pos pos2 : LexPos}
    {input rest : List rune} (h : p.PReady tok pos input) (hk : tok.isString = true)
    (hn : NextToken n pos input tok.k tok2 pos2 rest) (elems : List Elem) :
    ∃ p1, parser.parseRootLoop (n + 1) p elems =
        parser.parseRootLoop n p1 (elems ++ [Elem.String { pos := tok.pos, V := tok.s }]) ∧
      p1.PReady tok2 pos2 rest := by
  obtain ⟨p1, e1, e2⟩ := parseString_ready h (isString_ne_eof _ hk) hn
  refine ⟨p1, ?_, e2⟩
  have hs : p.next.k ≠ lexKind.Space := by
    rw [h.2.1]; intro hc; simp [lexToken.isString, lexKind.isString, hc] at hk
  rw [parser.parseRootLoop, if_pos h.es_ok, accept_no hs]
  simp only [parser.isP, h.2.1, hk, if_true, e1]

theorem parseRootLoop_space {n : Nat} {p : parser} {tok tok2 : lexToken} {pos pos2 : LexPos}
    {input rest : List rune} (h : p.PReady tok pos input) (hk : tok.k = lexKind.Space)
    (hn : NextToken n pos input tok.k tok2 pos2 rest) (elems : List Elem) :
    ∃ p1, parser.parseRootLoop (n + 1) p elems = parser.parseRootLoop n p1 elems ∧
      p1.PReady tok2 pos2 rest := by
  obtain ⟨p1, e1, e2, -⟩ := accept_yes h (by rw [hk]; decide) hn
  refine ⟨p1, ?_, e2⟩
  rw [hk] at e1
  rw [parser.parseRootLoop, if_pos h.es_ok, e1]

theorem Parse_of_parseRoot {fuel : Nat} {reader : RuneReader} {elems : List Elem}
    {p : parser} (h : (newParser reader).parseRoot fuel = some (elems, p))
    (he : p.es.cause = none) : Parse fuel reader = some (elems, none) := by
  unfold Parse
  rw [h]
  simp [parser.err, Sink.Cause, he]

/-- A document that is a single string token. -/
theorem Parse_single_string (fuel : Nat) (input : List rune) (tok : lexToken)
    (hk : tok.isString = true) (hf : 3 ≤ fuel)
    (h : NextToken fuel { Line := 1, Column := 0 } input lexKind.Eof tok
      (posAfter { Line := 1, Column := 0 } input) []) :
    Parse fuel { runes := input, err := none } =
      some ([Elem.String { pos := tok.pos, V := tok.s }], none) := by
  obtain ⟨n, rfl⟩ : ∃ n, fuel = n + 3 := ⟨fuel - 3, by omega⟩
  obtain ⟨p, e1, e2⟩ := parseRoot_ready h
  obtain ⟨p1, e3, e4⟩ := parseRootLoop_string e2 hk
    (NextToken_eof (n + 2) _ tok.k (by omega)) []
  have e5 := parseRootLoop_eof (n := n + 1) e4 rfl
    ([] ++ [Elem.String { pos := tok.pos, V := tok.s }])
  apply Parse_of_parseRoot (p := p1)
  · rw [e1, e3, e5]; rfl
  · exact e4.1

/-- C10: for every string `s` of valid runes without backtick (96), whatever else it
contains, and every fuel of at least three units per rune of the input plus eight, lexing
backtick + `s` + backtick yields exactly the raw-string token with text `s` at 1:0
followed by the end-of-stream token, and `Parse` of the same input yields exactly one
String element with value `s`. -/
theorem C10_raw_string (s : List rune) (hs : ∀ r ∈ s, validRune r ∧ r ≠ 96) (fuel : Nat)
    (hf : 3 * (96 :: (s ++ [96])).length + 8 ≤ fuel) :
    lex fuel (96 :: (s ++ [96])) =
      some (Except.ok [
        { k := lexKind.RawString, s := s, pos := { Line := 1, Column := 0 } },
        { k := lexKind.Eof, s := [],
          pos := posAfter { Line := 1, Column := 0 } (96 :: (s ++ [96])) }]) ∧
    Parse fuel { runes := 96 :: (s ++ [96]), err := none } =
      some ([Elem.String { pos := { Line := 1, Column := 0 }, V := s }], none) := by
  simp only [List.length_cons, List.length_append, List.length_nil] at hf
  have hs1 : ∀ r ∈ s, r ≠ 96 ∧ r ≠ runeEof :=
    fun r hr => ⟨(hs r hr).2, validRune_ne_eof (hs r hr).1⟩
  have hm : s.map writeRune = s := map_writeRune_valid (fun r hr => (hs r hr).1)
  have key : ∀ n, s.length + 1 < n →
      NextToken n { Line := 1, Column := 0 } (96 :: (s ++ [96])) lexKind.Eof
        { k := lexKind.RawString, s := s, pos := { Line := 1, Column := 0 } }
        (posAfter { Line := 1, Column := 0 } (96 :: (s ++ [96]))) [] := by
    intro n hn
    have := NextToken_raw n { Line := 1, Column := 0 } s [] lexKind.Eof rfl hs1 hn
    rw [hm] at this
    exact this
  constructor
  · exact lex_single fuel _ _ (by simp) (by omega) (key _ (by omega))
  · exact Parse_single_string fuel _
      { k := lexKind.RawString, s := s, pos := { Line := 1, Column := 0 } } rfl (by omega)
      (key _ (by omega))

theorem C10_raw_string_witness :
    (∀ r ∈ [92, 34, 47, 47, 123, 10, 97], validRune r ∧ r ≠ 96) ∧
    3 * (96 :: ([92, 34, 47, 47, 123, 10, 97] ++ [96])).length + 8 ≤ 35 ∧
    (lex 35 (96 :: ([92, 34, 47, 47, 123, 10, 97] ++ [96])) =
      some (Except.ok [
        { k := lexKind.RawString, s := [92, 34, 47, 47, 123, 10, 97],
          pos := { Line := 1, Column := 0 } },
        { k := lexKind.Eof, s := [],
          pos := posAfter { Line := 1, Column := 0 }
            (96 :: ([92, 34, 47, 47, 123, 10, 97] ++ [96])) }]) ∧
    Parse 35 { runes := 96 :: ([92, 34, 47, 47, 123, 10, 97] ++ [96]), err := none } =
      some ([Elem.String
        { pos := { Line := 1, Column := 0 }, V := [92, 34, 47, 47, 123, 10, 97] }], none)) :=
  ⟨by decide, by decide,
    C10_raw_string [92, 34, 47, 47, 123, 10, 97] (by decide) 35 (by decide)⟩

/-! ## Interpreted strings -/

/-- One step of the interpreted-string loop outside an escape, on an ordinary rune. -/
theorem lexInterpretedLoop_plain {n : Nat} {lex : lexer} {pos : LexPos} {a : rune}
    {rs : List rune} {pk : lexKind} (sb : Text) (hr : lex.Ready pos (a :: rs) pk)
    (h1 : a ≠ runeEof) (h2 : a ≠ 92) (h3 : a ≠ 10) (h4 : a ≠ 13) (h5 : a ≠ 34) :
    lex.lexInterpretedLoop (n + 1) sb false =
      lex.readRune.2.lexInterpretedLoop n (sb ++ [writeRune a]) false ∧
    lex.readRune.2.Ready (pos.update a) rs pk := by
  obtain ⟨e1, e2⟩ := lexer.Ready.readRune_cons hr
  refine ⟨?_, e2⟩
  rw [lexer.lexInterpretedLoop]
  simp only [e1]
  rw [if_neg h1]
  simp only [Bool.false_eq_true, if_false]
  rw [if_neg h2, if_neg (by intro h; rcases h with h | h; exact h3 h; exact h4 h), if_neg h5]

/-- Two steps of the interpreted-string loop on a backslash and a known escape rune. -/
theorem lexInterpretedLoop_escape {n : Nat} {lex : lexer} {pos : LexPos} {c : rune}
    {rs : List rune} {pk : lexKind} (sb : Text) (out : rune)
    (hr : lex.Ready pos (92 :: c :: rs) pk)
    (hc : (c = 92 ∧ out = 92) ∨ (c = 34 ∧ out = 34) ∨ (c = 110 ∧ out = 10) ∨
      (c = 114 ∧ out = 13) ∨ (c = 116 ∧ out = 9)) :
    ∃ lex1 : lexer, lex.lexInterpretedLoop (n + 2) sb false =
        lex1.lexInterpretedLoop n (sb ++ [out]) false ∧
      lex1.Ready ((pos.update 92).update c) rs pk := by
  obtain ⟨e1, e2⟩ := lexer.Ready.readRune_cons hr
  obtain ⟨e3, e4⟩ := lexer.Ready.readRune_cons e2
  refine ⟨lex.readRune.2.readRune.2, ?_, e4⟩
  rw [lexer.lexInterpretedLoop]
  simp only [e1]
  rw [if_neg (by decide)]
  simp only [Bool.false_eq_true, if_false, if_true]
  rw [lexer.lexInterpretedLoop]
  simp only [e3]
  rcases hc with ⟨h, ho⟩ | ⟨h, ho⟩ | ⟨h, ho⟩ | ⟨h, ho⟩ | ⟨h, ho⟩ <;> subst h <;> subst ho <;>
    simp [runeEof]

theorem lexInterpretedLoop_ready (rest : List rune) (pk : lexKind) :
    ∀ (s : List rune) (lex : lexer) (pos : LexPos) (sb : Text) (fuel : Nat),
    lex.Ready pos (esc s ++ 34 :: rest) pk → (∀ r ∈ s, validRune r) →
    (esc s).length < fuel →
    ∃ lex1, lex.lexInterpretedLoop fuel sb false =
        some (Sum.inr (sb ++ s, { r := 34, pos := posAfter pos (esc s) }), lex1) ∧
      lex1.Ready (posAfter pos (esc s ++ [34])) rest pk := by
  intro s
  induction s with
  | nil =>
    intro lex pos sb fuel hr hs hf
    obtain ⟨n, rfl⟩ : ∃ n, fuel = n + 1 := ⟨fuel - 1, by omega⟩
    obtain ⟨h1, h2⟩ := lexer.Ready.readRune_cons hr
    refine ⟨lex.readRune.2, ?_, h2⟩
    rw [lexer.lexInterpretedLoop]
    simp only [h1]
    simp [runeEof, esc, posAfter]
  | cons a s ih =>
    intro lex pos sb fuel hr hs hf
    have hv := hs a (List.mem_cons_self _ _)
    have hs2 : ∀ r ∈ s, validRune r := fun r hr => hs r (List.mem_cons_of_mem _ hr)
    have two : ∀ (c out : rune), escRune a = [92, c] →
        ((c = 92 ∧ out = 92) ∨ (c = 34 ∧ out = 34) ∨ (c = 110 ∧ out = 10) ∨
          (c = 114 ∧ out = 13) ∨ (c = 116 ∧ out = 9)) → out = a →
        ∃ lex1, lex.lexInterpretedLoop fuel sb false =
          some (Sum.inr (sb ++ a :: s, { r := 34, pos := posAfter pos (esc (a :: s)) }), lex1) ∧
        lex1.Ready (posAfter pos (esc (a :: s) ++ [34])) rest pk := by
      intro c out he hc ho
      simp only [esc, he, List.cons_append, List.nil_append, List.length_cons] at hr hf ⊢
      obtain ⟨n, rfl⟩ : ∃ n, fuel = n + 2 := ⟨fuel - 2, by omega⟩
      obtain ⟨lex1, e1, e2⟩ := lexInterpretedLoop_escape sb out hr hc
      obtain ⟨lex2, e3, e4⟩ := ih lex1 _ (sb ++ [out]) n e2 hs2 (by omega)
      refine ⟨lex2, ?_, e4⟩
      rw [e1, e3, ho]
      simp [posAfter]
    by_cases h92 : a = 92
    · exact two 92 92 (by simp [escRune, h92]) (by simp) h92.symm
    by_cases h34 : a = 34
    · exact two 34 34 (by simp [escRune, h34]) (by simp) h34.symm
    by_cases h10 : a = 10
    · exact two 110 10 (by simp [escRune, h10]) (by simp) h10.symm
    by_cases h13 : a = 13
    · exact two 114 13 (by simp [escRune, h13]) (by simp) h13.symm
    by_cases h9 : a = 9
    · exact two 116 9 (by simp [escRune, h9]) (by simp) h9.symm
    have he : escRune a = [a] := by simp [escRune, h92, h34, h10, h13, h9]
    simp only [esc, he, List.cons_append, List.nil_append, List.length_cons] at hr hf ⊢
    obtain ⟨n, rfl⟩ : ∃ n, fuel = n + 1 := ⟨fuel - 1, by omega⟩
    obtain ⟨e1, e2⟩ := lexInterpretedLoop_plain (n := n) sb hr (validRune_ne_eof hv) h92 h10 h13 h34
    obtain ⟨lex2, e3, e4⟩ := ih _ _ (sb ++ [writeRune a]) n e2 hs2 (by omega)
    refine ⟨lex2, ?_, e4⟩
    rw [e1, e3, writeRune_valid hv]
    simp [posAfter]

theorem NextToken_interp (fuel : Nat) (pos : LexPos) (s rest : List rune) (pk : lexKind)
    (hpk : pk.isString = false) (hs : ∀ r ∈ s, validRune r)
    (hf : (esc s).length + 1 < fuel) :
    NextToken fuel pos (34 :: (esc s ++ 34 :: rest)) pk
      { k := lexKind.InterpString, s := s, pos := pos }
      (posAfter pos (34 :: (esc s ++ [34]))) rest := by
  intro lex hr
  obtain ⟨n, rfl⟩ : ∃ n, fuel = n + 1 := ⟨fuel - 1, by omega⟩
  obtain ⟨h1, h2⟩ := lexer.Ready.readRune_cons hr
  obtain ⟨lex1, e1, e2⟩ := lexInterpretedLoop_ready rest pk s lex.readRune.2 (pos.update 34) []
    n h2 hs (by omega)
  refine readToken_ready ?_ e2
  rw [lexer.readTokenBegin]
  simp only [h1]
  rw [if_neg (by decide), if_neg (by decide)]
  simp only [show isSpace 34 = false by decide, Bool.false_eq_true, if_false]
  rw [if_neg (by decide), if_neg (by decide), if_neg (by decide), if_neg (by decide),
    if_neg (by decide), if_pos trivial]
  unfold lexer.lexInterpretedString lexer.checkJoinedStrings
  rw [h2.2.2.1, hpk]
  simp only [Bool.false_eq_true, if_false, e1, List.nil_append, ne_eq, not_true_eq_false]

/-- C9: for every string `s` of valid runes and every fuel of at least three units per
rune of the input plus eight, lexing the double quote, `esc s` and the double quote
succeeds and yields exactly the interpreted-string token at 1:0 whose text is `s`,
followed by the end-of-stream token. -/
theorem C9_interp_string_unescape (s : List rune) (hs : ∀ r ∈ s, validRune r) (fuel : Nat)
    (hf : 3 * (34 :: (esc s ++ [34])).length + 8 ≤ fuel) :
    lex fuel (34 :: (esc s ++ [34])) =
      some (Except.ok [
        { k := lexKind.InterpString, s := s, pos := { Line := 1, Column := 0 } },
        { k := lexKind.Eof, s := [],
          pos := posAfter { Line := 1, Column := 0 } (34 :: (esc s ++ [34])) }]) := by
  simp only [List.length_cons, List.length_append, List.length_nil] at hf
  exact lex_single fuel _ _ (by simp) (by omega)
    (NextToken_interp _ _ s [] lexKind.Eof rfl hs (by omega))

theorem C9_interp_string_unescape_witness :
    (∀ r ∈ [97, 92, 34, 10, 13, 9, 32, 98], validRune r) ∧
    3 * (34 :: (esc [97, 92, 34, 10, 13, 9, 32, 98] ++ [34])).length + 8 ≤ 53 ∧
    esc [97, 92, 34, 10, 13, 9, 32, 98] =
      [97, 92, 92, 92, 34, 92, 110, 92, 114, 92, 116, 32, 98] ∧
    lex 53 (34 :: (esc [97, 92, 34, 10, 13, 9, 32, 98] ++ [34])) =
      some (Except.ok [
        { k := lexKind.InterpString, s := [97, 92, 34, 10, 13, 9, 32, 98],
          pos := { Line := 1, Column := 0 } },
        { k := lexKind.Eof, s := [],
          pos := posAfter { Line := 1, Column := 0 }
            (34 :: (esc [97, 92, 34, 10, 13, 9, 32, 98] ++ [34])) }]) :=
  ⟨by decide, by decide, by decide,
    C9_interp_string_unescape [97, 92, 34, 10, 13, 9, 32, 98] (by decide) 53 (by decide)⟩

/-! ## Symbol strings -/

theorem NextToken_of_Begin {fuel : Nat} {pos pos1 : LexPos} {input rest : List rune}
    {pk : lexKind} {tok : lexToken} (h : BeginToken fuel pos input pk tok pos1 rest) :
    NextToken fuel pos input pk tok pos1 rest := by
  intro lex hr
  obtain ⟨lex1, e1, e2⟩ := h lex hr
  exact readToken_ready e1 e2

/-- Peeking from a ready state leaves it ready, whatever comes next, provided the next
rune is not the sentinel. -/
theorem lexer.Ready.peekRune {lex : lexer} {pos : LexPos} {input : List rune}
    {pk : lexKind} (h : lex.Ready pos input pk) (hh : input.head? ≠ some runeEof) :
    lex.peekRune.2.Ready pos input pk ∧
    (lex.peekRune.1.r = 47 ↔ input.head? = some 47) := by
  cases input with
  | nil =>
    obtain ⟨e1, e2⟩ := h.peekRune_nil
    refine ⟨e2, ?_⟩
    rw [e1]
    simp [runeEof]
  | cons a rs =>
    have ha : a ≠ runeEof := by
      intro hc; apply hh; rw [hc]; rfl
    obtain ⟨e1, e2⟩ := h.peekRune_cons ha
    refine ⟨e2, ?_⟩
    rw [e1]
    simp

theorem lexSymbolLoop_ready (rest : List rune) (pk : lexKind) :
    ∀ (s : List rune) (lex : lexer) (pos : LexPos) (sb : Text) (fuel : Nat),
    lex.Ready pos (s ++ rest) pk → symBody s rest → s.length < fuel →
    ∃ lr lex1, lex.lexSymbolLoop fuel sb = some (sb ++ s.map writeRune, lr, lex1) ∧
      (lex1.unreadRune lr).Ready (posAfter pos s) rest pk := by
  intro s
  induction s with
  | nil =>
    intro lex pos sb fuel hr hb hf
    obtain ⟨n, rfl⟩ : ∃ n, fuel = n + 1 := ⟨fuel - 1, by omega⟩
    simp only [List.nil_append] at hr
    simp only [symBody] at hb
    rw [lexer.lexSymbolLoop]
    simp only [List.map_nil, List.append_nil, posAfter]
    cases rest with
    | nil =>
      obtain ⟨e1, e2, -⟩ := hr.readRune_nil
      refine ⟨lex.readRune.1, lex.readRune.2, ?_, ?_⟩
      · simp only [e1]
        simp [symbolPredicate, runeEof, isSpace]
      · rw [e1, unreadRune_eof]; exact e2
    | cons t rs =>
      obtain ⟨b1, b2, b3⟩ := hb
      obtain ⟨e1, e2⟩ := hr.readRune_cons
      by_cases h47 : t = 47
      · subst h47
        have hh := b3 rfl
        obtain ⟨p1, p2⟩ := e2.peekRune (by rw [hh]; simp [runeEof])
        have hp47 : lex.readRune.2.peekRune.1.r = 47 := p2.mpr hh
        refine ⟨lex.readRune.1, lex.readRune.2.peekRune.2, ?_, ?_⟩
        · simp only [e1, b1, Bool.false_eq_true, if_false, if_true, hp47, ne_eq,
            not_true_eq_false]
        · rw [e1]; exact p1.unreadRune b2
      · refine ⟨lex.readRune.1, lex.readRune.2, ?_, ?_⟩
        · simp only [e1, b1, Bool.false_eq_true, if_false, h47]
        · rw [e1]; exact e2.unreadRune b2
  | cons a s ih =>
    intro lex pos sb fuel hr hb hf
    obtain ⟨n, rfl⟩ : ∃ n, fuel = n + 1 := ⟨fuel - 1, by omega⟩
    simp only [List.cons_append] at hr
    simp only [symBody] at hb
    obtain ⟨hb1, hb2⟩ := hb
    obtain ⟨e1, e2⟩ := hr.readRune_cons
    rw [lexer.lexSymbolLoop]
    simp only [e1, List.map_cons, posAfter]
    rcases hb1 with hp | ⟨h47, hn47, hne⟩
    · obtain ⟨lr, lex1, i1, i2⟩ := ih lex.readRune.2 (pos.update a) (sb ++ [writeRune a]) n
        e2 hb2 (by simp at hf; omega)
      refine ⟨lr, lex1, ?_, i2⟩
      rw [if_pos hp, i1]
      simp
    · obtain ⟨p1, p2⟩ := e2.peekRune hne
      obtain ⟨lr, lex1, i1, i2⟩ := ih lex.readRune.2.peekRune.2 (pos.update a)
        (sb ++ [writeRune a]) n p1 hb2 (by simp at hf; omega)
      refine ⟨lr, lex1, ?_, i2⟩
      have hpf : symbolPredicate a = false := by rw [h47]; decide
      rw [hpf]
      simp only [Bool.false_eq_true, if_false]
      rw [if_pos h47, if_pos (by rw [ne_eq, p2]; exact hn47), i1]
      simp

/-- A symbol string read by the body of `readToken`. -/
theorem BeginToken_symbol (fuel : Nat) (pos : LexPos) (a : rune) (s rest : List rune)
    (pk : lexKind) (hpk : pk.isString = false) (hb : symBody (a :: s) rest)
    (hf : s.length + 1 < fuel) :
    BeginToken fuel pos (a :: (s ++ rest)) pk
      { k := lexKind.SymbolString, s := (a :: s).map writeRune, pos := pos }
      (posAfter pos (a :: s)) rest := by
  intro lex hr
  obtain ⟨n, rfl⟩ : ∃ n, fuel = n + 1 := ⟨fuel - 1, by omega⟩
  simp only [symBody] at hb
  obtain ⟨hb1, hb2⟩ := hb
  obtain ⟨e1, e2⟩ := hr.readRune_cons
  have scan : ∀ lx : lexer, lx.Ready (pos.update a) (s ++ rest) pk →
      ∃ lex1, lx.lexSymbolString n { r := a, pos := pos } =
        some ({ k := lexKind.SymbolString, s := (a :: s).map writeRune, pos := pos }, lex1) ∧
      lex1.Ready (posAfter pos (a :: s)) rest pk := by
    intro lx hlx
    obtain ⟨lr, lex1, i1, i2⟩ := lexSymbolLoop_ready rest pk s lx (pos.update a)
      [writeRune a] n hlx hb2 (by omega)
    refine ⟨lex1.unreadRune lr, ?_, i2⟩
    unfold lexer.lexSymbolString lexer.checkJoinedStrings
    rw [hlx.2.2.1, hpk]
    simp only [Bool.false_eq_true, if_false, i1]
    simp
  rw [lexer.readTokenBegin]
  simp only [e1]
  rcases hb1 with hp | ⟨h47, hn47, hne⟩
  · have hp2 := hp
    simp only [symbolPredicate, Bool.not_eq_true', Bool.or_eq_false_iff,
      decide_eq_false_iff_not] at hp2
    obtain ⟨⟨⟨⟨⟨⟨⟨⟨⟨⟨q1, q2⟩, q3⟩, q4⟩, q5⟩, q6⟩, q7⟩, q8⟩, q9⟩, q10⟩, q11⟩ := hp2
    rw [if_neg q11, if_neg q10, q1]
    simp only [Bool.false_eq_true, if_false]
    rw [if_neg q9, if_neg q5, if_neg q6, if_neg q7, if_neg q8, if_neg q4, if_neg q3]
    exact scan _ e2
  · obtain ⟨p1, p2⟩ := e2.peekRune hne
    rw [if_neg (by rw [h47]; decide), if_pos h47]
    have hpk1 : lex.readRune.2.readRune.1 = lex.readRune.2.peekRune.1 := rfl
    have hpk2 : lex.readRune.2.readRune.2.unreadRune lex.readRune.2.readRune.1 =
        lex.readRune.2.peekRune.2 := rfl
    rw [hpk2, hpk1, if_neg (by rw [p2]; exact hn47)]
    exact scan _ p1

/-! ## Columns without tabs and newlines -/

theorem wrapInt32_add (x y : Int) : wrapInt32 (wrapInt32 x + y) = wrapInt32 (x + y) := by
  unfold wrapInt32; omega

theorem wrapInt32_id (x : Int) (h1 : -2147483648 ≤ x) (h2 : x < 2147483648) :
    wrapInt32 x = x := by
  unfold wrapInt32; omega

theorem posAfter_plain : ∀ (s : List rune) (pos : LexPos), (∀ r ∈ s, r ≠ 9 ∧ r ≠ 10) →
    posAfter pos s =
      if s = [] then pos
      else { Line := pos.Line, Column := wrapInt32 (pos.Column + s.length) } := by
  intro s
  induction s with
  | nil => intro pos _; rfl
  | cons a s ih =>
    intro pos hs
    obtain ⟨h9, h10⟩ := hs a (List.mem_cons_self _ _)
    have hu : pos.update a = { Line := pos.Line, Column := wrapInt32 (pos.Column + 1) } := by
      simp [LexPos.update, h9, h10]
    rw [posAfter, ih _ (fun r hr => hs r (List.mem_cons_of_mem _ hr)), hu]
    simp only [List.cons_ne_nil, if_false, List.length_cons, Nat.cast_add, Nat.cast_one]
    split
    · next hn => subst hn; simp
    · rw [wrapInt32_add]
      congr 2
      omega

theorem symbolRune_plain {r : rune} (h : symbolRune r) : r ≠ 9 ∧ r ≠ 10 := by
  obtain ⟨-, h2, -⟩ := h
  constructor <;> (intro hc; subst hc; simp [isSpace] at h2)

theorem symbolRune_pred {r : rune} (h : symbolRune r) (h47 : r ≠ 47) :
    symbolPredicate r = true := by
  obtain ⟨h1, h2, h3, h4, h5, h6, h7, h8, h9, h10⟩ := h
  simp [symbolPredicate, h2, h3, h4, h5, h6, h7, h8, h9, h10, h47, validRune_ne_eof h1]

theorem symBody_of_symbolRunes : ∀ (s : List rune), (∀ r ∈ s, symbolRune r) →
    noDoubleSlash s = true → symBody s [] := by
  intro s
  induction s with
  | nil => intro _ _; trivial
  | cons a s ih =>
    intro hs hd
    have ha := hs a (List.mem_cons_self _ _)
    have hs2 : ∀ r ∈ s, symbolRune r := fun r hr => hs r (List.mem_cons_of_mem _ hr)
    simp only [noDoubleSlash, Bool.and_eq_true, Bool.not_eq_true', Bool.and_eq_false_iff,
      decide_eq_false_iff_not] at hd
    obtain ⟨hd1, hd2⟩ := hd
    refine ⟨?_, ih hs2 hd2⟩
    by_cases h47 : a = 47
    · right
      refine ⟨h47, ?_, ?_⟩
      · rw [List.append_nil]
        rcases hd1 with h | h
        · exact absurd h47 h
        · exact h
      · cases s with
        | nil => simp
        | cons b s =>
          simp only [List.append_nil, List.head?_cons, ne_eq, Option.some.injEq]
          exact validRune_ne_eof (hs2 b (List.mem_cons_self _ _)).1
    · left
      exact symbolRune_pred ha h47

/-- The tokens of an input that is one symbol string; the column of the end-of-stream token
is the length of the input in `int32` arithmetic. -/
theorem lex_symbol (s : List rune) (hne : s ≠ []) (hs : ∀ r ∈ s, symbolRune r)
    (hd : noDoubleSlash s = true) (fuel : Nat) (hf : 3 * s.length + 8 ≤ fuel) :
    lex fuel s =
      some (Except.ok [
        { k := lexKind.SymbolString, s := s, pos := { Line := 1, Column := 0 } },
        { k := lexKind.Eof, s := [],
          pos := { Line := 1, Column := wrapInt32 (s.length : Int) } }]) := by
  have hb := symBody_of_symbolRunes s hs hd
  have hp := posAfter_plain s { Line := 1, Column := 0 } (fun r hr => symbolRune_plain (hs r hr))
  rw [if_neg hne] at hp
  simp only [zero_add] at hp
  have hm : s.map writeRune = s := map_writeRune_valid (fun r hr => (hs r hr).1)
  cases s with
  | nil => exact absurd rfl hne
  | cons a s1 =>
    have key := BeginToken_symbol (fuel - 1) { Line := 1, Column := 0 } a s1 [] lexKind.Eof rfl
      hb (by simp only [List.length_cons] at hf; omega)
    rw [hm, List.append_nil] at key
    have h := lex_single fuel (a :: s1)
      { k := lexKind.SymbolString, s := a :: s1, pos := { Line := 1, Column := 0 } }
      (by simp) (by omega) (NextToken_of_Begin key)
    rw [h, hp]

theorem noDoubleSlash_replicate (n : Nat) (a : rune) (ha : a ≠ 47) :
    noDoubleSlash (List.replicate n a) = true := by
  induction n with
  | zero => rfl
  | succ n ih =>
    rw [List.replicate_succ, noDoubleSlash, ih]
    simp [ha]

/-- C7 (as amended): for every non-empty string `s` of fewer than 2^31 runes, each a
valid rune other than whitespace, backslash, backtick, double quote, `{`, `}`, `[`, `]`
and `:` (the slash is allowed), with no two consecutive slashes, and every fuel of at
least three units per rune plus eight, lexing `s` yields exactly the symbol-string token
with text `s` at 1:0 and then the end-of-stream token at column `length s`. -/
theorem C7_symbol_string (s : List rune) (hne : s ≠ []) (hs : ∀ r ∈ s, symbolRune r)
    (hd : noDoubleSlash s = true) (hlen : s.length < 2147483648) (fuel : Nat)
    (hf : 3 * s.length + 8 ≤ fuel) :
    lex fuel s =
      some (Except.ok [
        { k := lexKind.SymbolString, s := s, pos := { Line := 1, Column := 0 } },
        { k := lexKind.Eof, s := [], pos := { Line := 1, Column := (s.length : Int) } }]) := by
  rw [lex_symbol s hne hs hd fuel hf, wrapInt32_id _ (by omega) (by omega)]

theorem C7_symbol_string_witness :
    (([47, 97, 47] : List rune) ≠ [] ∧ (∀ r ∈ ([47, 97, 47] : List rune), symbolRune r) ∧
      noDoubleSlash [47, 97, 47] = true ∧ ([47, 97, 47] : List rune).length < 2147483648 ∧
      3 * ([47, 97, 47] : List rune).length + 8 ≤ 17 ∧
      lex 17 [47, 97, 47] =
        some (Except.ok [
          { k := lexKind.SymbolString, s := [47, 97, 47], pos := { Line := 1, Column := 0 } },
          { k := lexKind.Eof, s := [],
            pos := { Line := 1, Column := (([47, 97, 47] : List rune).length : Int) } }])) ∧
    lex 11 [47] =
      some (Except.ok [
        { k := lexKind.SymbolString, s := [47], pos := { Line := 1, Column := 0 } },
        { k := lexKind.Eof, s := [],
          pos := { Line := 1, Column := (([47] : List rune).length : Int) } }]) :=
  ⟨⟨by decide, by decide, by decide, by decide, by decide,
      C7_symbol_string [47, 97, 47] (by decide) (by decide) (by decide) (by decide) 17
        (by decide)⟩,
    C7_symbol_string [47] (by decide) (by decide) (by decide) (by decide) 11 (by decide)⟩

/-- C7 (counterexample): the string of 2^31 letters `a` (97) is lexed as one symbol
string, but the end-of-stream token is at column -2147483648, not at column 2147483648,
the length of the string: the `int32` column has wrapped around. -/
theorem C7_symbol_string_counterexample :
    lex 6442450952 (List.replicate 2147483648 97) =
      some (Except.ok [
        { k := lexKind.SymbolString, s := List.replicate 2147483648 97,
          pos := { Line := 1, Column := 0 } },
        { k := lexKind.Eof, s := [], pos := { Line := 1, Column := -2147483648 } }]) ∧
    (List.replicate 2147483648 (97 : rune)).length = 2147483648 := by
  have hs : ∀ r ∈ List.replicate 2147483648 (97 : rune), symbolRune r := by
    intro r hr
    rw [List.eq_of_mem_replicate hr]
    decide
  have hne : List.replicate 2147483648 (97 : rune) ≠ [] := by
    intro h
    have := congrArg List.length h
    rw [List.length_replicate] at this
    exact absurd this (by decide)
  have h := lex_symbol (List.replicate 2147483648 97) hne hs
    (noDoubleSlash_replicate _ _ (by decide)) 6442450952
    (by rw [List.length_replicate])
  rw [List.length_replicate] at h
  exact ⟨h, List.length_replicate _ _⟩

/-! ## Whitespace and comments -/

theorem lexSpaceLoop_ready (rest : List rune) (pk : lexKind) :
    ∀ (w : List rune) (lex : lexer) (pos : LexPos) (fuel : Nat),
    lex.Ready pos (w ++ rest) pk → (∀ r ∈ w, isSpace r = true) → spaceStop rest →
    w.length < fuel →
    ∃ lr lex1, lex.lexSpaceLoop fuel = some (lr, lex1) ∧
      (lex1.unreadRune lr).Ready (posAfter pos w) rest pk := by
  intro w
  induction w with
  | nil =>
    intro lex pos fuel hr _ hst hf
    obtain ⟨n, rfl⟩ : ∃ n, fuel = n + 1 := ⟨fuel - 1, by omega⟩
    simp only [List.nil_append] at hr
    rw [lexer.lexSpaceLoop]
    simp only [posAfter]
    cases rest with
    | nil =>
      obtain ⟨e1, e2, -⟩ := hr.readRune_nil
      have hc : isSpace lex.readRune.1.r = false := by rw [e1]; rfl
      refine ⟨lex.readRune.1, lex.readRune.2, ?_, ?_⟩
      · rw [if_neg (by rw [hc]; decide)]
      · rw [e1, unreadRune_eof]; exact e2
    | cons t rs =>
      obtain ⟨b1, b2⟩ := hst
      obtain ⟨e1, e2⟩ := hr.readRune_cons
      have hc : isSpace lex.readRune.1.r = false := by rw [e1]; exact b1
      refine ⟨lex.readRune.1, lex.readRune.2, ?_, ?_⟩
      · rw [if_neg (by rw [hc]; decide)]
      · rw [e1]; exact e2.unreadRune b2
  | cons a w ih =>
    intro lex pos fuel hr hw hst hf
    obtain ⟨n, rfl⟩ : ∃ n, fuel = n + 1 := ⟨fuel - 1, by omega⟩
    simp only [List.cons_append] at hr
    obtain ⟨e1, e2⟩ := hr.readRune_cons
    obtain ⟨lr, lex1, i1, i2⟩ := ih lex.readRune.2 (pos.update a) n e2
      (fun r hr => hw r (List.mem_cons_of_mem _ hr)) hst (by simp at hf; omega)
    refine ⟨lr, lex1, ?_, i2⟩
    rw [lexer.lexSpaceLoop]
    simp only [e1, hw a (List.mem_cons_self _ _), if_true, i1]

/-- The scan of a whitespace run whose first rune has been read. -/
theorem lexSpace_ready {n : Nat} {lex : lexer} {pos : LexPos} {w rest : List rune}
    {pk : lexKind} (first : lexRune) (hr : lex.Ready pos (w ++ rest) pk)
    (hw : ∀ r ∈ w, isSpace r = true) (hst : spaceStop rest) (hf : w.length < n) :
    ∃ lex1, lex.lexSpace n first =
        some ({ k := lexKind.Space, s := [], pos := first.pos }, lex1) ∧
      lex1.Ready (posAfter pos w) rest pk := by
  obtain ⟨lr, lex1, i1, i2⟩ := lexSpaceLoop_ready rest pk w lex pos n hr hw hst hf
  refine ⟨lex1.unreadRune lr, ?_, i2⟩
  unfold lexer.lexSpace
  rw [i1]

theorem readTokenBegin_space_head {n : Nat} {lex lex2 : lexer} {pos : LexPos} {a : rune}
    {rs : List rune} {pk : lexKind} {tok : lexToken} (hr : lex.Ready pos (a :: rs) pk)
    (ha : isSpace a = true)
    (hs : lex.readRune.2.lexSpace n { r := a, pos := pos } = some (tok, lex2)) :
    lex.readTokenBegin (n + 1) =
      if lex2.prevKind = lexKind.Space then lexer.readTokenBegin n lex2
      else some (tok, lex2) := by
  obtain ⟨e1, e2⟩ := hr.readRune_cons
  rw [lexer.readTokenBegin]
  simp only [e1]
  rw [if_neg (isSpace_ne_eof a ha), if_neg (by intro h; subst h; simp [isSpace] at ha)]
  simp only [ha, if_true, hs]

theorem BeginToken_space (fuel : Nat) (pos : LexPos) (a : rune) (w rest : List rune)
    (pk : lexKind) (hpk : pk ≠ lexKind.Space) (ha : isSpace a = true)
    (hw : ∀ r ∈ w, isSpace r = true) (hst : spaceStop rest) (hf : w.length + 1 < fuel) :
    BeginToken fuel pos (a :: (w ++ rest)) pk { k := lexKind.Space, s := [], pos := pos }
      (posAfter pos (a :: w)) rest := by
  intro lex hr
  obtain ⟨n, rfl⟩ : ∃ n, fuel = n + 1 := ⟨fuel - 1, by omega⟩
  obtain ⟨e1, e2⟩ := hr.readRune_cons
  obtain ⟨lex1, i1, i2⟩ := lexSpace_ready (w := w) (n := n) { r := a, pos := pos } e2 hw hst
    (by omega)
  refine ⟨lex1, ?_, i2⟩
  rw [readTokenBegin_space_head hr ha i1, if_neg (by rw [i2.2.2.1]; exact hpk)]

/-- After a whitespace token, a further whitespace run is skipped. -/
theorem BeginToken_skip_space {n : Nat} {q pos1 : LexPos} {a : rune}
    {w rest rest1 : List rune} {tok : lexToken}
    (h : BeginToken n (posAfter q (a :: w)) rest lexKind.Space tok pos1 rest1)
    (ha : isSpace a = true) (hw : ∀ r ∈ w, isSpace r = true) (hst : spaceStop rest)
    (hf : w.length < n) :
    BeginToken (n + 1) q (a :: (w ++ rest)) lexKind.Space tok pos1 rest1 := by
  intro lex hr
  obtain ⟨e1, e2⟩ := hr.readRune_cons
  obtain ⟨lex1, i1, i2⟩ := lexSpace_ready { r := a, pos := q } e2 hw hst hf
  obtain ⟨lex2, j1, j2⟩ := h lex1 i2
  refine ⟨lex2, ?_, j2⟩
  rw [readTokenBegin_space_head hr ha i1, if_pos i2.2.2.1, j1]

theorem lexCommentLoop_ready (rest : List rune) (pk : lexKind) :
    ∀ (c : List rune) (lex : lexer) (pos : LexPos) (fuel : Nat),
    lex.Ready pos (c ++ rest) pk → (∀ r ∈ c, r ≠ 10 ∧ r ≠ runeEof) → commentStop rest →
    c.length < fuel →
    ∃ lr lex1, lex.lexCommentLoop fuel = some (lr, lex1) ∧
      (lex1.unreadRune lr).Ready (posAfter pos c) rest pk := by
  intro c
  induction c with
  | nil =>
    intro lex pos fuel hr _ hst hf
    obtain ⟨n, rfl⟩ : ∃ n, fuel = n + 1 := ⟨fuel - 1, by omega⟩
    simp only [List.nil_append] at hr
    rw [lexer.lexCommentLoop]
    simp only [posAfter]
    cases rest with
    | nil =>
      obtain ⟨e1, e2, -⟩ := hr.readRune_nil
      refine ⟨lex.readRune.1, lex.readRune.2, ?_, ?_⟩
      · rw [if_neg (by rw [e1]; simp)]
      · rw [e1, unreadRune_eof]; exact e2
    | cons t rs =>
      have ht : t = 10 := hst
      subst ht
      obtain ⟨e1, e2⟩ := hr.readRune_cons
      refine ⟨lex.readRune.1, lex.readRune.2, ?_, ?_⟩
      · rw [if_neg (by rw [e1]; simp)]
      · rw [e1]; exact e2.unreadRune (by decide)
  | cons a c ih =>
    intro lex pos fuel hr hc hst hf
    obtain ⟨n, rfl⟩ : ∃ n, fuel = n + 1 := ⟨fuel - 1, by omega⟩
    simp only [List.cons_append] at hr
    obtain ⟨e1, e2⟩ := hr.readRune_cons
    obtain ⟨lr, lex1, i1, i2⟩ := ih lex.readRune.2 (pos.update a) n e2
      (fun r hr => hc r (List.mem_cons_of_mem _ hr)) hst (by simp at hf; omega)
    refine ⟨lr, lex1, ?_, i2⟩
    rw [lexer.lexCommentLoop]
    simp only [e1]
    rw [if_pos (hc a (List.mem_cons_self _ _)), i1]

/-- A comment is skipped: the token is the one that follows it. -/
theorem BeginToken_skip_comment {n : Nat} {q pos1 : LexPos} {c rest rest1 : List rune}
    {pk : lexKind} {tok : lexToken}
    (h : BeginToken n (posAfter q (47 :: 47 :: c)) rest pk tok pos1 rest1)
    (hc : ∀ r ∈ c, r ≠ 10 ∧ r ≠ runeEof) (hst : commentStop rest) (hf : c.length < n) :
    BeginToken (n + 1) q (47 :: 47 :: (c ++ rest)) pk tok pos1 rest1 := by
  intro lex hr
  obtain ⟨e1, e2⟩ := hr.readRune_cons
  obtain ⟨e3, e4⟩ := e2.readRune_cons
  obtain ⟨lr, lex1, i1, i2⟩ := lexCommentLoop_ready rest pk c _ _ n e4 hc hst hf
  obtain ⟨lex2, j1, j2⟩ := h _ i2
  refine ⟨lex2, ?_, j2⟩
  rw [lexer.readTokenBegin]
  simp only [e1, e3]
  rw [if_neg (by decide), if_pos trivial, if_pos trivial]
  unfold lexer.lexComment
  rw [i1]
  exact j1

theorem BeginToken_eof (fuel : Nat) (pos : LexPos) (pk : lexKind) (hf : 0 < fuel) :
    BeginToken fuel pos [] pk { k := lexKind.Eof, s := [], pos := pos } pos [] := by
  intro lex hr
  obtain ⟨n, rfl⟩ : ∃ n, fuel = n + 1 := ⟨fuel - 1, by omega⟩
  obtain ⟨h1, h2, -⟩ := hr.readRune_nil
  refine ⟨lex.readRune.2, ?_, h2⟩
  rw [lexer.readTokenBegin]
  simp only [h1]
  rw [if_pos trivial]

/-! ## Token sequences -/

theorem lexLoop_step {n : Nat} {lex : lexer} {pos pos1 : LexPos} {input rest : List rune}
    {pk : lexKind} {tok : lexToken} (hr : lex.Ready pos input pk)
    (h : NextToken n pos input pk tok pos1 rest) (hk : tok.k ≠ lexKind.Eof) :
    ∃ lex1, (∀ toks, lexLoop (n + 1) lex toks = lexLoop n lex1 (toks ++ [tok])) ∧
      lex1.Ready pos1 rest tok.k := by
  obtain ⟨lex1, e1, e2⟩ := h lex hr
  exact ⟨lex1, fun toks => lexLoop_next toks e1 hk, e2⟩

theorem lexLoop_end {n : Nat} {lex : lexer} {pos : LexPos} {pk : lexKind}
    (hr : lex.Ready pos [] pk) (hn : 0 < n) (toks : List lexToken) :
    lexLoop (n + 1) lex toks =
      some (Except.ok (toks ++ [{ k := lexKind.Eof, s := [], pos := pos }])) := by
  obtain ⟨lex1, e1, -⟩ := NextToken_eof n pos pk hn lex hr
  exact lexLoop_last toks e1 rfl

/-! ## Symbols, comments and whitespace in sequence -/

theorem symBody_noslash (rest : List rune) (hst : symStop rest) :
    ∀ (s : List rune), (∀ r ∈ s, symbolRune r ∧ r ≠ 47) → symBody s rest := by
  intro s
  induction s with
  | nil => intro _; exact hst
  | cons a s ih =>
    intro hs
    obtain ⟨h1, h2⟩ := hs a (List.mem_cons_self _ _)
    exact ⟨Or.inl (symbolRune_pred h1 h2), ih (fun r hr => hs r (List.mem_cons_of_mem _ hr))⟩

/-- A symbol string without slash, read by the body of `readToken`. -/
theorem BeginToken_symbol_noslash (fuel : Nat) (pos : LexPos) (s rest : List rune)
    (pk : lexKind) (hpk : pk.isString = false) (hne : s ≠ [])
    (hs : ∀ r ∈ s, symbolRune r ∧ r ≠ 47) (hst : symStop rest) (hf : s.length < fuel) :
    BeginToken fuel pos (s ++ rest) pk { k := lexKind.SymbolString, s := s, pos := pos }
      (posAfter pos s) rest := by
  have hb := symBody_noslash rest hst s hs
  have hm : s.map writeRune = s := map_writeRune_valid (fun r hr => (hs r hr).1.1)
  cases s with
  | nil => exact absurd rfl hne
  | cons a s1 =>
    have key := BeginToken_symbol fuel pos a s1 rest pk hpk hb
      (by simp only [List.length_cons] at hf; omega)
    rw [hm] at key
    exact key

theorem symStop_comment (c : List rune) : symStop (47 :: 47 :: c) :=
  ⟨by decide, by decide, fun _ => rfl⟩

theorem symStop_space {a : rune} (rest : List rune) (ha : isSpace a = true) :
    symStop (a :: rest) := by
  refine ⟨?_, isSpace_ne_eof a ha, ?_⟩
  · simp [symbolPredicate, ha]
  · intro h; subst h; simp [isSpace] at ha

theorem spaceStop_symbol {t : List rune} (ht : ∀ r ∈ t, symbolRune r ∧ r ≠ 47) :
    spaceStop t := by
  cases t with
  | nil => trivial
  | cons a t1 =>
    obtain ⟨h1, -⟩ := ht a (List.mem_cons_self _ _)
    exact ⟨h1.2.1, validRune_ne_eof h1.1⟩

/-- C8: for every non-empty symbol text `s` without slash, every comment body `c` of valid
runes without newline, every further such symbol `t` and every fuel of at least three
units per rune of the longer input plus eight: lexing `s` + `//` + `c` yields exactly the
symbol-string token with text `s` followed by the end-of-stream token, and lexing
`s` + `//` + `c` + newline + `t` yields the symbol `s`, one whitespace token (at the
newline), the symbol `t` and the end-of-stream token; no token carries any rune of the
comment. -/
theorem C8_comment_not_emitted (s c t : List rune) (hsne : s ≠ [])
    (hs : ∀ r ∈ s, symbolRune r ∧ r ≠ 47) (hc : ∀ r ∈ c, validRune r ∧ r ≠ 10)
    (htne : t ≠ []) (ht : ∀ r ∈ t, symbolRune r ∧ r ≠ 47) (fuel : Nat)
    (hf : 3 * (s ++ 47 :: 47 :: (c ++ 10 :: t)).length + 8 ≤ fuel) :
    lex fuel (s ++ 47 :: 47 :: c) =
      some (Except.ok [
        { k := lexKind.SymbolString, s := s, pos := { Line := 1, Column := 0 } },
        { k := lexKind.Eof, s := [],
          pos := posAfter { Line := 1, Column := 0 } (s ++ 47 :: 47 :: c) }]) ∧
    lex fuel (s ++ 47 :: 47 :: (c ++ 10 :: t)) =
      some (Except.ok [
        { k := lexKind.SymbolString, s := s, pos := { Line := 1, Column := 0 } },
        { k := lexKind.Space, s := [],
          pos := posAfter { Line := 1, Column := 0 } (s ++ 47 :: 47 :: c) },
        { k := lexKind.SymbolString, s := t,
          pos := posAfter { Line := 1, Column := 0 } (s ++ 47 :: 47 :: (c ++ [10])) },
        { k := lexKind.Eof, s := [],
          pos := posAfter { Line := 1, Column := 0 } (s ++ 47 :: 47 :: (c ++ 10 :: t)) }]) := by
  simp only [List.length_append, List.length_cons] at hf
  have hc1 : ∀ r ∈ c, r ≠ 10 ∧ r ≠ runeEof :=
    fun r hr => ⟨(hc r hr).2, validRune_ne_eof (hc r hr).1⟩
  obtain ⟨n, rfl⟩ : ∃ n, fuel = n + 4 := ⟨fuel - 4, by omega⟩
  constructor
  · obtain ⟨lex1, e1, r1⟩ := lexLoop_step (newLexer_Ready (s ++ 47 :: 47 :: c))
      (NextToken_of_Begin (BeginToken_symbol_noslash (n + 3) _ s (47 :: 47 :: c) lexKind.Eof rfl
        hsne hs (symStop_comment c) (by omega))) (by simp)
    have hskip := BeginToken_skip_comment (n := n + 1) (q := posAfter { Line := 1, Column := 0 } s)
      (c := c) (BeginToken_eof (n + 1) _ lexKind.SymbolString (by omega)) hc1 trivial (by omega)
    rw [List.append_nil] at hskip
    obtain ⟨lex2, e2, -⟩ := NextToken_of_Begin hskip lex1 r1
    unfold lex
    rw [e1, lexLoop_last _ e2 rfl]
    simp only [List.nil_append, List.cons_append, posAfter_append, posAfter]
  · obtain ⟨lex1, e1, r1⟩ := lexLoop_step
      (newLexer_Ready (s ++ 47 :: 47 :: (c ++ 10 :: t)))
      (NextToken_of_Begin (BeginToken_symbol_noslash (n + 3) _ s (47 :: 47 :: (c ++ 10 :: t))
        lexKind.Eof rfl hsne hs (symStop_comment _) (by omega))) (by simp)
    have hsp := BeginToken_space (n + 1) (posAfter { Line := 1, Column := 0 } (s ++ 47 :: 47 :: c))
      10 [] t lexKind.SymbolString (by decide) (by decide) (by simp) (spaceStop_symbol ht)
      (by simp only [List.length_nil]; omega)
    simp only [posAfter_append] at hsp
    have hskip := BeginToken_skip_comment (n := n + 1) (q := posAfter { Line := 1, Column := 0 } s)
      (c := c) hsp hc1 rfl (by omega)
    obtain ⟨lex2, e2, r2⟩ := lexLoop_step r1 (NextToken_of_Begin hskip) (by simp)
    have hsym := BeginToken_symbol_noslash (n + 1) (posAfter (posAfter
      (posAfter { Line := 1, Column := 0 } s) (47 :: 47 :: c)) [10]) t [] lexKind.Space rfl
      htne ht trivial (by omega)
    rw [List.append_nil] at hsym
    obtain ⟨lex3, e3, r3⟩ := lexLoop_step r2 (NextToken_of_Begin hsym) (by simp)
    have e4 := lexLoop_end (n := n) r3 (by omega)
    unfold lex
    rw [e1, e2, e3, e4]
    simp only [List.nil_append, List.cons_append, posAfter_append, posAfter, List.append_nil]

theorem C8_comment_not_emitted_witness :
    (([97] : List rune) ≠ [] ∧ (∀ r ∈ ([97] : List rune), symbolRune r ∧ r ≠ 47) ∧
      (∀ r ∈ ([32, 47, 99] : List rune), validRune r ∧ r ≠ 10) ∧
      ([98] : List rune) ≠ [] ∧ (∀ r ∈ ([98] : List rune), symbolRune r ∧ r ≠ 47) ∧
      3 * ([97] ++ 47 :: 47 :: ([32, 47, 99] ++ 10 :: [98]) : List rune).length + 8 ≤ 32) ∧
    (lex 32 ([97] ++ 47 :: 47 :: [32, 47, 99]) =
      some (Except.ok [
        { k := lexKind.SymbolString, s := [97], pos := { Line := 1, Column := 0 } },
        { k := lexKind.Eof, s := [],
          pos := posAfter { Line := 1, Column := 0 } ([97] ++ 47 :: 47 :: [32, 47, 99]) }]) ∧
    lex 32 ([97] ++ 47 :: 47 :: ([32, 47, 99] ++ 10 :: [98])) =
      some (Except.ok [
        { k := lexKind.SymbolString, s := [97], pos := { Line := 1, Column := 0 } },
        { k := lexKind.Space, s := [],
          pos := posAfter { Line := 1, Column := 0 } ([97] ++ 47 :: 47 :: [32, 47, 99]) },
        { k := lexKind.SymbolString, s := [98],
          pos := posAfter { Line := 1, Column := 0 }
            ([97] ++ 47 :: 47 :: ([32, 47, 99] ++ [10])) },
        { k := lexKind.Eof, s := [],
          pos := posAfter { Line := 1, Column := 0 }
            ([97] ++ 47 :: 47 :: ([32, 47, 99] ++ 10 :: [98])) }])) :=
  ⟨⟨by decide, by decide, by decide, by decide, by decide, by decide⟩,
    C8_comment_not_emitted [97] [32, 47, 99] [98] (by decide) (by decide) (by decide)
      (by decide) (by decide) 32 (by decide)⟩

/-- Whitespace, a comment up to its newline and further whitespace between two symbols
give a single whitespace token, at the position of the first whitespace run. -/
theorem lex_space_comment_space (x w1 c w2 t : List rune) (hxne : x ≠ [])
    (hx : ∀ r ∈ x, symbolRune r ∧ r ≠ 47) (hw1ne : w1 ≠ [])
    (hw1 : ∀ r ∈ w1, isSpace r = true) (hc : ∀ r ∈ c, validRune r ∧ r ≠ 10)
    (hw2 : ∀ r ∈ w2, isSpace r = true) (htne : t ≠ [])
    (ht : ∀ r ∈ t, symbolRune r ∧ r ≠ 47) (fuel : Nat)
    (hf : 3 * (x ++ (w1 ++ 47 :: 47 :: (c ++ 10 :: (w2 ++ t)))).length + 8 ≤ fuel) :
    lex fuel (x ++ (w1 ++ 47 :: 47 :: (c ++ 10 :: (w2 ++ t)))) =
      some (Except.ok [
        { k := lexKind.SymbolString, s := x, pos := { Line := 1, Column := 0 } },
        { k := lexKind.Space, s := [], pos := posAfter { Line := 1, Column := 0 } x },
        { k := lexKind.SymbolString, s := t,
          pos := posAfter { Line := 1, Column := 0 }
            (x ++ (w1 ++ 47 :: 47 :: (c ++ 10 :: w2))) },
        { k := lexKind.Eof, s := [],
          pos := posAfter { Line := 1, Column := 0 }
            (x ++ (w1 ++ 47 :: 47 :: (c ++ 10 :: (w2 ++ t)))) }]) := by
  simp only [List.length_append, List.length_cons] at hf
  have hc1 : ∀ r ∈ c, r ≠ 10 ∧ r ≠ runeEof :=
    fun r hr => ⟨(hc r hr).2, validRune_ne_eof (hc r hr).1⟩
  obtain ⟨n, rfl⟩ : ∃ n, fuel = n + 4 := ⟨fuel - 4, by omega⟩
  cases w1 with
  | nil => exact absurd rfl hw1ne
  | cons a w =>
    have ha := hw1 a (List.mem_cons_self _ _)
    have hw : ∀ r ∈ w, isSpace r = true := fun r hr => hw1 r (List.mem_cons_of_mem _ hr)
    simp only [List.length_cons] at hf
    obtain ⟨lex1, e1, r1⟩ := lexLoop_step
      (newLexer_Ready (x ++ (a :: w ++ 47 :: 47 :: (c ++ 10 :: (w2 ++ t)))))
      (NextToken_of_Begin (BeginToken_symbol_noslash (n + 3) _ x _ lexKind.Eof rfl
        hxne hx (symStop_space _ ha) (by omega))) (by simp)
    have hsp := BeginToken_space (n + 2) (posAfter { Line := 1, Column := 0 } x) a w
      (47 :: 47 :: (c ++ 10 :: (w2 ++ t))) lexKind.SymbolString (by decide) ha hw
      ⟨by decide, by decide⟩ (by omega)
    obtain ⟨lex2, e2, r2⟩ := lexLoop_step r1 (NextToken_of_Begin hsp) (by simp)
    have hsym := BeginToken_symbol_noslash (n - 1) (posAfter (posAfter (posAfter
      (posAfter { Line := 1, Column := 0 } x) (a :: w)) (47 :: 47 :: c)) (10 :: w2)) t []
      lexKind.Space rfl htne ht trivial (by omega)
    rw [List.append_nil] at hsym
    have hsk1 := BeginToken_skip_space (n := n - 1) (q := posAfter (posAfter
      (posAfter { Line := 1, Column := 0 } x) (a :: w)) (47 :: 47 :: c)) (a := 10) (w := w2)
      hsym (by decide) hw2 (spaceStop_symbol ht) (by omega)
    have hn : n - 1 + 1 = n := by omega
    rw [hn] at hsk1
    have hsk2 := BeginToken_skip_comment (n := n) (q := posAfter
      (posAfter { Line := 1, Column := 0 } x) (a :: w)) (c := c) hsk1 hc1 rfl (by omega)
    obtain ⟨lex3, e3, r3⟩ := lexLoop_step r2 (NextToken_of_Begin hsk2) (by simp)
    have e4 := lexLoop_end (n := n) r3 (by omega)
    unfold lex
    rw [e1, e2, e3, e4]
    simp only [List.nil_append, List.cons_append, posAfter_append, posAfter, List.append_nil]

/-- C5: two tokens returned by successive calls of `readToken` are never both whitespace
tokens, whatever the state the first call starts from; and whitespace, a comment and
further whitespace between two symbols are folded into a single whitespace token that
carries the position of the first whitespace run. -/
theorem C5_whitespace_merged :
    (∀ (fuel1 fuel2 : Nat) (lex0 lex1 lex2 : lexer) (tok1 tok2 : lexToken)
      (e1 e2 : Option error),
      lex0.readToken fuel1 = some (tok1, e1, lex1) →
      lex1.readToken fuel2 = some (tok2, e2, lex2) →
      ¬ (tok1.k = lexKind.Space ∧ tok2.k = lexKind.Space)) ∧
    (∀ (x w1 c w2 t : List rune), x ≠ [] → (∀ r ∈ x, symbolRune r ∧ r ≠ 47) → w1 ≠ [] →
      (∀ r ∈ w1, isSpace r = true) → (∀ r ∈ c, validRune r ∧ r ≠ 10) →
      (∀ r ∈ w2, isSpace r = true) → t ≠ [] → (∀ r ∈ t, symbolRune r ∧ r ≠ 47) →
      ∀ fuel : Nat,
      3 * (x ++ (w1 ++ 47 :: 47 :: (c ++ 10 :: (w2 ++ t)))).length + 8 ≤ fuel →
      lex fuel (x ++ (w1 ++ 47 :: 47 :: (c ++ 10 :: (w2 ++ t)))) =
        some (Except.ok [
          { k := lexKind.SymbolString, s := x, pos := { Line := 1, Column := 0 } },
          { k := lexKind.Space, s := [], pos := posAfter { Line := 1, Column := 0 } x },
          { k := lexKind.SymbolString, s := t,
            pos := posAfter { Line := 1, Column := 0 }
              (x ++ (w1 ++ 47 :: 47 :: (c ++ 10 :: w2))) },
          { k := lexKind.Eof, s := [],
            pos := posAfter { Line := 1, Column := 0 }
              (x ++ (w1 ++ 47 :: 47 :: (c ++ 10 :: (w2 ++ t)))) }])) := by
  constructor
  · intro fuel1 fuel2 lex0 lex1 lex2 tok1 tok2 e1 e2 h1 h2 hk
    obtain ⟨-, -, a3, -⟩ := readToken_some _ _ _ _ _ h1
    obtain ⟨-, -, -, b4, -⟩ := readToken_some _ _ _ _ _ h2
    exact b4 (by rw [a3]; exact hk.1) hk.2
  · intro x w1 c w2 t hxne hx hw1ne hw1 hc hw2 htne ht fuel hf
    exact lex_space_comment_space x w1 c w2 t hxne hx hw1ne hw1 hc hw2 htne ht fuel hf

theorem C5_whitespace_merged_witness :
    ((newLexer { runes := [32, 47, 47, 10, 32, 120], err := none }).readToken 9 =
        some ({ k := lexKind.Space, s := [], pos := { Line := 1, Column := 0 } }, none,
          mergeExample) ∧
      mergeExample.readToken 9 =
        some ({ k := lexKind.SymbolString, s := [120], pos := { Line := 2, Column := 1 } },
          none, mergeExampleEnd) ∧
      ¬ (lexKind.Space = lexKind.Space ∧ lexKind.SymbolString = lexKind.Space)) ∧
    lex 32 ([120] ++ ([32] ++ 47 :: 47 :: ([] ++ 10 :: ([10] ++ [120])))) =
      some (Except.ok [
        { k := lexKind.SymbolString, s := [120], pos := { Line := 1, Column := 0 } },
        { k := lexKind.Space, s := [], pos := { Line := 1, Column := 1 } },
        { k := lexKind.SymbolString, s := [120], pos := { Line := 3, Column := 0 } },
        { k := lexKind.Eof, s := [], pos := { Line := 3, Column := 1 } }]) :=
  ⟨⟨by decide, by decide,
      C5_whitespace_merged.1 9 9 (newLexer { runes := [32, 47, 47, 10, 32, 120], err := none })
        mergeExample mergeExampleEnd
        { k := lexKind.Space, s := [], pos := { Line := 1, Column := 0 } }
        { k := lexKind.SymbolString, s := [120], pos := { Line := 2, Column := 1 } }
        none none (by decide) (by decide)⟩,
    C5_whitespace_merged.2 [120] [32] [] [10] [120] (by decide) (by decide) (by decide)
      (by decide) (by decide) (by decide) (by decide) (by decide) 32 (by decide)⟩

/-! ## Association lists of symbol pairs -/

theorem expectP_yes {n : Nat} {p : parser} {tok tok2 : lexToken} {pos pos2 : LexPos}
    {input rest : List rune} (pred : lexToken → Bool) (msg : String)
    (h : p.PReady tok pos input) (hp : pred tok = true) (hk : tok.k ≠ lexKind.Eof)
    (hn : NextToken n pos input tok.k tok2 pos2 rest) :
    ∃ p1, p.expectP n pred msg = some (true, p1) ∧ p1.PReady tok2 pos2 rest ∧
      p1.prev = tok := by
  obtain ⟨p1, e1, e2, e3⟩ := consume_ready h hk hn
  refine ⟨p1, ?_, e2, e3⟩
  unfold parser.expectP
  rw [h.2.1, hp]
  simp only [Bool.not_true, Bool.false_eq_true, if_false, e1]

theorem expect_yes {n : Nat} {p : parser} {tok tok2 : lexToken} {pos pos2 : LexPos}
    {input rest : List rune} (msg : String)
    (h : p.PReady tok pos input) (hk : tok.k ≠ lexKind.Eof)
    (hn : NextToken n pos input tok.k tok2 pos2 rest) :
    ∃ p1, p.expect n tok.k msg = some (true, p1) ∧ p1.PReady tok2 pos2 rest := by
  obtain ⟨p1, e1, e2, -⟩ := consume_ready h hk hn
  refine ⟨p1, ?_, e2⟩
  unfold parser.expect
  rw [if_neg (by rw [h.2.1]; simp), e1]

theorem alnum_symbolRune {r : rune} (h : alnum r = true) : symbolRune r ∧ r ≠ 47 := by
  simp only [alnum, Bool.or_eq_true, Bool.and_eq_true, decide_eq_true_eq] at h
  have hs : isSpace r = false := by
    simp only [isSpace, Bool.or_eq_false_iff, Bool.and_eq_false_iff, decide_eq_false_iff_not]
    unfold rune at *
    omega
  unfold symbolRune validRune
  unfold rune at *
  refine ⟨⟨⟨by omega, by omega, by omega⟩, hs, ?_⟩, by omega⟩
  omega

theorem symStop_colon (rest : List rune) : symStop (58 :: rest) :=
  ⟨by decide, by decide, fun h => absurd h (by decide)⟩

theorem symStop_rbrace (rest : List rune) : symStop (125 :: rest) :=
  ⟨by decide, by decide, fun h => absurd h (by decide)⟩

/-- A pair of two symbols, the key being the lookahead; `hn` reads the token after the
value. -/
theorem parsePair_symbols {j : Nat} {p : parser} {pos posT : LexPos}
    {k v tail restT : List rune} {tokT : lexToken}
    (h : p.PReady { k := lexKind.SymbolString, s := k, pos := pos } (posAfter pos k)
      (58 :: (v ++ tail)))
    (hvne : v ≠ []) (hv : ∀ r ∈ v, symbolRune r ∧ r ≠ 47) (hst : symStop tail)
    (hj : v.length < j)
    (hn : NextToken j (posAfter pos (k ++ 58 :: v)) tail lexKind.SymbolString tokT posT restT) :
    ∃ p5, parser.parsePair (j + 1) p =
        some (Pair.mk { pos := pos, V := k }
          (Elem.String { pos := posAfter pos (k ++ [58]), V := v }), p5) ∧
      p5.PReady tokT posT restT := by
  obtain ⟨p1, e1, r1, q1⟩ := expectP_yes keyPred
    "key in association list pair must be of symbol or interpreted string form" h rfl
    (by simp) (NextToken_struct j _ 58 lexKind.Colon (v ++ tail) _ rfl (by omega))
  have hsym := NextToken_of_Begin (BeginToken_symbol_noslash j ((posAfter pos k).update 58) v
    tail lexKind.Colon rfl hvne hv hst hj)
  obtain ⟨p2, e2, r2, q2⟩ := accept_yes r1 (by simp) hsym
  have hpos : posAfter ((posAfter pos k).update 58) v = posAfter pos (k ++ 58 :: v) := by
    simp only [posAfter_append, posAfter]
  rw [hpos] at r2
  obtain ⟨p5, e5, r5⟩ := parseString_ready r2 (by simp) hn
  refine ⟨p5, ?_, r5⟩
  have hpos2 : (posAfter pos k).update 58 = posAfter pos (k ++ [58]) := by
    simp only [posAfter_append, posAfter]
  rw [parser.parsePair, e1]
  simp only [e2, q1, Bool.not_true, Bool.false_eq_true, if_false]
  rw [accept_no (by rw [r2.2.1]; simp)]
  simp only [parser.isP, r2.2.1, lexToken.isString, lexKind.isString, decide_True,
    Bool.true_or, Bool.or_true, if_true, e5, hpos2]

/-- The closing brace ends the loop of `parseAssoc`. -/
theorem parseAssocLoop_close {n : Nat} {p : parser} {pos : LexPos} (L : List Pair)
    (h : p.PReady { k := lexKind.RBrace, s := [], pos := pos } (pos.update 125) [])
    (hn : 0 < n) :
    ∃ p1, parser.parseAssocLoop (n + 1) p L = some (L, p1) ∧
      p1.PReady { k := lexKind.Eof, s := [], pos := pos.update 125 } (pos.update 125) [] := by
  obtain ⟨p1, e1, r1, -⟩ := accept_yes h (by simp) (NextToken_eof n _ _ hn)
  refine ⟨p1, ?_, r1⟩
  rw [parser.parseAssocLoop, if_pos h.es_ok, accept_no (by rw [h.2.1]; simp)]
  simp only [e1]

theorem renderPairs_cons (kv : Text × Text) (rest : List (Text × Text)) :
    renderPairs (kv :: rest) ++ [125] = kv.1 ++ 58 :: (kv.2 ++ pairsTail rest) := by
  cases rest <;> simp [renderPairs, pairsTail]

theorem pairsTail_length (kv : Text × Text) (rest : List (Text × Text)) :
    (pairsTail (kv :: rest)).length =
      1 + kv.1.length + 1 + kv.2.length + (pairsTail rest).length := by
  have h := congrArg List.length (renderPairs_cons kv rest)
  simp only [pairsTail, List.length_append, List.length_cons, List.length_nil] at h ⊢
  omega

/-- The loop of `parseAssoc` over pairs of symbols, the first key being the lookahead. -/
theorem parseAssocLoop_pairs : ∀ (rest : List (Text × Text)) (kv : Text × Text)
    (p : parser) (pos : LexPos) (L : List Pair) (n : Nat),
    (∀ q ∈ kv :: rest, (q.1 ≠ [] ∧ ∀ r ∈ q.1, alnum r = true) ∧
      (q.2 ≠ [] ∧ ∀ r ∈ q.2, alnum r = true)) →
    p.PReady { k := lexKind.SymbolString, s := kv.1, pos := pos } (posAfter pos kv.1)
      (58 :: (kv.2 ++ pairsTail rest)) →
    kv.1.length + kv.2.length + (pairsTail rest).length + 5 ≤ n →
    ∃ p1, parser.parseAssocLoop n p L = some (L ++ expectPairs pos (kv :: rest), p1) ∧
      p1.PReady
        { k := lexKind.Eof, s := [],
          pos := posAfter pos (kv.1 ++ 58 :: (kv.2 ++ pairsTail rest)) }
        (posAfter pos (kv.1 ++ 58 :: (kv.2 ++ pairsTail rest))) [] := by
  intro rest
  induction rest with
  | nil =>
    intro kv p pos L n hq h hn
    obtain ⟨⟨-, -⟩, ⟨hvne, hv⟩⟩ := hq kv (List.mem_cons_self _ _)
    have hv2 : ∀ r ∈ kv.2, symbolRune r ∧ r ≠ 47 := fun r hr => alnum_symbolRune (hv r hr)
    simp only [pairsTail, List.nil_append, List.length_cons, List.length_nil] at h hn ⊢
    obtain ⟨j, rfl⟩ : ∃ j, n = j + 2 := ⟨n - 2, by omega⟩
    obtain ⟨p5, e5, r5⟩ := parsePair_symbols (j := j) h hvne hv2 (symStop_rbrace [])
      (by omega)
      (NextToken_struct j _ 125 lexKind.RBrace [] _ rfl (by omega))
    obtain ⟨p6, e6, r6⟩ := parseAssocLoop_close (n := j)
      (L ++ [Pair.mk { pos := pos, V := kv.1 }
        (Elem.String { pos := posAfter pos (kv.1 ++ [58]), V := kv.2 })]) r5 (by omega)
    refine ⟨p6, ?_, ?_⟩
    · rw [parser.parseAssocLoop, if_pos h.es_ok, accept_no (by rw [h.2.1]; simp)]
      simp only
      rw [accept_no (by rw [h.2.1]; simp)]
      simp only [parser.is, h.2.1, r5.2.1, e5, decide_False, decide_True, Bool.false_eq_true,
        if_false, Bool.not_true, Bool.false_and, e6, expectPairs, decide_eq_true_eq,
        reduceCtorEq]
    · have hp : (posAfter pos (kv.1 ++ 58 :: kv.2)).update 125 =
          posAfter pos (kv.1 ++ 58 :: (kv.2 ++ [125])) := by
        simp only [posAfter_append, posAfter]
      rw [hp] at r6
      exact r6
  | cons kv2 rest ih =>
    intro kv p pos L n hq h hn
    obtain ⟨⟨-, -⟩, ⟨hvne, hv⟩⟩ := hq kv (List.mem_cons_self _ _)
    obtain ⟨⟨hk2ne, hk2⟩, -⟩ := hq kv2 (List.mem_cons_of_mem _ (List.mem_cons_self _ _))
    have hv2 : ∀ r ∈ kv.2, symbolRune r ∧ r ≠ 47 := fun r hr => alnum_symbolRune (hv r hr)
    have hk22 : ∀ r ∈ kv2.1, symbolRune r ∧ r ≠ 47 := fun r hr => alnum_symbolRune (hk2 r hr)
    have htail : pairsTail (kv2 :: rest) = 32 :: (kv2.1 ++ 58 :: (kv2.2 ++ pairsTail rest)) := by
      have := renderPairs_cons kv2 rest
      simp only [pairsTail, List.cons_append] at this ⊢
      rw [this]
    rw [pairsTail_length] at hn
    rw [htail] at h ⊢
    obtain ⟨j, rfl⟩ : ∃ j, n = j + 2 := ⟨n - 2, by omega⟩
    have hsp := NextToken_of_Begin (BeginToken_space j (posAfter pos (kv.1 ++ 58 :: kv.2)) 32 []
      (kv2.1 ++ 58 :: (kv2.2 ++ pairsTail rest)) lexKind.SymbolString (by decide) (by decide)
      (by simp) (by
        cases hk : kv2.1 with
        | nil => exact absurd hk hk2ne
        | cons a t =>
          have ha := hk22 a (by rw [hk]; exact List.mem_cons_self _ _)
          exact ⟨ha.1.2.1, validRune_ne_eof ha.1.1⟩)
      (by simp only [List.length_nil]; omega))
    obtain ⟨p5, e5, r5⟩ := parsePair_symbols (j := j) h hvne hv2
      (symStop_space _ (by decide)) (by omega) hsp
    have hsym := NextToken_of_Begin (BeginToken_symbol_noslash (j + 1)
      (posAfter (posAfter pos (kv.1 ++ 58 :: kv.2)) [32]) kv2.1
      (58 :: (kv2.2 ++ pairsTail rest)) lexKind.Space rfl hk2ne hk22 (symStop_colon _)
      (by omega))
    obtain ⟨b6, e6, r6⟩ := expect_yes
      "association list pairs must be separated by whitespace" r5 (by simp) hsym
    have hpos : posAfter (posAfter pos (kv.1 ++ 58 :: kv.2)) [32] =
        posAfter pos (kv.1 ++ 58 :: (kv.2 ++ [32])) := by
      simp only [posAfter_append, posAfter]
    rw [hpos] at r6
    obtain ⟨p7, e7, r7⟩ := ih kv2 b6 _
      (L ++ [Pair.mk { pos := pos, V := kv.1 }
        (Elem.String { pos := posAfter pos (kv.1 ++ [58]), V := kv.2 })]) (j + 1)
      (fun q hq2 => hq q (List.mem_cons_of_mem _ hq2)) r6 (by omega)
    refine ⟨p7, ?_, ?_⟩
    · rw [parser.parseAssocLoop, if_pos h.es_ok, accept_no (by rw [h.2.1]; simp)]
      simp only
      rw [accept_no (by rw [h.2.1]; simp)]
      simp only [parser.is, h.2.1, r5.2.1, e5, decide_False, decide_True, Bool.false_eq_true,
        if_false, Bool.not_false, Bool.and_self, if_true, e6, e7, expectPairs,
        List.append_assoc, List.singleton_append, decide_eq_true_eq, reduceCtorEq]
    · have hp : posAfter (posAfter pos (kv.1 ++ 58 :: (kv.2 ++ [32])))
            (kv2.1 ++ 58 :: (kv2.2 ++ pairsTail rest)) =
          posAfter pos (kv.1 ++ 58 :: (kv.2 ++ 32 :: (kv2.1 ++ 58 :: (kv2.2 ++ pairsTail rest)))) := by
        simp only [posAfter_append, posAfter]
      rw [hp] at r7
      exact r7

theorem parseRootLoop_assoc {n : Nat} {p p1 : parser} {tok : lexToken} {pos : LexPos}
    {input : List rune} {e : Elem} (h : p.PReady tok pos input)
    (hk : tok.k = lexKind.LBrace) (he : parser.parseAssoc n p = some (e, p1))
    (elems : List Elem) :
    parser.parseRootLoop (n + 1) p elems = parser.parseRootLoop n p1 (elems ++ [e]) := by
  have hk2 : p.next.k = lexKind.LBrace := by rw [h.2.1]; exact hk
  rw [parser.parseRootLoop, if_pos h.es_ok, accept_no (by rw [hk2]; decide)]
  simp [parser.isP, parser.is, lexToken.isString, lexKind.isString, hk2, he]

theorem expectPairs_texts : ∀ (kvs : List (Text × Text)) (pos : LexPos),
    (expectPairs pos kvs).map (fun q => (q.K.V, q.V.stringValue)) =
      kvs.map (fun kv => (kv.1, some kv.2)) := by
  intro kvs
  induction kvs with
  | nil => intro pos; rfl
  | cons kv rest ih =>
    intro pos
    simp only [expectPairs, List.map_cons, ih]
    rfl

/-- The association list of `kvs` as a whole document. -/
theorem Parse_assoc_pairs (kvs : List (Text × Text))
    (hq : ∀ q ∈ kvs, (q.1 ≠ [] ∧ ∀ r ∈ q.1, alnum r = true) ∧
      (q.2 ≠ [] ∧ ∀ r ∈ q.2, alnum r = true)) (fuel : Nat)
    (hf : 3 * (123 :: (renderPairs kvs ++ [125])).length + 8 ≤ fuel) :
    Parse fuel { runes := 123 :: (renderPairs kvs ++ [125]), err := none } =
      some ([Elem.Assoc { Line := 1, Column := 0 }
        (expectPairs { Line := 1, Column := 1 } kvs)], none) := by
  simp only [List.length_cons, List.length_append, List.length_nil] at hf
  obtain ⟨g, rfl⟩ : ∃ g, fuel = g + 4 := ⟨fuel - 4, by omega⟩
  obtain ⟨p, e0, r0⟩ := parseRoot_ready
    (NextToken_struct (g + 4) { Line := 1, Column := 0 } 123 lexKind.LBrace
      (renderPairs kvs ++ [125]) lexKind.Eof rfl (by omega))
  have hu : ({ Line := 1, Column := 0 } : LexPos).update 123 = { Line := 1, Column := 1 } := by
    decide
  rw [hu] at r0
  have assoc : ∃ p2 endpos, parser.parseAssoc (g + 3) p =
      some (Elem.Assoc { Line := 1, Column := 0 } (expectPairs { Line := 1, Column := 1 } kvs),
        p2) ∧
      p2.PReady { k := lexKind.Eof, s := [], pos := endpos } endpos [] := by
    cases kvs with
    | nil =>
      have r0n : p.PReady { k := lexKind.LBrace, s := [], pos := { Line := 1, Column := 0 } }
          { Line := 1, Column := 1 } [125] := r0
      obtain ⟨p1, e1, r1, q1⟩ := consume_ready (n := g + 2) r0n (by simp)
        (NextToken_struct (g + 2) _ 125 lexKind.RBrace [] _ rfl (by omega))
      obtain ⟨p2, e2, r2⟩ := parseAssocLoop_close (n := g + 1) [] r1 (by omega)
      refine ⟨p2, _, ?_, r2⟩
      rw [parser.parseAssoc, e1]
      simp only [e2, q1, expectPairs]
    | cons kv rest =>
      rw [renderPairs_cons] at r0
      have hl := congrArg List.length (renderPairs_cons kv rest)
      simp only [List.length_append, List.length_cons, List.length_nil] at hl
      obtain ⟨⟨hkne, hk⟩, -⟩ := hq kv (List.mem_cons_self _ _)
      have hk2 : ∀ r ∈ kv.1, symbolRune r ∧ r ≠ 47 := fun r hr => alnum_symbolRune (hk r hr)
      obtain ⟨p1, e1, r1, q1⟩ := consume_ready (n := g + 2) r0 (by simp)
        (NextToken_of_Begin (BeginToken_symbol_noslash (g + 2) _ kv.1
          (58 :: (kv.2 ++ pairsTail rest)) lexKind.LBrace rfl hkne hk2 (symStop_colon _)
          (by omega)))
      obtain ⟨p2, e2, r2⟩ := parseAssocLoop_pairs rest kv p1 _ [] (g + 2) hq r1 (by omega)
      refine ⟨p2, _, ?_, r2⟩
      rw [parser.parseAssoc, e1]
      simp only [e2, q1, List.nil_append]
  obtain ⟨p2, endpos, e2, r2⟩ := assoc
  have e3 := parseRootLoop_assoc r0 rfl e2 []
  have e4 := parseRootLoop_eof (n := g + 2) r2 rfl
    ([] ++ [Elem.Assoc { Line := 1, Column := 0 } (expectPairs { Line := 1, Column := 1 } kvs)])
  apply Parse_of_parseRoot (p := p2)
  · rw [e0, e3, e4]; rfl
  · exact r2.1

/-- C3: for every list of pairs of non-empty alphanumeric strings (the empty list
included) and every fuel of at least three units per rune of the input plus eight, `Parse`
of `{` + `k_1:v_1 k_2:v_2 ... k_n:v_n` + `}` succeeds with exactly one root element, an
Assoc whose pairs have, in input order, exactly the keys `k_i` and the String values
`v_i`: no pair is merged, dropped or reordered, repeated keys included. -/
theorem C3_assoc_pairs_in_order (kvs : List (Text × Text))
    (hq : ∀ q ∈ kvs, (q.1 ≠ [] ∧ ∀ r ∈ q.1, alnum r = true) ∧
      (q.2 ≠ [] ∧ ∀ r ∈ q.2, alnum r = true)) (fuel : Nat)
    (hf : 3 * (123 :: (renderPairs kvs ++ [125])).length + 8 ≤ fuel) :
    ∃ L : List Pair,
      Parse fuel { runes := 123 :: (renderPairs kvs ++ [125]), err := none } =
        some ([Elem.Assoc { Line := 1, Column := 0 } L], none) ∧
      L.map (fun q => (q.K.V, q.V.stringValue)) = kvs.map (fun kv => (kv.1, some kv.2)) :=
  ⟨expectPairs { Line := 1, Column := 1 } kvs, Parse_assoc_pairs kvs hq fuel hf,
    expectPairs_texts kvs _⟩

theorem C3_assoc_pairs_in_order_witness :
    (∀ q ∈ ([([97], [99]), ([100], [99]), ([97], [98, 49])] : List (Text × Text)),
      (q.1 ≠ [] ∧ ∀ r ∈ q.1, alnum r = true) ∧ (q.2 ≠ [] ∧ ∀ r ∈ q.2, alnum r = true)) ∧
    3 * (123 :: (renderPairs [([97], [99]), ([100], [99]), ([97], [98, 49])] ++ [125])).length
      + 8 ≤ 50 ∧
    renderPairs [([97], [99]), ([100], [99]), ([97], [98, 49])] =
      [97, 58, 99, 32, 100, 58, 99, 32, 97, 58, 98, 49] ∧
    ∃ L : List Pair,
      Parse 50 { runes := 123 :: (renderPairs [([97], [99]), ([100], [99]), ([97], [98, 49])]
          ++ [125]), err := none } =
        some ([Elem.Assoc { Line := 1, Column := 0 } L], none) ∧
      L.map (fun q => (q.K.V, q.V.stringValue)) =
        [([97], [99]), ([100], [99]), ([97], [98, 49])].map (fun kv => (kv.1, some kv.2)) :=
  ⟨by decide, by decide, by decide,
    C3_assoc_pairs_in_order [([97], [99]), ([100], [99]), ([97], [98, 49])] (by decide) 50
      (by decide)⟩

/-! ## The position tracker -/

/-- C13 (as amended): for every position with int32 line and column `c ≥ 0`: a tab (9)
leaves the line unchanged and sets the column to `8 * (c / 8 + 1)`, the smallest multiple
of 8 greater than `c`, provided that multiple is below 2^31 (that is `c < 2147483640`);
a newline (10) sets the column to 0 and increments the line provided the line is below
2^31 - 1; any other rune, carriage return (13) included, leaves the line unchanged and
increments the column by 1 provided `c` is below 2^31 - 1. -/
theorem C13_update (pos : LexPos) (r : rune) (hc : 0 ≤ pos.Column)
    (hl : -2147483648 ≤ pos.Line) :
    (r = 9 → pos.Column < 2147483640 →
      pos.update r = { Line := pos.Line, Column := 8 * (pos.Column / 8 + 1) } ∧
      pos.Column < 8 * (pos.Column / 8 + 1) ∧ 8 * (pos.Column / 8 + 1) ≤ pos.Column + 8) ∧
    (r = 10 → pos.Line < 2147483647 →
      pos.update r = { Line := pos.Line + 1, Column := 0 }) ∧
    (r ≠ 9 → r ≠ 10 → pos.Column < 2147483647 →
      pos.update r = { Line := pos.Line, Column := pos.Column + 1 }) := by
  refine ⟨?_, ?_, ?_⟩
  · intro h9 hb
    have ht : Int.tmod pos.Column 8 = pos.Column % 8 := Int.tmod_eq_emod hc (by decide)
    have hw : wrapInt32 (pos.Column + (8 - pos.Column % 8)) = 8 * (pos.Column / 8 + 1) := by
      unfold wrapInt32; omega
    refine ⟨?_, by omega, by omega⟩
    simp only [LexPos.update, h9, if_true, ht, hw]
  · intro h10 hb
    have hw : wrapInt32 (pos.Line + 1) = pos.Line + 1 := by unfold wrapInt32; omega
    simp [LexPos.update, h10, hw]
  · intro h9 h10 hb
    have hw : wrapInt32 (pos.Column + 1) = pos.Column + 1 := by unfold wrapInt32; omega
    simp [LexPos.update, h9, h10, hw]

theorem C13_update_witness :
    (0 : Int) ≤ (LexPos.mk 1 9).Column ∧ (-2147483648 : Int) ≤ (LexPos.mk 1 9).Line ∧
    ((9 : rune) = 9 → (LexPos.mk 1 9).Column < 2147483640 →
      (LexPos.mk 1 9).update 9 =
        { Line := (LexPos.mk 1 9).Line, Column := 8 * ((LexPos.mk 1 9).Column / 8 + 1) } ∧
      (LexPos.mk 1 9).Column < 8 * ((LexPos.mk 1 9).Column / 8 + 1) ∧
      8 * ((LexPos.mk 1 9).Column / 8 + 1) ≤ (LexPos.mk 1 9).Column + 8) ∧
    ((LexPos.mk 1 9).update 9 = { Line := 1, Column := 16 } ∧
      (LexPos.mk 1 9).update 10 = { Line := 2, Column := 0 } ∧
      (LexPos.mk 1 9).update 13 = { Line := 1, Column := 10 }) :=
  ⟨by decide, by decide, (C13_update (LexPos.mk 1 9) 9 (by decide) (by decide)).1,
    by decide, by decide, by decide⟩

/-- C13 (counterexample): at column 2147483640, which is a valid int32 column, a tab sets
the column to -2147483648 and not to `8 * (c / 8 + 1) = 2147483648`; and at line
2147483647 a newline sets the line to -2147483648 instead of incrementing it. -/
theorem C13_update_counterexample :
    (LexPos.mk 1 2147483640).update 9 = { Line := 1, Column := -2147483648 } ∧
    (8 * ((2147483640 : Int) / 8 + 1) = 2147483648) ∧
    (LexPos.mk 2147483647 0).update 10 = { Line := -2147483648, Column := 0 } := by
  refine ⟨by decide, by decide, by decide⟩

/-! ## Strings that fail to scan -/

theorem readToken_fail {fuel : Nat} {lex lex1 : lexer} {tok : lexToken} {e : error}
    (hb : lex.readTokenBegin fuel = some (tok, lex1)) (he : lex1.es.cause = some e) :
    ∃ lex2, lex.readToken fuel =
      some ({ k := lexKind.Eof, s := [], pos := lex2.pos }, some e, lex2) := by
  refine ⟨{ lex1 with prevKind := lexKind.Eof }, ?_⟩
  unfold lexer.readToken
  rw [hb]
  simp only [Sink.Cause, he]

theorem lexLoop_fail {n : Nat} {lex lex1 : lexer} {tok : lexToken} {e : error}
    (toks : List lexToken) (h : lex.readToken n = some (tok, some e, lex1)) :
    lexLoop (n + 1) lex toks = some (Except.error e) := by
  rw [lexLoop, h]

theorem lex_fail (fuel : Nat) (input : List rune) (e : error) (hf : 1 ≤ fuel)
    (h : FailToken (fuel - 1) { Line := 1, Column := 0 } input lexKind.Eof e) :
    lex fuel input = some (Except.error e) := by
  obtain ⟨n, rfl⟩ : ∃ n, fuel = n + 1 := ⟨fuel - 1, by omega⟩
  obtain ⟨lex1, h1⟩ := h _ (newLexer_Ready input)
  exact lexLoop_fail [] h1

theorem emitPosError_cause {lex : lexer} (e : error) (q : LexPos) (h : lex.es.cause = none) :
    (lex.emitPosError (some e) q).es.cause = some (error.Wrap e q.String) := by
  simp [lexer.emitPosError, Sink.Send, h]

theorem lexRawLoop_open (pk : lexKind) :
    ∀ (s : List rune) (lex : lexer) (pos : LexPos) (sb : Text) (fuel : Nat),
    lex.Ready pos s pk → (∀ r ∈ s, r ≠ 96 ∧ r ≠ runeEof) → s.length < fuel →
    ∃ lex1 sb1, lex.lexRawLoop fuel sb =
        some (sb1, { r := runeEof, pos := posAfter pos s }, lex1) ∧
      lex1.Ready (posAfter pos s) [] pk := by
  intro s
  induction s with
  | nil =>
    intro lex pos sb fuel hr hs hf
    obtain ⟨n, rfl⟩ : ∃ n, fuel = n + 1 := ⟨fuel - 1, by simp at hf; omega⟩
    obtain ⟨h1, h2, -⟩ := lexer.Ready.readRune_nil hr
    refine ⟨lex.readRune.2, sb, ?_, h2⟩
    rw [lexer.lexRawLoop]
    simp only [h1]
    rw [if_pos trivial]
    rfl
  | cons a s ih =>
    intro lex pos sb fuel hr hs hf
    obtain ⟨n, rfl⟩ : ∃ n, fuel = n + 1 := ⟨fuel - 1, by simp at hf; omega⟩
    obtain ⟨h1, h2⟩ := lexer.Ready.readRune_cons hr
    obtain ⟨ha1, ha2⟩ := hs a (List.mem_cons_self _ _)
    obtain ⟨lex1, sb1, e1, e2⟩ := ih lex.readRune.2 (pos.update a) (sb ++ [writeRune a]) n h2
      (fun r hr => hs r (List.mem_cons_of_mem _ hr)) (by simp at hf; omega)
    refine ⟨lex1, sb1, ?_, e2⟩
    rw [lexer.lexRawLoop]
    simp only [h1]
    rw [if_neg ha2, if_neg ha1, e1]
    rfl

theorem FailToken_raw (fuel : Nat) (pos : LexPos) (s : List rune) (pk : lexKind)
    (hpk : pk.isString = false) (hs : ∀ r ∈ s, r ≠ 96 ∧ r ≠ runeEof)
    (hf : s.length + 1 < fuel) :
    FailToken fuel pos (96 :: s) pk
      (error.Wrap (error.New "unterminated string") (posAfter pos (96 :: s)).String) := by
  intro lex hr
  obtain ⟨n, rfl⟩ : ∃ n, fuel = n + 1 := ⟨fuel - 1, by omega⟩
  obtain ⟨h1, h2⟩ := lexer.Ready.readRune_cons hr
  obtain ⟨lex1, sb1, e1, e2⟩ := lexRawLoop_open pk s lex.readRune.2 (pos.update 96) [] n h2 hs
    (by omega)
  have hb : lex.readTokenBegin (n + 1) =
      some (⟨lexKind.Eof, [], lex1.pos⟩,
        lex1.emitPosError (some (error.New "unterminated string")) (posAfter pos (96 :: s))) := by
    rw [lexer.readTokenBegin]
    simp only [h1]
    rw [if_neg (by decide), if_neg (by decide)]
    simp only [show isSpace 96 = false by decide, Bool.false_eq_true, if_false]
    rw [if_neg (by decide), if_neg (by decide), if_neg (by decide), if_neg (by decide),
      if_neg (by decide), if_neg (by decide), if_pos trivial]
    unfold lexer.lexRawString lexer.checkJoinedStrings
    rw [h2.2.2.1, hpk]
    simp only [Bool.false_eq_true, if_false, e1]
    rw [if_pos (by decide)]
    rfl
  exact readToken_fail hb (emitPosError_cause _ _ e2.1)

theorem knownEscape_out {c : rune} (h : knownEscape c = true) :
    ∃ out : rune, (c = 92 ∧ out = 92) ∨ (c = 34 ∧ out = 34) ∨ (c = 110 ∧ out = 10) ∨
      (c = 114 ∧ out = 13) ∨ (c = 116 ∧ out = 9) := by
  simp only [knownEscape, Bool.or_eq_true, decide_eq_true_eq] at h
  rcases h with (((h | h) | h) | h) | h
  · exact ⟨92, Or.inl ⟨h, rfl⟩⟩
  · exact ⟨34, Or.inr (Or.inl ⟨h, rfl⟩)⟩
  · exact ⟨10, Or.inr (Or.inr (Or.inl ⟨h, rfl⟩))⟩
  · exact ⟨13, Or.inr (Or.inr (Or.inr (Or.inl ⟨h, rfl⟩)))⟩
  · exact ⟨9, Or.inr (Or.inr (Or.inr (Or.inr ⟨h, rfl⟩)))⟩

/-- The interpreted-string loop runs through a prefix of whole items and is then at the
position after the prefix, outside an escape. -/
theorem lexInterpretedLoop_prefix (rest : List rune) (pk : lexKind) :
    ∀ (m : Nat) (pre : List rune), pre.length ≤ m →
    ∀ (lex : lexer) (pos : LexPos) (sb : Text) (n : Nat),
    lex.Ready pos (pre ++ rest) pk → interpPrefix pre = true →
    ∃ (lex1 : lexer) (sb1 : Text), lex.lexInterpretedLoop (n + pre.length) sb false =
        lex1.lexInterpretedLoop n sb1 false ∧
      lex1.Ready (posAfter pos pre) rest pk := by
  intro m
  induction m with
  | zero =>
    intro pre hm lex pos sb n hr hp
    have : pre = [] := List.length_eq_zero.mp (by omega)
    subst this
    exact ⟨lex, sb, rfl, hr⟩
  | succ m ih =>
    intro pre hm lex pos sb n hr hp
    match pre, hm, hr, hp with
    | [], _, hr, _ => exact ⟨lex, sb, rfl, hr⟩
    | [a], _, hr, hp =>
      simp only [interpPrefix, Bool.and_eq_true, bne_iff_ne, ne_eq] at hp
      obtain ⟨⟨⟨⟨h92, h34⟩, h10⟩, h13⟩, he⟩ := hp
      obtain ⟨e1, e2⟩ := lexInterpretedLoop_plain (n := n) sb hr he h92 h10 h13 h34
      exact ⟨_, _, e1, e2⟩
    | a :: c :: t, hm, hr, hp =>
      simp only [interpPrefix] at hp
      by_cases h92 : a = 92
      · subst h92
        simp only [if_true, Bool.and_eq_true] at hp
        obtain ⟨out, ho⟩ := knownEscape_out hp.1
        obtain ⟨lex1, e1, e2⟩ := lexInterpretedLoop_escape (n := n + t.length) sb out hr ho
        obtain ⟨lex2, sb2, e3, e4⟩ := ih t (by simp at hm; omega) lex1 _ (sb ++ [out]) n e2 hp.2
        refine ⟨lex2, sb2, ?_, e4⟩
        rw [← e3, ← e1]
        simp only [List.length_cons]
        congr 1
      · simp only [if_neg h92, Bool.and_eq_true, bne_iff_ne, ne_eq] at hp
        obtain ⟨⟨⟨⟨h34, h10⟩, h13⟩, he⟩, hp2⟩ := hp
        obtain ⟨e1, e2⟩ := lexInterpretedLoop_plain (n := n + (c :: t).length) sb hr he h92
          h10 h13 h34
        obtain ⟨lex2, sb2, e3, e4⟩ := ih (c :: t) (by simp at hm ⊢; omega) _ _
          (sb ++ [writeRune a]) n e2 hp2
        refine ⟨lex2, sb2, ?_, e4⟩
        rw [← e3, ← e1]
        rfl

theorem readTokenBegin_quote {n : Nat} {lex : lexer} {pos : LexPos} {rs : List rune}
    {pk : lexKind} (hr : lex.Ready pos (34 :: rs) pk) (hpk : pk.isString = false) :
    lex.readRune.2.Ready (pos.update 34) rs pk ∧
    (∀ tok lex2, lex.readRune.2.lexInterpretedLoop n [] false = some (Sum.inl tok, lex2) →
      lex.readTokenBegin (n + 1) = some (tok, lex2)) ∧
    (∀ sb lr lex2, lex.readRune.2.lexInterpretedLoop n [] false = some (Sum.inr (sb, lr), lex2) →
      lr.r ≠ 34 →
      lex.readTokenBegin (n + 1) =
        some ({ k := lexKind.Eof, s := [],
                pos := (lex2.emitPosError (some (error.New "unterminated string")) lr.pos).pos },
          lex2.emitPosError (some (error.New "unterminated string")) lr.pos)) := by
  obtain ⟨h1, h2⟩ := lexer.Ready.readRune_cons hr
  have key : lex.readTokenBegin (n + 1) =
      lex.readRune.2.lexInterpretedString n { r := 34, pos := pos } := by
    rw [lexer.readTokenBegin]
    simp only [h1]
    rw [if_neg (by decide), if_neg (by decide)]
    simp only [show isSpace 34 = false by decide, Bool.false_eq_true, if_false]
    rw [if_neg (by decide), if_neg (by decide), if_neg (by decide), if_neg (by decide),
      if_neg (by decide), if_pos trivial]
  refine ⟨h2, ?_, ?_⟩
  · intro tok lex2 e
    rw [key]
    unfold lexer.lexInterpretedString lexer.checkJoinedStrings
    rw [h2.2.2.1, hpk]
    simp only [Bool.false_eq_true, if_false, e]
  · intro sb lr lex2 e hne
    rw [key]
    unfold lexer.lexInterpretedString lexer.checkJoinedStrings
    rw [h2.2.2.1, hpk]
    simp only [Bool.false_eq_true, if_false, e]
    rw [if_pos hne]

theorem lexInterpretedLoop_end {n : Nat} {lex : lexer} {pos : LexPos} {pk : lexKind}
    (sb : Text) (esc : Bool) (hr : lex.Ready pos [] pk) :
    lex.lexInterpretedLoop (n + 1) sb esc =
      some (Sum.inr (sb, { r := runeEof, pos := pos }), lex.readRune.2) ∧
    lex.readRune.2.Ready pos [] pk := by
  obtain ⟨h1, h2, -⟩ := lexer.Ready.readRune_nil hr
  refine ⟨?_, h2⟩
  rw [lexer.lexInterpretedLoop]
  simp only [h1]
  rw [if_pos trivial]

theorem lexInterpretedLoop_backslash {n : Nat} {lex : lexer} {pos : LexPos}
    {rs : List rune} {pk : lexKind} (sb : Text) (hr : lex.Ready pos (92 :: rs) pk) :
    lex.lexInterpretedLoop (n + 1) sb false = lex.readRune.2.lexInterpretedLoop n sb true ∧
    lex.readRune.2.Ready (pos.update 92) rs pk := by
  obtain ⟨h1, h2⟩ := lexer.Ready.readRune_cons hr
  refine ⟨?_, h2⟩
  rw [lexer.lexInterpretedLoop]
  simp only [h1]
  rw [if_neg (by decide)]
  simp only [Bool.false_eq_true, if_false, if_true]

theorem FailToken_interp_open (fuel : Nat) (pos : LexPos) (pre : List rune) (pk : lexKind)
    (hpk : pk.isString = false) (hp : interpPrefix pre = true)
    (hf : pre.length + 1 < fuel) :
    FailToken fuel pos (34 :: pre) pk
      (error.Wrap (error.New "unterminated string") (posAfter pos (34 :: pre)).String) := by
  intro lex hr
  obtain ⟨n, rfl⟩ : ∃ n, fuel = (n + 1) + pre.length + 1 := ⟨fuel - pre.length - 2, by omega⟩
  obtain ⟨h2, -, h3⟩ := readTokenBegin_quote (n := (n + 1) + pre.length) hr hpk
  have h2a : lex.readRune.2.Ready (pos.update 34) (pre ++ []) pk := by simpa using h2
  obtain ⟨lex1, sb1, e1, e2⟩ := lexInterpretedLoop_prefix [] pk pre.length pre (le_refl _)
    lex.readRune.2 (pos.update 34) [] (n + 1) h2a hp
  obtain ⟨e3, e4⟩ := lexInterpretedLoop_end (n := n) sb1 false e2
  rw [e3] at e1
  exact readToken_fail (h3 _ _ _ e1 (by simp [runeEof])) (emitPosError_cause _ _ e4.1)

theorem FailToken_interp_open_backslash (fuel : Nat) (pos : LexPos) (pre : List rune)
    (pk : lexKind) (hpk : pk.isString = false) (hp : interpPrefix pre = true)
    (hf : pre.length + 2 < fuel) :
    FailToken fuel pos (34 :: (pre ++ [92])) pk
      (error.Wrap (error.New "unterminated string")
        (posAfter pos (34 :: (pre ++ [92]))).String) := by
  intro lex hr
  obtain ⟨n, rfl⟩ : ∃ n, fuel = (n + 2) + pre.length + 1 := ⟨fuel - pre.length - 3, by omega⟩
  obtain ⟨h2, -, h3⟩ := readTokenBegin_quote (n := (n + 2) + pre.length) hr hpk
  obtain ⟨lex1, sb1, e1, e2⟩ := lexInterpretedLoop_prefix [92] pk pre.length pre (le_refl _)
    lex.readRune.2 (pos.update 34) [] (n + 2) h2 hp
  obtain ⟨e3, e4⟩ := lexInterpretedLoop_backslash (n := n + 1) sb1 e2
  obtain ⟨e5, e6⟩ := lexInterpretedLoop_end (n := n) sb1 true e4
  rw [e3, e5] at e1
  have := readToken_fail (h3 _ _ _ e1 (by simp [runeEof])) (emitPosError_cause _ _ e6.1)
  simpa [posAfter, posAfter_append] using this

theorem FailToken_escape (fuel : Nat) (pos : LexPos) (pre : List rune) (c : rune)
    (rest : List rune) (pk : lexKind) (hpk : pk.isString = false)
    (hp : interpPrefix pre = true) (hc : knownEscape c = false) (hce : c ≠ runeEof)
    (hf : pre.length + 3 < fuel) :
    FailToken fuel pos (34 :: (pre ++ 92 :: c :: rest)) pk
      (error.Wrap (error.New "unknown escape sequence")
        (posAfter pos (34 :: (pre ++ [92]))).String) := by
  intro lex hr
  obtain ⟨n, rfl⟩ : ∃ n, fuel = (n + 2) + pre.length + 1 := ⟨fuel - pre.length - 3, by omega⟩
  obtain ⟨h2, h3, -⟩ := readTokenBegin_quote (n := (n + 2) + pre.length) hr hpk
  obtain ⟨lex1, sb1, e1, e2⟩ := lexInterpretedLoop_prefix (92 :: c :: rest) pk pre.length pre
    (le_refl _) lex.readRune.2 (pos.update 34) [] (n + 2) h2 hp
  obtain ⟨e3, e4⟩ := lexInterpretedLoop_backslash (n := n + 1) sb1 e2
  obtain ⟨e5, e6⟩ := lexer.Ready.readRune_cons e4
  simp only [knownEscape, Bool.or_eq_false_iff, decide_eq_false_iff_not] at hc
  obtain ⟨⟨⟨⟨c1, c2⟩, c3⟩, c4⟩, c5⟩ := hc
  have e7 : lex1.readRune.2.lexInterpretedLoop (n + 1) sb1 true =
      some (Sum.inl ⟨lexKind.Eof, [], (lex1.readRune.2.readRune.2.emitPosError
          (some (error.New "unknown escape sequence"))
          ((posAfter (pos.update 34) pre).update 92)).pos⟩,
        lex1.readRune.2.readRune.2.emitPosError (some (error.New "unknown escape sequence"))
          ((posAfter (pos.update 34) pre).update 92)) := by
    rw [lexer.lexInterpretedLoop]
    simp only [e5]
    rw [if_neg hce]
    simp only [if_true]
    rw [if_neg (by intro h; rcases h with h | h; exact c1 h; exact c2 h), if_neg c3, if_neg c4,
      if_neg c5]
  rw [e3, e7] at e1
  have := readToken_fail (h3 _ _ e1) (emitPosError_cause _ _ e6.1)
  simpa [posAfter, posAfter_append] using this

/-- C11: a quoted string whose closing delimiter is missing fails at the end of the input.
For every `s` without backtick (96), lexing backtick + `s` fails with "unterminated string";
for every beginning `pre` of the body of an interpreted string made of whole items (no
unescaped double quote, no raw newline or carriage return, only known escapes), lexing the
double quote (34) + `pre`, and also the double quote + `pre` + a lone backslash (92), fails
with "unterminated string".  In all three cases the error is wrapped with the position
reached after the whole input has been consumed. -/
theorem C11_unterminated_string (s pre : List rune) (hs : ∀ r ∈ s, r ≠ 96 ∧ r ≠ runeEof)
    (hp : interpPrefix pre = true) (fuel : Nat) (hf : 3 * (96 :: s).length + 8 ≤ fuel)
    (hg : 3 * (34 :: (pre ++ [92])).length + 8 ≤ fuel) :
    lex fuel (96 :: s) =
      some (Except.error (error.Wrap (error.New "unterminated string")
        (posAfter { Line := 1, Column := 0 } (96 :: s)).String)) ∧
    lex fuel (34 :: pre) =
      some (Except.error (error.Wrap (error.New "unterminated string")
        (posAfter { Line := 1, Column := 0 } (34 :: pre)).String)) ∧
    lex fuel (34 :: (pre ++ [92])) =
      some (Except.error (error.Wrap (error.New "unterminated string")
        (posAfter { Line := 1, Column := 0 } (34 :: (pre ++ [92]))).String)) := by
  simp only [List.length_cons, List.length_append, List.length_nil] at hf hg
  refine ⟨?_, ?_, ?_⟩
  · exact lex_fail fuel _ _ (by omega) (FailToken_raw _ _ s _ rfl hs (by omega))
  · exact lex_fail fuel _ _ (by omega) (FailToken_interp_open _ _ pre _ rfl hp (by omega))
  · exact lex_fail fuel _ _ (by omega)
      (FailToken_interp_open_backslash _ _ pre _ rfl hp (by omega))

theorem C11_unterminated_string_witness :
    (∀ r ∈ ([] : List rune), r ≠ 96 ∧ r ≠ runeEof) ∧ interpPrefix [] = true ∧
    3 * (96 :: ([] : List rune)).length + 8 ≤ 14 ∧
    3 * (34 :: (([] : List rune) ++ [92])).length + 8 ≤ 14 ∧
    (lex 14 (96 :: []) =
      some (Except.error (error.Wrap (error.New "unterminated string")
        (posAfter { Line := 1, Column := 0 } (96 :: [])).String)) ∧
    lex 14 (34 :: []) =
      some (Except.error (error.Wrap (error.New "unterminated string")
        (posAfter { Line := 1, Column := 0 } (34 :: [])).String)) ∧
    lex 14 (34 :: ([] ++ [92])) =
      some (Except.error (error.Wrap (error.New "unterminated string")
        (posAfter { Line := 1, Column := 0 } (34 :: ([] ++ [92]))).String))) ∧
    (posAfter { Line := 1, Column := 0 } (96 :: [])).String = "1:1" ∧
    (posAfter { Line := 1, Column := 0 } (34 :: [])).String = "1:1" ∧
    (posAfter { Line := 1, Column := 0 } (34 :: ([] ++ [92]))).String = "1:2" :=
  ⟨by decide, by decide, by decide, by decide,
    C11_unterminated_string [] [] (by decide) (by decide) 14 (by decide) (by decide),
    by decide, by decide, by decide⟩

/-- C12: inside an interpreted string, after a beginning `pre` made of whole items, a
backslash (92) followed by a rune `c` other than backslash, double quote, `n`, `r` or `t`
makes lexing fail with "unknown escape sequence", whatever follows; the error is wrapped
with the position of `c`, that is the position reached after the opening quote, `pre` and
the backslash.  This holds for the whole input, and for a string that begins anywhere the
lexer is about to read it after a token that is not a string: the token returned is the
end-of-stream token, no string token. -/
theorem C12_unknown_escape (pre : List rune) (c : rune) (rest : List rune)
    (hp : interpPrefix pre = true) (hc : knownEscape c = false) (hce : c ≠ runeEof)
    (fuel : Nat) (hf : 3 * (34 :: (pre ++ 92 :: c :: rest)).length + 8 ≤ fuel) :
    lex fuel (34 :: (pre ++ 92 :: c :: rest)) =
      some (Except.error (error.Wrap (error.New "unknown escape sequence")
        (posAfter { Line := 1, Column := 0 } (34 :: (pre ++ [92]))).String)) ∧
    ∀ (lx : lexer) (pos : LexPos) (pk : lexKind),
      lx.Ready pos (34 :: (pre ++ 92 :: c :: rest)) pk → pk.isString = false →
      ∃ lx1, lx.readToken fuel =
        some ({ k := lexKind.Eof, s := [], pos := lx1.pos },
          some (error.Wrap (error.New "unknown escape sequence")
            (posAfter pos (34 :: (pre ++ [92]))).String), lx1) := by
  simp only [List.length_cons, List.length_append, List.length_nil] at hf
  constructor
  · exact lex_fail fuel _ _ (by omega)
      (FailToken_escape _ _ pre c rest _ rfl hp hc hce (by omega))
  · intro lx pos pk hr hpk
    exact FailToken_escape _ _ pre c rest _ hpk hp hc hce (by omega) lx hr

theorem C12_unknown_escape_witness :
    interpPrefix [] = true ∧ knownEscape 120 = false ∧ (120 : rune) ≠ runeEof ∧
    3 * (34 :: (([] : List rune) ++ 92 :: 120 :: [34])).length + 8 ≤ 20 ∧
    (lex 20 (34 :: ([] ++ 92 :: 120 :: [34])) =
      some (Except.error (error.Wrap (error.New "unknown escape sequence")
        (posAfter { Line := 1, Column := 0 } (34 :: ([] ++ [92]))).String)) ∧
    ∀ (lx : lexer) (pos : LexPos) (pk : lexKind),
      lx.Ready pos (34 :: ([] ++ 92 :: 120 :: [34])) pk → pk.isString = false →
      ∃ lx1, lx.readToken 20 =
        some ({ k := lexKind.Eof, s := [], pos := lx1.pos },
          some (error.Wrap (error.New "unknown escape sequence")
            (posAfter pos (34 :: ([] ++ [92]))).String), lx1)) ∧
    (posAfter { Line := 1, Column := 0 } (34 :: ([] ++ [92]))).String = "1:2" :=
  ⟨by decide, by decide, by decide, by decide,
    C12_unknown_escape [] 120 [34] (by decide) (by decide) (by decide) 20 (by decide),
    by decide⟩

/-! ## A recorded error stays -/

theorem Sink.Send_keeps (es : Sink) (err : Option error) (e : error)
    (h : es.cause = some e) : (es.Send err).cause = some e := by
  simp [Sink.Send, h]

theorem Sink.ok_of_none (es : Sink) (h : es.cause = none) : es.Ok = true := by
  simp [Sink.Ok, h]

theorem Sink.not_ok_of_some (es : Sink) (e : error) (h : es.cause = some e) :
    es.Ok = false := by
  simp [Sink.Ok, h]

theorem posError_keeps (p : parser) (err : error) (pos : LexPos) (e : error)
    (h : p.es.cause = some e) : (p.posError err pos).es.cause = some e :=
  Sink.Send_keeps _ _ _ h

theorem posError_cause (p : parser) (err : error) (pos : LexPos) (h : p.es.cause = none) :
    (p.posError err pos).es.cause = some (error.Wrap err pos.String) := by
  simp [parser.posError, Sink.Send, h]

theorem consume_keeps {n : Nat} {p p1 : parser} {e : error} (h : p.consume n = some p1)
    (he : p.es.cause = some e) : p1.es.cause = some e := by
  unfold parser.consume parser.lex at h
  simp only at h
  split at h
  · split at h
    · cases h
    · next tok p2 hs =>
      split at hs
      · cases hs
      · next t er lx hr =>
        simp only [Option.some.injEq, Prod.mk.injEq] at hs
        obtain ⟨-, hs2⟩ := hs
        simp only [Option.some.injEq] at h
        subst h
        subst hs2
        exact Sink.Send_keeps _ _ _ he
  · simp only [Option.some.injEq] at h
    subst h
    exact he

theorem accept_keeps {n : Nat} {p p1 : parser} {k : lexKind} {b : Bool} {e : error}
    (h : p.accept n k = some (b, p1)) (he : p.es.cause = some e) : p1.es.cause = some e := by
  unfold parser.accept at h
  split at h
  · split at h
    · cases h
    · next p2 hc =>
      simp only [Option.some.injEq, Prod.mk.injEq] at h
      rw [← h.2]
      exact consume_keeps hc he
  · simp only [Option.some.injEq, Prod.mk.injEq] at h
    rw [← h.2]
    exact he

theorem expect_keeps {n : Nat} {p p1 : parser} {k : lexKind} {msg : String} {b : Bool}
    {e : error} (h : p.expect n k msg = some (b, p1)) (he : p.es.cause = some e) :
    p1.es.cause = some e := by
  unfold parser.expect at h
  split at h
  · simp only [Option.some.injEq, Prod.mk.injEq] at h
    rw [← h.2]
    exact posError_keeps _ _ _ _ he
  · split at h
    · cases h
    · next p2 hc =>
      simp only [Option.some.injEq, Prod.mk.injEq] at h
      rw [← h.2]
      exact consume_keeps hc he

theorem expectP_keeps {n : Nat} {p p1 : parser} {pred : lexToken → Bool} {msg : String}
    {b : Bool} {e : error} (h : p.expectP n pred msg = some (b, p1))
    (he : p.es.cause = some e) : p1.es.cause = some e := by
  unfold parser.expectP at h
  split at h
  · simp only [Option.some.injEq, Prod.mk.injEq] at h
    rw [← h.2]
    exact posError_keeps _ _ _ _ he
  · split at h
    · cases h
    · next p2 hc =>
      simp only [Option.some.injEq, Prod.mk.injEq] at h
      rw [← h.2]
      exact consume_keeps hc he

theorem parseString_keeps {n : Nat} {p p1 : parser} {s : Str} {e : error}
    (h : p.parseString n = some (s, p1)) (he : p.es.cause = some e) :
    p1.es.cause = some e := by
  unfold parser.parseString at h
  split at h
  · cases h
  · next p2 hc =>
    simp only [Option.some.injEq, Prod.mk.injEq] at h
    rw [← h.2]
    exact consume_keeps hc he

/-- With an error recorded, the loop of `parseList` returns at once. -/
theorem parseListLoop_err {n : Nat} {p : parser} {e : error} (L : List Elem)
    (he : p.es.cause = some e) : parser.parseListLoop (n + 1) p L = some (L, p) := by
  rw [parser.parseListLoop, if_neg (by rw [Sink.not_ok_of_some _ _ he]; decide)]

/-- With an error recorded, the loop of `parseAssoc` returns at once. -/
theorem parseAssocLoop_err {n : Nat} {p : parser} {e : error} (L : List Pair)
    (he : p.es.cause = some e) : parser.parseAssocLoop (n + 1) p L = some (L, p) := by
  rw [parser.parseAssocLoop, if_neg (by rw [Sink.not_ok_of_some _ _ he]; decide)]

/-- With an error recorded, the loop of `parseRoot` returns at once. -/
theorem parseRootLoop_err {n : Nat} {p : parser} {e : error} (elems : List Elem)
    (he : p.es.cause = some e) : parser.parseRootLoop (n + 1) p elems = some (elems, p) := by
  rw [parser.parseRootLoop, if_neg (by rw [Sink.not_ok_of_some _ _ he]; decide)]

theorem parseList_keeps {n : Nat} {p p1 : parser} {x : Elem} {e : error}
    (h : parser.parseList n p = some (x, p1)) (he : p.es.cause = some e) :
    p1.es.cause = some e := by
  cases n with
  | zero => simp [parser.parseList] at h
  | succ m =>
    rw [parser.parseList] at h
    split at h
    · cases h
    · next p2 hc =>
      have h2 := consume_keeps hc he
      cases m with
      | zero => simp [parser.parseListLoop] at h
      | succ k =>
        rw [parseListLoop_err [] h2] at h
        simp only [Option.some.injEq, Prod.mk.injEq] at h
        rw [← h.2]
        exact h2

theorem parseAssoc_keeps {n : Nat} {p p1 : parser} {x : Elem} {e : error}
    (h : parser.parseAssoc n p = some (x, p1)) (he : p.es.cause = some e) :
    p1.es.cause = some e := by
  cases n with
  | zero => simp [parser.parseAssoc] at h
  | succ m =>
    rw [parser.parseAssoc] at h
    split at h
    · cases h
    · next p2 hc =>
      have h2 := consume_keeps hc he
      cases m with
      | zero => simp [parser.parseAssocLoop] at h
      | succ k =>
        rw [parseAssocLoop_err [] h2] at h
        simp only [Option.some.injEq, Prod.mk.injEq] at h
        rw [← h.2]
        exact h2

/-- What `parsePair` does once the key and the colon have been dealt with: from the state
`p3` in which the optional whitespace is accepted, a recorded error stays. -/
theorem parsePair_keeps {n : Nat} {p p1 p2 p5 : parser} {b1 ok : Bool} {pair : Pair}
    {e : error}
    (h : parser.parsePair (n + 1) p = some (pair, p5))
    (h1 : p.expectP n keyPred
      "key in association list pair must be of symbol or interpreted string form" =
        some (b1, p1))
    (h2 : p1.accept n lexKind.Colon = some (ok, p2))
    (he : (if !ok then
        p2.posError
          (error.New "key in association list pair must be immediately followed by colon")
          p2.prev.pos
        else p2).es.cause = some e) :
    p5.es.cause = some e := by
  rw [parser.parsePair, h1] at h
  simp only [h2] at h
  generalize (if (!ok) = true then
      p2.posError
        (error.New "key in association list pair must be immediately followed by colon")
        p2.prev.pos
      else p2) = p3 at he h
  split at h
  · cases h
  · next b4 p4 h4 =>
    have he4 := accept_keeps h4 he
    split at h
    · split at h
      · cases h
      · next s q hs =>
        simp only [Option.some.injEq, Prod.mk.injEq] at h
        rw [← h.2]
        exact parseString_keeps hs he4
    · split at h
      · split at h
        · cases h
        · next x q hs =>
          simp only [Option.some.injEq, Prod.mk.injEq] at h
          rw [← h.2]
          exact parseList_keeps hs he4
      · split at h
        · split at h
          · cases h
          · next x q hs =>
            simp only [Option.some.injEq, Prod.mk.injEq] at h
            rw [← h.2]
            exact parseAssoc_keeps hs he4
        · split at h
          · simp only [Option.some.injEq, Prod.mk.injEq] at h
            rw [← h.2]
            exact posError_keeps _ _ _ _ he4
          · simp only [Option.some.injEq, Prod.mk.injEq] at h
            rw [← h.2]
            exact posError_keeps _ _ _ _ he4

/-! ## Association lists: the pairs before an error -/

theorem pairsThen_append (kvs : List (Text × Text)) (x : List rune) :
    pairsThen kvs x = pairsThen kvs [] ++ x := by
  induction kvs with
  | nil => rfl
  | cons kv rest ih =>
    simp only [pairsThen, List.append_assoc, List.cons_append]
    rw [ih]

/-- One round of the loop of `parseAssoc` that parses a pair, when the pair parser
returns with an error recorded: the loop returns with that error. -/
theorem parseAssocLoop_pair_err {n : Nat} {p p3 : parser} {pair : Pair} {e : error}
    (L : List Pair) (hok : p.es.cause = none) (hk1 : p.next.k ≠ lexKind.Space)
    (hk2 : p.next.k ≠ lexKind.RBrace) (hk3 : p.next.k ≠ lexKind.Eof)
    (hp : parser.parsePair (n + 1) p = some (pair, p3)) (he : p3.es.cause = some e)
    (hm : p3.measure ≤ n + 1) :
    ∃ p4, parser.parseAssocLoop (n + 2) p L = some (L ++ [pair], p4) ∧
      p4.es.cause = some e := by
  rw [parser.parseAssocLoop, if_pos (Sink.ok_of_none _ hok), accept_no hk1]
  simp only
  rw [accept_no hk2]
  simp only [parser.is, decide_eq_true_eq, hk3, if_false, hp]
  split
  · obtain ⟨b4, p4, hex, -⟩ := expect_spec (n + 1) p3 lexKind.Space
      "association list pairs must be separated by whitespace" hm
    rw [hex]
    have h4 := expect_keeps hex he
    exact ⟨p4, parseAssocLoop_err _ h4, h4⟩
  · exact ⟨p3, parseAssocLoop_err _ he, he⟩

/-- One round of the loop of `parseAssoc` that parses a pair without error: when the token
after the pair is neither whitespace nor the closing brace nor the end of the stream, the
loop returns with the error of the missing separator, at that token. -/
theorem parseAssocLoop_pair_nosep {n : Nat} {p p3 : parser} {pair : Pair}
    (L : List Pair) (hok : p.es.cause = none) (hk1 : p.next.k ≠ lexKind.Space)
    (hk2 : p.next.k ≠ lexKind.RBrace) (hk3 : p.next.k ≠ lexKind.Eof)
    (hp : parser.parsePair (n + 1) p = some (pair, p3)) (he : p3.es.cause = none)
    (ht1 : p3.next.k ≠ lexKind.Space) (ht2 : p3.next.k ≠ lexKind.RBrace)
    (ht3 : p3.next.k ≠ lexKind.Eof) :
    parser.parseAssocLoop (n + 2) p L =
      some (L ++ [pair],
        p3.posError (error.New "association list pairs must be separated by whitespace")
          p3.next.pos) := by
  rw [parser.parseAssocLoop, if_pos (Sink.ok_of_none _ hok), accept_no hk1]
  simp only
  rw [accept_no hk2]
  simp only [parser.is, decide_eq_true_eq, hk3, if_false, hp, ht2, ht3, decide_False,
    Bool.not_false, Bool.and_self, if_true]
  unfold parser.expect
  rw [if_pos ht1]
  simp only
  exact parseAssocLoop_err _ (posError_cause _ _ _ he)

/-- One round of the loop of `parseAssoc` that parses a pair: when the token after the
pair is the closing brace or the end of the stream, no separator is asked for. -/
theorem parseAssocLoop_pair_last {n : Nat} {p p3 : parser} {pair : Pair}
    (L : List Pair) (hok : p.es.cause = none) (hk1 : p.next.k ≠ lexKind.Space)
    (hk2 : p.next.k ≠ lexKind.RBrace) (hk3 : p.next.k ≠ lexKind.Eof)
    (hp : parser.parsePair n p = some (pair, p3))
    (ht : p3.next.k = lexKind.RBrace ∨ p3.next.k = lexKind.Eof) :
    parser.parseAssocLoop (n + 1) p L = parser.parseAssocLoop n p3 (L ++ [pair]) := by
  rw [parser.parseAssocLoop, if_pos (Sink.ok_of_none _ hok), accept_no hk1]
  simp only
  rw [accept_no hk2]
  simp only [parser.is, decide_eq_true_eq, hk3, if_false, hp]
  rcases ht with ht | ht <;> simp [ht]

/-- The end of the stream in the loop of `parseAssoc`. -/
theorem parseAssocLoop_eof {n : Nat} {p : parser} {pos pos1 : LexPos} {rest : List rune}
    (L : List Pair) (h : p.PReady { k := lexKind.Eof, s := [], pos := pos } pos1 rest) :
    parser.parseAssocLoop (n + 2) p L =
      some (L, p.posError (error.New "unterminated association list") pos) := by
  have hk : p.next.k = lexKind.Eof := by rw [h.2.1]
  have hpos : p.next.pos = pos := by rw [h.2.1]
  rw [parser.parseAssocLoop, if_pos h.es_ok, accept_no (by rw [hk]; decide)]
  simp only
  rw [accept_no (by rw [hk]; decide)]
  simp only [parser.is, hk, decide_True, if_true, hpos]
  exact parseAssocLoop_err _ (posError_cause _ _ _ h.1)

theorem Parse_of_parseRoot_err {fuel : Nat} {reader : RuneReader} {elems : List Elem}
    {p : parser} {e : error} (h : (newParser reader).parseRoot fuel = some (elems, p))
    (he : p.es.cause = some e) : Parse fuel reader = some ([], some e) := by
  unfold Parse
  rw [h]
  simp [parser.err, Sink.Cause, he]

/-- A document that begins with an opening brace: when the loop of `parseAssoc`, entered
with the first token after the brace as lookahead, returns with an error recorded, `Parse`
returns that error. -/
theorem Parse_assoc_fail {g : Nat} {Y rest1 : List rune} {tok1 : lexToken} {pos1 : LexPos}
    {e : error}
    (hn : NextToken (g + 1) { Line := 1, Column := 1 } Y lexKind.LBrace tok1 pos1 rest1)
    (hloop : ∀ p1 : parser, p1.PReady tok1 pos1 rest1 → p1.prev.pos = { Line := 1, Column := 0 } →
      ∃ L1 p2, parser.parseAssocLoop (g + 1) p1 [] = some (L1, p2) ∧ p2.es.cause = some e) :
    Parse (g + 3) { runes := 123 :: Y, err := none } = some ([], some e) := by
  obtain ⟨p, e0, r0⟩ := parseRoot_ready
    (NextToken_struct (g + 3) { Line := 1, Column := 0 } 123 lexKind.LBrace Y lexKind.Eof rfl
      (by omega))
  have hu : ({ Line := 1, Column := 0 } : LexPos).update 123 = { Line := 1, Column := 1 } := by
    decide
  rw [hu] at r0
  obtain ⟨p1, e1, r1, q1⟩ := consume_ready (n := g + 1) r0 (by simp) hn
  obtain ⟨L1, p2, e2, c2⟩ := hloop p1 r1 (by rw [q1])
  have ea : parser.parseAssoc (g + 2) p = some (Elem.Assoc p1.prev.pos L1, p2) := by
    rw [parser.parseAssoc, e1]
    simp only [e2]
  have e3 := parseRootLoop_assoc r0 rfl ea []
  apply Parse_of_parseRoot_err (p := p2) _ c2
  · exact []  ++ [Elem.Assoc p1.prev.pos L1]
  · rw [e0, e3]
    exact parseRootLoop_err _ c2

theorem pairsThen_length (kv : Text × Text) (rest : List (Text × Text)) (x : List rune) :
    (pairsThen (kv :: rest) x).length =
      kv.1.length + kv.2.length + 2 + (pairsThen rest x).length := by
  simp only [pairsThen, List.length_append, List.length_cons]
  omega

theorem spaceStop_pairsThen (kvs : List (Text × Text)) (x : List rune)
    (hq : ∀ q ∈ kvs, (q.1 ≠ [] ∧ ∀ r ∈ q.1, alnum r = true) ∧
      (q.2 ≠ [] ∧ ∀ r ∈ q.2, alnum r = true)) (hst : spaceStop x) :
    spaceStop (pairsThen kvs x) := by
  cases kvs with
  | nil => exact hst
  | cons kv rest =>
    obtain ⟨⟨hne, hk⟩, -⟩ := hq kv (List.mem_cons_self _ _)
    simp only [pairsThen]
    cases hk1 : kv.1 with
    | nil => exact absurd hk1 hne
    | cons a t =>
      have ha := alnum_symbolRune (hk a (by rw [hk1]; exact List.mem_cons_self _ _))
      exact ⟨ha.1.2.1, validRune_ne_eof ha.1.1⟩

/-- The loop of `parseAssoc` over pairs of symbols that are each followed by a space, the
first key being the lookahead: the loop arrives, with the pairs parsed, at the token that
follows the last space. -/
theorem parseAssocLoop_pairsThen (x : List rune) (tokX : lexToken) (posX : LexPos)
    (restX : List rune) (hst : spaceStop x) :
    ∀ (rest : List (Text × Text)) (kv : Text × Text)
    (p : parser) (pos : LexPos) (L : List Pair) (n : Nat),
    (∀ q ∈ kv :: rest, (q.1 ≠ [] ∧ ∀ r ∈ q.1, alnum r = true) ∧
      (q.2 ≠ [] ∧ ∀ r ∈ q.2, alnum r = true)) →
    p.PReady { k := lexKind.SymbolString, s := kv.1, pos := pos } (posAfter pos kv.1)
      (58 :: (kv.2 ++ 32 :: pairsThen rest x)) →
    (∀ j, n ≤ j → NextToken j (posAfter pos (pairsThen (kv :: rest) [])) x lexKind.Space
      tokX posX restX) →
    (pairsThen (kv :: rest) []).length + 5 ≤ n →
    ∃ pX, parser.parseAssocLoop (n + (rest.length + 1)) p L =
        parser.parseAssocLoop n pX (L ++ expectPairs pos (kv :: rest)) ∧
      pX.PReady tokX posX restX := by
  intro rest
  induction rest with
  | nil =>
    intro kv p pos L n hq h hX hn
    obtain ⟨⟨-, -⟩, ⟨hvne, hv⟩⟩ := hq kv (List.mem_cons_self _ _)
    have hv2 : ∀ r ∈ kv.2, symbolRune r ∧ r ≠ 47 := fun r hr => alnum_symbolRune (hv r hr)
    rw [pairsThen_length] at hn
    simp only [pairsThen, List.length_nil, Nat.zero_add] at h hn ⊢
    obtain ⟨j, rfl⟩ : ∃ j, n = j + 1 := ⟨n - 1, by omega⟩
    have hsp := NextToken_of_Begin (BeginToken_space j (posAfter pos (kv.1 ++ 58 :: kv.2)) 32 []
      x lexKind.SymbolString (by decide) (by decide) (by simp) hst
      (by simp only [List.length_nil]; omega))
    obtain ⟨p5, e5, r5⟩ := parsePair_symbols (j := j) h hvne hv2
      (symStop_space _ (by decide)) (by omega) hsp
    have hpos : posAfter (posAfter pos (kv.1 ++ 58 :: kv.2)) [32] =
        posAfter pos (kv.1 ++ 58 :: (kv.2 ++ [32])) := by
      simp only [posAfter_append, posAfter]
    have hX1 : NextToken (j + 1) (posAfter (posAfter pos (kv.1 ++ 58 :: kv.2)) [32]) x
        lexKind.Space tokX posX restX := by
      have := hX (j + 1) (le_refl _)
      simp only [pairsThen, posAfter_append, posAfter] at this ⊢
      exact this
    obtain ⟨b6, e6, r6⟩ := expect_yes
      "association list pairs must be separated by whitespace" r5 (by simp) hX1
    refine ⟨b6, ?_, r6⟩
    rw [parser.parseAssocLoop, if_pos h.es_ok, accept_no (by rw [h.2.1]; simp)]
    simp only
    rw [accept_no (by rw [h.2.1]; simp)]
    simp only [parser.is, h.2.1, r5.2.1, e5, decide_False, decide_True, Bool.false_eq_true,
      if_false, Bool.not_false, Bool.and_self, if_true, e6, expectPairs,
      List.append_assoc, List.singleton_append, decide_eq_true_eq, reduceCtorEq]
  | cons kv2 rest ih =>
    intro kv p pos L n hq h hX hn
    obtain ⟨⟨-, -⟩, ⟨hvne, hv⟩⟩ := hq kv (List.mem_cons_self _ _)
    obtain ⟨⟨hk2ne, hk2⟩, -⟩ := hq kv2 (List.mem_cons_of_mem _ (List.mem_cons_self _ _))
    have hv2 : ∀ r ∈ kv.2, symbolRune r ∧ r ≠ 47 := fun r hr => alnum_symbolRune (hv r hr)
    have hk22 : ∀ r ∈ kv2.1, symbolRune r ∧ r ≠ 47 := fun r hr => alnum_symbolRune (hk2 r hr)
    have hq2 : ∀ q ∈ kv2 :: rest, (q.1 ≠ [] ∧ ∀ r ∈ q.1, alnum r = true) ∧
        (q.2 ≠ [] ∧ ∀ r ∈ q.2, alnum r = true) := fun q hq2 => hq q (List.mem_cons_of_mem _ hq2)
    rw [pairsThen_length] at hn
    have hn2 := hn
    rw [pairsThen_length] at hn2
    have htail : pairsThen (kv2 :: rest) x = kv2.1 ++ 58 :: (kv2.2 ++ 32 :: pairsThen rest x) :=
      rfl
    obtain ⟨j, hj⟩ : ∃ j, n + (rest.length + 1) = j + 1 := ⟨n + rest.length, by omega⟩
    have hsp := NextToken_of_Begin (BeginToken_space j (posAfter pos (kv.1 ++ 58 :: kv.2)) 32 []
      (pairsThen (kv2 :: rest) x) lexKind.SymbolString (by decide) (by decide) (by simp)
      (spaceStop_pairsThen _ _ hq2 hst) (by simp only [List.length_nil]; omega))
    obtain ⟨p5, e5, r5⟩ := parsePair_symbols (j := j) h hvne hv2
      (symStop_space _ (by decide)) (by omega) hsp
    have hsym := NextToken_of_Begin (BeginToken_symbol_noslash (j + 1)
      (posAfter (posAfter pos (kv.1 ++ 58 :: kv.2)) [32]) kv2.1
      (58 :: (kv2.2 ++ 32 :: pairsThen rest x)) lexKind.Space rfl hk2ne hk22 (symStop_colon _)
      (by omega))
    rw [htail] at r5
    obtain ⟨b6, e6, r6⟩ := expect_yes
      "association list pairs must be separated by whitespace" r5 (by simp) hsym
    have hpos : posAfter (posAfter pos (kv.1 ++ 58 :: kv.2)) [32] =
        posAfter pos (kv.1 ++ 58 :: (kv.2 ++ [32])) := by
      simp only [posAfter_append, posAfter]
    rw [hpos] at r6
    have hX2 : ∀ j, n ≤ j → NextToken j
        (posAfter (posAfter pos (kv.1 ++ 58 :: (kv.2 ++ [32]))) (pairsThen (kv2 :: rest) []))
        x lexKind.Space tokX posX restX := by
      intro j hj
      have := hX j hj
      simp only [pairsThen, posAfter_append, posAfter] at this ⊢
      exact this
    obtain ⟨p7, e7, r7⟩ := ih kv2 b6 _
      (L ++ [Pair.mk { pos := pos, V := kv.1 }
        (Elem.String { pos := posAfter pos (kv.1 ++ [58]), V := kv.2 })]) n hq2 r6 hX2
      (by omega)
    refine ⟨p7, ?_, r7⟩
    have hfuel : n + (rest.length + 1 + 1) = (j + 1) + 1 := by omega
    have hj2 : n + (rest.length + 1) = j + 1 := hj
    rw [List.length_cons, hfuel]
    rw [hj2] at e7
    rw [parser.parseAssocLoop, if_pos h.es_ok, accept_no (by rw [h.2.1]; simp)]
    simp only
    rw [accept_no (by rw [h.2.1]; simp)]
    simp only [parser.is, h.2.1, r5.2.1, e5, decide_False, decide_True, Bool.false_eq_true,
      if_false, Bool.not_false, Bool.and_self, if_true, e6, e7, expectPairs,
      List.append_assoc, List.singleton_append, decide_eq_true_eq, reduceCtorEq]

theorem pairsThen_length_le (kvs : List (Text × Text)) :
    kvs.length ≤ (pairsThen kvs []).length := by
  induction kvs with
  | nil => simp
  | cons kv rest ih =>
    rw [pairsThen_length]
    simp only [List.length_cons]
    omega

/-- An association list at the root that begins with pairs of symbols, each followed by a
space: when the loop of `parseAssoc`, arrived at the token that follows them, returns with
an error recorded, `Parse` returns that error. -/
theorem Parse_pairsThen_fail (kvs : List (Text × Text)) (x : List rune) (tokX : lexToken)
    (posX : LexPos) (restX : List rune) (e : error) (fuel : Nat)
    (hq : ∀ q ∈ kvs, (q.1 ≠ [] ∧ ∀ r ∈ q.1, alnum r = true) ∧
      (q.2 ≠ [] ∧ ∀ r ∈ q.2, alnum r = true)) (hst : spaceStop x)
    (hX : ∀ (pk : lexKind) (j : Nat), pk.isString = false → x.length + 2 ≤ j →
      NextToken j (posAfter { Line := 1, Column := 1 } (pairsThen kvs [])) x pk tokX posX restX)
    (hcore : ∀ (p : parser) (L : List Pair) (n : Nat), 3 * x.length + 9 ≤ n →
      p.PReady tokX posX restX →
      ∃ L1 p2, parser.parseAssocLoop n p L = some (L1, p2) ∧ p2.es.cause = some e)
    (hf : 3 * (123 :: pairsThen kvs x).length + 8 ≤ fuel) :
    Parse fuel { runes := 123 :: pairsThen kvs x, err := none } = some ([], some e) := by
  rw [pairsThen_append] at hf
  simp only [List.length_cons, List.length_append] at hf
  have hle := pairsThen_length_le kvs
  obtain ⟨g, rfl⟩ : ∃ g, fuel = g + 3 := ⟨fuel - 3, by omega⟩
  cases kvs with
  | nil =>
    simp only [pairsThen, posAfter, List.length_nil] at hX hf ⊢
    exact Parse_assoc_fail (hX lexKind.LBrace (g + 1) rfl (by omega))
      (fun p1 h1 _ => hcore p1 [] (g + 1) (by omega) h1)
  | cons kv rest =>
    obtain ⟨⟨hkne, hk⟩, -⟩ := hq kv (List.mem_cons_self _ _)
    have hk2 : ∀ r ∈ kv.1, symbolRune r ∧ r ≠ 47 := fun r hr => alnum_symbolRune (hk r hr)
    have hlen := pairsThen_length kv rest []
    simp only [List.length_cons] at hle
    obtain ⟨n, hn⟩ : ∃ n, g + 1 = n + (rest.length + 1) := ⟨g - rest.length, by omega⟩
    have hfirst := NextToken_of_Begin (BeginToken_symbol_noslash (g + 1)
      { Line := 1, Column := 1 } kv.1 (58 :: (kv.2 ++ 32 :: pairsThen rest x)) lexKind.LBrace rfl
      hkne hk2 (symStop_colon _) (by omega))
    refine Parse_assoc_fail (Y := pairsThen (kv :: rest) x) hfirst ?_
    intro p1 h1 _
    obtain ⟨pX, e1, r1⟩ := parseAssocLoop_pairsThen x tokX posX restX hst rest kv p1
      { Line := 1, Column := 1 } [] n hq h1
      (fun j hj => hX lexKind.Space j rfl (by omega)) (by omega)
    obtain ⟨L1, p2, e2, c2⟩ := hcore pX ([] ++ expectPairs { Line := 1, Column := 1 } (kv :: rest))
      n (by omega) r1
    refine ⟨L1, p2, ?_, c2⟩
    rw [hn, e1, e2]

/-! ## Unterminated association lists -/

theorem renderPairs_concat (last : Text × Text) : ∀ (init : List (Text × Text)),
    renderPairs (init ++ [last]) = pairsThen init (last.1 ++ 58 :: last.2) := by
  intro init
  induction init with
  | nil => simp [renderPairs, pairsThen]
  | cons kv rest ih =>
    have h : ∀ (l : List (Text × Text)), l ≠ [] →
        renderPairs (kv :: l) = kv.1 ++ 58 :: (kv.2 ++ 32 :: renderPairs l) := by
      intro l hl
      cases l with
      | nil => exact absurd rfl hl
      | cons a t => rfl
    rw [List.cons_append, h _ (by simp), ih]
    rfl

/-- The last pair of an association list that the end of the stream cuts short. -/
theorem parseAssocLoop_last_open {n : Nat} {p : parser} {pos : LexPos} {k v : List rune}
    (L : List Pair)
    (h : p.PReady { k := lexKind.SymbolString, s := k, pos := pos } (posAfter pos k)
      (58 :: v))
    (hvne : v ≠ []) (hv : ∀ r ∈ v, alnum r = true) (hn : v.length + 4 ≤ n) :
    ∃ L1 p2, parser.parseAssocLoop n p L = some (L1, p2) ∧
      p2.es.cause = some (error.Wrap (error.New "unterminated association list")
        (posAfter pos (k ++ 58 :: v)).String) := by
  obtain ⟨j, rfl⟩ : ∃ j, n = j + 4 := ⟨n - 4, by omega⟩
  have hv2 : ∀ r ∈ v, symbolRune r ∧ r ≠ 47 := fun r hr => alnum_symbolRune (hv r hr)
  have h2 : p.PReady { k := lexKind.SymbolString, s := k, pos := pos } (posAfter pos k)
      (58 :: (v ++ [])) := by simpa using h
  obtain ⟨p5, e5, r5⟩ := parsePair_symbols (j := j + 2) h2 hvne hv2 trivial (by omega)
    (NextToken_eof (j + 2) _ _ (by omega))
  have e6 := parseAssocLoop_pair_last L h.1 (by rw [h.2.1]; simp) (by rw [h.2.1]; simp)
    (by rw [h.2.1]; simp) e5 (Or.inr (by rw [r5.2.1]))
  have e7 := parseAssocLoop_eof (n := j + 1)
    (L ++ [Pair.mk { pos := pos, V := k } (Elem.String { pos := posAfter pos (k ++ [58]), V := v })])
    r5
  exact ⟨_, _, e6.trans e7, posError_cause _ _ _ r5.1⟩

/-- C16: for every list of pairs of non-empty alphanumeric strings (the empty list
included) and every fuel of at least three units per rune of the input plus eight, `Parse`
of `{` + `k_1:v_1 k_2:v_2 ... k_n:v_n` and then the end of the stream, with no closing
brace, fails with "unterminated association list", wrapped with the position reached after
the whole input (the position of the end-of-stream token). -/
theorem C16_unterminated_assoc (kvs : List (Text × Text))
    (hq : ∀ q ∈ kvs, (q.1 ≠ [] ∧ ∀ r ∈ q.1, alnum r = true) ∧
      (q.2 ≠ [] ∧ ∀ r ∈ q.2, alnum r = true)) (fuel : Nat)
    (hf : 3 * (123 :: renderPairs kvs).length + 8 ≤ fuel) :
    Parse fuel { runes := 123 :: renderPairs kvs, err := none } =
      some ([], some (error.Wrap (error.New "unterminated association list")
        (posAfter { Line := 1, Column := 0 } (123 :: renderPairs kvs)).String)) := by
  rcases List.eq_nil_or_concat kvs with hnil | ⟨init, last, hc⟩
  · subst hnil
    exact Parse_pairsThen_fail [] [] { k := lexKind.Eof, s := [], pos := { Line := 1, Column := 1 } }
      { Line := 1, Column := 1 } [] _ fuel (by simp) trivial
      (fun pk j _ hj => NextToken_eof j _ pk (by omega))
      (fun p L n hn hp => by
        obtain ⟨m, rfl⟩ : ∃ m, n = m + 2 := ⟨n - 2, by omega⟩
        exact ⟨_, _, parseAssocLoop_eof L hp, posError_cause _ _ _ hp.1⟩)
      hf
  · subst hc
    have hr : renderPairs (init ++ [last]) = pairsThen init (last.1 ++ 58 :: last.2) :=
      renderPairs_concat last init
    rw [List.concat_eq_append] at hf ⊢
    rw [hr] at hf ⊢
    rw [List.concat_eq_append] at hq
    have hqi : ∀ q ∈ init, (q.1 ≠ [] ∧ ∀ r ∈ q.1, alnum r = true) ∧
        (q.2 ≠ [] ∧ ∀ r ∈ q.2, alnum r = true) :=
      fun q hq2 => hq q (List.mem_append_left _ hq2)
    obtain ⟨⟨hkne, hk⟩, ⟨hvne, hv⟩⟩ := hq last (List.mem_append_right _ (List.mem_singleton_self _))
    have hk2 : ∀ r ∈ last.1, symbolRune r ∧ r ≠ 47 := fun r hr => alnum_symbolRune (hk r hr)
    have hst : spaceStop (last.1 ++ 58 :: last.2) := by
      cases hk1 : last.1 with
      | nil => exact absurd hk1 hkne
      | cons a t =>
        have ha := hk2 a (by rw [hk1]; exact List.mem_cons_self _ _)
        exact ⟨ha.1.2.1, validRune_ne_eof ha.1.1⟩
    have hpos : posAfter { Line := 1, Column := 0 }
          (123 :: pairsThen init (last.1 ++ 58 :: last.2)) =
        posAfter (posAfter { Line := 1, Column := 1 } (pairsThen init []))
          (last.1 ++ 58 :: last.2) := by
      rw [pairsThen_append, ← posAfter_append]
      rfl
    rw [hpos]
    exact Parse_pairsThen_fail init (last.1 ++ 58 :: last.2)
      { k := lexKind.SymbolString, s := last.1,
        pos := posAfter { Line := 1, Column := 1 } (pairsThen init []) }
      (posAfter (posAfter { Line := 1, Column := 1 } (pairsThen init [])) last.1)
      (58 :: last.2) _ fuel hqi hst
      (fun pk j hpk hj => NextToken_of_Begin (BeginToken_symbol_noslash j _ last.1
        (58 :: last.2) pk hpk hkne hk2 (symStop_colon _)
        (by simp only [List.length_append, List.length_cons] at hj; omega)))
      (fun p L n hn hp => parseAssocLoop_last_open L hp hvne hv
        (by simp only [List.length_append, List.length_cons] at hn; omega))
      hf

theorem C16_unterminated_assoc_witness :
    ((∀ q ∈ ([] : List (Text × Text)), (q.1 ≠ [] ∧ ∀ r ∈ q.1, alnum r = true) ∧
        (q.2 ≠ [] ∧ ∀ r ∈ q.2, alnum r = true)) ∧
      3 * (123 :: renderPairs []).length + 8 ≤ 11 ∧
      Parse 11 { runes := 123 :: renderPairs [], err := none } =
        some ([], some (error.Wrap (error.New "unterminated association list")
          (posAfter { Line := 1, Column := 0 } (123 :: renderPairs [])).String)) ∧
      (posAfter { Line := 1, Column := 0 } (123 :: renderPairs [])).String = "1:1") ∧
    ((∀ q ∈ ([([97], [49]), ([98], [50, 51])] : List (Text × Text)),
        (q.1 ≠ [] ∧ ∀ r ∈ q.1, alnum r = true) ∧ (q.2 ≠ [] ∧ ∀ r ∈ q.2, alnum r = true)) ∧
      3 * (123 :: renderPairs [([97], [49]), ([98], [50, 51])]).length + 8 ≤ 38 ∧
      Parse 38 { runes := 123 :: renderPairs [([97], [49]), ([98], [50, 51])], err := none } =
        some ([], some (error.Wrap (error.New "unterminated association list")
          (posAfter { Line := 1, Column := 0 }
            (123 :: renderPairs [([97], [49]), ([98], [50, 51])])).String)) ∧
      (posAfter { Line := 1, Column := 0 }
        (123 :: renderPairs [([97], [49]), ([98], [50, 51])])).String = "1:9") :=
  ⟨⟨by decide, by decide, C16_unterminated_assoc [] (by decide) 11 (by decide), by decide⟩,
    ⟨by decide, by decide,
      C16_unterminated_assoc [([97], [49]), ([98], [50, 51])] (by decide) 38 (by decide),
      by decide⟩⟩

/-! ## Errors in the pairs of an association list -/

theorem keyText_length_pos (interp : Bool) (s : Text) (hk : keyOk interp s) :
    0 < (keyText interp s).length := by
  cases interp with
  | true => simp [keyText]
  | false =>
    simp only [keyOk, Bool.false_eq_true, if_false] at hk
    simp only [keyText, Bool.false_eq_true, if_false]
    exact List.length_pos.mpr hk.1

/-- The token of a key. -/
theorem NextToken_key (j : Nat) (pos : LexPos) (interp : Bool) (s : Text) (rest : List rune)
    (pk : lexKind) (hk : keyOk interp s) (hpk : pk.isString = false)
    (hst : interp = false → symStop rest) (hj : (keyText interp s).length + 1 < j) :
    NextToken j pos (keyText interp s ++ rest) pk
      { k := keyKind interp, s := s, pos := pos } (posAfter pos (keyText interp s)) rest := by
  cases interp with
  | true =>
    simp only [keyOk, if_true] at hk
    simp only [keyText, if_true, List.length_cons, List.length_append, List.length_nil] at hj ⊢
    have := NextToken_interp j pos s rest pk hpk hk (by omega)
    simpa [keyKind] using this
  | false =>
    simp only [keyOk, Bool.false_eq_true, if_false] at hk
    simp only [keyText, Bool.false_eq_true, if_false] at hj ⊢
    exact NextToken_of_Begin (BeginToken_symbol_noslash j pos s rest pk hpk hk.1 hk.2
      (hst rfl) (by omega))

theorem spaceStop_keyText (interp : Bool) (s : Text) (rest : List rune)
    (hk : keyOk interp s) : spaceStop (keyText interp s ++ rest) := by
  cases interp with
  | true =>
    simp only [keyText, if_true, List.cons_append]
    exact ⟨by decide, by decide⟩
  | false =>
    simp only [keyOk, Bool.false_eq_true, if_false] at hk
    simp only [keyText, Bool.false_eq_true, if_false]
    cases hs : s with
    | nil => exact absurd hs hk.1
    | cons a t =>
      have ha := hk.2 a (by rw [hs]; exact List.mem_cons_self _ _)
      exact ⟨ha.1.2.1, validRune_ne_eof ha.1.1⟩

theorem keyPred_keyKind (interp : Bool) (s : Text) (pos : LexPos) :
    keyPred { k := keyKind interp, s := s, pos := pos } = true := by
  cases interp <;> simp [keyPred, keyKind]

theorem keyKind_ne (interp : Bool) :
    keyKind interp ≠ lexKind.Eof ∧ keyKind interp ≠ lexKind.Space ∧
    keyKind interp ≠ lexKind.RBrace ∧ keyKind interp ≠ lexKind.Colon := by
  cases interp <;> simp [keyKind]

/-- The optional whitespace in front of a token `T` that is not whitespace: accepting a
whitespace token leaves `T` as the lookahead. -/
theorem accept_space_opt {n : Nat} {p : parser} {tok T : lexToken} {pos posT : LexPos}
    {w tail restT : List rune}
    (h : p.PReady tok pos (w ++ tail)) (hk : tok.k ≠ lexKind.Eof)
    (hks : tok.isString = false) (hksp : tok.k ≠ lexKind.Space)
    (hw : ∀ r ∈ w, isSpace r = true) (hst : spaceStop tail) (hTk : T.k ≠ lexKind.Space)
    (hT : ∀ pk : lexKind, pk.isString = false →
      NextToken n (posAfter pos w) tail pk T posT restT)
    (hn : w.length + 1 < n) :
    ∃ p2 b p4, p.consume n = some p2 ∧ p2.prev = tok ∧ p2.es.cause = none ∧
      p2.accept n lexKind.Space = some (b, p4) ∧ p4.PReady T posT restT := by
  cases w with
  | nil =>
    simp only [List.nil_append, posAfter] at h hT
    obtain ⟨p2, e2, r2, q2⟩ := consume_ready h hk (hT tok.k hks)
    exact ⟨p2, false, p2, e2, q2, r2.1, accept_no (by rw [r2.2.1]; exact hTk), r2⟩
  | cons a w1 =>
    simp only [List.cons_append] at h
    have hsp := NextToken_of_Begin (BeginToken_space n pos a w1 tail tok.k hksp
      (hw a (List.mem_cons_self _ _)) (fun r hr => hw r (List.mem_cons_of_mem _ hr)) hst
      (by simp only [List.length_cons] at hn; omega))
    obtain ⟨p2, e2, r2, q2⟩ := consume_ready h hk hsp
    obtain ⟨p4, e4, r4, -⟩ := accept_yes r2 (by simp) (hT lexKind.Space rfl)
    exact ⟨p2, true, p4, e2, q2, r2.1, e4, r4⟩

/-- The pair parser on a key, its colon, optional whitespace and then the closing brace
or the end of the stream. -/
theorem parsePair_novalue {n : Nat} {p : parser} {tokK T : lexToken} {pos posT : LexPos}
    {w tail restT : List rune}
    (h : p.PReady tokK pos (58 :: (w ++ tail))) (hkp : keyPred tokK = true)
    (hw : ∀ r ∈ w, isSpace r = true) (hst : spaceStop tail)
    (hTk : T.k = lexKind.RBrace ∨ T.k = lexKind.Eof)
    (hT : ∀ pk : lexKind, pk.isString = false →
      NextToken n (posAfter (pos.update 58) w) tail pk T posT restT)
    (hn : w.length + 1 < n) :
    ∃ pair p5, parser.parsePair (n + 1) p = some (pair, p5) ∧
      p5.es.cause = some (error.Wrap (error.New "unterminated association list pair")
        T.pos.String) ∧
      p5.measure ≤ restT.length + 1 := by
  obtain ⟨p1, e1, r1, q1⟩ := expectP_yes keyPred
    "key in association list pair must be of symbol or interpreted string form" h hkp
    (keyPred_ne_eof _ hkp) (NextToken_struct n _ 58 lexKind.Colon (w ++ tail) _ rfl (by omega))
  obtain ⟨p2, b, p4, e2, q2, c2, e4, r4⟩ := accept_space_opt (T := T) r1 (by simp) rfl (by simp)
    hw hst (by rcases hTk with h | h <;> rw [h] <;> simp) hT hn
  have eacc : p1.accept n lexKind.Colon = some (true, p2) := by
    unfold parser.accept
    rw [if_pos (by rw [r1.2.1]), e2]
  have hm : ∀ q : parser, q.next = T → q.lexer = p4.lexer → q.measure ≤ restT.length + 1 := by
    intro q hq1 hq2
    unfold parser.measure
    rw [hq2, r4.2.2.measure]
    split <;> omega
  refine ⟨Pair.mk { pos := p1.prev.pos, V := p1.prev.s } (Elem.List { Line := 0, Column := 0 } []),
    p4.posError (error.New "unterminated association list pair") T.pos, ?_,
    posError_cause p4 (error.New "unterminated association list pair") T.pos r4.1,
    hm _ r4.2.1 rfl⟩
  rw [parser.parsePair, e1]
  simp only [eacc, Bool.not_true, Bool.false_eq_true, if_false, e4]
  rcases hTk with hk | hk <;>
    simp [parser.isP, parser.is, r4.2.1, lexToken.isString, lexKind.isString, hk]

/-- C17: in an association list at the root, after zero or more complete pairs of
alphanumeric symbols that are each followed by a space, a key `k` in symbol or interpreted
string form, its colon (58), optional whitespace `w` and then the end of the stream or a
closing brace (125) followed by anything: `Parse` fails with "unterminated association
list pair", wrapped with the position of that end-of-stream or closing-brace token, which
is the position reached after everything in front of it. -/
theorem C17_unterminated_pair (kvs : List (Text × Text)) (interp : Bool) (s : Text)
    (w tail : List rune)
    (hq : ∀ q ∈ kvs, (q.1 ≠ [] ∧ ∀ r ∈ q.1, alnum r = true) ∧
      (q.2 ≠ [] ∧ ∀ r ∈ q.2, alnum r = true))
    (hk : keyOk interp s) (hw : ∀ r ∈ w, isSpace r = true)
    (ht : tail = [] ∨ tail.head? = some 125) (fuel : Nat)
    (hf : 3 * (123 :: pairsThen kvs (keyText interp s ++ 58 :: (w ++ tail))).length + 8 ≤ fuel) :
    Parse fuel
        { runes := 123 :: pairsThen kvs (keyText interp s ++ 58 :: (w ++ tail)), err := none } =
      some ([], some (error.Wrap (error.New "unterminated association list pair")
        (posAfter { Line := 1, Column := 0 }
          (123 :: pairsThen kvs (keyText interp s ++ 58 :: w))).String)) := by
  have hpos : posAfter { Line := 1, Column := 0 }
        (123 :: pairsThen kvs (keyText interp s ++ 58 :: w)) =
      posAfter (((posAfter (posAfter { Line := 1, Column := 1 } (pairsThen kvs []))
        (keyText interp s))).update 58) w := by
    rw [pairsThen_append]
    simp only [posAfter, posAfter_append]
    rfl
  have hT : ∃ T restT posT, T.pos = posAfter (((posAfter (posAfter { Line := 1, Column := 1 }
        (pairsThen kvs [])) (keyText interp s))).update 58) w ∧
      (T.k = lexKind.RBrace ∨ T.k = lexKind.Eof) ∧ spaceStop tail ∧
      restT.length ≤ tail.length ∧
      ∀ (n : Nat), 0 < n → ∀ pk : lexKind, pk.isString = false →
        NextToken n (posAfter (((posAfter (posAfter { Line := 1, Column := 1 }
          (pairsThen kvs [])) (keyText interp s))).update 58) w) tail pk T posT restT := by
    rcases ht with ht | ht
    · subst ht
      exact ⟨{ k := lexKind.Eof, s := [], pos := _ }, [], _, rfl, Or.inr rfl, trivial,
        le_refl _, fun n hn pk _ => NextToken_eof n _ pk hn⟩
    · cases tail with
      | nil => cases ht
      | cons a rest =>
        simp only [List.head?_cons, Option.some.injEq] at ht
        subst ht
        exact ⟨{ k := lexKind.RBrace, s := [], pos := _ }, rest, _, rfl, Or.inl rfl,
          ⟨by decide, by decide⟩, by simp,
          fun n hn pk _ => NextToken_struct n _ 125 lexKind.RBrace rest pk rfl hn⟩
  obtain ⟨T, restT, posT, hTpos, hTk, hst, hlen, hTn⟩ := hT
  rw [hpos, ← hTpos]
  refine Parse_pairsThen_fail kvs (keyText interp s ++ 58 :: (w ++ tail))
    { k := keyKind interp, s := s,
      pos := posAfter { Line := 1, Column := 1 } (pairsThen kvs []) }
    (posAfter (posAfter { Line := 1, Column := 1 } (pairsThen kvs [])) (keyText interp s))
    (58 :: (w ++ tail)) _ fuel hq (spaceStop_keyText _ _ _ hk) ?_ ?_ hf
  · intro pk j hpk hj
    exact NextToken_key j _ interp s _ pk hk hpk (fun _ => symStop_colon _)
      (by simp only [List.length_append, List.length_cons] at hj; omega)
  · intro p L n hn hp
    simp only [List.length_append, List.length_cons] at hn
    obtain ⟨m, rfl⟩ : ∃ m, n = m + 2 := ⟨n - 2, by omega⟩
    obtain ⟨pair, p5, e5, c5, m5⟩ := parsePair_novalue (n := m) hp (keyPred_keyKind _ _ _)
      hw hst hTk (hTn m (by omega)) (by omega)
    have hkk := keyKind_ne interp
    exact ⟨_, parseAssocLoop_pair_err L hp.1 (by rw [hp.2.1]; exact hkk.2.1)
      (by rw [hp.2.1]; exact hkk.2.2.1) (by rw [hp.2.1]; exact hkk.1) e5 c5 (by omega)⟩

theorem C17_unterminated_pair_witness :
    ((∀ q ∈ ([] : List (Text × Text)), (q.1 ≠ [] ∧ ∀ r ∈ q.1, alnum r = true) ∧
        (q.2 ≠ [] ∧ ∀ r ∈ q.2, alnum r = true)) ∧
      keyOk false [97] ∧ (∀ r ∈ ([] : List rune), isSpace r = true) ∧
      (([] : List rune) = [] ∨ ([] : List rune).head? = some 125) ∧
      3 * (123 :: pairsThen [] (keyText false [97] ++ 58 :: ([] ++ []))).length + 8 ≤ 17 ∧
      123 :: pairsThen [] (keyText false [97] ++ 58 :: ([] ++ [])) = [123, 97, 58] ∧
      Parse 17 (RuneReader.mk (123 :: pairsThen [] (keyText false [97] ++ 58 :: ([] ++ [])))
          none) =
        some ([], some (error.Wrap (error.New "unterminated association list pair")
          (posAfter { Line := 1, Column := 0 }
            (123 :: pairsThen [] (keyText false [97] ++ 58 :: []))).String)) ∧
      (posAfter { Line := 1, Column := 0 }
        (123 :: pairsThen [] (keyText false [97] ++ 58 :: []))).String = "1:3") ∧
    ((∀ q ∈ ([([97], [49])] : List (Text × Text)), (q.1 ≠ [] ∧ ∀ r ∈ q.1, alnum r = true) ∧
        (q.2 ≠ [] ∧ ∀ r ∈ q.2, alnum r = true)) ∧
      keyOk true [98, 34] ∧ (∀ r ∈ ([32, 10] : List rune), isSpace r = true) ∧
      (([125, 120] : List rune) = [] ∨ ([125, 120] : List rune).head? = some 125) ∧
      3 * (123 :: pairsThen [([97], [49])]
        (keyText true [98, 34] ++ 58 :: ([32, 10] ++ [125, 120]))).length + 8 ≤ 53 ∧
      Parse 53 (RuneReader.mk (123 :: pairsThen [([97], [49])]
          (keyText true [98, 34] ++ 58 :: ([32, 10] ++ [125, 120]))) none) =
        some ([], some (error.Wrap (error.New "unterminated association list pair")
          (posAfter { Line := 1, Column := 0 }
            (123 :: pairsThen [([97], [49])]
              (keyText true [98, 34] ++ 58 :: [32, 10]))).String)) ∧
      (posAfter { Line := 1, Column := 0 }
        (123 :: pairsThen [([97], [49])]
          (keyText true [98, 34] ++ 58 :: [32, 10]))).String = "2:0") :=
  ⟨⟨by decide, by decide, by decide, by decide, by decide, by decide,
      C17_unterminated_pair [] false [97] [] [] (by decide) (by decide) (by decide)
        (by decide) 17 (by decide), by decide⟩,
    ⟨by decide, by decide, by decide, by decide, by decide,
      C17_unterminated_pair [([97], [49])] true [98, 34] [32, 10] [125, 120] (by decide)
        (by decide) (by decide) (by decide) 53 (by decide), by decide⟩⟩

/-- A run of whitespace and what follows it. -/
theorem spaceRun : ∀ (t : List rune), (∀ r ∈ t, r ≠ runeEof) →
    ∃ w rest, t = w ++ rest ∧ (∀ r ∈ w, isSpace r = true) ∧ spaceStop rest := by
  intro t
  induction t with
  | nil => intro _; exact ⟨[], [], rfl, by simp, trivial⟩
  | cons b t ih =>
    intro hv
    by_cases hb : isSpace b = true
    · obtain ⟨w, rest, e1, e2, e3⟩ := ih (fun r hr => hv r (List.mem_cons_of_mem _ hr))
      refine ⟨b :: w, rest, by rw [e1]; rfl, ?_, e3⟩
      intro r hr
      rcases List.mem_cons.mp hr with h | h
      · rw [h]; exact hb
      · exact e2 r h
    · refine ⟨[], b :: t, rfl, by simp, ?_⟩
      exact ⟨by simpa using hb, hv b (List.mem_cons_self _ _)⟩

/-- The token that follows a key when it is not a colon. -/
theorem afterKey_token (f : List rune) (ha : afterKey f = true) (hv : ∀ r ∈ f, r ≠ runeEof)
    (pos : LexPos) :
    symStop f ∧
    ∃ tokF posF restF, tokF.k ≠ lexKind.Colon ∧ restF.length ≤ f.length ∧
      ∀ (n : Nat) (pk : lexKind), f.length + 1 < n → pk ≠ lexKind.Space →
        NextToken n pos f pk tokF posF restF := by
  cases f with
  | nil =>
    exact ⟨trivial, { k := lexKind.Eof, s := [], pos := pos }, pos, [], by simp, le_refl _,
      fun n pk hn _ => NextToken_eof n pos pk (by omega)⟩
  | cons r rest =>
    simp only [afterKey, Bool.or_eq_true, decide_eq_true_eq] at ha
    have hr := hv r (List.mem_cons_self _ _)
    have hlen : rest.length ≤ (r :: rest).length := by simp
    rcases ha with (((h | h) | h) | h) | h
    · subst h
      exact ⟨⟨by decide, by decide, fun h => absurd h (by decide)⟩,
        { k := lexKind.LBrace, s := [], pos := pos }, _, rest, by simp, hlen,
        fun n pk hn _ => NextToken_struct n pos 123 lexKind.LBrace rest pk rfl (by omega)⟩
    · subst h
      exact ⟨⟨by decide, by decide, fun h => absurd h (by decide)⟩,
        { k := lexKind.RBrace, s := [], pos := pos }, _, rest, by simp, hlen,
        fun n pk hn _ => NextToken_struct n pos 125 lexKind.RBrace rest pk rfl (by omega)⟩
    · subst h
      exact ⟨⟨by decide, by decide, fun h => absurd h (by decide)⟩,
        { k := lexKind.LBracket, s := [], pos := pos }, _, rest, by simp, hlen,
        fun n pk hn _ => NextToken_struct n pos 91 lexKind.LBracket rest pk rfl (by omega)⟩
    · subst h
      exact ⟨⟨by decide, by decide, fun h => absurd h (by decide)⟩,
        { k := lexKind.RBracket, s := [], pos := pos }, _, rest, by simp, hlen,
        fun n pk hn _ => NextToken_struct n pos 93 lexKind.RBracket rest pk rfl (by omega)⟩
    · obtain ⟨w, t, e1, e2, e3⟩ := spaceRun rest (fun x hx => hv x (List.mem_cons_of_mem _ hx))
      subst e1
      refine ⟨symStop_space _ h, { k := lexKind.Space, s := [], pos := pos },
        posAfter pos (r :: w), t, by simp, by simp; omega, ?_⟩
      intro n pk hn hpk
      exact NextToken_of_Begin (BeginToken_space n pos r w t pk hpk h e2 e3
        (by simp only [List.length_cons, List.length_append] at hn; omega))

/-- The pair parser on a key that is followed by a token other than the colon: the error
is recorded at the key, whatever follows. -/
theorem parsePair_nocolon {n : Nat} {p : parser} {tokK tokF : lexToken} {pos posF : LexPos}
    {f restF : List rune}
    (h : p.PReady tokK pos f) (hkp : keyPred tokK = true)
    (hF : NextToken n pos f tokK.k tokF posF restF) (hFk : tokF.k ≠ lexKind.Colon)
    (hn : 3 * (f.length + 1) + 4 ≤ n + 1) :
    ∃ pair p5, parser.parsePair (n + 1) p = some (pair, p5) ∧
      p5.es.cause = some (error.Wrap
        (error.New "key in association list pair must be immediately followed by colon")
        tokK.pos.String) ∧
      p5.measure ≤ f.length + 1 := by
  have hm : p.measure ≤ f.length + 1 := by
    unfold parser.measure
    rw [h.2.2.measure]
    split <;> omega
  obtain ⟨pair, p5, e5, s5⟩ := (parseTotal (n + 1)).2.2.2.2 p (by omega)
  obtain ⟨p1, e1, r1, q1⟩ := expectP_yes keyPred
    "key in association list pair must be of symbol or interpreted string form" h hkp
    (keyPred_ne_eof _ hkp) hF
  have e2 : p1.accept n lexKind.Colon = some (false, p1) :=
    accept_no (by rw [r1.2.1]; exact hFk)
  refine ⟨pair, p5, e5, parsePair_keeps e5 e1 e2 ?_, le_trans s5.1.1 hm⟩
  simp only [Bool.not_false, if_true, q1]
  exact posError_cause _ _ _ r1.1

/-- C18: in an association list at the root, after zero or more complete pairs of
alphanumeric symbols that are each followed by a space, a key in symbol or interpreted
string form that is followed by a token other than the colon (whitespace, a closing
brace, the end of the stream, or an opening brace or a bracket), and then by anything:
`Parse` fails with "key in association list pair must be immediately followed by colon",
wrapped with the position of the key token itself, which is the position at which the key
begins. -/
theorem C18_key_without_colon (kvs : List (Text × Text)) (interp : Bool) (s : Text)
    (f : List rune)
    (hq : ∀ q ∈ kvs, (q.1 ≠ [] ∧ ∀ r ∈ q.1, alnum r = true) ∧
      (q.2 ≠ [] ∧ ∀ r ∈ q.2, alnum r = true))
    (hk : keyOk interp s) (ha : afterKey f = true) (hv : ∀ r ∈ f, r ≠ runeEof) (fuel : Nat)
    (hf : 3 * (123 :: pairsThen kvs (keyText interp s ++ f)).length + 8 ≤ fuel) :
    Parse fuel { runes := 123 :: pairsThen kvs (keyText interp s ++ f), err := none } =
      some ([], some (error.Wrap
        (error.New "key in association list pair must be immediately followed by colon")
        (posAfter { Line := 1, Column := 0 } (123 :: pairsThen kvs [])).String)) := by
  obtain ⟨hsym, tokF, posF, restF, hFk, hlen, hF⟩ := afterKey_token f ha hv
    (posAfter (posAfter { Line := 1, Column := 1 } (pairsThen kvs [])) (keyText interp s))
  have hkk := keyKind_ne interp
  refine Parse_pairsThen_fail kvs (keyText interp s ++ f)
    { k := keyKind interp, s := s,
      pos := posAfter { Line := 1, Column := 1 } (pairsThen kvs []) }
    (posAfter (posAfter { Line := 1, Column := 1 } (pairsThen kvs [])) (keyText interp s))
    f _ fuel hq (spaceStop_keyText _ _ _ hk) ?_ ?_ hf
  · intro pk j hpk hj
    exact NextToken_key j _ interp s _ pk hk hpk (fun _ => hsym)
      (by simp only [List.length_append] at hj; omega)
  · intro p L n hn hp
    simp only [List.length_append] at hn
    have hpos := keyText_length_pos interp s hk
    obtain ⟨m, rfl⟩ : ∃ m, n = m + 2 := ⟨n - 2, by omega⟩
    obtain ⟨pair, p5, e5, c5, m5⟩ := parsePair_nocolon (n := m) hp (keyPred_keyKind _ _ _)
      (hF m (keyKind interp) (by omega) hkk.2.1) hFk (by omega)
    exact ⟨_, parseAssocLoop_pair_err L hp.1 (by rw [hp.2.1]; exact hkk.2.1)
      (by rw [hp.2.1]; exact hkk.2.2.1) (by rw [hp.2.1]; exact hkk.1) e5 c5 (by omega)⟩

theorem C18_key_without_colon_witness :
    ((∀ q ∈ ([] : List (Text × Text)), (q.1 ≠ [] ∧ ∀ r ∈ q.1, alnum r = true) ∧
        (q.2 ≠ [] ∧ ∀ r ∈ q.2, alnum r = true)) ∧
      keyOk false [97] ∧ afterKey [32, 58] = true ∧ (∀ r ∈ ([32, 58] : List rune), r ≠ runeEof) ∧
      3 * (123 :: pairsThen [] (keyText false [97] ++ [32, 58])).length + 8 ≤ 20 ∧
      123 :: pairsThen [] (keyText false [97] ++ [32, 58]) = [123, 97, 32, 58] ∧
      Parse 20 (RuneReader.mk (123 :: pairsThen [] (keyText false [97] ++ [32, 58])) none) =
        some ([], some (error.Wrap
          (error.New "key in association list pair must be immediately followed by colon")
          (posAfter { Line := 1, Column := 0 } (123 :: pairsThen [] [])).String)) ∧
      (posAfter { Line := 1, Column := 0 } (123 :: pairsThen [] [])).String = "1:1") ∧
    ((∀ q ∈ ([([97], [49])] : List (Text × Text)), (q.1 ≠ [] ∧ ∀ r ∈ q.1, alnum r = true) ∧
        (q.2 ≠ [] ∧ ∀ r ∈ q.2, alnum r = true)) ∧
      keyOk true [98] ∧ afterKey [125] = true ∧ (∀ r ∈ ([125] : List rune), r ≠ runeEof) ∧
      3 * (123 :: pairsThen [([97], [49])] (keyText true [98] ++ [125])).length + 8 ≤ 35 ∧
      Parse 35 (RuneReader.mk (123 :: pairsThen [([97], [49])] (keyText true [98] ++ [125]))
          none) =
        some ([], some (error.Wrap
          (error.New "key in association list pair must be immediately followed by colon")
          (posAfter { Line := 1, Column := 0 } (123 :: pairsThen [([97], [49])] [])).String)) ∧
      (posAfter { Line := 1, Column := 0 } (123 :: pairsThen [([97], [49])] [])).String =
        "1:5") :=
  ⟨⟨by decide, by decide, by decide, by decide, by decide, by decide,
      C18_key_without_colon [] false [97] [32, 58] (by decide) (by decide) (by decide)
        (by decide) 20 (by decide), by decide⟩,
    ⟨by decide, by decide, by decide, by decide, by decide,
      C18_key_without_colon [([97], [49])] true [98] [125] (by decide) (by decide) (by decide)
        (by decide) 35 (by decide), by decide⟩⟩

/-- In `parsePair`, an error recorded when the key is checked stays. -/
theorem parsePair_keeps_key {n : Nat} {p p1 p5 : parser} {b1 : Bool} {pair : Pair}
    {e : error}
    (h : parser.parsePair (n + 1) p = some (pair, p5))
    (h1 : p.expectP n keyPred
      "key in association list pair must be of symbol or interpreted string form" =
        some (b1, p1))
    (he : p1.es.cause = some e) : p5.es.cause = some e := by
  cases hacc : p1.accept n lexKind.Colon with
  | none =>
    rw [parser.parsePair, h1] at h
    simp only [hacc] at h
    cases h
  | some res =>
    obtain ⟨ok, p2⟩ := res
    have he2 := accept_keeps hacc he
    refine parsePair_keeps h h1 hacc ?_
    cases ok
    · exact posError_keeps _ _ _ _ he2
    · exact he2

/-- The pair parser on a token that cannot be a key: the error is recorded at that token,
whatever follows. -/
theorem parsePair_badkey {n : Nat} {p p5 : parser} {pair : Pair}
    (hok : p.es.cause = none) (hkp : keyPred p.next = false)
    (h : parser.parsePair n p = some (pair, p5)) :
    p5.es.cause = some (error.Wrap
      (error.New "key in association list pair must be of symbol or interpreted string form")
      p.next.pos.String) := by
  cases n with
  | zero => simp [parser.parsePair] at h
  | succ m =>
    have h1 : p.expectP m keyPred
        "key in association list pair must be of symbol or interpreted string form" =
        some (false, p.posError (error.New
          "key in association list pair must be of symbol or interpreted string form")
          p.next.pos) := by
      unfold parser.expectP
      rw [if_pos (by rw [hkp]; rfl)]
    exact parsePair_keeps_key h h1 (posError_cause _ _ _ hok)

/-- The loop of `parseAssoc` on a token that cannot be a key. -/
theorem parseAssocLoop_badkey {n : Nat} {p : parser} {tokX : lexToken} {posX : LexPos}
    {restX : List rune} (L : List Pair)
    (h : p.PReady tokX posX restX) (hkp : keyPred tokX = false)
    (hk1 : tokX.k ≠ lexKind.Space) (hk2 : tokX.k ≠ lexKind.RBrace)
    (hk3 : tokX.k ≠ lexKind.Eof) (hn : 3 * (restX.length + 1) + 6 ≤ n) :
    ∃ L1 p2, parser.parseAssocLoop n p L = some (L1, p2) ∧
      p2.es.cause = some (error.Wrap
        (error.New "key in association list pair must be of symbol or interpreted string form")
        tokX.pos.String) := by
  obtain ⟨m, rfl⟩ : ∃ m, n = m + 2 := ⟨n - 2, by omega⟩
  have hm : p.measure ≤ restX.length + 1 := by
    unfold parser.measure
    rw [h.2.2.measure]
    split <;> omega
  obtain ⟨pair, p5, e5, s5⟩ := (parseTotal (m + 1)).2.2.2.2 p (by omega)
  have c5 := parsePair_badkey h.1 (by rw [h.2.1]; exact hkp) e5
  rw [h.2.1] at c5
  exact ⟨_, parseAssocLoop_pair_err L h.1 (by rw [h.2.1]; exact hk1)
    (by rw [h.2.1]; exact hk2) (by rw [h.2.1]; exact hk3) e5 c5
    (by have := s5.1.1; omega)⟩

/-- C19: in an association list at the root, after zero or more complete pairs of
alphanumeric symbols that are each followed by a space, a raw string (backtick 96, a body
`t` without backtick, backtick) or one of the runes `:` (58), `[` (91), `]` (93), `{` (123)
in key position, followed by anything: `Parse` fails with "key in association list pair
must be of symbol or interpreted string form", wrapped with the position of that token.
And in every parser state without error whose lookahead is not a symbol or interpreted
string, the pair parser, when it returns, has recorded that error at the lookahead
token. -/
theorem C19_key_form (kvs : List (Text × Text)) (t rest : List rune) (r : rune)
    (hq : ∀ q ∈ kvs, (q.1 ≠ [] ∧ ∀ r ∈ q.1, alnum r = true) ∧
      (q.2 ≠ [] ∧ ∀ r ∈ q.2, alnum r = true))
    (ht : ∀ a ∈ t, a ≠ 96 ∧ a ≠ runeEof)
    (hr : r = 58 ∨ r = 91 ∨ r = 93 ∨ r = 123) (fuel : Nat)
    (hf : 3 * (123 :: pairsThen kvs (96 :: (t ++ 96 :: rest))).length + 8 ≤ fuel) :
    Parse fuel { runes := 123 :: pairsThen kvs (96 :: (t ++ 96 :: rest)), err := none } =
      some ([], some (error.Wrap
        (error.New "key in association list pair must be of symbol or interpreted string form")
        (posAfter { Line := 1, Column := 0 } (123 :: pairsThen kvs [])).String)) ∧
    Parse fuel { runes := 123 :: pairsThen kvs (r :: rest), err := none } =
      some ([], some (error.Wrap
        (error.New "key in association list pair must be of symbol or interpreted string form")
        (posAfter { Line := 1, Column := 0 } (123 :: pairsThen kvs [])).String)) ∧
    ∀ (n : Nat) (p p5 : parser) (pair : Pair), p.es.cause = none → keyPred p.next = false →
      parser.parsePair n p = some (pair, p5) →
      p5.es.cause = some (error.Wrap
        (error.New "key in association list pair must be of symbol or interpreted string form")
        p.next.pos.String) := by
  have hlen1 : (pairsThen kvs (r :: rest)).length ≤
      (pairsThen kvs (96 :: (t ++ 96 :: rest))).length := by
    rw [pairsThen_append kvs (r :: rest), pairsThen_append kvs (96 :: (t ++ 96 :: rest))]
    simp only [List.length_append, List.length_cons]
    omega
  simp only [List.length_cons] at hf
  refine ⟨?_, ?_, fun n p p5 pair hok hkp h => parsePair_badkey hok hkp h⟩
  · refine Parse_pairsThen_fail kvs (96 :: (t ++ 96 :: rest))
      { k := lexKind.RawString, s := t.map writeRune,
        pos := posAfter { Line := 1, Column := 1 } (pairsThen kvs []) }
      (posAfter (posAfter { Line := 1, Column := 1 } (pairsThen kvs [])) (96 :: (t ++ [96])))
      rest _ fuel hq ⟨by decide, by decide⟩ ?_ ?_ (by simp only [List.length_cons]; omega)
    · intro pk j hpk hj
      exact NextToken_raw j _ t rest pk hpk ht
        (by simp only [List.length_append, List.length_cons] at hj; omega)
    · intro p L n hn hp
      simp only [List.length_append, List.length_cons] at hn
      exact parseAssocLoop_badkey L hp (by simp [keyPred]) (by simp) (by simp) (by simp)
        (by omega)
  · have hkind : ∃ k, structKind r = some k ∧ k ≠ lexKind.Space ∧ k ≠ lexKind.RBrace ∧
        k ≠ lexKind.Eof ∧ k ≠ lexKind.SymbolString ∧ k ≠ lexKind.InterpString ∧
        isSpace r = false ∧ r ≠ runeEof := by
      rcases hr with h | h | h | h <;> subst h
      · exact ⟨lexKind.Colon, by decide⟩
      · exact ⟨lexKind.LBracket, by decide⟩
      · exact ⟨lexKind.RBracket, by decide⟩
      · exact ⟨lexKind.LBrace, by decide⟩
    obtain ⟨k, hk, k1, k2, k3, k4, k5, k6, k7⟩ := hkind
    refine Parse_pairsThen_fail kvs (r :: rest)
      { k := k, s := [], pos := posAfter { Line := 1, Column := 1 } (pairsThen kvs []) }
      ((posAfter { Line := 1, Column := 1 } (pairsThen kvs [])).update r)
      rest _ fuel hq ⟨k6, k7⟩ ?_ ?_ (by simp only [List.length_cons]; omega)
    · intro pk j hpk hj
      exact NextToken_struct j _ r k rest pk hk (by omega)
    · intro p L n hn hp
      simp only [List.length_cons] at hn
      exact parseAssocLoop_badkey L hp (by simp [keyPred, k4, k5]) k1 k2 k3 (by omega)

theorem C19_key_form_witness :
    (∀ q ∈ ([([97], [49])] : List (Text × Text)), (q.1 ≠ [] ∧ ∀ r ∈ q.1, alnum r = true) ∧
      (q.2 ≠ [] ∧ ∀ r ∈ q.2, alnum r = true)) ∧
    (∀ a ∈ ([107] : List rune), a ≠ 96 ∧ a ≠ runeEof) ∧
    ((91 : rune) = 58 ∨ (91 : rune) = 91 ∨ (91 : rune) = 93 ∨ (91 : rune) = 123) ∧
    3 * (123 :: pairsThen [([97], [49])] (96 :: ([107] ++ 96 :: [58, 118, 125]))).length + 8
      ≤ 44 ∧
    123 :: pairsThen [([97], [49])] (96 :: ([107] ++ 96 :: [58, 118, 125])) =
      [123, 97, 58, 49, 32, 96, 107, 96, 58, 118, 125] ∧
    (Parse 44 (RuneReader.mk
          (123 :: pairsThen [([97], [49])] (96 :: ([107] ++ 96 :: [58, 118, 125]))) none) =
        some ([], some (error.Wrap
          (error.New
            "key in association list pair must be of symbol or interpreted string form")
          (posAfter { Line := 1, Column := 0 } (123 :: pairsThen [([97], [49])] [])).String)) ∧
      Parse 44 (RuneReader.mk (123 :: pairsThen [([97], [49])] (91 :: [58, 118, 125])) none) =
        some ([], some (error.Wrap
          (error.New
            "key in association list pair must be of symbol or interpreted string form")
          (posAfter { Line := 1, Column := 0 } (123 :: pairsThen [([97], [49])] [])).String)) ∧
      ∀ (n : Nat) (p p5 : parser) (pair : Pair), p.es.cause = none → keyPred p.next = false →
        parser.parsePair n p = some (pair, p5) →
        p5.es.cause = some (error.Wrap
          (error.New
            "key in association list pair must be of symbol or interpreted string form")
          p.next.pos.String)) ∧
    (posAfter { Line := 1, Column := 0 } (123 :: pairsThen [([97], [49])] [])).String = "1:5" :=
  ⟨by decide, by decide, by decide, by decide, by decide,
    C19_key_form [([97], [49])] [107] [58, 118, 125] 91 (by decide) (by decide) (by decide) 44
      (by decide), by decide⟩

/-! ## The separator between the pairs of an association list -/

/-- The empty list `[]` read by `parseList`, the opening bracket being the lookahead. -/
theorem parseList_empty {j : Nat} {p : parser} {pos posT : LexPos} {y restT : List rune}
    {T : lexToken}
    (h : p.PReady { k := lexKind.LBracket, s := [], pos := pos } (pos.update 91) (93 :: y))
    (hn : NextToken j ((pos.update 91).update 93) y lexKind.RBracket T posT restT) :
    ∃ p5, parser.parseList (j + 2) p = some (Elem.List pos [], p5) ∧
      p5.PReady T posT restT := by
  obtain ⟨p1, e1, r1, q1⟩ := consume_ready (n := j + 1) h (by simp)
    (NextToken_struct (j + 1) _ 93 lexKind.RBracket y _ rfl (by omega))
  obtain ⟨p2, e2, r2, -⟩ := accept_yes (n := j) r1 (by simp) hn
  refine ⟨p2, ?_, r2⟩
  rw [parser.parseList, e1]
  simp only
  rw [parser.parseListLoop, if_pos r1.es_ok, accept_no (by rw [r1.2.1]; simp)]
  simp only [parser.isP, parser.is, r1.2.1, lexToken.isString, lexKind.isString,
    decide_False, Bool.false_eq_true, if_false, Bool.or_self, e2, q1, decide_eq_true_eq,
    reduceCtorEq]

/-- A pair of a symbol key and the empty list; `hn` reads the token after the list. -/
theorem parsePair_symbol_emptylist {j : Nat} {p : parser} {pos posT : LexPos}
    {k y restT : List rune} {T : lexToken}
    (h : p.PReady { k := lexKind.SymbolString, s := k, pos := pos } (posAfter pos k)
      (58 :: 91 :: 93 :: y))
    (hn : NextToken j (posAfter pos (k ++ [58, 91, 93])) y lexKind.RBracket T posT restT) :
    ∃ p5, parser.parsePair (j + 3) p =
        some (Pair.mk { pos := pos, V := k } (Elem.List (posAfter pos (k ++ [58])) []), p5) ∧
      p5.PReady T posT restT := by
  obtain ⟨p1, e1, r1, q1⟩ := expectP_yes (n := j + 2) keyPred
    "key in association list pair must be of symbol or interpreted string form" h rfl
    (by simp) (NextToken_struct (j + 2) _ 58 lexKind.Colon (91 :: 93 :: y) _ rfl (by omega))
  obtain ⟨p2, e2, r2, q2⟩ := accept_yes (n := j + 2) r1 (by simp)
    (NextToken_struct (j + 2) _ 91 lexKind.LBracket (93 :: y) _ rfl (by omega))
  have hpos : (((posAfter pos k).update 58).update 91).update 93 =
      posAfter pos (k ++ [58, 91, 93]) := by
    simp only [posAfter_append, posAfter]
  rw [← hpos] at hn
  obtain ⟨p5, e5, r5⟩ := parseList_empty r2 hn
  have hpos2 : (posAfter pos k).update 58 = posAfter pos (k ++ [58]) := by
    simp only [posAfter_append, posAfter]
  refine ⟨p5, ?_, r5⟩
  rw [parser.parsePair, e1]
  simp only [e2, q1, Bool.not_true, Bool.false_eq_true, if_false]
  rw [accept_no (by rw [r2.2.1]; simp)]
  simp only [parser.isP, parser.is, r2.2.1, lexToken.isString, lexKind.isString,
    decide_False, decide_True, Bool.false_eq_true, if_false, if_true, Bool.or_self, e5, hpos2,
    decide_eq_true_eq, reduceCtorEq]

/-- C20: in an association list at the root, after zero or more complete pairs of
alphanumeric symbols that are each followed by a space, a complete pair that is followed
at once by a token that is neither whitespace nor the closing brace nor the end of the
stream makes `Parse` fail with "association list pairs must be separated by whitespace",
wrapped with the position of that following token: this is shown for a pair `k:v` of
symbols followed by one of the runes `:` (58), `[` (91), `]` (93), `{` (123), and for a
pair `k:[]` followed by a symbol or an interpreted string, in both cases followed by
anything.  In every parser state, when the pair parser returns without error and the next
token is neither whitespace nor the closing brace nor the end of the stream, the loop of
`parseAssoc` returns with that error recorded at the next token; and when the next token
is the closing brace or the end of the stream, the loop goes on without asking for
whitespace. -/
theorem C20_pairs_separated (kvs : List (Text × Text)) (k v : Text) (r : rune)
    (interp : Bool) (s : Text) (rest : List rune)
    (hq : ∀ q ∈ kvs, (q.1 ≠ [] ∧ ∀ r ∈ q.1, alnum r = true) ∧
      (q.2 ≠ [] ∧ ∀ r ∈ q.2, alnum r = true))
    (hk : k ≠ [] ∧ ∀ a ∈ k, alnum a = true) (hv : v ≠ [] ∧ ∀ a ∈ v, alnum a = true)
    (hr : r = 58 ∨ r = 91 ∨ r = 93 ∨ r = 123)
    (hs : keyOk interp s) (hst : interp = false → symStop rest) (fuel : Nat)
    (hf : 3 * (123 :: pairsThen kvs (k ++ 58 :: (v ++ r :: rest))).length + 8 ≤ fuel)
    (hg : 3 * (123 :: pairsThen kvs (k ++ 58 :: 91 :: 93 :: (keyText interp s ++ rest))).length
      + 8 ≤ fuel) :
    Parse fuel { runes := 123 :: pairsThen kvs (k ++ 58 :: (v ++ r :: rest)), err := none } =
      some ([], some (error.Wrap
        (error.New "association list pairs must be separated by whitespace")
        (posAfter { Line := 1, Column := 0 } (123 :: pairsThen kvs (k ++ 58 :: v))).String)) ∧
    Parse fuel
        { runes := 123 :: pairsThen kvs (k ++ 58 :: 91 :: 93 :: (keyText interp s ++ rest)),
          err := none } =
      some ([], some (error.Wrap
        (error.New "association list pairs must be separated by whitespace")
        (posAfter { Line := 1, Column := 0 }
          (123 :: pairsThen kvs (k ++ [58, 91, 93]))).String)) ∧
    (∀ (n : Nat) (p p3 : parser) (pair : Pair) (L : List Pair), p.es.cause = none →
      p.next.k ≠ lexKind.Space → p.next.k ≠ lexKind.RBrace → p.next.k ≠ lexKind.Eof →
      parser.parsePair (n + 1) p = some (pair, p3) → p3.es.cause = none →
      p3.next.k ≠ lexKind.Space → p3.next.k ≠ lexKind.RBrace → p3.next.k ≠ lexKind.Eof →
      ∃ p4, parser.parseAssocLoop (n + 2) p L = some (L ++ [pair], p4) ∧
        p4.es.cause = some (error.Wrap
          (error.New "association list pairs must be separated by whitespace")
          p3.next.pos.String)) ∧
    (∀ (n : Nat) (p p3 : parser) (pair : Pair) (L : List Pair), p.es.cause = none →
      p.next.k ≠ lexKind.Space → p.next.k ≠ lexKind.RBrace → p.next.k ≠ lexKind.Eof →
      parser.parsePair n p = some (pair, p3) →
      (p3.next.k = lexKind.RBrace ∨ p3.next.k = lexKind.Eof) →
      parser.parseAssocLoop (n + 1) p L = parser.parseAssocLoop n p3 (L ++ [pair])) := by
  have state : ∀ (n : Nat) (p p3 : parser) (pair : Pair) (L : List Pair), p.es.cause = none →
      p.next.k ≠ lexKind.Space → p.next.k ≠ lexKind.RBrace → p.next.k ≠ lexKind.Eof →
      parser.parsePair (n + 1) p = some (pair, p3) → p3.es.cause = none →
      p3.next.k ≠ lexKind.Space → p3.next.k ≠ lexKind.RBrace → p3.next.k ≠ lexKind.Eof →
      ∃ p4, parser.parseAssocLoop (n + 2) p L = some (L ++ [pair], p4) ∧
        p4.es.cause = some (error.Wrap
          (error.New "association list pairs must be separated by whitespace")
          p3.next.pos.String) :=
    fun n p p3 pair L h1 h2 h3 h4 h5 h6 h7 h8 h9 =>
      ⟨_, parseAssocLoop_pair_nosep L h1 h2 h3 h4 h5 h6 h7 h8 h9, posError_cause _ _ _ h6⟩
  have hk2 : ∀ a ∈ k, symbolRune a ∧ a ≠ 47 := fun a ha => alnum_symbolRune (hk.2 a ha)
  have hv2 : ∀ a ∈ v, symbolRune a ∧ a ≠ 47 := fun a ha => alnum_symbolRune (hv.2 a ha)
  have hstk : ∀ y, spaceStop (k ++ y) := by
    intro y
    cases hk1 : k with
    | nil => exact absurd hk1 hk.1
    | cons a t =>
      have ha := hk2 a (by rw [hk1]; exact List.mem_cons_self _ _)
      exact ⟨ha.1.2.1, validRune_ne_eof ha.1.1⟩
  have hkpos := List.length_pos.mpr hk.1
  refine ⟨?_, ?_, state, fun n p p3 pair L h1 h2 h3 h4 h5 h6 =>
    parseAssocLoop_pair_last L h1 h2 h3 h4 h5 h6⟩
  · have hkind : ∃ kd, structKind r = some kd ∧ kd ≠ lexKind.Space ∧ kd ≠ lexKind.RBrace ∧
        kd ≠ lexKind.Eof ∧ symStop (r :: rest) := by
      rcases hr with h | h | h | h <;> subst h
      · exact ⟨lexKind.Colon, by decide, by decide, by decide, by decide,
          ⟨by decide, by decide, fun h => absurd h (by decide)⟩⟩
      · exact ⟨lexKind.LBracket, by decide, by decide, by decide, by decide,
          ⟨by decide, by decide, fun h => absurd h (by decide)⟩⟩
      · exact ⟨lexKind.RBracket, by decide, by decide, by decide, by decide,
          ⟨by decide, by decide, fun h => absurd h (by decide)⟩⟩
      · exact ⟨lexKind.LBrace, by decide, by decide, by decide, by decide,
          ⟨by decide, by decide, fun h => absurd h (by decide)⟩⟩
    obtain ⟨kd, hkd, k1, k2, k3, hsym⟩ := hkind
    have hpos : posAfter { Line := 1, Column := 0 } (123 :: pairsThen kvs (k ++ 58 :: v)) =
        posAfter (posAfter { Line := 1, Column := 1 } (pairsThen kvs [])) (k ++ 58 :: v) := by
      rw [pairsThen_append, ← posAfter_append]
      rfl
    rw [hpos]
    refine Parse_pairsThen_fail kvs (k ++ 58 :: (v ++ r :: rest))
      { k := lexKind.SymbolString, s := k,
        pos := posAfter { Line := 1, Column := 1 } (pairsThen kvs []) }
      (posAfter (posAfter { Line := 1, Column := 1 } (pairsThen kvs [])) k)
      (58 :: (v ++ r :: rest)) _ fuel hq (hstk _) ?_ ?_ hf
    · intro pk j hpk hj
      exact NextToken_of_Begin (BeginToken_symbol_noslash j _ k _ pk hpk hk.1 hk2
        (symStop_colon _) (by simp only [List.length_append, List.length_cons] at hj; omega))
    · intro p L n hn hp
      simp only [List.length_append, List.length_cons] at hn
      obtain ⟨m, rfl⟩ : ∃ m, n = m + 2 := ⟨n - 2, by omega⟩
      obtain ⟨p5, e5, r5⟩ := parsePair_symbols (j := m) hp hv.1 hv2 hsym (by omega)
        (NextToken_struct m _ r kd rest _ hkd (by omega))
      obtain ⟨p6, e6, c6⟩ := state m p p5 _ L hp.1 (by rw [hp.2.1]; simp)
        (by rw [hp.2.1]; simp) (by rw [hp.2.1]; simp) e5 r5.1 (by rw [r5.2.1]; exact k1)
        (by rw [r5.2.1]; exact k2) (by rw [r5.2.1]; exact k3)
      rw [r5.2.1] at c6
      exact ⟨_, p6, e6, c6⟩
  · have hkk := keyKind_ne interp
    have hpos : posAfter { Line := 1, Column := 0 }
          (123 :: pairsThen kvs (k ++ [58, 91, 93])) =
        posAfter (posAfter { Line := 1, Column := 1 } (pairsThen kvs []))
          (k ++ [58, 91, 93]) := by
      rw [pairsThen_append, ← posAfter_append]
      rfl
    rw [hpos]
    have hlk := keyText_length_pos interp s hs
    refine Parse_pairsThen_fail kvs (k ++ 58 :: 91 :: 93 :: (keyText interp s ++ rest))
      { k := lexKind.SymbolString, s := k,
        pos := posAfter { Line := 1, Column := 1 } (pairsThen kvs []) }
      (posAfter (posAfter { Line := 1, Column := 1 } (pairsThen kvs [])) k)
      (58 :: 91 :: 93 :: (keyText interp s ++ rest)) _ fuel hq (hstk _) ?_ ?_ hg
    · intro pk j hpk hj
      exact NextToken_of_Begin (BeginToken_symbol_noslash j _ k _ pk hpk hk.1 hk2
        (symStop_colon _) (by simp only [List.length_append, List.length_cons] at hj; omega))
    · intro p L n hn hp
      simp only [List.length_append, List.length_cons] at hn
      obtain ⟨m, rfl⟩ : ∃ m, n = m + 4 := ⟨n - 4, by omega⟩
      obtain ⟨p5, e5, r5⟩ := parsePair_symbol_emptylist (j := m) hp
        (NextToken_key m _ interp s rest lexKind.RBracket hs rfl hst (by omega))
      obtain ⟨p6, e6, c6⟩ := state (m + 2) p p5 _ L hp.1 (by rw [hp.2.1]; simp)
        (by rw [hp.2.1]; simp) (by rw [hp.2.1]; simp) e5 r5.1 (by rw [r5.2.1]; exact hkk.2.1)
        (by rw [r5.2.1]; exact hkk.2.2.1) (by rw [r5.2.1]; exact hkk.1)
      rw [r5.2.1] at c6
      exact ⟨_, p6, e6, c6⟩

theorem C20_pairs_separated_witness :
    (∀ q ∈ ([] : List (Text × Text)), (q.1 ≠ [] ∧ ∀ r ∈ q.1, alnum r = true) ∧
      (q.2 ≠ [] ∧ ∀ r ∈ q.2, alnum r = true)) ∧
    (([97] : Text) ≠ [] ∧ ∀ a ∈ ([97] : Text), alnum a = true) ∧
    (([98] : Text) ≠ [] ∧ ∀ a ∈ ([98] : Text), alnum a = true) ∧
    ((58 : rune) = 58 ∨ (58 : rune) = 91 ∨ (58 : rune) = 93 ∨ (58 : rune) = 123) ∧
    keyOk false [98] ∧ (false = false → symStop [58, 99, 125]) ∧
    3 * (123 :: pairsThen [] ([97] ++ 58 :: ([98] ++ 58 :: [58, 99, 125]))).length + 8 ≤ 38 ∧
    3 * (123 :: pairsThen [] ([97] ++ 58 :: 91 :: 93 :: (keyText false [98] ++ [58, 99, 125]))).length
      + 8 ≤ 38 ∧
    123 :: pairsThen [] ([97] ++ 58 :: 91 :: 93 :: (keyText false [98] ++ [58, 99, 125])) =
      [123, 97, 58, 91, 93, 98, 58, 99, 125] ∧
    (Parse 38 (RuneReader.mk (123 :: pairsThen [] ([97] ++ 58 :: ([98] ++ 58 :: [58, 99, 125])))
          none) =
        some ([], some (error.Wrap
          (error.New "association list pairs must be separated by whitespace")
          (posAfter { Line := 1, Column := 0 }
            (123 :: pairsThen [] ([97] ++ 58 :: [98]))).String)) ∧
      Parse 38 (RuneReader.mk
          (123 :: pairsThen [] ([97] ++ 58 :: 91 :: 93 :: (keyText false [98] ++ [58, 99, 125])))
          none) =
        some ([], some (error.Wrap
          (error.New "association list pairs must be separated by whitespace")
          (posAfter { Line := 1, Column := 0 }
            (123 :: pairsThen [] ([97] ++ [58, 91, 93]))).String)) ∧
      (∀ (n : Nat) (p p3 : parser) (pair : Pair) (L : List Pair), p.es.cause = none →
        p.next.k ≠ lexKind.Space → p.next.k ≠ lexKind.RBrace → p.next.k ≠ lexKind.Eof →
        parser.parsePair (n + 1) p = some (pair, p3) → p3.es.cause = none →
        p3.next.k ≠ lexKind.Space → p3.next.k ≠ lexKind.RBrace → p3.next.k ≠ lexKind.Eof →
        ∃ p4, parser.parseAssocLoop (n + 2) p L = some (L ++ [pair], p4) ∧
          p4.es.cause = some (error.Wrap
            (error.New "association list pairs must be separated by whitespace")
            p3.next.pos.String)) ∧
      (∀ (n : Nat) (p p3 : parser) (pair : Pair) (L : List Pair), p.es.cause = none →
        p.next.k ≠ lexKind.Space → p.next.k ≠ lexKind.RBrace → p.next.k ≠ lexKind.Eof →
        parser.parsePair n p = some (pair, p3) →
        (p3.next.k = lexKind.RBrace ∨ p3.next.k = lexKind.Eof) →
        parser.parseAssocLoop (n + 1) p L = parser.parseAssocLoop n p3 (L ++ [pair]))) ∧
    (posAfter { Line := 1, Column := 0 }
      (123 :: pairsThen [] ([97] ++ 58 :: [98]))).String = "1:4" ∧
    (posAfter { Line := 1, Column := 0 }
      (123 :: pairsThen [] ([97] ++ [58, 91, 93]))).String = "1:5" :=
  ⟨by decide, by decide, by decide, by decide, by decide, fun _ => symStop_colon _,
    by decide, by decide, by decide,
    C20_pairs_separated [] [97] [98] 58 false [98] [58, 99, 125] (by decide) (by decide)
      (by decide) (by decide) (by decide) (fun _ => symStop_colon _) 38 (by decide)
      (by decide), by decide, by decide⟩

/-! ## Positions never go backwards -/

theorem LexPos.le_refl (a : LexPos) : LexPos.le a a := Or.inr ⟨rfl, Int.le_refl _⟩

theorem LexPos.le_trans {a b c : LexPos} (h1 : LexPos.le a b) (h2 : LexPos.le b c) :
    LexPos.le a c := by
  unfold LexPos.le at *
  omega

theorem update_bounded (pos : LexPos) (r : rune) (n : Nat) (h : posBounded pos (n + 1)) :
    posBounded (pos.update r) n ∧ LexPos.le pos (pos.update r) := by
  obtain ⟨h1, h2, h3, h4⟩ := h
  push_cast at h3 h4
  have h3' : pos.Line + (n : Int) < 2147483648 := by omega
  have ht : Int.tmod pos.Column 8 = pos.Column % 8 := Int.tmod_eq_emod h2 (by decide)
  by_cases h9 : r = 9
  · have hw : wrapInt32 (pos.Column + (8 - pos.Column % 8)) =
        pos.Column + (8 - pos.Column % 8) := by
      unfold wrapInt32; omega
    have hu : pos.update r =
        { Line := pos.Line, Column := pos.Column + (8 - pos.Column % 8) } := by
      simp only [LexPos.update, h9, if_true, ht, hw]
    rw [hu]
    refine ⟨⟨h1, ?_, h3', ?_⟩, Or.inr ⟨rfl, ?_⟩⟩ <;> simp only <;> omega
  · by_cases h10 : r = 10
    · have hw : wrapInt32 (pos.Line + 1) = pos.Line + 1 := by
        unfold wrapInt32; omega
      have hu : pos.update r = { Line := pos.Line + 1, Column := 0 } := by
        simp [LexPos.update, h10, hw]
      rw [hu]
      refine ⟨⟨?_, ?_, ?_, ?_⟩, Or.inl ?_⟩ <;> simp only <;> omega
    · have hw : wrapInt32 (pos.Column + 1) = pos.Column + 1 := by
        unfold wrapInt32; omega
      have hu : pos.update r = { Line := pos.Line, Column := pos.Column + 1 } := by
        simp [LexPos.update, h9, h10, hw]
      rw [hu]
      refine ⟨⟨h1, ?_, h3', ?_⟩, Or.inr ⟨rfl, ?_⟩⟩ <;> simp only <;> omega

theorem stackOk_cur : ∀ (us : List lexRune) (top : LexPos), stackOk us top →
    LexPos.le (match us with
      | [] => top
      | v :: _ => v.pos) top := by
  intro us
  induction us with
  | nil => intro top _; exact LexPos.le_refl _
  | cons u us ih =>
    intro top h
    exact LexPos.le_trans h.1 (ih top h.2)

theorem lexer.PosInv.cur_le {lex : lexer} (h : lex.PosInv) : LexPos.le lex.cur lex.pos :=
  stackOk_cur _ _ h.2

theorem lexer.Step.same {lex : lexer} (h : lex.PosInv) : lex.Step lex :=
  ⟨h, LexPos.le_refl _, LexPos.le_refl _, id⟩

theorem lexer.Step.comp {a b c : lexer} (h1 : a.Step b) (h2 : b.Step c) : a.Step c :=
  ⟨h2.1, LexPos.le_trans h1.2.1 h2.2.1, LexPos.le_trans h1.2.2.1 h2.2.2.1,
    fun h => h2.2.2.2 (h1.2.2.2 h)⟩

theorem lexer.Step.thenR {a b c : lexer} {lr : lexRune} (h1 : a.Step b) (h2 : b.StepR lr c) :
    a.StepR lr c :=
  ⟨h1.comp h2.1, LexPos.le_trans h1.2.1 h2.2.1, h2.2.2⟩

theorem readRune_stepR (lex : lexer) (h : lex.PosInv) :
    lex.StepR lex.readRune.1 lex.readRune.2 ∧ lex.readRune.1.pos = lex.cur := by
  obtain ⟨hb, hs⟩ := h
  unfold lexer.readRune
  cases hu : lex.unreadRunes with
  | cons u us =>
    rw [hu] at hs
    simp only
    refine ⟨⟨⟨⟨hb, hs.2⟩, ?_, LexPos.le_refl _, id⟩, ?_, ?_⟩, ?_⟩
    · simp only [lexer.cur, hu]; exact hs.1
    · simp only [lexer.cur, hu]; exact LexPos.le_refl _
    · simp only [lexer.cur]; exact hs.1
    · simp only [lexer.cur, hu]
  | nil =>
    rw [hu] at hs
    simp only
    have hc : lex.cur = lex.pos := by simp only [lexer.cur, hu]
    by_cases he : lex.eof = true
    · simp only [he, if_true]
      exact ⟨⟨⟨⟨hb, by rw [hu]; trivial⟩, LexPos.le_refl _, LexPos.le_refl _, id⟩,
        by rw [hc]; exact LexPos.le_refl _, by rw [hc]; exact LexPos.le_refl _⟩, hc.symm⟩
    · simp only [he, Bool.false_eq_true, if_false]
      cases hr : lex.rr.runes with
      | nil =>
        simp only
        have hpi : ∀ err : Option error,
            ((lexer.mk lex.rr [] lex.pos lex.prevKind true lex.es).emitPosError err
              lex.pos).PosInv ∧
            ((lexer.mk lex.rr [] lex.pos lex.prevKind true lex.es).emitPosError err
              lex.pos).cur = lex.pos ∧
            ((lexer.mk lex.rr [] lex.pos lex.prevKind true lex.es).emitPosError err
              lex.pos).pos = lex.pos ∧
            (lex.es.cause ≠ none →
              ((lexer.mk lex.rr [] lex.pos lex.prevKind true lex.es).emitPosError err
                lex.pos).es.cause ≠ none) := by
          intro err
          cases err with
          | none => exact ⟨⟨hb, trivial⟩, rfl, rfl, id⟩
          | some e =>
            refine ⟨⟨hb, trivial⟩, rfl, rfl, ?_⟩
            · intro hne
              simp only [lexer.emitPosError, Sink.Send]
              split
              · next e2 he2 => simp [he2]
              · next he2 => exact absurd he2 hne
        obtain ⟨p1, p2, p3, p4⟩ := hpi lex.rr.err
        refine ⟨⟨⟨p1, ?_, ?_, p4⟩, ?_, ?_⟩, hc.symm⟩
        · rw [p2, hc]; exact LexPos.le_refl _
        · rw [p3]; exact LexPos.le_refl _
        · rw [hc]; exact LexPos.le_refl _
        · rw [p2]; exact LexPos.le_refl _
      | cons r rs =>
        simp only
        rw [hr] at hb
        obtain ⟨b1, b2⟩ := update_bounded lex.pos r rs.length hb
        refine ⟨⟨⟨⟨b1, trivial⟩, ?_, b2, id⟩, ?_, ?_⟩, hc.symm⟩
        · simp only [lexer.cur, hu]; exact b2
        · rw [hc]; exact LexPos.le_refl _
        · simp only [lexer.cur, hu]; exact b2

theorem unreadRune_step {a b : lexer} {lr : lexRune} (h : a.StepR lr b) :
    a.Step (b.unreadRune lr) := by
  obtain ⟨⟨⟨hb, hs⟩, h2, h3, h4⟩, h5, h6⟩ := h
  unfold lexer.unreadRune
  split
  · refine ⟨⟨hb, ?_⟩, ?_, h3, h4⟩
    · exact ⟨h6, hs⟩
    · simp only [lexer.cur]; exact h5
  · exact ⟨⟨hb, hs⟩, h2, h3, h4⟩

theorem unreadRune_cur_le {b : lexer} {lr : lexRune} (h : LexPos.le lr.pos b.cur) :
    LexPos.le lr.pos (b.unreadRune lr).cur := by
  unfold lexer.unreadRune
  split
  · simp only [lexer.cur]; exact LexPos.le_refl _
  · exact h

theorem peekRune_stepR (lex : lexer) (h : lex.PosInv) :
    lex.StepR lex.peekRune.1 lex.peekRune.2 := by
  obtain ⟨r1, r2⟩ := readRune_stepR lex h
  exact ⟨unreadRune_step r1, r1.2.1, unreadRune_cur_le r1.2.2⟩

theorem emitPosError_step (lex : lexer) (e : error) (pos : LexPos) (h : lex.PosInv) :
    lex.Step (lex.emitPosError (some e) pos) ∧
    (lex.emitPosError (some e) pos).es.cause ≠ none := by
  have hes : (lex.emitPosError (some e) pos).es.cause ≠ none := by
    simp only [lexer.emitPosError, Sink.Send]
    split
    · next e2 he2 => simp [he2]
    · simp
  exact ⟨⟨h, LexPos.le_refl _, LexPos.le_refl _, fun _ => hes⟩, hes⟩

theorem lexSpaceLoop_step (fuel : Nat) : ∀ (lex : lexer) (lr : lexRune) (lex1 : lexer),
    lex.PosInv → lex.lexSpaceLoop fuel = some (lr, lex1) → lex.StepR lr lex1 := by
  induction fuel with
  | zero => intro lex lr lex1 _ h; simp [lexer.lexSpaceLoop] at h
  | succ n ih =>
    intro lex lr lex1 hi h
    simp only [lexer.lexSpaceLoop] at h
    obtain ⟨r1, -⟩ := readRune_stepR lex hi
    split at h
    · exact r1.1.thenR (ih _ _ _ r1.1.1 h)
    · simp only [Option.some.injEq] at h
      have h1 : lr = lex.readRune.1 := by rw [h]
      have h2 : lex1 = lex.readRune.2 := by rw [h]
      subst h1 h2
      exact r1

theorem lexCommentLoop_step (fuel : Nat) : ∀ (lex : lexer) (lr : lexRune) (lex1 : lexer),
    lex.PosInv → lex.lexCommentLoop fuel = some (lr, lex1) → lex.StepR lr lex1 := by
  induction fuel with
  | zero => intro lex lr lex1 _ h; simp [lexer.lexCommentLoop] at h
  | succ n ih =>
    intro lex lr lex1 hi h
    simp only [lexer.lexCommentLoop] at h
    obtain ⟨r1, -⟩ := readRune_stepR lex hi
    split at h
    · exact r1.1.thenR (ih _ _ _ r1.1.1 h)
    · simp only [Option.some.injEq] at h
      have h1 : lr = lex.readRune.1 := by rw [h]
      have h2 : lex1 = lex.readRune.2 := by rw [h]
      subst h1 h2
      exact r1

theorem lexRawLoop_step (fuel : Nat) : ∀ (lex : lexer) (sb sb1 : Text) (lr : lexRune)
    (lex1 : lexer), lex.PosInv → lex.lexRawLoop fuel sb = some (sb1, lr, lex1) →
    lex.Step lex1 := by
  induction fuel with
  | zero => intro lex sb sb1 lr lex1 _ h; simp [lexer.lexRawLoop] at h
  | succ n ih =>
    intro lex sb sb1 lr lex1 hi h
    simp only [lexer.lexRawLoop] at h
    obtain ⟨r1, -⟩ := readRune_stepR lex hi
    split at h
    · simp only [Option.some.injEq, Prod.mk.injEq] at h
      obtain ⟨-, -, h3⟩ := h
      subst h3
      exact r1.1
    · split at h
      · simp only [Option.some.injEq, Prod.mk.injEq] at h
        obtain ⟨-, -, h3⟩ := h
        subst h3
        exact r1.1
      · exact r1.1.comp (ih _ _ _ _ _ r1.1.1 h)

theorem lexInterpretedLoop_step (fuel : Nat) : ∀ (lex : lexer) (sb : Text) (esc : Bool)
    (res : lexToken ⊕ (Text × lexRune)) (lex1 : lexer), lex.PosInv →
    lex.lexInterpretedLoop fuel sb esc = some (res, lex1) →
    lex.Step lex1 ∧ ∀ tok, res = Sum.inl tok → lex1.es.cause ≠ none := by
  induction fuel with
  | zero => intro lex sb esc res lex1 _ h; simp [lexer.lexInterpretedLoop] at h
  | succ n ih =>
    intro lex sb esc res lex1 hi h
    simp only [lexer.lexInterpretedLoop] at h
    obtain ⟨r1, -⟩ := readRune_stepR lex hi
    have step : ∀ sb2 esc2, lex.readRune.2.lexInterpretedLoop n sb2 esc2 = some (res, lex1) →
        lex.Step lex1 ∧ ∀ tok, res = Sum.inl tok → lex1.es.cause ≠ none := by
      intro sb2 esc2 h2
      obtain ⟨h3, h4⟩ := ih _ _ _ _ _ r1.1.1 h2
      exact ⟨r1.1.comp h3, h4⟩
    have ret : ∀ x, some ((Sum.inr x : lexToken ⊕ (Text × lexRune)), lex.readRune.2)
        = some (res, lex1) →
        lex.Step lex1 ∧ ∀ tok, res = Sum.inl tok → lex1.es.cause ≠ none := by
      intro x h2
      simp only [Option.some.injEq, Prod.mk.injEq] at h2
      obtain ⟨h3, h4⟩ := h2
      subst h3 h4
      exact ⟨r1.1, by intro tok ht; cases ht⟩
    have fail : ∀ (t : lexToken) (msg : String) (pos : LexPos),
        some ((Sum.inl t : lexToken ⊕ (Text × lexRune)),
          lex.readRune.2.emitPosError (some (error.New msg)) pos) = some (res, lex1) →
        lex.Step lex1 ∧ ∀ tok, res = Sum.inl tok → lex1.es.cause ≠ none := by
      intro t msg pos h2
      simp only [Option.some.injEq, Prod.mk.injEq] at h2
      obtain ⟨h3, h4⟩ := h2
      subst h3 h4
      obtain ⟨e1, e2⟩ := emitPosError_step lex.readRune.2 (error.New msg) pos r1.1.1
      exact ⟨r1.1.comp e1, fun _ _ => e2⟩
    split at h
    · exact ret _ h
    · split at h
      · split at h
        · exact step _ _ h
        · split at h
          · exact step _ _ h
          · split at h
            · exact step _ _ h
            · split at h
              · exact step _ _ h
              · exact fail _ _ _ h
      · split at h
        · exact step _ _ h
        · split at h
          · exact fail _ _ _ h
          · split at h
            · exact ret _ h
            · exact step _ _ h

theorem lexSymbolLoop_step (fuel : Nat) : ∀ (lex : lexer) (sb sb1 : Text) (lr : lexRune)
    (lex1 : lexer), lex.PosInv → lex.lexSymbolLoop fuel sb = some (sb1, lr, lex1) →
    lex.StepR lr lex1 := by
  induction fuel with
  | zero => intro lex sb sb1 lr lex1 _ h; simp [lexer.lexSymbolLoop] at h
  | succ n ih =>
    intro lex sb sb1 lr lex1 hi h
    simp only [lexer.lexSymbolLoop] at h
    obtain ⟨r1, -⟩ := readRune_stepR lex hi
    split at h
    · exact r1.1.thenR (ih _ _ _ _ _ r1.1.1 h)
    · have pk := peekRune_stepR lex.readRune.2 r1.1.1
      split at h
      · split at h
        · exact (r1.1.comp pk.1).thenR (ih _ _ _ _ _ pk.1.1 h)
        · simp only [Option.some.injEq, Prod.mk.injEq] at h
          obtain ⟨-, h2, h3⟩ := h
          subst h2 h3
          exact ⟨r1.1.comp pk.1, r1.2.1, LexPos.le_trans r1.2.2 pk.1.2.1⟩
      · simp only [Option.some.injEq, Prod.mk.injEq] at h
        obtain ⟨-, h2, h3⟩ := h
        subst h2 h3
        exact r1

/-! ### The token scanners -/

theorem lexSpace_step (fuel : Nat) (lex : lexer) (first : lexRune) (tok : lexToken)
    (lex1 : lexer) (hi : lex.PosInv) (h : lex.lexSpace fuel first = some (tok, lex1)) :
    lex.Step lex1 ∧ tok.pos = first.pos := by
  unfold lexer.lexSpace at h
  split at h
  · cases h
  · next lr lx hl =>
    simp only [Option.some.injEq, Prod.mk.injEq] at h
    obtain ⟨h1, h2⟩ := h
    subst h1 h2
    exact ⟨unreadRune_step (lexSpaceLoop_step _ _ _ _ hi hl), rfl⟩

theorem lexComment_step (fuel : Nat) (lex lex1 : lexer) (hi : lex.PosInv)
    (h : lex.lexComment fuel = some lex1) : lex.Step lex1 := by
  unfold lexer.lexComment at h
  split at h
  · cases h
  · next lr lx hl =>
    simp only [Option.some.injEq] at h
    subst h
    exact unreadRune_step (lexCommentLoop_step _ _ _ _ hi hl)

theorem checkJoinedStrings_step (lex : lexer) (pos : LexPos) (hi : lex.PosInv) :
    lex.Step (lex.checkJoinedStrings pos).2.2 ∧
    ((lex.checkJoinedStrings pos).2.1 = false →
      (lex.checkJoinedStrings pos).2.2.es.cause ≠ none) := by
  unfold lexer.checkJoinedStrings
  split
  · obtain ⟨e1, e2⟩ := emitPosError_step lex (error.New "strings must be separated") pos hi
    exact ⟨e1, fun _ => e2⟩
  · exact ⟨lexer.Step.same hi, fun h => by simp at h⟩

theorem lexRawString_step (fuel : Nat) (lex : lexer) (first : lexRune) (tok : lexToken)
    (lex1 : lexer) (hi : lex.PosInv) (h : lex.lexRawString fuel first = some (tok, lex1)) :
    lex.Step lex1 ∧ (tok.pos = first.pos ∨ lex1.es.cause ≠ none) := by
  unfold lexer.lexRawString at h
  obtain ⟨c1, c2⟩ := checkJoinedStrings_step lex first.pos hi
  split at h
  · next t lx hc =>
    simp only [Option.some.injEq, Prod.mk.injEq] at h
    obtain ⟨h1, h2⟩ := h
    subst h1 h2
    rw [hc] at c1 c2
    exact ⟨c1, Or.inr (c2 rfl)⟩
  · next t lx hc =>
    rw [hc] at c1
    simp only at c1
    split at h
    · cases h
    · next sb lr lx2 hl =>
      have h3 := lexRawLoop_step _ _ _ _ _ _ c1.1 hl
      split at h
      · simp only [Option.some.injEq, Prod.mk.injEq] at h
        obtain ⟨h1, h2⟩ := h
        subst h1 h2
        obtain ⟨e1, e2⟩ := emitPosError_step lx2 (error.New "unterminated string") lr.pos h3.1
        exact ⟨(c1.comp h3).comp e1, Or.inr e2⟩
      · simp only [Option.some.injEq, Prod.mk.injEq] at h
        obtain ⟨h1, h2⟩ := h
        subst h1 h2
        exact ⟨c1.comp h3, Or.inl rfl⟩

theorem lexInterpretedString_step (fuel : Nat) (lex : lexer) (first : lexRune)
    (tok : lexToken) (lex1 : lexer) (hi : lex.PosInv)
    (h : lex.lexInterpretedString fuel first = some (tok, lex1)) :
    lex.Step lex1 ∧ (tok.pos = first.pos ∨ lex1.es.cause ≠ none) := by
  unfold lexer.lexInterpretedString at h
  obtain ⟨c1, c2⟩ := checkJoinedStrings_step lex first.pos hi
  split at h
  · next t lx hc =>
    simp only [Option.some.injEq, Prod.mk.injEq] at h
    obtain ⟨h1, h2⟩ := h
    subst h1 h2
    rw [hc] at c1 c2
    exact ⟨c1, Or.inr (c2 rfl)⟩
  · next t lx hc =>
    rw [hc] at c1
    simp only at c1
    split at h
    · cases h
    · next et lx2 hl =>
      obtain ⟨h3, h4⟩ := lexInterpretedLoop_step _ _ _ _ _ _ c1.1 hl
      simp only [Option.some.injEq, Prod.mk.injEq] at h
      obtain ⟨h1, h2⟩ := h
      subst h1 h2
      exact ⟨c1.comp h3, Or.inr (h4 _ rfl)⟩
    · next sb lr lx2 hl =>
      obtain ⟨h3, -⟩ := lexInterpretedLoop_step _ _ _ _ _ _ c1.1 hl
      split at h
      · simp only [Option.some.injEq, Prod.mk.injEq] at h
        obtain ⟨h1, h2⟩ := h
        subst h1 h2
        obtain ⟨e1, e2⟩ := emitPosError_step lx2 (error.New "unterminated string") lr.pos h3.1
        exact ⟨(c1.comp h3).comp e1, Or.inr e2⟩
      · simp only [Option.some.injEq, Prod.mk.injEq] at h
        obtain ⟨h1, h2⟩ := h
        subst h1 h2
        exact ⟨c1.comp h3, Or.inl rfl⟩

theorem lexSymbolString_step (fuel : Nat) (lex : lexer) (first : lexRune)
    (tok : lexToken) (lex1 : lexer) (hi : lex.PosInv)
    (h : lex.lexSymbolString fuel first = some (tok, lex1)) :
    lex.Step lex1 ∧ (tok.pos = first.pos ∨ lex1.es.cause ≠ none) := by
  unfold lexer.lexSymbolString at h
  obtain ⟨c1, c2⟩ := checkJoinedStrings_step lex first.pos hi
  split at h
  · next t lx hc =>
    simp only [Option.some.injEq, Prod.mk.injEq] at h
    obtain ⟨h1, h2⟩ := h
    subst h1 h2
    rw [hc] at c1 c2
    exact ⟨c1, Or.inr (c2 rfl)⟩
  · next t lx hc =>
    rw [hc] at c1
    simp only at c1
    split at h
    · cases h
    · next sb lr lx2 hl =>
      have h3 := lexSymbolLoop_step _ _ _ _ _ _ c1.1 hl
      simp only [Option.some.injEq, Prod.mk.injEq] at h
      obtain ⟨h1, h2⟩ := h
      subst h1 h2
      exact ⟨c1.comp (unreadRune_step h3), Or.inl rfl⟩

/-! ### Tokens -/

theorem readTokenBegin_step (fuel : Nat) : ∀ (lex : lexer) (tok : lexToken) (lex1 : lexer),
    lex.PosInv → lex.readTokenBegin fuel = some (tok, lex1) →
    lex.Step lex1 ∧
    ((LexPos.le lex.cur tok.pos ∧ LexPos.le tok.pos lex1.cur) ∨ lex1.es.cause ≠ none) := by
  induction fuel with
  | zero => intro lex tok lex1 _ h; simp [lexer.readTokenBegin] at h
  | succ n ih =>
    intro lex tok lex1 hi h
    simp only [lexer.readTokenBegin] at h
    obtain ⟨r1, -⟩ := readRune_stepR lex hi
    have ret : ∀ (k : lexKind),
        some (({ k := k, s := [], pos := lex.readRune.1.pos } : lexToken), lex.readRune.2)
          = some (tok, lex1) →
        lex.Step lex1 ∧
        ((LexPos.le lex.cur tok.pos ∧ LexPos.le tok.pos lex1.cur) ∨ lex1.es.cause ≠ none) := by
      intro k h2
      simp only [Option.some.injEq, Prod.mk.injEq] at h2
      obtain ⟨h3, h4⟩ := h2
      subst h3 h4
      exact ⟨r1.1, Or.inl ⟨r1.2.1, r1.2.2⟩⟩
    have str : ∀ (lx : lexer), lex.Step lx → LexPos.le lex.readRune.1.pos lx.cur →
        (lx.Step lex1 ∧ (tok.pos = lex.readRune.1.pos ∨ lex1.es.cause ≠ none)) →
        lex.Step lex1 ∧
        ((LexPos.le lex.cur tok.pos ∧ LexPos.le tok.pos lex1.cur) ∨ lex1.es.cause ≠ none) := by
      intro lx h1 h2 h3
      obtain ⟨s1, s2⟩ := h3
      refine ⟨h1.comp s1, ?_⟩
      rcases s2 with s2 | s2
      · left
        rw [s2]
        exact ⟨r1.2.1, LexPos.le_trans h2 s1.2.1⟩
      · exact Or.inr s2
    split at h
    · exact ret _ h
    · split at h
      · obtain ⟨r2, -⟩ := readRune_stepR lex.readRune.2 r1.1.1
        split at h
        · split at h
          · cases h
          · next lx hc =>
            have c1 := lexComment_step _ _ _ r2.1.1 hc
            obtain ⟨i1, i2⟩ := ih _ _ _ c1.1 h
            have hs : lex.Step lx := (r1.1.comp r2.1).comp c1
            refine ⟨hs.comp i1, ?_⟩
            rcases i2 with i2 | i2
            · exact Or.inl ⟨LexPos.le_trans hs.2.1 i2.1, i2.2⟩
            · exact Or.inr i2
        · have hu := unreadRune_step r2
          exact str _ (r1.1.comp hu) (LexPos.le_trans r1.2.2 hu.2.1)
            (lexSymbolString_step _ _ _ _ _ hu.1 h)
      · split at h
        · split at h
          · cases h
          · next t lx hs =>
            obtain ⟨s1, s2⟩ := lexSpace_step _ _ _ _ _ r1.1.1 hs
            split at h
            · obtain ⟨i1, i2⟩ := ih _ _ _ s1.1 h
              have hst : lex.Step lx := r1.1.comp s1
              refine ⟨hst.comp i1, ?_⟩
              rcases i2 with i2 | i2
              · exact Or.inl ⟨LexPos.le_trans hst.2.1 i2.1, i2.2⟩
              · exact Or.inr i2
            · simp only [Option.some.injEq, Prod.mk.injEq] at h
              obtain ⟨h3, h4⟩ := h
              subst h3 h4
              refine ⟨r1.1.comp s1, Or.inl ?_⟩
              rw [s2]
              exact ⟨r1.2.1, LexPos.le_trans r1.2.2 s1.2.1⟩
        · by_cases h58 : lex.readRune.1.r = 58
          · rw [if_pos h58] at h; exact ret _ h
          rw [if_neg h58] at h
          by_cases h123 : lex.readRune.1.r = 123
          · rw [if_pos h123] at h; exact ret _ h
          rw [if_neg h123] at h
          by_cases h125 : lex.readRune.1.r = 125
          · rw [if_pos h125] at h; exact ret _ h
          rw [if_neg h125] at h
          by_cases h91 : lex.readRune.1.r = 91
          · rw [if_pos h91] at h; exact ret _ h
          rw [if_neg h91] at h
          by_cases h93 : lex.readRune.1.r = 93
          · rw [if_pos h93] at h; exact ret _ h
          rw [if_neg h93] at h
          by_cases h34 : lex.readRune.1.r = 34
          · rw [if_pos h34] at h
            exact str _ r1.1 r1.2.2 (lexInterpretedString_step _ _ _ _ _ r1.1.1 h)
          rw [if_neg h34] at h
          by_cases h96 : lex.readRune.1.r = 96
          · rw [if_pos h96] at h
            exact str _ r1.1 r1.2.2 (lexRawString_step _ _ _ _ _ r1.1.1 h)
          rw [if_neg h96] at h
          exact str _ r1.1 r1.2.2 (lexSymbolString_step _ _ _ _ _ r1.1.1 h)

/-- One call of `readToken`: the position of the token lies between the marks of the
lexer before and after the call. -/
theorem readToken_mark (fuel : Nat) (lex : lexer) (tok : lexToken) (err : Option error)
    (lex2 : lexer) (hi : lex.PosInv) (h : lex.readToken fuel = some (tok, err, lex2)) :
    lex2.PosInv ∧ LexPos.le lex.mark tok.pos ∧ LexPos.le tok.pos lex2.mark := by
  unfold lexer.readToken at h
  split at h
  · cases h
  · next t lx hb =>
    obtain ⟨s1, s2⟩ := readTokenBegin_step _ _ _ _ hi hb
    simp only at h
    have hmark : LexPos.le lex.mark lex.pos := by
      unfold lexer.mark
      split
      · exact hi.cur_le
      · exact LexPos.le_refl _
    split at h
    · next e he =>
      simp only [Option.some.injEq, Prod.mk.injEq] at h
      obtain ⟨h1, -, h3⟩ := h
      subst h1 h3
      have hne : lx.es.cause ≠ none := by
        simp only [Sink.Cause] at he
        rw [he]; simp
      refine ⟨s1.1, LexPos.le_trans hmark s1.2.2.1, ?_⟩
      simp only [lexer.mark, hne, if_false]
      exact LexPos.le_refl _
    · next he =>
      simp only [Option.some.injEq, Prod.mk.injEq] at h
      obtain ⟨h1, -, h3⟩ := h
      subst h1 h3
      have hn1 : lx.es.cause = none := by
        simpa [Sink.Cause] using he
      have hn0 : lex.es.cause = none := by
        by_contra hc
        exact s1.2.2.2 hc hn1
      rcases s2 with s2 | s2
      · refine ⟨s1.1, ?_, ?_⟩
        · simp only [lexer.mark, hn0, if_true]
          exact s2.1
        · simp only [lexer.mark, hn1, if_true]
          exact s2.2
      · exact absurd hn1 s2

/-- The positions of successive tokens are non-decreasing, and none is below the mark of
the lexer they are read from. -/
theorem tokenRun_sorted (fuel : Nat) : ∀ (k : Nat) (lex : lexer) (toks : List lexToken),
    lex.PosInv → tokenRun fuel k lex = some toks →
    toks.length = k ∧ (∀ t ∈ toks, LexPos.le lex.mark t.pos) ∧
    List.Pairwise LexPos.le (toks.map (fun t => t.pos)) := by
  intro k
  induction k with
  | zero =>
    intro lex toks _ h
    simp only [tokenRun, Option.some.injEq] at h
    subst h
    exact ⟨rfl, by simp, List.Pairwise.nil⟩
  | succ k ih =>
    intro lex toks hi h
    simp only [tokenRun] at h
    split at h
    · cases h
    · next tok err lex1 hr =>
      obtain ⟨m1, m2, m3⟩ := readToken_mark _ _ _ _ _ hi hr
      split at h
      · cases h
      · next rest hrest =>
        simp only [Option.some.injEq] at h
        subst h
        obtain ⟨i1, i2, i3⟩ := ih _ _ m1 hrest
        refine ⟨by simp [i1], ?_, ?_⟩
        · intro t ht
          rcases List.mem_cons.mp ht with ht | ht
          · rw [ht]; exact m2
          · exact LexPos.le_trans m2 (LexPos.le_trans m3 (i2 t ht))
        · simp only [List.map_cons, List.pairwise_cons]
          refine ⟨?_, i3⟩
          intro q hq
          obtain ⟨t, ht, rfl⟩ := List.mem_map.mp hq
          exact LexPos.le_trans m3 (i2 t ht)

theorem tokenRun_total (fuel : Nat) : ∀ (k : Nat) (lex : lexer), lex.measure < fuel →
    ∃ toks, tokenRun fuel k lex = some toks := by
  intro k
  induction k with
  | zero => intro lex _; exact ⟨[], rfl⟩
  | succ k ih =>
    intro lex hm
    have ht := readToken_total fuel lex hm
    cases hr : lex.readToken fuel with
    | none => rw [hr] at ht; cases ht
    | some res =>
      obtain ⟨tok, err, lex1⟩ := res
      obtain ⟨r1, -⟩ := readToken_some _ _ _ _ _ hr
      obtain ⟨toks, e⟩ := ih lex1 (by omega)
      exact ⟨tok :: toks, by simp only [tokenRun, hr, e]⟩

theorem tokenRun_cons {fuel k : Nat} {lex lex1 : lexer} {tok : lexToken} {err : Option error}
    {toks : List lexToken} (h : lex.readToken fuel = some (tok, err, lex1))
    (ht : tokenRun fuel k lex1 = some toks) :
    tokenRun fuel (k + 1) lex = some (tok :: toks) := by
  simp only [tokenRun, h, ht]

/-- The column after a run of tabs that begins at a multiple of 8. -/
theorem posAfter_tabs : ∀ (n : Nat) (l c : Int), c % 8 = 0 → -2147483648 ≤ c →
    c < 2147483648 →
    posAfter { Line := l, Column := c } (List.replicate n 9) =
      { Line := l, Column := wrapInt32 (c + 8 * n) } := by
  intro n
  induction n with
  | zero =>
    intro l c _ h1 h2
    simp only [List.replicate, posAfter, Nat.cast_zero, mul_zero, add_zero]
    rw [wrapInt32_id c h1 h2]
  | succ n ih =>
    intro l c h0 h1 h2
    have ht : Int.tmod c 8 = 0 := Int.tmod_eq_zero_of_dvd (Int.dvd_of_emod_eq_zero h0)
    have hu : ({ Line := l, Column := c } : LexPos).update 9 =
        { Line := l, Column := wrapInt32 (c + 8) } := by
      simp [LexPos.update, ht]
    simp only [List.replicate, posAfter]
    rw [hu, ih l (wrapInt32 (c + 8)) (by unfold wrapInt32; omega) (by unfold wrapInt32; omega)
      (by unfold wrapInt32; omega), wrapInt32_add]
    congr 2
    push_cast
    ring

/-- C14 (as amended): for every rune source of fewer than 2^28 runes, whatever its runes and
whether or not it ends with an error, any number `k` of successive `readToken` calls
return (with a fuel of three units per rune plus eight) and the positions of the `k` tokens
returned are pairwise non-decreasing in the lexicographic order of line and column; the
end-of-stream tokens, with or without an error, are among them. -/
theorem C14_positions_monotone (reader : RuneReader) (k fuel : Nat)
    (hl : reader.runes.length < 268435456) (hf : 3 * reader.runes.length + 8 ≤ fuel) :
    ∃ toks, tokenRun fuel k (newLexer reader) = some toks ∧ toks.length = k ∧
      List.Pairwise LexPos.le (toks.map (fun t => t.pos)) := by
  have hm : (newLexer reader).measure = reader.runes.length := by
    simp [newLexer, lexer.measure]
  have hi : (newLexer reader).PosInv := by
    refine ⟨⟨by simp [newLexer], by simp [newLexer], ?_, ?_⟩, trivial⟩
    · show (1 : Int) + (reader.runes.length : Int) < 2147483648
      omega
    · show (0 : Int) + 8 * (reader.runes.length : Int) < 2147483648
      omega
  obtain ⟨toks, e⟩ := tokenRun_total fuel k (newLexer reader) (by omega)
  obtain ⟨s1, -, s3⟩ := tokenRun_sorted fuel k _ toks hi e
  exact ⟨toks, e, s1, s3⟩

theorem C14_positions_monotone_witness :
    (RuneReader.mk [34, 97, 34, 47, 120, 9, 10, 98] none).runes.length < 268435456 ∧
    3 * (RuneReader.mk [34, 97, 34, 47, 120, 9, 10, 98] none).runes.length + 8 ≤ 32 ∧
    (∃ toks, tokenRun 32 4 (newLexer (RuneReader.mk [34, 97, 34, 47, 120, 9, 10, 98] none)) =
        some toks ∧ toks.length = 4 ∧
      List.Pairwise LexPos.le (toks.map (fun t => t.pos))) ∧
    tokenRun 32 4 (newLexer (RuneReader.mk [34, 97, 34, 47, 120, 9, 10, 98] none)) =
      some [{ k := lexKind.InterpString, s := [97], pos := { Line := 1, Column := 0 } },
        { k := lexKind.Eof, s := [], pos := { Line := 1, Column := 5 } },
        { k := lexKind.Eof, s := [], pos := { Line := 1, Column := 5 } },
        { k := lexKind.Eof, s := [], pos := { Line := 1, Column := 5 } }] :=
  ⟨by decide, by decide,
    C14_positions_monotone (RuneReader.mk [34, 97, 34, 47, 120, 9, 10, 98] none) 4 32
      (by decide) (by decide), by decide⟩

/-- C14 (counterexample): the input of 2^28 tabs is shorter than 2^31 runes; the first
`readToken` call returns the whitespace token at 1:0 and the second one the
end-of-stream token at column -2147483648, because the `int32` column, which a tab
advances by 8, has wrapped around: the positions decrease. -/
theorem C14_positions_monotone_counterexample :
    (List.replicate 268435456 (9 : rune)).length < 2147483648 ∧
    tokenRun 268435460 2 (newLexer (RuneReader.mk (List.replicate 268435456 9) none)) =
      some [{ k := lexKind.Space, s := [], pos := { Line := 1, Column := 0 } },
        { k := lexKind.Eof, s := [], pos := { Line := 1, Column := -2147483648 } }] ∧
    ¬ LexPos.le { Line := 1, Column := 0 } { Line := 1, Column := -2147483648 } := by
  have hw : ∀ r ∈ List.replicate 268435455 (9 : rune), isSpace r = true := by
    intro r hr
    rw [List.eq_of_mem_replicate hr]
    decide
  have hsp := NextToken_of_Begin (BeginToken_space 268435460 { Line := 1, Column := 0 } 9
    (List.replicate 268435455 9) [] lexKind.Eof (by decide) (by decide) hw trivial
    (by rw [List.length_replicate]; decide))
  have hin : 9 :: (List.replicate 268435455 (9 : rune) ++ []) =
      List.replicate 268435456 9 := by
    rw [List.append_nil]
    rfl
  have hrep : 9 :: List.replicate 268435455 (9 : rune) = List.replicate 268435456 9 := rfl
  rw [hin, hrep, posAfter_tabs 268435456 1 0 (by decide) (by decide) (by decide)] at hsp
  have hcol : wrapInt32 (0 + 8 * ((268435456 : Nat) : Int)) = -2147483648 := by decide
  rw [hcol] at hsp
  obtain ⟨lex1, e1, r1⟩ := hsp _ (newLexer_Ready _)
  obtain ⟨lex2, e2, -⟩ := NextToken_eof 268435460 { Line := 1, Column := -2147483648 }
    lexKind.Space (by decide) lex1 r1
  refine ⟨by rw [List.length_replicate]; decide, ?_, by decide⟩
  exact tokenRun_cons e1 (tokenRun_cons e2 rfl)

/-! ## Two lexers on the same runes at different positions -/

theorem BothAfter.here {a b : lexer} {pos pos1 : LexPos} {inp : List rune} {pk pk1 : lexKind}
    (h : a.Ready pos inp pk) (h1 : b.Ready pos1 inp pk1) :
    BothAfter a b pos pos1 inp pk pk1 :=
  ⟨[], inp, rfl, h, h1⟩

theorem BothAfter.cons {a b : lexer} {pos pos1 : LexPos} {r : rune} {rs : List rune}
    {pk pk1 : lexKind} (h : BothAfter a b (pos.update r) (pos1.update r) rs pk pk1) :
    BothAfter a b pos pos1 (r :: rs) pk pk1 := by
  obtain ⟨c, rest, e, h1, h2⟩ := h
  exact ⟨r :: c, rest, by rw [e]; rfl, h1, h2⟩

theorem BothAfter.after {a b : lexer} {pos pos1 : LexPos} {inp c rest : List rune}
    {pk pk1 : lexKind} (e : inp = c ++ rest)
    (h : BothAfter a b (posAfter pos c) (posAfter pos1 c) rest pk pk1) :
    BothAfter a b pos pos1 inp pk pk1 := by
  obtain ⟨c2, rest2, e2, h1, h2⟩ := h
  refine ⟨c ++ c2, rest2, by rw [e, e2, List.append_assoc], ?_, ?_⟩
  · rw [posAfter_append]; exact h1
  · rw [posAfter_append]; exact h2

theorem BothAfter.valid {a b : lexer} {pos pos1 : LexPos} {inp : List rune}
    {pk pk1 : lexKind} (h : BothAfter a b pos pos1 inp pk pk1)
    (hv : ∀ r ∈ inp, r ≠ runeEof) :
    ∃ c rest, inp = c ++ rest ∧ a.Ready (posAfter pos c) rest pk ∧
      b.Ready (posAfter pos1 c) rest pk1 ∧ (∀ r ∈ rest, r ≠ runeEof) ∧
      posAfter pos1 inp = posAfter (posAfter pos1 c) rest := by
  obtain ⟨c, rest, e, h1, h2⟩ := h
  refine ⟨c, rest, e, h1, h2, ?_, by rw [e, posAfter_append]⟩
  intro r hr
  exact hv r (by rw [e]; exact List.mem_append_right _ hr)

theorem lexSpaceLoop_sim (n : Nat) : ∀ (m : Nat) (a b : lexer) (pos pos1 : LexPos)
    (inp : List rune) (pk pk1 : lexKind) (lr lr1 : lexRune) (a1 b1 : lexer),
    a.Ready pos inp pk → b.Ready pos1 inp pk1 → (∀ r ∈ inp, r ≠ runeEof) →
    a.lexSpaceLoop n = some (lr, a1) → b.lexSpaceLoop m = some (lr1, b1) →
    BothAfter (a1.unreadRune lr) (b1.unreadRune lr1) pos pos1 inp pk pk1 := by
  induction n with
  | zero => intro m a b pos pos1 inp pk pk1 lr lr1 a1 b1 _ _ _ h; simp [lexer.lexSpaceLoop] at h
  | succ n ih =>
    intro m a b pos pos1 inp pk pk1 lr lr1 a1 b1 hr hr1 hv h h1
    cases m with
    | zero => simp [lexer.lexSpaceLoop] at h1
    | succ m =>
      rw [lexer.lexSpaceLoop] at h h1
      cases inp with
      | nil =>
        obtain ⟨e1, e2, -⟩ := hr.readRune_nil
        obtain ⟨f1, f2, -⟩ := hr1.readRune_nil
        have hc : isSpace a.readRune.1.r = false := by rw [e1]; rfl
        have hc1 : isSpace b.readRune.1.r = false := by rw [f1]; rfl
        simp only [hc, hc1, Bool.false_eq_true, if_false, Option.some.injEq] at h h1
        have h2 : lr = a.readRune.1 := by rw [h]
        have h3 : a1 = a.readRune.2 := by rw [h]
        have h4 : lr1 = b.readRune.1 := by rw [h1]
        have h5 : b1 = b.readRune.2 := by rw [h1]
        subst h2 h3 h4 h5
        rw [e1, f1, unreadRune_eof, unreadRune_eof]
        exact BothAfter.here e2 f2
      | cons r rs =>
        obtain ⟨e1, e2⟩ := hr.readRune_cons
        obtain ⟨f1, f2⟩ := hr1.readRune_cons
        have hne := hv r (List.mem_cons_self _ _)
        by_cases hs : isSpace r = true
        · have hc : isSpace a.readRune.1.r = true := by rw [e1]; exact hs
          have hc1 : isSpace b.readRune.1.r = true := by rw [f1]; exact hs
          simp only [hc, hc1, if_true] at h h1
          exact (ih m _ _ _ _ rs pk pk1 lr lr1 a1 b1 e2 f2
            (fun x hx => hv x (List.mem_cons_of_mem _ hx)) h h1).cons
        · have hc : isSpace a.readRune.1.r = false := by rw [e1]; simpa using hs
          have hc1 : isSpace b.readRune.1.r = false := by rw [f1]; simpa using hs
          simp only [hc, hc1, Bool.false_eq_true, if_false, Option.some.injEq] at h h1
          have h2 : lr = a.readRune.1 := by rw [h]
          have h3 : a1 = a.readRune.2 := by rw [h]
          have h4 : lr1 = b.readRune.1 := by rw [h1]
          have h5 : b1 = b.readRune.2 := by rw [h1]
          subst h2 h3 h4 h5
          rw [e1, f1]
          exact BothAfter.here (e2.unreadRune hne) (f2.unreadRune hne)

theorem lexCommentLoop_sim (n : Nat) : ∀ (m : Nat) (a b : lexer) (pos pos1 : LexPos)
    (inp : List rune) (pk pk1 : lexKind) (lr lr1 : lexRune) (a1 b1 : lexer),
    a.Ready pos inp pk → b.Ready pos1 inp pk1 → (∀ r ∈ inp, r ≠ runeEof) →
    a.lexCommentLoop n = some (lr, a1) → b.lexCommentLoop m = some (lr1, b1) →
    BothAfter (a1.unreadRune lr) (b1.unreadRune lr1) pos pos1 inp pk pk1 := by
  induction n with
  | zero =>
    intro m a b pos pos1 inp pk pk1 lr lr1 a1 b1 _ _ _ h; simp [lexer.lexCommentLoop] at h
  | succ n ih =>
    intro m a b pos pos1 inp pk pk1 lr lr1 a1 b1 hr hr1 hv h h1
    cases m with
    | zero => simp [lexer.lexCommentLoop] at h1
    | succ m =>
      rw [lexer.lexCommentLoop] at h h1
      cases inp with
      | nil =>
        obtain ⟨e1, e2, -⟩ := hr.readRune_nil
        obtain ⟨f1, f2, -⟩ := hr1.readRune_nil
        have hc : ¬ (a.readRune.1.r ≠ 10 ∧ a.readRune.1.r ≠ runeEof) := by rw [e1]; simp
        have hc1 : ¬ (b.readRune.1.r ≠ 10 ∧ b.readRune.1.r ≠ runeEof) := by rw [f1]; simp
        rw [if_neg hc] at h
        rw [if_neg hc1] at h1
        simp only [Option.some.injEq] at h h1
        have h2 : lr = a.readRune.1 := by rw [h]
        have h3 : a1 = a.readRune.2 := by rw [h]
        have h4 : lr1 = b.readRune.1 := by rw [h1]
        have h5 : b1 = b.readRune.2 := by rw [h1]
        subst h2 h3 h4 h5
        rw [e1, f1, unreadRune_eof, unreadRune_eof]
        exact BothAfter.here e2 f2
      | cons r rs =>
        obtain ⟨e1, e2⟩ := hr.readRune_cons
        obtain ⟨f1, f2⟩ := hr1.readRune_cons
        have hne := hv r (List.mem_cons_self _ _)
        by_cases hs : r ≠ 10 ∧ r ≠ runeEof
        · have hc : a.readRune.1.r ≠ 10 ∧ a.readRune.1.r ≠ runeEof := by rw [e1]; exact hs
          have hc1 : b.readRune.1.r ≠ 10 ∧ b.readRune.1.r ≠ runeEof := by rw [f1]; exact hs
          rw [if_pos hc] at h
          rw [if_pos hc1] at h1
          exact (ih m _ _ _ _ rs pk pk1 lr lr1 a1 b1 e2 f2
            (fun x hx => hv x (List.mem_cons_of_mem _ hx)) h h1).cons
        · have hc : ¬ (a.readRune.1.r ≠ 10 ∧ a.readRune.1.r ≠ runeEof) := by rw [e1]; exact hs
          have hc1 : ¬ (b.readRune.1.r ≠ 10 ∧ b.readRune.1.r ≠ runeEof) := by
            rw [f1]; exact hs
          rw [if_neg hc] at h
          rw [if_neg hc1] at h1
          simp only [Option.some.injEq] at h h1
          have h2 : lr = a.readRune.1 := by rw [h]
          have h3 : a1 = a.readRune.2 := by rw [h]
          have h4 : lr1 = b.readRune.1 := by rw [h1]
          have h5 : b1 = b.readRune.2 := by rw [h1]
          subst h2 h3 h4 h5
          rw [e1, f1]
          exact BothAfter.here (e2.unreadRune hne) (f2.unreadRune hne)

theorem lexRawLoop_sim (n : Nat) : ∀ (m : Nat) (a b : lexer) (pos pos1 : LexPos)
    (inp : List rune) (pk pk1 : lexKind) (sb sc sb1 sc1 : Text) (lr lr1 : lexRune)
    (a1 b1 : lexer),
    a.Ready pos inp pk → b.Ready pos1 inp pk1 → (∀ r ∈ inp, r ≠ runeEof) →
    a.lexRawLoop n sb = some (sb1, lr, a1) → b.lexRawLoop m sc = some (sc1, lr1, b1) →
    lr.r = lr1.r ∧ BothAfter a1 b1 pos pos1 inp pk pk1 := by
  induction n with
  | zero =>
    intro m a b pos pos1 inp pk pk1 sb sc sb1 sc1 lr lr1 a1 b1 _ _ _ h
    simp [lexer.lexRawLoop] at h
  | succ n ih =>
    intro m a b pos pos1 inp pk pk1 sb sc sb1 sc1 lr lr1 a1 b1 hr hr1 hv h h1
    cases m with
    | zero => simp [lexer.lexRawLoop] at h1
    | succ m =>
      rw [lexer.lexRawLoop] at h h1
      cases inp with
      | nil =>
        obtain ⟨e1, e2, -⟩ := hr.readRune_nil
        obtain ⟨f1, f2, -⟩ := hr1.readRune_nil
        have hc : a.readRune.1.r = runeEof := by rw [e1]
        have hc1 : b.readRune.1.r = runeEof := by rw [f1]
        simp only [hc, hc1, if_true, Option.some.injEq, Prod.mk.injEq] at h h1
        obtain ⟨-, h2, h3⟩ := h
        obtain ⟨-, h4, h5⟩ := h1
        subst h2 h3 h4 h5
        exact ⟨by rw [hc, hc1], BothAfter.here e2 f2⟩
      | cons r rs =>
        obtain ⟨e1, e2⟩ := hr.readRune_cons
        obtain ⟨f1, f2⟩ := hr1.readRune_cons
        have hne := hv r (List.mem_cons_self _ _)
        have hc : a.readRune.1.r = r := by rw [e1]
        have hc1 : b.readRune.1.r = r := by rw [f1]
        simp only [hc, hc1, if_neg hne] at h h1
        by_cases h96 : r = 96
        · simp only [h96, if_true, Option.some.injEq, Prod.mk.injEq] at h h1
          obtain ⟨-, h2, h3⟩ := h
          obtain ⟨-, h4, h5⟩ := h1
          subst h2 h3 h4 h5
          exact ⟨by rw [hc, hc1], (BothAfter.here e2 f2).cons⟩
        · simp only [if_neg h96] at h h1
          obtain ⟨i1, i2⟩ := ih m _ _ _ _ rs pk pk1 _ _ sb1 sc1 lr lr1 a1 b1 e2 f2
            (fun x hx => hv x (List.mem_cons_of_mem _ hx)) h h1
          exact ⟨i1, i2.cons⟩

theorem emitPosError_ne (lex : lexer) (e : error) (pos : LexPos) :
    (lex.emitPosError (some e) pos).es.cause ≠ none := by
  simp only [lexer.emitPosError, Sink.Send]
  split
  · next e2 he2 => simp [he2]
  · simp

theorem lexInterpretedLoop_sim (n : Nat) : ∀ (m : Nat) (a b : lexer) (pos pos1 : LexPos)
    (inp : List rune) (pk pk1 : lexKind) (sb sc : Text) (esc : Bool)
    (res res1 : lexToken ⊕ (Text × lexRune)) (a1 b1 : lexer),
    a.Ready pos inp pk → b.Ready pos1 inp pk1 → (∀ r ∈ inp, r ≠ runeEof) →
    a.lexInterpretedLoop n sb esc = some (res, a1) →
    b.lexInterpretedLoop m sc esc = some (res1, b1) →
    (∀ x, res = Sum.inr x → ∃ y, res1 = Sum.inr y ∧ x.2.r = y.2.r ∧
      BothAfter a1 b1 pos pos1 inp pk pk1) ∧
    (∀ t, res = Sum.inl t → a1.es.cause ≠ none) := by
  induction n with
  | zero =>
    intro m a b pos pos1 inp pk pk1 sb sc esc res res1 a1 b1 _ _ _ h
    simp [lexer.lexInterpretedLoop] at h
  | succ n ih =>
    intro m a b pos pos1 inp pk pk1 sb sc esc res res1 a1 b1 hr hr1 hv h h1
    cases m with
    | zero => simp [lexer.lexInterpretedLoop] at h1
    | succ m =>
      rw [lexer.lexInterpretedLoop] at h h1
      cases inp with
      | nil =>
        obtain ⟨e1, e2, -⟩ := hr.readRune_nil
        obtain ⟨f1, f2, -⟩ := hr1.readRune_nil
        have hc : a.readRune.1.r = runeEof := by rw [e1]
        have hc1 : b.readRune.1.r = runeEof := by rw [f1]
        simp only [hc, hc1, if_true, Option.some.injEq, Prod.mk.injEq] at h h1
        obtain ⟨h2, h3⟩ := h
        obtain ⟨h4, h5⟩ := h1
        subst h2 h3 h4 h5
        refine ⟨?_, by intro t ht; cases ht⟩
        intro x hx
        cases hx
        exact ⟨_, rfl, by simp only [hc, hc1], BothAfter.here e2 f2⟩
      | cons r rs =>
        obtain ⟨e1, e2⟩ := hr.readRune_cons
        obtain ⟨f1, f2⟩ := hr1.readRune_cons
        have hne := hv r (List.mem_cons_self _ _)
        have hvs : ∀ x ∈ rs, x ≠ runeEof := fun x hx => hv x (List.mem_cons_of_mem _ hx)
        have hc : a.readRune.1.r = r := by rw [e1]
        have hc1 : b.readRune.1.r = r := by rw [f1]
        simp only [hc, hc1, if_neg hne] at h h1
        have step : ∀ (sb2 sc2 : Text) (esc2 : Bool),
            a.readRune.2.lexInterpretedLoop n sb2 esc2 = some (res, a1) →
            b.readRune.2.lexInterpretedLoop m sc2 esc2 = some (res1, b1) →
            (∀ x, res = Sum.inr x → ∃ y, res1 = Sum.inr y ∧ x.2.r = y.2.r ∧
              BothAfter a1 b1 pos pos1 (r :: rs) pk pk1) ∧
            (∀ t, res = Sum.inl t → a1.es.cause ≠ none) := by
          intro sb2 sc2 esc2 g g1
          obtain ⟨i1, i2⟩ := ih m _ _ _ _ rs pk pk1 sb2 sc2 esc2 res res1 a1 b1 e2 f2 hvs g g1
          refine ⟨?_, i2⟩
          intro x hx
          obtain ⟨y, y1, y2, y3⟩ := i1 x hx
          exact ⟨y, y1, y2, y3.cons⟩
        have fail : ∀ (t : lexToken) (msg : String) (q : LexPos),
            some ((Sum.inl t : lexToken ⊕ (Text × lexRune)),
              a.readRune.2.emitPosError (some (error.New msg)) q) = some (res, a1) →
            (∀ x, res = Sum.inr x → ∃ y, res1 = Sum.inr y ∧ x.2.r = y.2.r ∧
              BothAfter a1 b1 pos pos1 (r :: rs) pk pk1) ∧
            (∀ t, res = Sum.inl t → a1.es.cause ≠ none) := by
          intro t msg q g
          simp only [Option.some.injEq, Prod.mk.injEq] at g
          obtain ⟨g1, g2⟩ := g
          subst g1 g2
          exact ⟨fun x hx => (by cases hx), fun _ _ => emitPosError_ne _ _ _⟩
        cases esc with
        | true =>
          simp only [if_true] at h h1
          by_cases c1 : r = 92 ∨ r = 34
          · rw [if_pos c1] at h h1; exact step _ _ _ h h1
          rw [if_neg c1] at h h1
          by_cases c2 : r = 110
          · rw [if_pos c2] at h h1; exact step _ _ _ h h1
          rw [if_neg c2] at h h1
          by_cases c3 : r = 114
          · rw [if_pos c3] at h h1; exact step _ _ _ h h1
          rw [if_neg c3] at h h1
          by_cases c4 : r = 116
          · rw [if_pos c4] at h h1; exact step _ _ _ h h1
          rw [if_neg c4] at h h1
          exact fail _ _ _ h
        | false =>
          simp only [Bool.false_eq_true, if_false] at h h1
          by_cases c1 : r = 92
          · rw [if_pos c1] at h h1; exact step _ _ _ h h1
          rw [if_neg c1] at h h1
          by_cases c2 : r = 10 ∨ r = 13
          · rw [if_pos c2] at h; exact fail _ _ _ h
          rw [if_neg c2] at h h1
          by_cases c3 : r = 34
          · rw [if_pos c3] at h h1
            simp only [Option.some.injEq, Prod.mk.injEq] at h h1
            obtain ⟨h2, h3⟩ := h
            obtain ⟨h4, h5⟩ := h1
            subst h2 h3 h4 h5
            refine ⟨?_, by intro t ht; cases ht⟩
            intro x hx
            cases hx
            exact ⟨_, rfl, by simp only [hc, hc1], (BothAfter.here e2 f2).cons⟩
          rw [if_neg c3] at h h1
          exact step _ _ _ h h1

theorem lexSymbolLoop_sim (n : Nat) : ∀ (m : Nat) (a b : lexer) (pos pos1 : LexPos)
    (inp : List rune) (pk pk1 : lexKind) (sb sc sb1 sc1 : Text) (lr lr1 : lexRune)
    (a1 b1 : lexer),
    a.Ready pos inp pk → b.Ready pos1 inp pk1 → (∀ r ∈ inp, r ≠ runeEof) →
    a.lexSymbolLoop n sb = some (sb1, lr, a1) → b.lexSymbolLoop m sc = some (sc1, lr1, b1) →
    BothAfter (a1.unreadRune lr) (b1.unreadRune lr1) pos pos1 inp pk pk1 := by
  induction n with
  | zero =>
    intro m a b pos pos1 inp pk pk1 sb sc sb1 sc1 lr lr1 a1 b1 _ _ _ h
    simp [lexer.lexSymbolLoop] at h
  | succ n ih =>
    intro m a b pos pos1 inp pk pk1 sb sc sb1 sc1 lr lr1 a1 b1 hr hr1 hv h h1
    cases m with
    | zero => simp [lexer.lexSymbolLoop] at h1
    | succ m =>
      rw [lexer.lexSymbolLoop] at h h1
      cases inp with
      | nil =>
        obtain ⟨e1, e2, -⟩ := hr.readRune_nil
        obtain ⟨f1, f2, -⟩ := hr1.readRune_nil
        have hc : a.readRune.1.r = runeEof := by rw [e1]
        have hc1 : b.readRune.1.r = runeEof := by rw [f1]
        have hp : symbolPredicate runeEof = false := by decide
        have h47 : ¬ (runeEof = 47) := by decide
        simp only [hc, hc1, hp, Bool.false_eq_true, if_false, h47, Option.some.injEq,
          Prod.mk.injEq] at h h1
        obtain ⟨-, h2, h3⟩ := h
        obtain ⟨-, h4, h5⟩ := h1
        subst h2 h3 h4 h5
        rw [e1, f1, unreadRune_eof, unreadRune_eof]
        exact BothAfter.here e2 f2
      | cons r rs =>
        obtain ⟨e1, e2⟩ := hr.readRune_cons
        obtain ⟨f1, f2⟩ := hr1.readRune_cons
        have hne := hv r (List.mem_cons_self _ _)
        have hvs : ∀ x ∈ rs, x ≠ runeEof := fun x hx => hv x (List.mem_cons_of_mem _ hx)
        have hc : a.readRune.1.r = r := by rw [e1]
        have hc1 : b.readRune.1.r = r := by rw [f1]
        simp only [hc, hc1] at h h1
        by_cases hp : symbolPredicate r = true
        · simp only [hp, if_true] at h h1
          exact (ih m _ _ _ _ rs pk pk1 _ _ sb1 sc1 lr lr1 a1 b1 e2 f2 hvs h h1).cons
        · have hp2 : symbolPredicate r = false := by simpa using hp
          simp only [hp2, Bool.false_eq_true, if_false] at h h1
          by_cases h47 : r = 47
          · rw [if_pos h47] at h h1
            have hh : rs.head? ≠ some runeEof := by
              cases rs with
              | nil => simp
              | cons t ts =>
                simp only [List.head?_cons, ne_eq, Option.some.injEq]
                exact hvs t (List.mem_cons_self _ _)
            obtain ⟨p1, p2⟩ := e2.peekRune hh
            obtain ⟨q1, q2⟩ := f2.peekRune hh
            by_cases hn : rs.head? = some 47
            · have c1 : ¬ (a.readRune.2.peekRune.1.r ≠ 47) := by
                rw [ne_eq, not_not]; exact p2.mpr hn
              have c2 : ¬ (b.readRune.2.peekRune.1.r ≠ 47) := by
                rw [ne_eq, not_not]; exact q2.mpr hn
              rw [if_neg c1] at h
              rw [if_neg c2] at h1
              simp only [Option.some.injEq, Prod.mk.injEq] at h h1
              obtain ⟨-, h2, h3⟩ := h
              obtain ⟨-, h4, h5⟩ := h1
              subst h2 h3 h4 h5
              rw [e1, f1]
              exact BothAfter.here (p1.unreadRune hne) (q1.unreadRune hne)
            · have c1 : a.readRune.2.peekRune.1.r ≠ 47 := fun hx => hn (p2.mp hx)
              have c2 : b.readRune.2.peekRune.1.r ≠ 47 := fun hx => hn (q2.mp hx)
              rw [if_pos c1] at h
              rw [if_pos c2] at h1
              exact (ih m _ _ _ _ rs pk pk1 _ _ sb1 sc1 lr lr1 a1 b1 p1 q1 hvs h h1).cons
          · rw [if_neg h47] at h h1
            simp only [Option.some.injEq, Prod.mk.injEq] at h h1
            obtain ⟨-, h2, h3⟩ := h
            obtain ⟨-, h4, h5⟩ := h1
            subst h2 h3 h4 h5
            rw [e1, f1]
            exact BothAfter.here (e2.unreadRune hne) (f2.unreadRune hne)

theorem lexSpace_sim {n m : Nat} {a b a1 b1 : lexer} {pos pos1 : LexPos} {inp : List rune}
    {pk pk1 : lexKind} {first first1 : lexRune} {tok tok1 : lexToken}
    (hr : a.Ready pos inp pk) (hr1 : b.Ready pos1 inp pk1) (hv : ∀ r ∈ inp, r ≠ runeEof)
    (h : a.lexSpace n first = some (tok, a1)) (h1 : b.lexSpace m first1 = some (tok1, b1)) :
    tok.k = lexKind.Space ∧ tok1.k = lexKind.Space ∧ BothAfter a1 b1 pos pos1 inp pk pk1 := by
  unfold lexer.lexSpace at h h1
  cases hl : a.lexSpaceLoop n with
  | none => simp [hl] at h
  | some x =>
    cases hl1 : b.lexSpaceLoop m with
    | none => simp [hl1] at h1
    | some y =>
      obtain ⟨lr, a2⟩ := x
      obtain ⟨lr1, b2⟩ := y
      simp only [hl, hl1, Option.some.injEq, Prod.mk.injEq] at h h1
      obtain ⟨h2, h3⟩ := h
      obtain ⟨h4, h5⟩ := h1
      subst h2 h3 h4 h5
      exact ⟨rfl, rfl, lexSpaceLoop_sim n m a b pos pos1 inp pk pk1 lr lr1 a2 b2 hr hr1 hv hl hl1⟩

theorem lexComment_sim {n m : Nat} {a b a1 b1 : lexer} {pos pos1 : LexPos} {inp : List rune}
    {pk pk1 : lexKind}
    (hr : a.Ready pos inp pk) (hr1 : b.Ready pos1 inp pk1) (hv : ∀ r ∈ inp, r ≠ runeEof)
    (h : a.lexComment n = some a1) (h1 : b.lexComment m = some b1) :
    BothAfter a1 b1 pos pos1 inp pk pk1 := by
  unfold lexer.lexComment at h h1
  cases hl : a.lexCommentLoop n with
  | none => simp [hl] at h
  | some x =>
    cases hl1 : b.lexCommentLoop m with
    | none => simp [hl1] at h1
    | some y =>
      obtain ⟨lr, a2⟩ := x
      obtain ⟨lr1, b2⟩ := y
      simp only [hl, hl1, Option.some.injEq] at h h1
      subst h h1
      exact lexCommentLoop_sim n m a b pos pos1 inp pk pk1 lr lr1 a2 b2 hr hr1 hv hl hl1

theorem lexRawString_sim {n m : Nat} {a b a1 b1 : lexer} {pos pos1 : LexPos}
    {inp : List rune} {pk pk1 : lexKind} {first first1 : lexRune} {tok tok1 : lexToken}
    (hr : a.Ready pos inp pk) (hr1 : b.Ready pos1 inp pk1) (hv : ∀ r ∈ inp, r ≠ runeEof)
    (hk : pk.isString = pk1.isString)
    (h : a.lexRawString n first = some (tok, a1))
    (h1 : b.lexRawString m first1 = some (tok1, b1)) (hok : a1.es.cause = none) :
    tok.k = lexKind.RawString ∧ tok1.k = lexKind.RawString ∧
    BothAfter a1 b1 pos pos1 inp pk pk1 := by
  unfold lexer.lexRawString lexer.checkJoinedStrings at h h1
  rw [hr.2.2.1] at h
  rw [hr1.2.2.1, ← hk] at h1
  cases hs : pk.isString with
  | true =>
    simp only [hs, if_true, Option.some.injEq, Prod.mk.injEq] at h
    obtain ⟨-, h3⟩ := h
    subst h3
    exact absurd hok (emitPosError_ne _ _ _)
  | false =>
    simp only [hs, Bool.false_eq_true, if_false] at h h1
    cases hl : a.lexRawLoop n [] with
    | none => simp [hl] at h
    | some x =>
      cases hl1 : b.lexRawLoop m [] with
      | none => simp [hl1] at h1
      | some y =>
        obtain ⟨sb, lr, a2⟩ := x
        obtain ⟨sc, lr1, b2⟩ := y
        obtain ⟨i1, i2⟩ := lexRawLoop_sim n m a b pos pos1 inp pk pk1 [] [] sb sc lr lr1 a2 b2
          hr hr1 hv hl hl1
        simp only [hl, hl1] at h h1
        by_cases h96 : lr.r ≠ 96
        · rw [if_pos h96] at h
          simp only [Option.some.injEq, Prod.mk.injEq] at h
          obtain ⟨-, h3⟩ := h
          subst h3
          exact absurd hok (emitPosError_ne _ _ _)
        · rw [if_neg h96] at h
          rw [if_neg (by rw [← i1]; exact h96)] at h1
          simp only [Option.some.injEq, Prod.mk.injEq] at h h1
          obtain ⟨h2, h3⟩ := h
          obtain ⟨h4, h5⟩ := h1
          subst h2 h3 h4 h5
          exact ⟨rfl, rfl, i2⟩

theorem lexInterpretedString_sim {n m : Nat} {a b a1 b1 : lexer} {pos pos1 : LexPos}
    {inp : List rune} {pk pk1 : lexKind} {first first1 : lexRune} {tok tok1 : lexToken}
    (hr : a.Ready pos inp pk) (hr1 : b.Ready pos1 inp pk1) (hv : ∀ r ∈ inp, r ≠ runeEof)
    (hk : pk.isString = pk1.isString)
    (h : a.lexInterpretedString n first = some (tok, a1))
    (h1 : b.lexInterpretedString m first1 = some (tok1, b1)) (hok : a1.es.cause = none) :
    tok.k = lexKind.InterpString ∧ tok1.k = lexKind.InterpString ∧
    BothAfter a1 b1 pos pos1 inp pk pk1 := by
  unfold lexer.lexInterpretedString lexer.checkJoinedStrings at h h1
  rw [hr.2.2.1] at h
  rw [hr1.2.2.1, ← hk] at h1
  cases hs : pk.isString with
  | true =>
    simp only [hs, if_true, Option.some.injEq, Prod.mk.injEq] at h
    obtain ⟨-, h3⟩ := h
    subst h3
    exact absurd hok (emitPosError_ne _ _ _)
  | false =>
    simp only [hs, Bool.false_eq_true, if_false] at h h1
    cases hl : a.lexInterpretedLoop n [] false with
    | none => simp [hl] at h
    | some x =>
      cases hl1 : b.lexInterpretedLoop m [] false with
      | none => simp [hl1] at h1
      | some y =>
        obtain ⟨res, a2⟩ := x
        obtain ⟨res1, b2⟩ := y
        obtain ⟨i1, i2⟩ := lexInterpretedLoop_sim n m a b pos pos1 inp pk pk1 [] [] false
          res res1 a2 b2 hr hr1 hv hl hl1
        simp only [hl, hl1] at h h1
        cases res with
        | inl t =>
          simp only [Option.some.injEq, Prod.mk.injEq] at h
          obtain ⟨-, h3⟩ := h
          subst h3
          exact absurd hok (i2 t rfl)
        | inr x =>
          obtain ⟨y, y1, y2, y3⟩ := i1 x rfl
          subst y1
          obtain ⟨sb, lr⟩ := x
          obtain ⟨sc, lr1⟩ := y
          simp only at y2 h h1
          by_cases h34 : lr.r ≠ 34
          · rw [if_pos h34] at h
            simp only [Option.some.injEq, Prod.mk.injEq] at h
            obtain ⟨-, h3⟩ := h
            subst h3
            exact absurd hok (emitPosError_ne _ _ _)
          · rw [if_neg h34] at h
            rw [if_neg (by rw [← y2]; exact h34)] at h1
            simp only [Option.some.injEq, Prod.mk.injEq] at h h1
            obtain ⟨h2, h3⟩ := h
            obtain ⟨h4, h5⟩ := h1
            subst h2 h3 h4 h5
            exact ⟨rfl, rfl, y3⟩

theorem lexSymbolString_sim {n m : Nat} {a b a1 b1 : lexer} {pos pos1 : LexPos}
    {inp : List rune} {pk pk1 : lexKind} {first first1 : lexRune} {tok tok1 : lexToken}
    (hr : a.Ready pos inp pk) (hr1 : b.Ready pos1 inp pk1) (hv : ∀ r ∈ inp, r ≠ runeEof)
    (hk : pk.isString = pk1.isString)
    (h : a.lexSymbolString n first = some (tok, a1))
    (h1 : b.lexSymbolString m first1 = some (tok1, b1)) (hok : a1.es.cause = none) :
    tok.k = lexKind.SymbolString ∧ tok1.k = lexKind.SymbolString ∧
    BothAfter a1 b1 pos pos1 inp pk pk1 := by
  unfold lexer.lexSymbolString lexer.checkJoinedStrings at h h1
  rw [hr.2.2.1] at h
  rw [hr1.2.2.1, ← hk] at h1
  cases hs : pk.isString with
  | true =>
    simp only [hs, if_true, Option.some.injEq, Prod.mk.injEq] at h
    obtain ⟨-, h3⟩ := h
    subst h3
    exact absurd hok (emitPosError_ne _ _ _)
  | false =>
    simp only [hs, Bool.false_eq_true, if_false] at h h1
    cases hl : a.lexSymbolLoop n [writeRune first.r] with
    | none => simp [hl] at h
    | some x =>
      cases hl1 : b.lexSymbolLoop m [writeRune first1.r] with
      | none => simp [hl1] at h1
      | some y =>
        obtain ⟨sb, lr, a2⟩ := x
        obtain ⟨sc, lr1, b2⟩ := y
        have i := lexSymbolLoop_sim n m a b pos pos1 inp pk pk1 _ _ sb sc lr lr1 a2 b2
          hr hr1 hv hl hl1
        simp only [hl, hl1, Option.some.injEq, Prod.mk.injEq] at h h1
        obtain ⟨h2, h3⟩ := h
        obtain ⟨h4, h5⟩ := h1
        subst h2 h3 h4 h5
        exact ⟨rfl, rfl, i⟩

theorem readTokenBegin_sim (n : Nat) : ∀ (m : Nat) (a b : lexer) (pos pos1 : LexPos)
    (inp : List rune) (pk pk1 : lexKind) (tok tok1 : lexToken) (a1 b1 : lexer),
    a.Ready pos inp pk → b.Ready pos1 inp pk1 → (∀ r ∈ inp, r ≠ runeEof) →
    pk.isString = pk1.isString → (pk = lexKind.Space ↔ pk1 = lexKind.Space) →
    a.readTokenBegin n = some (tok, a1) → b.readTokenBegin m = some (tok1, b1) →
    a1.es.cause = none →
    tok.k = tok1.k ∧ (tok.k = lexKind.Eof → tok1.pos = posAfter pos1 inp) ∧
    BothAfter a1 b1 pos pos1 inp pk pk1 := by
  induction n with
  | zero =>
    intro m a b pos pos1 inp pk pk1 tok tok1 a1 b1 _ _ _ _ _ h
    simp [lexer.readTokenBegin] at h
  | succ n ih =>
    intro m a b pos pos1 inp pk pk1 tok tok1 a1 b1 hr hr1 hv hk hsp h h1 hok
    cases m with
    | zero => simp [lexer.readTokenBegin] at h1
    | succ m =>
      rw [lexer.readTokenBegin] at h h1
      cases inp with
      | nil =>
        obtain ⟨e1, e2, -⟩ := hr.readRune_nil
        obtain ⟨f1, f2, -⟩ := hr1.readRune_nil
        simp only [e1, f1, if_true, Option.some.injEq, Prod.mk.injEq] at h h1
        obtain ⟨h2, h3⟩ := h
        obtain ⟨h4, h5⟩ := h1
        subst h2 h3 h4 h5
        exact ⟨rfl, fun _ => rfl, BothAfter.here e2 f2⟩
      | cons r rs =>
        obtain ⟨e1, e2⟩ := hr.readRune_cons
        obtain ⟨f1, f2⟩ := hr1.readRune_cons
        have hne := hv r (List.mem_cons_self _ _)
        have hvs : ∀ x ∈ rs, x ≠ runeEof := fun x hx => hv x (List.mem_cons_of_mem _ hx)
        simp only [e1, f1, if_neg hne] at h h1
        have ret : ∀ (k : lexKind), k ≠ lexKind.Eof →
            some (({ k := k, s := [], pos := pos } : lexToken), a.readRune.2) = some (tok, a1) →
            some (({ k := k, s := [], pos := pos1 } : lexToken), b.readRune.2) =
              some (tok1, b1) →
            tok.k = tok1.k ∧ (tok.k = lexKind.Eof → tok1.pos = posAfter pos1 (r :: rs)) ∧
            BothAfter a1 b1 pos pos1 (r :: rs) pk pk1 := by
          intro k hkn g g1
          simp only [Option.some.injEq, Prod.mk.injEq] at g g1
          obtain ⟨g2, g3⟩ := g
          obtain ⟨g4, g5⟩ := g1
          subst g2 g3 g4 g5
          exact ⟨rfl, fun hx => absurd hx hkn, (BothAfter.here e2 f2).cons⟩
        have str : ∀ (K : lexKind), K ≠ lexKind.Eof →
            (tok.k = K ∧ tok1.k = K ∧
              BothAfter a1 b1 (pos.update r) (pos1.update r) rs pk pk1) →
            tok.k = tok1.k ∧ (tok.k = lexKind.Eof → tok1.pos = posAfter pos1 (r :: rs)) ∧
            BothAfter a1 b1 pos pos1 (r :: rs) pk pk1 := by
          intro K hK g
          obtain ⟨g1, g2, g3⟩ := g
          exact ⟨by rw [g1, g2], fun hx => absurd (g1.symm.trans hx) hK, g3.cons⟩
        have rec : ∀ (a2 b2 : lexer), BothAfter a2 b2 (pos.update r) (pos1.update r) rs pk pk1 →
            a2.readTokenBegin n = some (tok, a1) → b2.readTokenBegin m = some (tok1, b1) →
            tok.k = tok1.k ∧ (tok.k = lexKind.Eof → tok1.pos = posAfter pos1 (r :: rs)) ∧
            BothAfter a1 b1 pos pos1 (r :: rs) pk pk1 := by
          intro a2 b2 hb g g1
          obtain ⟨c, rest, ec, c1, c2, c3, c4⟩ := hb.valid hvs
          obtain ⟨i1, i2, i3⟩ := ih m a2 b2 _ _ rest pk pk1 tok tok1 a1 b1 c1 c2 c3 hk hsp g g1
            hok
          refine ⟨i1, ?_, (BothAfter.after ec i3).cons⟩
          intro hx
          rw [i2 hx, ← c4]
          rfl
        by_cases h47 : r = 47
        · subst h47
          simp only [if_true] at h h1
          have hh : rs.head? ≠ some runeEof := by
            cases rs with
            | nil => simp
            | cons t ts =>
              simp only [List.head?_cons, ne_eq, Option.some.injEq]
              exact hvs t (List.mem_cons_self _ _)
          obtain ⟨p1, p2⟩ := e2.peekRune hh
          obtain ⟨q1, q2⟩ := f2.peekRune hh
          have hpa : a.readRune.2.readRune.1 = a.readRune.2.peekRune.1 := rfl
          have hpb : b.readRune.2.readRune.1 = b.readRune.2.peekRune.1 := rfl
          have hua : a.readRune.2.readRune.2.unreadRune a.readRune.2.readRune.1 =
              a.readRune.2.peekRune.2 := rfl
          have hub : b.readRune.2.readRune.2.unreadRune b.readRune.2.readRune.1 =
              b.readRune.2.peekRune.2 := rfl
          by_cases hn : rs.head? = some 47
          · rw [if_pos (by rw [hpa]; exact p2.mpr hn)] at h
            rw [if_pos (by rw [hpb]; exact q2.mpr hn)] at h1
            cases rs with
            | nil => simp at hn
            | cons t ts =>
              simp only [List.head?_cons, Option.some.injEq] at hn
              subst hn
              obtain ⟨e3, e4⟩ := e2.readRune_cons
              obtain ⟨f3, f4⟩ := f2.readRune_cons
              cases hc : a.readRune.2.readRune.2.lexComment n with
              | none => simp [hc] at h
              | some a2 =>
                cases hc1 : b.readRune.2.readRune.2.lexComment m with
                | none => simp [hc1] at h1
                | some b2 =>
                  simp only [hc, hc1] at h h1
                  have hb := lexComment_sim e4 f4
                    (fun x hx => hvs x (List.mem_cons_of_mem _ hx)) hc hc1
                  exact rec a2 b2 hb.cons h h1
          · rw [if_neg (by rw [hpa]; exact fun hx => hn (p2.mp hx)), hua] at h
            rw [if_neg (by rw [hpb]; exact fun hx => hn (q2.mp hx)), hub] at h1
            exact str _ (by decide) (lexSymbolString_sim p1 q1 hvs hk h h1 hok)
        · rw [if_neg h47] at h h1
          by_cases hs : isSpace r = true
          · simp only [hs, if_true] at h h1
            cases hc : a.readRune.2.lexSpace n { r := r, pos := pos } with
            | none => simp [hc] at h
            | some x =>
              cases hc1 : b.readRune.2.lexSpace m { r := r, pos := pos1 } with
              | none => simp [hc1] at h1
              | some y =>
                obtain ⟨t, a2⟩ := x
                obtain ⟨t1, b2⟩ := y
                simp only [hc, hc1] at h h1
                obtain ⟨s1, s2, s3⟩ := lexSpace_sim e2 f2 hvs hc hc1
                obtain ⟨c, rest, ec, c1, c2⟩ := s3
                have ha2 : a2.prevKind = pk := c1.2.2.1
                have hb2 : b2.prevKind = pk1 := c2.2.2.1
                by_cases hpk : pk = lexKind.Space
                · rw [if_pos (by rw [ha2]; exact hpk)] at h
                  rw [if_pos (by rw [hb2]; exact hsp.mp hpk)] at h1
                  exact rec a2 b2 ⟨c, rest, ec, c1, c2⟩ h h1
                · rw [if_neg (by rw [ha2]; exact hpk)] at h
                  rw [if_neg (by rw [hb2]; exact fun hx => hpk (hsp.mpr hx))] at h1
                  simp only [Option.some.injEq, Prod.mk.injEq] at h h1
                  obtain ⟨h2, h3⟩ := h
                  obtain ⟨h4, h5⟩ := h1
                  subst h2 h3 h4 h5
                  exact str _ (by decide) ⟨s1, s2, ⟨c, rest, ec, c1, c2⟩⟩
          · have hs2 : isSpace r = false := by simpa using hs
            simp only [hs2, Bool.false_eq_true, if_false] at h h1
            by_cases h58 : r = 58
            · rw [if_pos h58] at h h1; exact ret _ (by decide) h h1
            rw [if_neg h58] at h h1
            by_cases h123 : r = 123
            · rw [if_pos h123] at h h1; exact ret _ (by decide) h h1
            rw [if_neg h123] at h h1
            by_cases h125 : r = 125
            · rw [if_pos h125] at h h1; exact ret _ (by decide) h h1
            rw [if_neg h125] at h h1
            by_cases h91 : r = 91
            · rw [if_pos h91] at h h1; exact ret _ (by decide) h h1
            rw [if_neg h91] at h h1
            by_cases h93 : r = 93
            · rw [if_pos h93] at h h1; exact ret _ (by decide) h h1
            rw [if_neg h93] at h h1
            by_cases h34 : r = 34
            · rw [if_pos h34] at h h1
              exact str _ (by decide) (lexInterpretedString_sim e2 f2 hvs hk h h1 hok)
            rw [if_neg h34] at h h1
            by_cases h96 : r = 96
            · rw [if_pos h96] at h h1
              exact str _ (by decide) (lexRawString_sim e2 f2 hvs hk h h1 hok)
            rw [if_neg h96] at h h1
            exact str _ (by decide) (lexSymbolString_sim e2 f2 hvs hk h h1 hok)

/-- Two lexers ready for the same runes: when the first one returns a token without
error, so does the second one, the tokens are of the same kind, both lexers have consumed
the same runes, and an end-of-stream token of the second one is at the end of its
input. -/
theorem readToken_sim {n m : Nat} {a b a2 b2 : lexer} {pos pos1 : LexPos}
    {inp : List rune} {pk pk1 : lexKind} {tok tok1 : lexToken} {err1 : Option error}
    (hr : a.Ready pos inp pk) (hr1 : b.Ready pos1 inp pk1) (hv : ∀ r ∈ inp, r ≠ runeEof)
    (hk : pk.isString = pk1.isString) (hsp : pk = lexKind.Space ↔ pk1 = lexKind.Space)
    (h : a.readToken n = some (tok, none, a2))
    (h1 : b.readToken m = some (tok1, err1, b2)) :
    err1 = none ∧ tok.k = tok1.k ∧ (tok.k = lexKind.Eof → tok1.pos = posAfter pos1 inp) ∧
    BothAfter a2 b2 pos pos1 inp tok.k tok1.k := by
  unfold lexer.readToken at h h1
  cases hb : a.readTokenBegin n with
  | none => simp [hb] at h
  | some x =>
    cases hb1 : b.readTokenBegin m with
    | none => simp [hb1] at h1
    | some y =>
      obtain ⟨t, a1⟩ := x
      obtain ⟨t1, b1⟩ := y
      simp only [hb, hb1] at h h1
      cases hc : a1.es.cause with
      | some e => simp [Sink.Cause, hc] at h
      | none =>
        obtain ⟨i1, i2, c, rest, ec, c1, c2⟩ := readTokenBegin_sim n m a b pos pos1 inp pk pk1
          t t1 a1 b1 hr hr1 hv hk hsp hb hb1 hc
        simp only [Sink.Cause, hc, c2.1, Option.some.injEq, Prod.mk.injEq] at h h1
        obtain ⟨h2, -, h3⟩ := h
        obtain ⟨h4, h5, h6⟩ := h1
        subst h2 h3 h4 h6
        exact ⟨h5.symm, i1, i2, c, rest, ec, c1.setPrevKind _, c2.setPrevKind _⟩

/-! ## Two parsers on the same runes at different positions -/

theorem parser.Sim.none {q p : parser} {E : LexPos} (h : q.Sim p E) :
    q.es.cause = none ∧ p.es.cause = none := by
  obtain ⟨-, -, inp, pos, pos1, h1, h2, -⟩ := h
  exact ⟨h1.1, h2.1⟩

theorem parser.Sim.setPrev {q p : parser} {E : LexPos} (h : q.Sim p E) (t t1 : lexToken) :
    ({ q with prev := t } : parser).Sim { p with prev := t1 } E := by
  obtain ⟨h1, h2, inp, pos, pos1, h3, h4, h5, h6⟩ := h
  exact ⟨h1, h2, inp, pos, pos1, ⟨h3.1, rfl, h3.2.2⟩, ⟨h4.1, rfl, h4.2.2⟩, h5, h6⟩

theorem consume_sim {n m : Nat} {q p q1 p1 : parser} {E : LexPos} (hs : q.Sim p E)
    (h : q.consume n = some q1) (hok : q1.es.cause = none) (h1 : p.consume m = some p1) :
    q1.Sim p1 E := by
  obtain ⟨s1, s2, inp, pos, pos1, s3, s4, s5, s6⟩ := hs
  unfold parser.consume parser.lex at h h1
  simp only at h h1
  by_cases hk : q.next.k = lexKind.Eof
  · have hk1 : p.next.k = lexKind.Eof := by rw [← s1]; exact hk
    simp only [hk, hk1, ne_eq, not_true_eq_false, if_false, Option.some.injEq] at h h1
    subst h h1
    exact ⟨s1, s2, inp, pos, pos1, ⟨s3.1, rfl, s3.2.2⟩, ⟨s4.1, rfl, s4.2.2⟩, s5, s6⟩
  · have hk1 : p.next.k ≠ lexKind.Eof := by rw [← s1]; exact hk
    simp only [ne_eq, hk, hk1, not_false_eq_true, if_true] at h h1
    cases hr : q.lexer.readToken n with
    | none => simp [hr] at h
    | some x =>
      cases hr1 : p.lexer.readToken m with
      | none => simp [hr1] at h1
      | some y =>
        obtain ⟨tok, err, lx⟩ := x
        obtain ⟨tok1, err1, lx1⟩ := y
        simp only [hr, hr1, Option.some.injEq] at h h1
        subst h h1
        have he : err = none := by
          simp only [Sink.Send, s3.1] at hok
          exact hok
        subst he
        obtain ⟨i1, i2, i3, i4⟩ := readToken_sim s3.2.2 s4.2.2 s5 (by rw [s1])
          (by rw [s1]) hr hr1
        subst i1
        obtain ⟨c, rest, ec, c1, c2, c3, c4⟩ := i4.valid s5
        refine ⟨i2, ?_, rest, _, _, ⟨?_, rfl, c1⟩, ⟨?_, rfl, c2⟩, c3, ?_⟩
        · intro hx
          show tok1.pos = E
          rw [i3 (i2.trans hx), s6]
        · simp only [Sink.Send, s3.1]
        · simp only [Sink.Send, s4.1]
        · rw [← c4, s6]

theorem accept_sim {n m : Nat} {q p q1 p1 : parser} {E : LexPos} {k : lexKind}
    {bq bp : Bool} (hs : q.Sim p E)
    (h : q.accept n k = some (bq, q1)) (h1 : p.accept m k = some (bp, p1)) :
    bq = bp ∧ (bq = false → q1 = q ∧ p1 = p) ∧ (q1.es.cause = none → q1.Sim p1 E) := by
  unfold parser.accept at h h1
  by_cases hk : q.next.k = k
  · have hk1 : p.next.k = k := by rw [← hs.1]; exact hk
    rw [if_pos hk] at h
    rw [if_pos hk1] at h1
    cases hc : q.consume n with
    | none => simp [hc] at h
    | some q2 =>
      cases hc1 : p.consume m with
      | none => simp [hc1] at h1
      | some p2 =>
        simp only [hc, hc1, Option.some.injEq, Prod.mk.injEq] at h h1
        obtain ⟨h2, h3⟩ := h
        obtain ⟨h4, h5⟩ := h1
        subst h2 h3 h4 h5
        exact ⟨rfl, fun hx => Bool.noConfusion hx, fun hok => consume_sim hs hc hok hc1⟩
  · have hk1 : p.next.k ≠ k := by rw [← hs.1]; exact hk
    rw [if_neg hk] at h
    rw [if_neg hk1] at h1
    simp only [Option.some.injEq, Prod.mk.injEq] at h h1
    obtain ⟨h2, h3⟩ := h
    obtain ⟨h4, h5⟩ := h1
    subst h2 h3 h4 h5
    exact ⟨rfl, fun _ => ⟨rfl, rfl⟩, fun _ => hs⟩

theorem expect_sim {n m : Nat} {q p q1 p1 : parser} {E : LexPos} {k : lexKind}
    {msg : String} {bq bp : Bool} (hs : q.Sim p E)
    (h : q.expect n k msg = some (bq, q1)) (hok : q1.es.cause = none)
    (h1 : p.expect m k msg = some (bp, p1)) : q1.Sim p1 E := by
  unfold parser.expect at h h1
  by_cases hk : q.next.k ≠ k
  · rw [if_pos hk] at h
    simp only [Option.some.injEq, Prod.mk.injEq] at h
    obtain ⟨-, h3⟩ := h
    subst h3
    rw [posError_cause _ _ _ hs.none.1] at hok
    cases hok
  · have hk1 : ¬ (p.next.k ≠ k) := by rw [← hs.1]; exact hk
    rw [if_neg hk] at h
    rw [if_neg hk1] at h1
    cases hc : q.consume n with
    | none => simp [hc] at h
    | some q2 =>
      cases hc1 : p.consume m with
      | none => simp [hc1] at h1
      | some p2 =>
        simp only [hc, hc1, Option.some.injEq, Prod.mk.injEq] at h h1
        obtain ⟨h2, h3⟩ := h
        obtain ⟨h4, h5⟩ := h1
        subst h2 h3 h4 h5
        exact consume_sim hs hc hok hc1

theorem keyPred_kind {t t1 : lexToken} (h : t.k = t1.k) : keyPred t = keyPred t1 := by
  simp only [keyPred, h]

theorem isString_kind {t t1 : lexToken} (h : t.k = t1.k) : t.isString = t1.isString := by
  simp only [lexToken.isString, h]

theorem parseString_sim {n m : Nat} {q p q1 p1 : parser} {E : LexPos} {s s1 : Str}
    (hs : q.Sim p E) (h : q.parseString n = some (s, q1)) (hok : q1.es.cause = none)
    (h1 : p.parseString m = some (s1, p1)) : q1.Sim p1 E := by
  unfold parser.parseString at h h1
  cases hc : q.consume n with
  | none => simp [hc] at h
  | some q2 =>
    cases hc1 : p.consume m with
    | none => simp [hc1] at h1
    | some p2 =>
      simp only [hc, hc1, Option.some.injEq, Prod.mk.injEq] at h h1
      obtain ⟨h2, h3⟩ := h
      obtain ⟨h4, h5⟩ := h1
      subst h2 h3 h4 h5
      exact consume_sim hs hc hok hc1

/-- When the loop of `parseList` returns without error, it was entered without error. -/
theorem parseListLoop_none {n : Nat} {q q1 : parser} {L L1 : List Elem}
    (h : parser.parseListLoop n q L = some (L1, q1)) (hok : q1.es.cause = none) :
    q.es.cause = none := by
  cases hc : q.es.cause with
  | none => rfl
  | some e =>
    cases n with
    | zero => simp [parser.parseListLoop] at h
    | succ k =>
      rw [parseListLoop_err L hc] at h
      simp only [Option.some.injEq, Prod.mk.injEq] at h
      rw [← h.2, hc] at hok
      cases hok

theorem parseAssocLoop_none {n : Nat} {q q1 : parser} {L L1 : List Pair}
    (h : parser.parseAssocLoop n q L = some (L1, q1)) (hok : q1.es.cause = none) :
    q.es.cause = none := by
  cases hc : q.es.cause with
  | none => rfl
  | some e =>
    cases n with
    | zero => simp [parser.parseAssocLoop] at h
    | succ k =>
      rw [parseAssocLoop_err L hc] at h
      simp only [Option.some.injEq, Prod.mk.injEq] at h
      rw [← h.2, hc] at hok
      cases hok

theorem parseRootLoop_none {n : Nat} {q q1 : parser} {L L1 : List Elem}
    (h : parser.parseRootLoop n q L = some (L1, q1)) (hok : q1.es.cause = none) :
    q.es.cause = none := by
  cases hc : q.es.cause with
  | none => rfl
  | some e =>
    cases n with
    | zero => simp [parser.parseRootLoop] at h
    | succ k =>
      rw [parseRootLoop_err L hc] at h
      simp only [Option.some.injEq, Prod.mk.injEq] at h
      rw [← h.2, hc] at hok
      cases hok

theorem parser.Sim.isP {q p : parser} {E : LexPos} (h : q.Sim p E) :
    q.isP lexToken.isString = p.isP lexToken.isString := by
  simp only [parser.isP]
  exact isString_kind h.1

theorem parser.Sim.is {q p : parser} {E : LexPos} (h : q.Sim p E) (k : lexKind) :
    q.is k = p.is k := by
  simp only [parser.is, h.1]

theorem parseListLoop_simstep (n : Nat) (ih : parseSimAt n) :
    ∀ (m : Nat) (q p q1 p1 : parser) (E : LexPos) (L L1 M M1 : List Elem), q.Sim p E →
    parser.parseListLoop (n + 1) q L = some (L1, q1) → q1.es.cause = none →
    parser.parseListLoop m p M = some (M1, p1) → q1.Sim p1 E := by
  obtain ⟨ihLL, ihL, -, ihA, -⟩ := ih
  intro m q p q1 p1 E L L1 M M1 hs h hok h1
  cases m with
  | zero => simp [parser.parseListLoop] at h1
  | succ m =>
    rw [parser.parseListLoop, if_pos (Sink.ok_of_none _ hs.none.1)] at h
    rw [parser.parseListLoop, if_pos (Sink.ok_of_none _ hs.none.2)] at h1
    cases ha : q.accept n lexKind.Space with
    | none => simp [ha] at h
    | some x =>
      cases ha1 : p.accept m lexKind.Space with
      | none => simp [ha1] at h1
      | some y =>
        obtain ⟨b, q2⟩ := x
        obtain ⟨b1, p2⟩ := y
        obtain ⟨a1, a2, a3⟩ := accept_sim hs ha ha1
        subst a1
        simp only [ha, ha1] at h h1
        cases b with
        | true =>
          simp only at h h1
          exact ihLL m q2 p2 q1 p1 E L L1 M M1 (a3 (parseListLoop_none h hok)) h hok h1
        | false =>
          obtain ⟨rfl, rfl⟩ := a2 rfl
          simp only at h h1
          rw [← hs.isP, ← hs.is, ← hs.is] at h1
          by_cases hstr : q2.isP lexToken.isString = true
          · rw [if_pos hstr] at h h1
            cases hp : q2.parseString n with
            | none => simp [hp] at h
            | some x =>
              cases hp1 : p2.parseString m with
              | none => simp [hp1] at h1
              | some y =>
                obtain ⟨s, q3⟩ := x
                obtain ⟨s1, p3⟩ := y
                simp only [hp, hp1] at h h1
                exact ihLL m q3 p3 q1 p1 E _ L1 _ M1
                  (parseString_sim hs hp (parseListLoop_none h hok) hp1) h hok h1
          rw [if_neg hstr] at h h1
          by_cases hlb : q2.is lexKind.LBracket = true
          · rw [if_pos hlb] at h h1
            cases hp : parser.parseList n q2 with
            | none => simp [hp] at h
            | some x =>
              cases hp1 : parser.parseList m p2 with
              | none => simp [hp1] at h1
              | some y =>
                obtain ⟨s, q3⟩ := x
                obtain ⟨s1, p3⟩ := y
                simp only [hp, hp1] at h h1
                exact ihLL m q3 p3 q1 p1 E _ L1 _ M1
                  (ihL m q2 p2 q3 p3 E s s1 hs hp (parseListLoop_none h hok) hp1) h hok h1
          rw [if_neg hlb] at h h1
          by_cases hlc : q2.is lexKind.LBrace = true
          · rw [if_pos hlc] at h h1
            cases hp : parser.parseAssoc n q2 with
            | none => simp [hp] at h
            | some x =>
              cases hp1 : parser.parseAssoc m p2 with
              | none => simp [hp1] at h1
              | some y =>
                obtain ⟨s, q3⟩ := x
                obtain ⟨s1, p3⟩ := y
                simp only [hp, hp1] at h h1
                exact ihLL m q3 p3 q1 p1 E _ L1 _ M1
                  (ihA m q2 p2 q3 p3 E s s1 hs hp (parseListLoop_none h hok) hp1) h hok h1
          rw [if_neg hlc] at h h1
          cases hb : q2.accept n lexKind.RBracket with
          | none => simp [hb] at h
          | some x =>
            cases hb1 : p2.accept m lexKind.RBracket with
            | none => simp [hb1] at h1
            | some y =>
              obtain ⟨c, q3⟩ := x
              obtain ⟨c1, p3⟩ := y
              obtain ⟨b1, b2, b3⟩ := accept_sim hs hb hb1
              subst b1
              simp only [hb, hb1] at h h1
              cases c with
              | true =>
                simp only [Option.some.injEq, Prod.mk.injEq] at h h1
                obtain ⟨-, h3⟩ := h
                obtain ⟨-, h5⟩ := h1
                subst h3 h5
                exact b3 hok
              | false =>
                obtain ⟨rfl, rfl⟩ := b2 rfl
                simp only at h
                split at h
                · have := parseListLoop_none h hok
                  rw [posError_cause _ _ _ hs.none.1] at this
                  cases this
                · have := parseListLoop_none h hok
                  rw [posError_cause _ _ _ hs.none.1] at this
                  cases this

theorem parseList_simstep (n : Nat) (ih : parseSimAt n) :
    ∀ (m : Nat) (q p q1 p1 : parser) (E : LexPos) (x y : Elem), q.Sim p E →
    parser.parseList (n + 1) q = some (x, q1) → q1.es.cause = none →
    parser.parseList m p = some (y, p1) → q1.Sim p1 E := by
  obtain ⟨ihLL, -⟩ := ih
  intro m q p q1 p1 E x y hs h hok h1
  cases m with
  | zero => simp [parser.parseList] at h1
  | succ m =>
    rw [parser.parseList] at h h1
    cases hc : q.consume n with
    | none => simp [hc] at h
    | some q2 =>
      cases hc1 : p.consume m with
      | none => simp [hc1] at h1
      | some p2 =>
        simp only [hc, hc1] at h h1
        cases hl : parser.parseListLoop n q2 [] with
        | none => simp [hl] at h
        | some u =>
          cases hl1 : parser.parseListLoop m p2 [] with
          | none => simp [hl1] at h1
          | some v =>
            obtain ⟨L1, q3⟩ := u
            obtain ⟨M1, p3⟩ := v
            simp only [hl, hl1, Option.some.injEq, Prod.mk.injEq] at h h1
            obtain ⟨-, h3⟩ := h
            obtain ⟨-, h5⟩ := h1
            subst h3 h5
            exact ihLL m q2 p2 q3 p3 E [] L1 [] M1
              (consume_sim hs hc (parseListLoop_none hl hok) hc1) hl hok hl1

theorem parseAssoc_simstep (n : Nat) (ih : parseSimAt n) :
    ∀ (m : Nat) (q p q1 p1 : parser) (E : LexPos) (x y : Elem), q.Sim p E →
    parser.parseAssoc (n + 1) q = some (x, q1) → q1.es.cause = none →
    parser.parseAssoc m p = some (y, p1) → q1.Sim p1 E := by
  obtain ⟨-, -, ihAL, -⟩ := ih
  intro m q p q1 p1 E x y hs h hok h1
  cases m with
  | zero => simp [parser.parseAssoc] at h1
  | succ m =>
    rw [parser.parseAssoc] at h h1
    cases hc : q.consume n with
    | none => simp [hc] at h
    | some q2 =>
      cases hc1 : p.consume m with
      | none => simp [hc1] at h1
      | some p2 =>
        simp only [hc, hc1] at h h1
        cases hl : parser.parseAssocLoop n q2 [] with
        | none => simp [hl] at h
        | some u =>
          cases hl1 : parser.parseAssocLoop m p2 [] with
          | none => simp [hl1] at h1
          | some v =>
            obtain ⟨L1, q3⟩ := u
            obtain ⟨M1, p3⟩ := v
            simp only [hl, hl1, Option.some.injEq, Prod.mk.injEq] at h h1
            obtain ⟨-, h3⟩ := h
            obtain ⟨-, h5⟩ := h1
            subst h3 h5
            exact ihAL m q2 p2 q3 p3 E [] L1 [] M1
              (consume_sim hs hc (parseAssocLoop_none hl hok) hc1) hl hok hl1

theorem none_of_keeps {a b : Option error} (h : ∀ e, a = some e → b = some e)
    (hb : b = none) : a = none := by
  cases ha : a with
  | none => rfl
  | some e => rw [h e ha] at hb; cases hb

theorem expectP_sim {n m : Nat} {q p q1 p1 : parser} {E : LexPos} {msg : String}
    {bq bp : Bool} (hs : q.Sim p E)
    (h : q.expectP n keyPred msg = some (bq, q1)) (hok : q1.es.cause = none)
    (h1 : p.expectP m keyPred msg = some (bp, p1)) : q1.Sim p1 E := by
  unfold parser.expectP at h h1
  rw [← keyPred_kind hs.1] at h1
  by_cases hk : (!keyPred q.next) = true
  · rw [if_pos hk] at h
    simp only [Option.some.injEq, Prod.mk.injEq] at h
    obtain ⟨-, h3⟩ := h
    subst h3
    rw [posError_cause _ _ _ hs.none.1] at hok
    cases hok
  · rw [if_neg hk] at h h1
    cases hc : q.consume n with
    | none => simp [hc] at h
    | some q2 =>
      cases hc1 : p.consume m with
      | none => simp [hc1] at h1
      | some p2 =>
        simp only [hc, hc1, Option.some.injEq, Prod.mk.injEq] at h h1
        obtain ⟨h2, h3⟩ := h
        obtain ⟨h4, h5⟩ := h1
        subst h2 h3 h4 h5
        exact consume_sim hs hc hok hc1

theorem parseAssocLoop_simstep (n : Nat) (ih : parseSimAt n) :
    ∀ (m : Nat) (q p q1 p1 : parser) (E : LexPos) (L L1 M M1 : List Pair), q.Sim p E →
    parser.parseAssocLoop (n + 1) q L = some (L1, q1) → q1.es.cause = none →
    parser.parseAssocLoop m p M = some (M1, p1) → q1.Sim p1 E := by
  obtain ⟨-, -, ihAL, -, ihP⟩ := ih
  intro m q p q1 p1 E L L1 M M1 hs h hok h1
  cases m with
  | zero => simp [parser.parseAssocLoop] at h1
  | succ m =>
    rw [parser.parseAssocLoop, if_pos (Sink.ok_of_none _ hs.none.1)] at h
    rw [parser.parseAssocLoop, if_pos (Sink.ok_of_none _ hs.none.2)] at h1
    cases ha : q.accept n lexKind.Space with
    | none => simp [ha] at h
    | some x =>
      cases ha1 : p.accept m lexKind.Space with
      | none => simp [ha1] at h1
      | some y =>
        obtain ⟨b, q2⟩ := x
        obtain ⟨b1, p2⟩ := y
        obtain ⟨a1, a2, a3⟩ := accept_sim hs ha ha1
        subst a1
        simp only [ha, ha1] at h h1
        cases b with
        | true =>
          simp only at h h1
          exact ihAL m q2 p2 q1 p1 E L L1 M M1 (a3 (parseAssocLoop_none h hok)) h hok h1
        | false =>
          obtain ⟨rfl, rfl⟩ := a2 rfl
          simp only at h h1
          cases hb : q2.accept n lexKind.RBrace with
          | none => simp [hb] at h
          | some x =>
            cases hb1 : p2.accept m lexKind.RBrace with
            | none => simp [hb1] at h1
            | some y =>
              obtain ⟨c, q3⟩ := x
              obtain ⟨c1, p3⟩ := y
              obtain ⟨b1, b2, b3⟩ := accept_sim hs hb hb1
              subst b1
              simp only [hb, hb1] at h h1
              cases c with
              | true =>
                simp only [Option.some.injEq, Prod.mk.injEq] at h h1
                obtain ⟨-, h3⟩ := h
                obtain ⟨-, h5⟩ := h1
                subst h3 h5
                exact b3 hok
              | false =>
                obtain ⟨rfl, rfl⟩ := b2 rfl
                simp only at h h1
                rw [← hs.is] at h1
                by_cases heof : q3.is lexKind.Eof = true
                · rw [if_pos heof] at h
                  have := parseAssocLoop_none h hok
                  rw [posError_cause _ _ _ hs.none.1] at this
                  cases this
                rw [if_neg heof] at h h1
                cases hp : parser.parsePair n q3 with
                | none => simp [hp] at h
                | some u =>
                  cases hp1 : parser.parsePair m p3 with
                  | none => simp [hp1] at h1
                  | some v =>
                    obtain ⟨pr, q4⟩ := u
                    obtain ⟨pr1, p4⟩ := v
                    simp only [hp, hp1] at h h1
                    by_cases hsep : (!q4.is lexKind.RBrace && !q4.is lexKind.Eof) = true
                    · rw [if_pos hsep] at h
                      cases hx : q4.expect n lexKind.Space
                          "association list pairs must be separated by whitespace" with
                      | none => simp [hx] at h
                      | some w =>
                        obtain ⟨d, q5⟩ := w
                        simp only [hx] at h
                        have h5 := parseAssocLoop_none h hok
                        have h4 : q4.es.cause = none :=
                          none_of_keeps (fun e he => expect_keeps hx he) h5
                        have hs4 := ihP m q3 p3 q4 p4 E pr pr1 hs hp h4 hp1
                        rw [← hs4.is, ← hs4.is, if_pos hsep] at h1
                        cases hx1 : p4.expect m lexKind.Space
                            "association list pairs must be separated by whitespace" with
                        | none => simp [hx1] at h1
                        | some w1 =>
                          obtain ⟨d1, p5⟩ := w1
                          simp only [hx1] at h1
                          exact ihAL m q5 p5 q1 p1 E _ L1 _ M1 (expect_sim hs4 hx h5 hx1)
                            h hok h1
                    · rw [if_neg hsep] at h
                      have h4 := parseAssocLoop_none h hok
                      have hs4 := ihP m q3 p3 q4 p4 E pr pr1 hs hp h4 hp1
                      rw [← hs4.is, ← hs4.is, if_neg hsep] at h1
                      exact ihAL m q4 p4 q1 p1 E _ L1 _ M1 hs4 h hok h1

theorem parsePair_simstep (n : Nat) (ih : parseSimAt n) :
    ∀ (m : Nat) (q p q1 p1 : parser) (E : LexPos) (x y : Pair), q.Sim p E →
    parser.parsePair (n + 1) q = some (x, q1) → q1.es.cause = none →
    parser.parsePair m p = some (y, p1) → q1.Sim p1 E := by
  obtain ⟨-, ihL, -, ihA, -⟩ := ih
  intro m q p q5 p5 E x y hs h hok h1
  cases m with
  | zero => simp [parser.parsePair] at h1
  | succ m =>
    have h0 := h
    rw [parser.parsePair] at h h1
    cases he : q.expectP n keyPred
        "key in association list pair must be of symbol or interpreted string form" with
    | none => simp [he] at h
    | some u =>
      cases he1 : p.expectP m keyPred
          "key in association list pair must be of symbol or interpreted string form" with
      | none => simp [he1] at h1
      | some v =>
        obtain ⟨b, q1⟩ := u
        obtain ⟨b1, p1⟩ := v
        simp only [he, he1] at h h1
        have hq1 : q1.es.cause = none :=
          none_of_keeps (fun e hx => parsePair_keeps_key h0 he hx) hok
        have hs1 := expectP_sim hs he hq1 he1
        cases ha : q1.accept n lexKind.Colon with
        | none => simp [ha] at h
        | some u =>
          cases ha1 : p1.accept m lexKind.Colon with
          | none => simp [ha1] at h1
          | some v =>
            obtain ⟨ok, q2⟩ := u
            obtain ⟨ok1, p2⟩ := v
            obtain ⟨a1, a2, a3⟩ := accept_sim hs1 ha ha1
            subst a1
            have hq3 := none_of_keeps (fun e hx => parsePair_keeps h0 he ha hx) hok
            simp only [ha, ha1] at h h1
            cases ok with
            | false =>
              simp only [Bool.not_false, if_true] at hq3
              obtain ⟨rfl, -⟩ := a2 rfl
              rw [posError_cause _ _ _ hq1] at hq3
              cases hq3
            | true =>
              simp only [Bool.not_true, Bool.false_eq_true, if_false] at hq3 h h1
              have hs2 := a3 hq3
              cases hb : q2.accept n lexKind.Space with
              | none => simp [hb] at h
              | some u =>
                cases hb1 : p2.accept m lexKind.Space with
                | none => simp [hb1] at h1
                | some v =>
                  obtain ⟨c, q4⟩ := u
                  obtain ⟨c1, p4⟩ := v
                  obtain ⟨-, -, b3⟩ := accept_sim hs2 hb hb1
                  simp only [hb, hb1] at h h1
                  by_cases hstr : q4.isP lexToken.isString = true
                  · rw [if_pos hstr] at h
                    cases hp : q4.parseString n with
                    | none => simp [hp] at h
                    | some u =>
                      obtain ⟨s, q6⟩ := u
                      simp only [hp, Option.some.injEq, Prod.mk.injEq] at h
                      obtain ⟨-, h3⟩ := h
                      subst h3
                      have hs4 := b3 (none_of_keeps (fun e hx => parseString_keeps hp hx) hok)
                      rw [← hs4.isP, if_pos hstr] at h1
                      cases hp1 : p4.parseString m with
                      | none => simp [hp1] at h1
                      | some v =>
                        obtain ⟨s1, p6⟩ := v
                        simp only [hp1, Option.some.injEq, Prod.mk.injEq] at h1
                        obtain ⟨-, h5⟩ := h1
                        subst h5
                        exact parseString_sim hs4 hp hok hp1
                  rw [if_neg hstr] at h
                  by_cases hlb : q4.is lexKind.LBracket = true
                  · rw [if_pos hlb] at h
                    cases hp : parser.parseList n q4 with
                    | none => simp [hp] at h
                    | some u =>
                      obtain ⟨s, q6⟩ := u
                      simp only [hp, Option.some.injEq, Prod.mk.injEq] at h
                      obtain ⟨-, h3⟩ := h
                      subst h3
                      have hs4 := b3 (none_of_keeps (fun e hx => parseList_keeps hp hx) hok)
                      rw [← hs4.isP, if_neg hstr, ← hs4.is, if_pos hlb] at h1
                      cases hp1 : parser.parseList m p4 with
                      | none => simp [hp1] at h1
                      | some v =>
                        obtain ⟨s1, p6⟩ := v
                        simp only [hp1, Option.some.injEq, Prod.mk.injEq] at h1
                        obtain ⟨-, h5⟩ := h1
                        subst h5
                        exact ihL m q4 p4 _ _ E s s1 hs4 hp hok hp1
                  rw [if_neg hlb] at h
                  by_cases hlc : q4.is lexKind.LBrace = true
                  · rw [if_pos hlc] at h
                    cases hp : parser.parseAssoc n q4 with
                    | none => simp [hp] at h
                    | some u =>
                      obtain ⟨s, q6⟩ := u
                      simp only [hp, Option.some.injEq, Prod.mk.injEq] at h
                      obtain ⟨-, h3⟩ := h
                      subst h3
                      have hs4 := b3 (none_of_keeps (fun e hx => parseAssoc_keeps hp hx) hok)
                      rw [← hs4.isP, if_neg hstr, ← hs4.is, if_neg hlb, ← hs4.is,
                        if_pos hlc] at h1
                      cases hp1 : parser.parseAssoc m p4 with
                      | none => simp [hp1] at h1
                      | some v =>
                        obtain ⟨s1, p6⟩ := v
                        simp only [hp1, Option.some.injEq, Prod.mk.injEq] at h1
                        obtain ⟨-, h5⟩ := h1
                        subst h5
                        exact ihA m q4 p4 _ _ E s s1 hs4 hp hok hp1
                  rw [if_neg hlc] at h
                  split at h
                  · simp only [Option.some.injEq, Prod.mk.injEq] at h
                    obtain ⟨-, h3⟩ := h
                    subst h3
                    have := none_of_keeps (fun e hx => posError_keeps _ _ _ e hx) hok
                    rw [posError_cause _ _ _ this] at hok
                    cases hok
                  · simp only [Option.some.injEq, Prod.mk.injEq] at h
                    obtain ⟨-, h3⟩ := h
                    subst h3
                    have := none_of_keeps (fun e hx => posError_keeps _ _ _ e hx) hok
                    rw [posError_cause _ _ _ this] at hok
                    cases hok

theorem parseSim (fuel : Nat) : parseSimAt fuel := by
  induction fuel with
  | zero =>
    refine ⟨?_, ?_, ?_, ?_, ?_⟩
    · intro m q p q1 p1 E L L1 M M1 _ h; simp [parser.parseListLoop] at h
    · intro m q p q1 p1 E x y _ h; simp [parser.parseList] at h
    · intro m q p q1 p1 E L L1 M M1 _ h; simp [parser.parseAssocLoop] at h
    · intro m q p q1 p1 E x y _ h; simp [parser.parseAssoc] at h
    · intro m q p q1 p1 E x y _ h; simp [parser.parsePair] at h
  | succ n ih =>
    exact ⟨parseListLoop_simstep n ih, parseList_simstep n ih, parseAssocLoop_simstep n ih,
      parseAssoc_simstep n ih, parsePair_simstep n ih⟩

/-! ## An opening bracket in front of a document -/

/-- The loop of `parseRoot` on a document and the loop of `parseList` on the same runes:
when the first one returns without error, the second one ends at the end of the stream
with the error of the unterminated list. -/
theorem parseListLoop_open (n : Nat) : ∀ (m : Nat) (q p q1 p1 : parser) (E : LexPos)
    (L L1 M M1 : List Elem), q.Sim p E →
    parser.parseRootLoop n q L = some (L1, q1) → q1.es.cause = none →
    parser.parseListLoop m p M = some (M1, p1) →
    p1.es.cause = some (error.Wrap (error.New "unterminated list") E.String) := by
  induction n with
  | zero => intro m q p q1 p1 E L L1 M M1 _ h; simp [parser.parseRootLoop] at h
  | succ n ih =>
    obtain ⟨-, ihL, -, ihA, -⟩ := parseSim n
    intro m q p q1 p1 E L L1 M M1 hs h hok h1
    cases m with
    | zero => simp [parser.parseListLoop] at h1
    | succ m =>
      rw [parser.parseRootLoop, if_pos (Sink.ok_of_none _ hs.none.1)] at h
      rw [parser.parseListLoop, if_pos (Sink.ok_of_none _ hs.none.2)] at h1
      cases ha : q.accept n lexKind.Space with
      | none => simp [ha] at h
      | some x =>
        cases ha1 : p.accept m lexKind.Space with
        | none => simp [ha1] at h1
        | some y =>
          obtain ⟨b, q2⟩ := x
          obtain ⟨b1, p2⟩ := y
          obtain ⟨a1, a2, a3⟩ := accept_sim hs ha ha1
          subst a1
          simp only [ha, ha1] at h h1
          cases b with
          | true =>
            simp only at h h1
            exact ih m q2 p2 q1 p1 E L L1 M M1 (a3 (parseRootLoop_none h hok)) h hok h1
          | false =>
            obtain ⟨rfl, rfl⟩ := a2 rfl
            simp only at h h1
            rw [← hs.isP, ← hs.is, ← hs.is] at h1
            by_cases hstr : q2.isP lexToken.isString = true
            · rw [if_pos hstr] at h h1
              cases hp : q2.parseString n with
              | none => simp [hp] at h
              | some x =>
                cases hp1 : p2.parseString m with
                | none => simp [hp1] at h1
                | some y =>
                  obtain ⟨s, q3⟩ := x
                  obtain ⟨s1, p3⟩ := y
                  simp only [hp, hp1] at h h1
                  exact ih m q3 p3 q1 p1 E _ L1 _ M1
                    (parseString_sim hs hp (parseRootLoop_none h hok) hp1) h hok h1
            rw [if_neg hstr] at h h1
            by_cases hlb : q2.is lexKind.LBracket = true
            · rw [if_pos hlb] at h h1
              cases hp : parser.parseList n q2 with
              | none => simp [hp] at h
              | some x =>
                cases hp1 : parser.parseList m p2 with
                | none => simp [hp1] at h1
                | some y =>
                  obtain ⟨s, q3⟩ := x
                  obtain ⟨s1, p3⟩ := y
                  simp only [hp, hp1] at h h1
                  exact ih m q3 p3 q1 p1 E _ L1 _ M1
                    (ihL m q2 p2 q3 p3 E s s1 hs hp (parseRootLoop_none h hok) hp1) h hok h1
            rw [if_neg hlb] at h h1
            by_cases hlc : q2.is lexKind.LBrace = true
            · rw [if_pos hlc] at h h1
              cases hp : parser.parseAssoc n q2 with
              | none => simp [hp] at h
              | some x =>
                cases hp1 : parser.parseAssoc m p2 with
                | none => simp [hp1] at h1
                | some y =>
                  obtain ⟨s, q3⟩ := x
                  obtain ⟨s1, p3⟩ := y
                  simp only [hp, hp1] at h h1
                  exact ih m q3 p3 q1 p1 E _ L1 _ M1
                    (ihA m q2 p2 q3 p3 E s s1 hs hp (parseRootLoop_none h hok) hp1) h hok h1
            rw [if_neg hlc] at h h1
            by_cases heof : q2.is lexKind.Eof = true
            · have hk : p2.next.k = lexKind.Eof := by
                rw [← hs.1]; simpa [parser.is] using heof
              rw [accept_no (by rw [hk]; decide)] at h1
              simp only [parser.is, hk, decide_True, if_true] at h1
              have hc := posError_cause p2 (error.New "unterminated list") p2.next.pos
                hs.none.2
              cases m with
              | zero => simp [parser.parseListLoop] at h1
              | succ k =>
                rw [parseListLoop_err M hc] at h1
                simp only [Option.some.injEq, Prod.mk.injEq] at h1
                rw [← h1.2, hc, hs.2.1 hk]
            · rw [if_neg heof] at h
              have := parseRootLoop_none h hok
              rw [posError_cause _ _ _ hs.none.1] at this
              cases this

/-- C15: for every input `x` of runes other than the sentinel on which `Parse` succeeds
(with whatever fuel), `Parse` of `[` (91) followed by `x` fails, with every fuel of at least
three units per rune plus eight, with "unterminated list", wrapped with the position
reached after the whole input `[` + `x` has been consumed, which is the position of the
end-of-stream token. -/
theorem C15_unterminated_list (x : List rune) (hv : ∀ r ∈ x, r ≠ runeEof) (m : Nat)
    (elems : List Elem) (hx : Parse m { runes := x, err := none } = some (elems, none))
    (fuel : Nat) (hf : 3 * (91 :: x).length + 8 ≤ fuel) :
    Parse fuel { runes := 91 :: x, err := none } =
      some ([], some (error.Wrap (error.New "unterminated list")
        (posAfter { Line := 1, Column := 0 } (91 :: x)).String)) := by
  -- the run on `x`
  unfold Parse at hx
  cases hq : (newParser { runes := x, err := none }).parseRoot m with
  | none => simp [hq] at hx
  | some u =>
    obtain ⟨elemsQ, qF⟩ := u
    simp only [hq] at hx
    have hqF : qF.es.cause = none := by
      by_cases he : qF.err = none
      · exact he
      · rw [if_neg he] at hx
        simp only [Option.some.injEq, Prod.mk.injEq] at hx
        exact absurd hx.2 he
    unfold parser.parseRoot parser.lex at hq
    cases hr : (newParser { runes := x, err := none }).lexer.readToken m with
    | none => simp [hr] at hq
    | some v =>
      obtain ⟨tok, err, lx⟩ := v
      simp only [hr] at hq
      have hq0 := parseRootLoop_none hq hqF
      have herr : err = none := by
        simp only [newParser, Sink.Send] at hq0
        exact hq0
      subst herr
      -- the run on `[` + `x`
      obtain ⟨elemsP, pF, hp⟩ := parseRoot_total fuel { runes := 91 :: x, err := none } hf
      simp only [List.length_cons] at hf
      obtain ⟨p0, e0, r0⟩ := parseRoot_ready
        (NextToken_struct fuel { Line := 1, Column := 0 } 91 lexKind.LBracket x lexKind.Eof rfl
          (by omega))
      have hu : ({ Line := 1, Column := 0 } : LexPos).update 91 = { Line := 1, Column := 1 } := by
        decide
      rw [hu] at r0
      rw [e0] at hp
      obtain ⟨g, rfl⟩ : ∃ g, fuel = g + 1 := ⟨fuel - 1, by omega⟩
      have hk0 : p0.next.k = lexKind.LBracket := by rw [r0.2.1]
      rw [parser.parseRootLoop, if_pos r0.es_ok, accept_no (by rw [hk0]; decide)] at hp
      simp only [parser.isP, parser.is, hk0, lexToken.isString, lexKind.isString, decide_True,
        decide_False, Bool.false_eq_true, if_false, if_true, Bool.or_self,
        decide_eq_true_eq, reduceCtorEq] at hp
      cases hl : parser.parseList g p0 with
      | none => simp [hl] at hp
      | some w =>
        obtain ⟨e, p2⟩ := w
        simp only [hl] at hp
        cases g with
        | zero => simp [parser.parseList] at hl
        | succ g =>
          rw [parser.parseList] at hl
          cases hc : p0.consume g with
          | none => simp [hc] at hl
          | some p1 =>
            simp only [hc] at hl
            cases hll : parser.parseListLoop g p1 [] with
            | none => simp [hll] at hl
            | some z =>
              obtain ⟨L, p3⟩ := z
              simp only [hll, Option.some.injEq, Prod.mk.injEq] at hl
              obtain ⟨-, hl2⟩ := hl
              subst hl2
              -- the first token of `x`, read by both
              unfold parser.consume parser.lex at hc
              simp only [hk0, ne_eq, not_false_eq_true, if_true, reduceCtorEq] at hc
              cases hr1 : p0.lexer.readToken g with
              | none => simp [hr1] at hc
              | some t =>
                obtain ⟨tok1, err1, lx1⟩ := t
                simp only [hr1, Option.some.injEq] at hc
                subst hc
                have hra : (newParser { runes := x, err := none }).lexer.Ready
                    { Line := 1, Column := 0 } x lexKind.Eof := newLexer_Ready x
                have hrb : p0.lexer.Ready { Line := 1, Column := 1 } x lexKind.LBracket := by
                  have := r0.2.2
                  simpa using this
                obtain ⟨i1, i2, i3, i4⟩ := readToken_sim hra hrb hv rfl (by decide) hr hr1
                subst i1
                obtain ⟨c, rest, ec, c1, c2, c3, c4⟩ := i4.valid hv
                have hE : posAfter { Line := 1, Column := 0 } (91 :: x) =
                    posAfter { Line := 1, Column := 1 } x := rfl
                have hsim : parser.Sim
                    { lexer := lx, next := tok,
                      prev := (newParser { runes := x, err := none }).prev,
                      es := (newParser { runes := x, err := none }).es.Send none }
                    { lexer := lx1, next := tok1, prev := p0.next, es := p0.es.Send none }
                    (posAfter { Line := 1, Column := 0 } (91 :: x)) := by
                  refine ⟨i2, ?_, rest, _, _, ⟨rfl, rfl, c1⟩, ⟨?_, rfl, c2⟩, c3, ?_⟩
                  · intro hx2
                    show tok1.pos = _
                    rw [i3 (i2.trans hx2), hE]
                  · simp only [Sink.Send, r0.1]
                  · rw [← c4, hE]
                have hfin := parseListLoop_open m g _ _ qF p3 _ [] elemsQ [] L hsim hq hqF hll
                cases g with
                | zero => simp [parser.parseListLoop] at hll
                | succ g =>
                  rw [parseRootLoop_err _ hfin] at hp
                  simp only [Option.some.injEq, Prod.mk.injEq] at hp
                  obtain ⟨-, hp2⟩ := hp
                  subst hp2
                  apply Parse_of_parseRoot_err (p := p3) _ hfin
                  · exact [] ++ [Elem.List p0.next.pos L]
                  · rw [e0, parser.parseRootLoop, if_pos r0.es_ok,
                      accept_no (by rw [hk0]; decide)]
                    simp only [parser.isP, parser.is, hk0, lexToken.isString, lexKind.isString,
                      decide_True, decide_False, Bool.false_eq_true, if_false, if_true,
                      Bool.or_self, decide_eq_true_eq, reduceCtorEq]
                    rw [parser.parseList]
                    unfold parser.consume parser.lex
                    simp only [hk0, ne_eq, not_false_eq_true, if_true, reduceCtorEq, hr1, hll]
                    exact parseRootLoop_err _ hfin

theorem C15_unterminated_list_witness :
    ((∀ r ∈ ([] : List rune), r ≠ runeEof) ∧
      Parse 8 (RuneReader.mk [] none) = some ([], none) ∧
      3 * ((91 : rune) :: []).length + 8 ≤ 11 ∧
      Parse 11 (RuneReader.mk [91] none) =
        some ([], some (error.Wrap (error.New "unterminated list")
          (posAfter (LexPos.mk 1 0) [91]).String)) ∧
      (posAfter (LexPos.mk 1 0) [91]).String = "1:1") ∧
    ((∀ r ∈ ([97, 10, 98] : List rune), r ≠ runeEof) ∧
      Parse 17 (RuneReader.mk [97, 10, 98] none) =
        some ([Elem.String (Str.mk (LexPos.mk 1 0) [97]),
          Elem.String (Str.mk (LexPos.mk 2 0) [98])], none) ∧
      3 * ((91 : rune) :: [97, 10, 98]).length + 8 ≤ 20 ∧
      Parse 20 (RuneReader.mk [91, 97, 10, 98] none) =
        some ([], some (error.Wrap (error.New "unterminated list")
          (posAfter (LexPos.mk 1 0) [91, 97, 10, 98]).String)) ∧
      (posAfter (LexPos.mk 1 0) [91, 97, 10, 98]).String = "2:1") :=
  ⟨⟨by decide, rfl, by decide,
      C15_unterminated_list [] (by decide) 8 [] rfl 11 (by decide), by decide⟩,
    ⟨by decide, rfl, by decide,
      C15_unterminated_list [97, 10, 98] (by decide) 17 _ rfl 20 (by decide), by decide⟩⟩

/-! ## The accessors of the element tree -/

theorem expectError_text (e : Elem) (x : elemType) :
    (expectError e x).Error = expectText e x.String := by
  cases e <;> rfl

/-- C22: for every element `e` and each of the three variants: when `e` is of the variant,
`IsX` returns its view with true and `ExpectX` returns the same view with no error; when
`e` is not of the variant, `IsX` returns no view with false and `ExpectX` returns no view
and an error whose text is `<line>:<column>: expected <x>, found <y>`, with the position
of `e`, the name `x` of the variant asked for and the name `y` of the variant of `e`. -/
theorem C22_accessors (e : Elem) :
    ((∀ s, e = Elem.String s → e.IsString = (some s, true) ∧ e.ExpectString = (some s, none)) ∧
      ((∀ s, e ≠ Elem.String s) → e.IsString = (none, false) ∧
        ∃ err, e.ExpectString = (none, some err) ∧ err.Error = expectText e "string")) ∧
    ((∀ pos L, e = Elem.List pos L → e.IsList = (some (ElemList.mk pos L), true) ∧
        e.ExpectList = (some (ElemList.mk pos L), none)) ∧
      ((∀ pos L, e ≠ Elem.List pos L) → e.IsList = (none, false) ∧
        ∃ err, e.ExpectList = (none, some err) ∧ err.Error = expectText e "list")) ∧
    ((∀ pos L, e = Elem.Assoc pos L → e.IsAssoc = (some (Assoc.mk pos L), true) ∧
        e.ExpectAssoc = (some (Assoc.mk pos L), none)) ∧
      ((∀ pos L, e ≠ Elem.Assoc pos L) → e.IsAssoc = (none, false) ∧
        ∃ err, e.ExpectAssoc = (none, some err) ∧ err.Error = expectText e "assoc")) := by
  refine ⟨⟨?_, ?_⟩, ⟨?_, ?_⟩, ⟨?_, ?_⟩⟩
  · rintro s rfl; exact ⟨rfl, rfl⟩
  · intro h
    cases e with
    | String s => exact absurd rfl (h s)
    | List pos L => exact ⟨rfl, _, rfl, expectError_text _ _⟩
    | Assoc pos L => exact ⟨rfl, _, rfl, expectError_text _ _⟩
  · rintro pos L rfl; exact ⟨rfl, rfl⟩
  · intro h
    cases e with
    | String s => exact ⟨rfl, _, rfl, expectError_text _ _⟩
    | List pos L => exact absurd rfl (h pos L)
    | Assoc pos L => exact ⟨rfl, _, rfl, expectError_text _ _⟩
  · rintro pos L rfl; exact ⟨rfl, rfl⟩
  · intro h
    cases e with
    | String s => exact ⟨rfl, _, rfl, expectError_text _ _⟩
    | List pos L => exact ⟨rfl, _, rfl, expectError_text _ _⟩
    | Assoc pos L => exact absurd rfl (h pos L)

theorem C22_accessors_witness :
    ((Elem.List (LexPos.mk 3 4) []).IsString = (none, false) ∧
      ∃ err, (Elem.List (LexPos.mk 3 4) []).ExpectString = (none, some err) ∧
        err.Error = "3:4: expected string, found list") ∧
    ((Elem.String (Str.mk (LexPos.mk 1 0) [97])).IsString =
        (some (Str.mk (LexPos.mk 1 0) [97]), true) ∧
      (Elem.String (Str.mk (LexPos.mk 1 0) [97])).ExpectString =
        (some (Str.mk (LexPos.mk 1 0) [97]), none)) :=
  ⟨(C22_accessors (Elem.List (LexPos.mk 3 4) [])).1.2 (fun _ h => Elem.noConfusion h),
    (C22_accessors (Elem.String (Str.mk (LexPos.mk 1 0) [97]))).1.1 _ rfl⟩

/-! ## Searching the pairs of an association list -/

theorem FindP_nil_iff (lst : Pairs) (pred : Text → Bool) :
    Pairs.FindP lst pred = [] ↔ ∀ p ∈ lst, pred p.K.V = false := by
  induction lst with
  | nil => simp [Pairs.FindP]
  | cons v rest ih =>
    rw [Pairs.FindP]
    by_cases h : pred v.K.V = true
    · rw [if_pos h]
      simp only [List.mem_cons, forall_eq_or_imp, h, Bool.true_eq_false, false_and,
        reduceCtorEq]
    · rw [if_neg h, ih]
      simp only [List.mem_cons, forall_eq_or_imp, Bool.not_eq_true] at h ⊢
      exact ⟨fun hh => ⟨h, hh⟩, fun hh => hh.2⟩

theorem FindP_found (lst : Pairs) (pred : Text → Bool) (h : Pairs.FindP lst pred ≠ []) :
    ∃ i, i < lst.length ∧ Pairs.FindP lst pred = lst.drop i ∧
      (∃ p, lst[i]? = some p ∧ pred p.K.V = true) ∧
      ∀ j p, j < i → lst[j]? = some p → pred p.K.V = false := by
  induction lst with
  | nil => exact absurd rfl h
  | cons v rest ih =>
    rw [Pairs.FindP] at h ⊢
    by_cases hv : pred v.K.V = true
    · rw [if_pos hv]
      exact ⟨0, by simp, rfl, ⟨v, by simp, hv⟩, fun j p hj => absurd hj (Nat.not_lt_zero j)⟩
    · rw [if_neg hv] at h ⊢
      obtain ⟨i, h1, h2, h3, h4⟩ := ih h
      refine ⟨i + 1, by simpa using h1, by simpa using h2, by simpa using h3, ?_⟩
      intro j p hj hp
      cases j with
      | zero =>
        simp only [List.getElem?_cons_zero, Option.some.injEq] at hp
        subst hp
        simpa using hv
      | succ j =>
        simp only [List.getElem?_cons_succ] at hp
        exact h4 j p (by omega) hp

/-- C23: for every pair list `lst` and key `k`: `Find` returns nil (the empty list)
exactly when no pair of `lst` has the key `k`; otherwise it returns the suffix of `lst`
that starts at an index `i` whose pair has the key `k` while no pair before index `i` has
it; and `Find` of `k` is `FindP` with the predicate that tests a key for equality
with `k`. -/
theorem C23_Find (lst : Pairs) (k : Text) :
    (Pairs.Find lst k = [] ↔ ∀ p ∈ lst, p.K.V ≠ k) ∧
    (Pairs.Find lst k ≠ [] →
      ∃ i, i < lst.length ∧ Pairs.Find lst k = lst.drop i ∧
        (∃ p, lst[i]? = some p ∧ (Pairs.Find lst k).head? = some p ∧ p.K.V = k) ∧
        ∀ j p, j < i → lst[j]? = some p → p.K.V ≠ k) ∧
    Pairs.Find lst k = Pairs.FindP lst (fun key => decide (key = k)) := by
  refine ⟨?_, ?_, ?_⟩
  · rw [Pairs.Find, FindP_nil_iff]
    constructor
    · intro h p hp e
      have := h p hp
      simp [e] at this
    · intro h p hp
      simpa using fun e => h p hp e.symm
  · intro h
    obtain ⟨i, h1, h2, ⟨p, h3, h4⟩, h5⟩ := FindP_found lst _ h
    refine ⟨i, h1, h2, ⟨p, h3, ?_, ?_⟩, ?_⟩
    · rw [Pairs.Find, h2, List.head?_drop, h3]
    · simpa using Eq.symm (by simpa using h4)
    · intro j q hj hq e
      have := h5 j q hj hq
      simp [e] at this
  · unfold Pairs.Find
    congr 1
    funext key
    simp only [eq_comm]

theorem C23_Find_witness :
    ∃ i, i < [Pair.mk (Str.mk (LexPos.mk 1 1) [97]) (Elem.List (LexPos.mk 1 3) []),
        Pair.mk (Str.mk (LexPos.mk 1 6) [100]) (Elem.List (LexPos.mk 1 8) [])].length ∧
      Pairs.Find [Pair.mk (Str.mk (LexPos.mk 1 1) [97]) (Elem.List (LexPos.mk 1 3) []),
        Pair.mk (Str.mk (LexPos.mk 1 6) [100]) (Elem.List (LexPos.mk 1 8) [])] [100] =
        List.drop i [Pair.mk (Str.mk (LexPos.mk 1 1) [97]) (Elem.List (LexPos.mk 1 3) []),
          Pair.mk (Str.mk (LexPos.mk 1 6) [100]) (Elem.List (LexPos.mk 1 8) [])] :=
  let h := (C23_Find [Pair.mk (Str.mk (LexPos.mk 1 1) [97]) (Elem.List (LexPos.mk 1 3) []),
    Pair.mk (Str.mk (LexPos.mk 1 6) [100]) (Elem.List (LexPos.mk 1 8) [])] [100]).2.1
      (fun e => List.noConfusion e)
  h.imp fun _ hi => ⟨hi.1, hi.2.1⟩

theorem Find_length_le (lst : Pairs) (k : Text) : (Pairs.Find lst k).length ≤ lst.length := by
  unfold Pairs.Find
  induction lst with
  | nil => simp [Pairs.FindP]
  | cons v rest ih =>
    rw [Pairs.FindP]
    split
    · exact Nat.le_refl _
    · exact Nat.le_succ_of_le ih

theorem Find_cons (v : Pair) (rest : Pairs) (k : Text) :
    Pairs.Find (v :: rest) k = if v.K.V = k then v :: rest else Pairs.Find rest k := by
  unfold Pairs.Find
  rw [Pairs.FindP]
  by_cases h : v.K.V = k
  · simp [h]
  · have : ¬ k = v.K.V := fun e => h e.symm
    simp [h, this]

theorem findLoop_filter (fuel : Nat) : ∀ (lst : Pairs) (k : Text) (seen : List Pair),
    lst.length + 1 ≤ fuel →
    findLoop fuel (Pairs.Find lst k) k seen =
      some (seen ++ lst.filter (fun p => decide (p.K.V = k))) := by
  induction fuel with
  | zero => intro lst k seen h; omega
  | succ n ih =>
    intro lst
    induction lst with
    | nil =>
      intro k seen _
      simp [Pairs.Find, Pairs.FindP, findLoop]
    | cons v rest ihl =>
      intro k seen h
      rw [Find_cons]
      by_cases hv : v.K.V = k
      · rw [if_pos hv, findLoop, ih rest k _ (by simpa using h)]
        simp [List.filter_cons, hv]
      · rw [if_neg hv, ihl k seen (by simp at h ⊢; omega)]
        simp [List.filter_cons, hv]

/-- C24: for every pair list `lst` and key `k`, the iteration that starts with `Find` of
`k` and, while the result is not nil, visits its first pair and goes on with `Find` of
`k` on the pairs after it, ends (a fuel of one more than the length of `lst` is enough)
and has visited exactly `lst` filtered by "the key is `k`", in list order. -/
theorem C24_find_iteration (lst : Pairs) (k : Text) (fuel : Nat)
    (h : lst.length + 1 ≤ fuel) :
    findAll fuel lst k = some (lst.filter (fun p => decide (p.K.V = k))) := by
  unfold findAll
  rw [findLoop_filter fuel lst k [] h]
  rfl

theorem C24_find_iteration_witness :
    findAll 4 [Pair.mk (Str.mk (LexPos.mk 1 1) [97]) (Elem.String (Str.mk (LexPos.mk 1 3) [99])),
        Pair.mk (Str.mk (LexPos.mk 1 5) [100]) (Elem.String (Str.mk (LexPos.mk 1 7) [99])),
        Pair.mk (Str.mk (LexPos.mk 1 9) [97]) (Elem.String (Str.mk (LexPos.mk 1 11) [63]))]
      [97] =
    some [Pair.mk (Str.mk (LexPos.mk 1 1) [97]) (Elem.String (Str.mk (LexPos.mk 1 3) [99])),
      Pair.mk (Str.mk (LexPos.mk 1 9) [97]) (Elem.String (Str.mk (LexPos.mk 1 11) [63]))] :=
  C24_find_iteration _ [97] 4 (by decide)

/-! ## A lexer error stays -/

theorem emitPosError_keeps (lex : lexer) (err : Option error) (pos : LexPos) (e : error)
    (h : lex.es.cause = some e) : (lex.emitPosError err pos).es.cause = some e := by
  unfold lexer.emitPosError
  cases err with
  | none => exact h
  | some x => exact Sink.Send_keeps _ _ _ h

theorem readRune_keeps (lex : lexer) (e : error) (h : lex.es.cause = some e) :
    lex.readRune.2.es.cause = some e := by
  unfold lexer.readRune
  split
  · exact h
  · split
    · exact h
    · split
      · exact emitPosError_keeps _ _ _ _ h
      · exact h

theorem unreadRune_keeps (lex : lexer) (lr : lexRune) (e : error) (h : lex.es.cause = some e) :
    (lex.unreadRune lr).es.cause = some e := by
  rw [unreadRune_es]; exact h

theorem peekRune_keeps (lex : lexer) (e : error) (h : lex.es.cause = some e) :
    lex.peekRune.2.es.cause = some e := by
  unfold lexer.peekRune
  exact unreadRune_keeps _ _ _ (readRune_keeps _ _ h)

theorem lexSpaceLoop_keeps (fuel : Nat) : ∀ (lex : lexer) (lr : lexRune) (lex1 : lexer)
    (e : error), lex.es.cause = some e → lex.lexSpaceLoop fuel = some (lr, lex1) →
    lex1.es.cause = some e := by
  induction fuel with
  | zero => intro lex lr lex1 e _ h; simp [lexer.lexSpaceLoop] at h
  | succ n ih =>
    intro lex lr lex1 e he h
    simp only [lexer.lexSpaceLoop] at h
    split at h
    · exact ih _ _ _ _ (readRune_keeps _ _ he) h
    · simp only [Option.some.injEq] at h
      have h2 : lex1 = lex.readRune.2 := by rw [h]
      subst h2
      exact readRune_keeps _ _ he

theorem lexCommentLoop_keeps (fuel : Nat) : ∀ (lex : lexer) (lr : lexRune) (lex1 : lexer)
    (e : error), lex.es.cause = some e → lex.lexCommentLoop fuel = some (lr, lex1) →
    lex1.es.cause = some e := by
  induction fuel with
  | zero => intro lex lr lex1 e _ h; simp [lexer.lexCommentLoop] at h
  | succ n ih =>
    intro lex lr lex1 e he h
    simp only [lexer.lexCommentLoop] at h
    split at h
    · exact ih _ _ _ _ (readRune_keeps _ _ he) h
    · simp only [Option.some.injEq] at h
      have h2 : lex1 = lex.readRune.2 := by rw [h]
      subst h2
      exact readRune_keeps _ _ he

theorem lexRawLoop_keeps (fuel : Nat) : ∀ (lex : lexer) (sb sb1 : Text) (lr : lexRune)
    (lex1 : lexer) (e : error), lex.es.cause = some e →
    lex.lexRawLoop fuel sb = some (sb1, lr, lex1) → lex1.es.cause = some e := by
  induction fuel with
  | zero => intro lex sb sb1 lr lex1 e _ h; simp [lexer.lexRawLoop] at h
  | succ n ih =>
    intro lex sb sb1 lr lex1 e he h
    simp only [lexer.lexRawLoop] at h
    split at h
    · simp only [Option.some.injEq, Prod.mk.injEq] at h
      obtain ⟨-, -, h3⟩ := h
      subst h3
      exact readRune_keeps _ _ he
    · split at h
      · simp only [Option.some.injEq, Prod.mk.injEq] at h
        obtain ⟨-, -, h3⟩ := h
        subst h3
        exact readRune_keeps _ _ he
      · exact ih _ _ _ _ _ _ (readRune_keeps _ _ he) h

theorem lexInterpretedLoop_keeps (fuel : Nat) : ∀ (lex : lexer) (sb : Text) (esc : Bool)
    (res : lexToken ⊕ (Text × lexRune)) (lex1 : lexer) (e : error), lex.es.cause = some e →
    lex.lexInterpretedLoop fuel sb esc = some (res, lex1) → lex1.es.cause = some e := by
  induction fuel with
  | zero => intro lex sb esc res lex1 e _ h; simp [lexer.lexInterpretedLoop] at h
  | succ n ih =>
    intro lex sb esc res lex1 e he h
    simp only [lexer.lexInterpretedLoop] at h
    have r1 := readRune_keeps _ _ he
    have step : ∀ sb2 esc2, lex.readRune.2.lexInterpretedLoop n sb2 esc2 = some (res, lex1) →
        lex1.es.cause = some e := fun sb2 esc2 h2 => ih _ _ _ _ _ _ r1 h2
    have ret : ∀ x, some ((Sum.inr x : lexToken ⊕ (Text × lexRune)), lex.readRune.2)
        = some (res, lex1) → lex1.es.cause = some e := by
      intro x h2
      simp only [Option.some.injEq, Prod.mk.injEq] at h2
      obtain ⟨-, h4⟩ := h2
      subst h4
      exact r1
    have fail : ∀ (t : lexToken) (msg : String) (pos : LexPos),
        some ((Sum.inl t : lexToken ⊕ (Text × lexRune)),
          lex.readRune.2.emitPosError (some (error.New msg)) pos) = some (res, lex1) →
        lex1.es.cause = some e := by
      intro t msg pos h2
      simp only [Option.some.injEq, Prod.mk.injEq] at h2
      obtain ⟨-, h4⟩ := h2
      subst h4
      exact emitPosError_keeps _ _ _ _ r1
    split at h
    · exact ret _ h
    · split at h
      · split at h
        · exact step _ _ h
        · split at h
          · exact step _ _ h
          · split at h
            · exact step _ _ h
            · split at h
              · exact step _ _ h
              · exact fail _ _ _ h
      · split at h
        · exact step _ _ h
        · split at h
          · exact fail _ _ _ h
          · split at h
            · exact ret _ h
            · exact step _ _ h

theorem lexSymbolLoop_keeps (fuel : Nat) : ∀ (lex : lexer) (sb sb1 : Text) (lr : lexRune)
    (lex1 : lexer) (e : error), lex.es.cause = some e →
    lex.lexSymbolLoop fuel sb = some (sb1, lr, lex1) → lex1.es.cause = some e := by
  induction fuel with
  | zero => intro lex sb sb1 lr lex1 e _ h; simp [lexer.lexSymbolLoop] at h
  | succ n ih =>
    intro lex sb sb1 lr lex1 e he h
    simp only [lexer.lexSymbolLoop] at h
    have r1 := readRune_keeps _ _ he
    split at h
    · exact ih _ _ _ _ _ _ r1 h
    · have pk := peekRune_keeps _ _ r1
      split at h
      · split at h
        · exact ih _ _ _ _ _ _ pk h
        · simp only [Option.some.injEq, Prod.mk.injEq] at h
          obtain ⟨-, -, h3⟩ := h
          subst h3
          exact pk
      · simp only [Option.some.injEq, Prod.mk.injEq] at h
        obtain ⟨-, -, h3⟩ := h
        subst h3
        exact r1

theorem lexSpace_keeps (fuel : Nat) (lex : lexer) (first : lexRune) (tok : lexToken)
    (lex1 : lexer) (e : error) (he : lex.es.cause = some e)
    (h : lex.lexSpace fuel first = some (tok, lex1)) : lex1.es.cause = some e := by
  unfold lexer.lexSpace at h
  split at h
  · cases h
  · next lr lx hl =>
    simp only [Option.some.injEq, Prod.mk.injEq] at h
    obtain ⟨-, h2⟩ := h
    subst h2
    exact unreadRune_keeps _ _ _ (lexSpaceLoop_keeps _ _ _ _ _ he hl)

theorem lexComment_keeps (fuel : Nat) (lex lex1 : lexer) (e : error)
    (he : lex.es.cause = some e) (h : lex.lexComment fuel = some lex1) :
    lex1.es.cause = some e := by
  unfold lexer.lexComment at h
  split at h
  · cases h
  · next lr lx hl =>
    simp only [Option.some.injEq] at h
    subst h
    exact unreadRune_keeps _ _ _ (lexCommentLoop_keeps _ _ _ _ _ he hl)

theorem checkJoinedStrings_keeps (lex : lexer) (pos : LexPos) (e : error)
    (he : lex.es.cause = some e) : (lex.checkJoinedStrings pos).2.2.es.cause = some e := by
  unfold lexer.checkJoinedStrings
  split
  · exact emitPosError_keeps _ _ _ _ he
  · exact he

theorem lexRawString_keeps (fuel : Nat) (lex : lexer) (first : lexRune) (tok : lexToken)
    (lex1 : lexer) (e : error) (he : lex.es.cause = some e)
    (h : lex.lexRawString fuel first = some (tok, lex1)) : lex1.es.cause = some e := by
  unfold lexer.lexRawString at h
  have hc := checkJoinedStrings_keeps lex first.pos e he
  split at h
  · next t lx hj =>
    rw [hj] at hc
    simp only [Option.some.injEq, Prod.mk.injEq] at h
    obtain ⟨-, h2⟩ := h
    subst h2
    exact hc
  · next t lx hj =>
    rw [hj] at hc
    split at h
    · cases h
    · next sb lr lx2 hl =>
      have h3 := lexRawLoop_keeps _ _ _ _ _ _ _ hc hl
      split at h
      · simp only [Option.some.injEq, Prod.mk.injEq] at h
        obtain ⟨-, h2⟩ := h
        subst h2
        exact emitPosError_keeps _ _ _ _ h3
      · simp only [Option.some.injEq, Prod.mk.injEq] at h
        obtain ⟨-, h2⟩ := h
        subst h2
        exact h3

theorem lexInterpretedString_keeps (fuel : Nat) (lex : lexer) (first : lexRune)
    (tok : lexToken) (lex1 : lexer) (e : error) (he : lex.es.cause = some e)
    (h : lex.lexInterpretedString fuel first = some (tok, lex1)) :
    lex1.es.cause = some e := by
  unfold lexer.lexInterpretedString at h
  have hc := checkJoinedStrings_keeps lex first.pos e he
  split at h
  · next t lx hj =>
    rw [hj] at hc
    simp only [Option.some.injEq, Prod.mk.injEq] at h
    obtain ⟨-, h2⟩ := h
    subst h2
    exact hc
  · next t lx hj =>
    rw [hj] at hc
    split at h
    · cases h
    · next t2 lx2 hl =>
      have h3 := lexInterpretedLoop_keeps _ _ _ _ _ _ _ hc hl
      simp only [Option.some.injEq, Prod.mk.injEq] at h
      obtain ⟨-, h2⟩ := h
      subst h2
      exact h3
    · next sb lr lx2 hl =>
      have h3 := lexInterpretedLoop_keeps _ _ _ _ _ _ _ hc hl
      split at h
      · simp only [Option.some.injEq, Prod.mk.injEq] at h
        obtain ⟨-, h2⟩ := h
        subst h2
        exact emitPosError_keeps _ _ _ _ h3
      · simp only [Option.some.injEq, Prod.mk.injEq] at h
        obtain ⟨-, h2⟩ := h
        subst h2
        exact h3

theorem lexSymbolString_keeps (fuel : Nat) (lex : lexer) (first : lexRune) (tok : lexToken)
    (lex1 : lexer) (e : error) (he : lex.es.cause = some e)
    (h : lex.lexSymbolString fuel first = some (tok, lex1)) : lex1.es.cause = some e := by
  unfold lexer.lexSymbolString at h
  have hc := checkJoinedStrings_keeps lex first.pos e he
  split at h
  · next t lx hj =>
    rw [hj] at hc
    simp only [Option.some.injEq, Prod.mk.injEq] at h
    obtain ⟨-, h2⟩ := h
    subst h2
    exact hc
  · next t lx hj =>
    rw [hj] at hc
    split at h
    · cases h
    · next sb lr lx2 hl =>
      have h3 := lexSymbolLoop_keeps _ _ _ _ _ _ _ hc hl
      simp only [Option.some.injEq, Prod.mk.injEq] at h
      obtain ⟨-, h2⟩ := h
      subst h2
      exact unreadRune_keeps _ _ _ h3

theorem readTokenBegin_keeps (fuel : Nat) : ∀ (lex : lexer) (tok : lexToken) (lex1 : lexer)
    (e : error), lex.es.cause = some e → lex.readTokenBegin fuel = some (tok, lex1) →
    lex1.es.cause = some e := by
  induction fuel with
  | zero => intro lex tok lex1 e _ h; simp [lexer.readTokenBegin] at h
  | succ n ih =>
    intro lex tok lex1 e he h
    simp only [lexer.readTokenBegin] at h
    have r1 := readRune_keeps _ _ he
    have ret : ∀ t : lexToken, some (t, lex.readRune.2) = some (tok, lex1) →
        lex1.es.cause = some e := by
      intro t h2
      simp only [Option.some.injEq, Prod.mk.injEq] at h2
      obtain ⟨-, h4⟩ := h2
      subst h4
      exact r1
    split at h
    · exact ret _ h
    · split at h
      · have r2 := readRune_keeps _ _ r1
        split at h
        · split at h
          · cases h
          · next lx2 hc => exact ih _ _ _ _ (lexComment_keeps _ _ _ _ r2 hc) h
        · exact lexSymbolString_keeps _ _ _ _ _ _ (unreadRune_keeps _ _ _ r2) h
      · split at h
        · split at h
          · cases h
          · next t lx2 hs =>
            have h3 := lexSpace_keeps _ _ _ _ _ _ r1 hs
            split at h
            · exact ih _ _ _ _ h3 h
            · simp only [Option.some.injEq, Prod.mk.injEq] at h
              obtain ⟨-, h4⟩ := h
              subst h4
              exact h3
        · split at h
          · exact ret _ h
          · split at h
            · exact ret _ h
            · split at h
              · exact ret _ h
              · split at h
                · exact ret _ h
                · split at h
                  · exact ret _ h
                  · split at h
                    · exact lexInterpretedString_keeps _ _ _ _ _ _ r1 h
                    · split at h
                      · exact lexRawString_keeps _ _ _ _ _ _ r1 h
                      · exact lexSymbolString_keeps _ _ _ _ _ _ r1 h

theorem readToken_sticky (fuel : Nat) (lex : lexer) (tok : lexToken) (err : Option error)
    (lex1 : lexer) (e : error) (he : lex.es.cause = some e)
    (h : lex.readToken fuel = some (tok, err, lex1)) :
    tok.k = lexKind.Eof ∧ err = some e ∧ lex1.es.cause = some e := by
  obtain ⟨-, -, -, -, r5, r6⟩ := readToken_some _ _ _ _ _ h
  have h1 : lex1.es.cause = some e := by
    unfold lexer.readToken at h
    split at h
    · cases h
    · next t lx hb =>
      have hk := readTokenBegin_keeps _ _ _ _ _ he hb
      simp only [Sink.Cause, hk, Option.some.injEq, Prod.mk.injEq] at h
      obtain ⟨-, -, h4⟩ := h
      subst h4
      exact hk
  have h2 : err = some e := by rw [← r5, h1]
  exact ⟨r6 (by rw [h2]; exact fun hx => Option.noConfusion hx), h2, h1⟩

theorem resultRun_sticky (fuel : Nat) : ∀ (k : Nat) (lex : lexer) (e : error),
    lex.es.cause = some e → lex.measure < fuel →
    ∃ res, resultRun fuel k lex = some res ∧ res.length = k ∧
      ∀ x ∈ res, x.1.k = lexKind.Eof ∧ x.2 = some e := by
  intro k
  induction k with
  | zero => intro lex e _ _; exact ⟨[], rfl, rfl, fun x hx => by cases hx⟩
  | succ k ih =>
    intro lex e he hm
    have ht := readToken_total fuel lex hm
    cases hr : lex.readToken fuel with
    | none => rw [hr] at ht; cases ht
    | some r =>
      obtain ⟨tok, err, lex1⟩ := r
      obtain ⟨r1, -⟩ := readToken_some _ _ _ _ _ hr
      obtain ⟨s1, s2, s3⟩ := readToken_sticky _ _ _ _ _ _ he hr
      obtain ⟨res, h1, h2, h3⟩ := ih lex1 e s3 (by omega)
      refine ⟨(tok, err) :: res, ?_, by simp [h2], ?_⟩
      · rw [resultRun, hr]
        simp only [h1]
      · intro x hx
        rcases List.mem_cons.1 hx with rfl | hx
        · exact ⟨s1, s2⟩
        · exact h3 x hx

/-- C26: once a call of `readToken` has returned an error `e`, its token is the
end-of-stream token, and every later call on the lexer it left returns (with a fuel above
the number of runes left) the end-of-stream token together with the same error `e`: so do
any `k` calls in a row, whatever is waiting in the pushback stack. -/
theorem C26_lexer_error_sticky (lex : lexer) (fuel : Nat) (tok : lexToken) (e : error)
    (lex1 : lexer) (h : lex.readToken fuel = some (tok, some e, lex1))
    (k fuel1 : Nat) (hf : lex1.measure < fuel1) :
    tok.k = lexKind.Eof ∧
    ∃ res, resultRun fuel1 k lex1 = some res ∧ res.length = k ∧
      ∀ x ∈ res, x.1.k = lexKind.Eof ∧ x.2 = some e := by
  obtain ⟨-, -, -, -, r5, r6⟩ := readToken_some _ _ _ _ _ h
  exact ⟨r6 (fun hx => Option.noConfusion hx), resultRun_sticky fuel1 k lex1 e r5 hf⟩

theorem C26_lexer_error_sticky_witness :
    (newLexer (RuneReader.mk [34, 97, 34, 47, 120] none)).readToken 6 =
      some (lexToken.mk lexKind.InterpString [97] (LexPos.mk 1 0), none, stickyExample) ∧
    stickyExample.readToken 3 =
      some (lexToken.mk lexKind.Eof [] (LexPos.mk 1 5),
        some (error.Wrap (error.New "strings must be separated") "1:3"),
        stickyExampleFailed) ∧
    stickyExampleFailed.unreadRunes = [lexRune.mk 120 (LexPos.mk 1 4)] ∧
    stickyExampleFailed.measure < 2 ∧
    ∃ res, resultRun 2 3 stickyExampleFailed = some res ∧ res.length = 3 ∧
      ∀ x ∈ res, x.1.k = lexKind.Eof ∧
        x.2 = some (error.Wrap (error.New "strings must be separated") "1:3") :=
  ⟨by decide, by decide, rfl, by decide,
    (C26_lexer_error_sticky stickyExample 3 (lexToken.mk lexKind.Eof [] (LexPos.mk 1 5))
      (error.Wrap (error.New "strings must be separated") "1:3") stickyExampleFailed
      (by decide) 3 2 (by decide)).2⟩

/-! ## The pushback stack -/

theorem emitPosError_push (input : List rune) (lex : lexer) (err : Option error)
    (pos : LexPos) (h : lex.PushInv input) : (lex.emitPosError err pos).PushInv input := by
  cases err with
  | none => exact h
  | some e =>
    obtain ⟨h1, h2, h3, -⟩ := h
    exact ⟨h1, h2, h3, fun _ => Or.inr (emitPosError_ne lex e pos)⟩

theorem readRune_push (input : List rune) (lex : lexer) (h : lex.PushInv input) :
    lex.readRune.2.PushInvR input lex.readRune.1 ∧
    (lex.unreadRunes.length ≤ 1 → lex.readRune.2.unreadRunes = []) ∧
    (lex.readRune.1.r ≠ runeEof → lex.pending = lex.readRune.1.r :: lex.readRune.2.pending) := by
  obtain ⟨h1, h2, h3, h4⟩ := h
  unfold lexer.readRune
  cases hu : lex.unreadRunes with
  | cons u us =>
    simp only
    have hp : lex.pending = u.r :: (us.map lexRune.r ++ lex.rr.runes) := by
      simp only [lexer.pending, hu, List.map_cons, List.cons_append]
    rw [hu] at h2 h3
    rw [hp] at h1
    have a1 : (us.map lexRune.r ++ lex.rr.runes) <:+ input :=
      (List.suffix_cons _ _).trans h1
    have a2 : ∀ lr ∈ us, lr.r ≠ runeEof := fun lr hlr => h2 lr (List.mem_cons_of_mem _ hlr)
    have a3 : us.length ≤ 1 := by
      rcases h3 with h3 | h3
      · simp only [List.length_cons] at h3
        omega
      · have : (us.map lexRune.r).length = 1 := by
          simp only [List.map_cons, List.cons.injEq] at h3
          rw [h3.2]; rfl
        simpa using this.le
    have a4 : us = [] ∨ (u.r = 47 ∧ us.map lexRune.r = [47]) := by
      rcases h3 with h3 | h3
      · left
        simp only [List.length_cons] at h3
        exact List.length_eq_zero.1 (by omega)
      · right
        simp only [List.map_cons, List.cons.injEq] at h3
        exact ⟨h3.1, h3.2⟩
    have a5 : (u :: us).length ≤ 1 → us = [] := by
      intro hl
      simp only [List.length_cons] at hl
      exact List.length_eq_zero.1 (by omega)
    exact ⟨⟨⟨a1, a2, Or.inl a3, h4⟩, fun _ => h1, a4⟩, a5, fun _ => hp⟩
  | nil =>
    simp only
    have hp : lex.pending = lex.rr.runes := by
      simp only [lexer.pending, hu, List.map_nil, List.nil_append]
    rw [hu] at h2 h3
    by_cases he : lex.eof = true
    · simp only [he, if_true]
      have b1 : lex.PushInv input := ⟨h1, by rw [hu]; exact h2, by rw [hu]; exact h3, h4⟩
      exact ⟨⟨b1, fun hx => absurd rfl hx, Or.inl hu⟩, fun _ => hu, fun hx => absurd rfl hx⟩
    · simp only [he, Bool.false_eq_true, if_false]
      cases hr : lex.rr.runes with
      | nil =>
        simp only
        have hb : (lexer.mk lex.rr [] lex.pos lex.prevKind true lex.es).PushInv input := by
          rw [hp] at h1
          exact ⟨h1, fun lr hlr => (List.not_mem_nil lr hlr).elim, Or.inl (Nat.zero_le _), fun _ => Or.inl hr⟩
        have hpi := emitPosError_push input _ lex.rr.err lex.pos hb
        have hun : ((lexer.mk lex.rr [] lex.pos lex.prevKind true lex.es).emitPosError
            lex.rr.err lex.pos).unreadRunes = [] := by
          cases lex.rr.err <;> rfl
        exact ⟨⟨hpi, fun hx => absurd rfl hx, Or.inl hun⟩, fun _ => hun,
          fun hx => absurd rfl hx⟩
      | cons r rs =>
        simp only
        rw [hp, hr] at h1
        have c1 : (lexer.mk (RuneReader.mk rs lex.rr.err) [] (lex.pos.update r) lex.prevKind
            false lex.es).PushInv input :=
          ⟨(List.suffix_cons _ _).trans h1, fun lr hlr => (List.not_mem_nil lr hlr).elim,
            Or.inl (Nat.zero_le _), fun hx => Bool.noConfusion hx⟩
        refine ⟨⟨c1, fun _ => h1, ?_⟩, ?_, ?_⟩
        · exact Or.inl rfl
        · exact fun _ => trivial
        · intro _
          rw [hp, hr]
          rfl

theorem unreadRune_push {input : List rune} {lr : lexRune} {lex : lexer}
    (h : lex.PushInvR input lr) :
    (lex.unreadRune lr).PushInv input ∧
    (lex.unreadRunes = [] → (lex.unreadRune lr).unreadRunes.length ≤ 1) ∧
    (lr.r ≠ runeEof → (lex.unreadRune lr).pending = lr.r :: lex.pending) := by
  obtain ⟨⟨h1, h2, h3, h4⟩, h5, h6⟩ := h
  unfold lexer.unreadRune
  by_cases hr : lr.r ≠ runeEof
  · rw [if_pos hr]
    refine ⟨⟨?_, ?_, ?_, h4⟩, ?_, fun _ => rfl⟩
    · exact h5 hr
    · intro x hx
      rcases List.mem_cons.1 hx with rfl | hx
      · exact hr
      · exact h2 x hx
    · rcases h6 with h6 | ⟨h6, h7⟩
      · left
        simp only [h6, List.length_cons, List.length_nil]
        exact Nat.le_refl _
      · right
        simp only [List.map_cons, h6, h7]
    · intro hn
      simp only [hn, List.length_cons, List.length_nil]
      exact Nat.le_refl _
  · rw [if_neg hr]
    exact ⟨⟨h1, h2, h3, h4⟩, fun hn => by rw [hn]; exact Nat.zero_le _, fun hx => absurd hx hr⟩

theorem lexSpaceLoop_push (input : List rune) (fuel : Nat) : ∀ (lex : lexer) (lr : lexRune)
    (lex1 : lexer), lex.PushInv input → lex.lexSpaceLoop fuel = some (lr, lex1) →
    lex1.PushInvR input lr := by
  induction fuel with
  | zero => intro lex lr lex1 _ h; simp [lexer.lexSpaceLoop] at h
  | succ n ih =>
    intro lex lr lex1 hi h
    simp only [lexer.lexSpaceLoop] at h
    obtain ⟨r1, -, -⟩ := readRune_push input lex hi
    split at h
    · exact ih _ _ _ r1.1 h
    · simp only [Option.some.injEq] at h
      have h1 : lr = lex.readRune.1 := by rw [h]
      have h2 : lex1 = lex.readRune.2 := by rw [h]
      subst h1 h2
      exact r1

theorem lexCommentLoop_push (input : List rune) (fuel : Nat) : ∀ (lex : lexer) (lr : lexRune)
    (lex1 : lexer), lex.PushInv input → lex.lexCommentLoop fuel = some (lr, lex1) →
    lex1.PushInvR input lr := by
  induction fuel with
  | zero => intro lex lr lex1 _ h; simp [lexer.lexCommentLoop] at h
  | succ n ih =>
    intro lex lr lex1 hi h
    simp only [lexer.lexCommentLoop] at h
    obtain ⟨r1, -, -⟩ := readRune_push input lex hi
    split at h
    · exact ih _ _ _ r1.1 h
    · simp only [Option.some.injEq] at h
      have h1 : lr = lex.readRune.1 := by rw [h]
      have h2 : lex1 = lex.readRune.2 := by rw [h]
      subst h1 h2
      exact r1

theorem lexRawLoop_push (input : List rune) (fuel : Nat) : ∀ (lex : lexer) (sb sb1 : Text)
    (lr : lexRune) (lex1 : lexer), lex.PushInv input →
    lex.lexRawLoop fuel sb = some (sb1, lr, lex1) → lex1.PushInv input := by
  induction fuel with
  | zero => intro lex sb sb1 lr lex1 _ h; simp [lexer.lexRawLoop] at h
  | succ n ih =>
    intro lex sb sb1 lr lex1 hi h
    simp only [lexer.lexRawLoop] at h
    obtain ⟨r1, -, -⟩ := readRune_push input lex hi
    split at h
    · simp only [Option.some.injEq, Prod.mk.injEq] at h
      obtain ⟨-, -, h3⟩ := h
      subst h3
      exact r1.1
    · split at h
      · simp only [Option.some.injEq, Prod.mk.injEq] at h
        obtain ⟨-, -, h3⟩ := h
        subst h3
        exact r1.1
      · exact ih _ _ _ _ _ r1.1 h

theorem lexInterpretedLoop_push (input : List rune) (fuel : Nat) : ∀ (lex : lexer) (sb : Text)
    (esc : Bool) (res : lexToken ⊕ (Text × lexRune)) (lex1 : lexer), lex.PushInv input →
    lex.lexInterpretedLoop fuel sb esc = some (res, lex1) → lex1.PushInv input := by
  induction fuel with
  | zero => intro lex sb esc res lex1 _ h; simp [lexer.lexInterpretedLoop] at h
  | succ n ih =>
    intro lex sb esc res lex1 hi h
    simp only [lexer.lexInterpretedLoop] at h
    obtain ⟨r1, -, -⟩ := readRune_push input lex hi
    have step : ∀ sb2 esc2, lex.readRune.2.lexInterpretedLoop n sb2 esc2 = some (res, lex1) →
        lex1.PushInv input := fun sb2 esc2 h2 => ih _ _ _ _ _ r1.1 h2
    have ret : ∀ x, some ((Sum.inr x : lexToken ⊕ (Text × lexRune)), lex.readRune.2)
        = some (res, lex1) → lex1.PushInv input := by
      intro x h2
      simp only [Option.some.injEq, Prod.mk.injEq] at h2
      obtain ⟨-, h4⟩ := h2
      subst h4
      exact r1.1
    have fail : ∀ (t : lexToken) (msg : String) (pos : LexPos),
        some ((Sum.inl t : lexToken ⊕ (Text × lexRune)),
          lex.readRune.2.emitPosError (some (error.New msg)) pos) = some (res, lex1) →
        lex1.PushInv input := by
      intro t msg pos h2
      simp only [Option.some.injEq, Prod.mk.injEq] at h2
      obtain ⟨-, h4⟩ := h2
      subst h4
      exact emitPosError_push _ _ _ _ r1.1
    split at h
    · exact ret _ h
    · split at h
      · split at h
        · exact step _ _ h
        · split at h
          · exact step _ _ h
          · split at h
            · exact step _ _ h
            · split at h
              · exact step _ _ h
              · exact fail _ _ _ h
      · split at h
        · exact step _ _ h
        · split at h
          · exact fail _ _ _ h
          · split at h
            · exact ret _ h
            · exact step _ _ h

theorem lexSymbolLoop_push (input : List rune) (fuel : Nat) : ∀ (lex : lexer) (sb sb1 : Text)
    (lr : lexRune) (lex1 : lexer), lex.PushInv input → lex.unreadRunes.length ≤ 1 →
    lex.lexSymbolLoop fuel sb = some (sb1, lr, lex1) → lex1.PushInvR input lr := by
  induction fuel with
  | zero => intro lex sb sb1 lr lex1 _ _ h; simp [lexer.lexSymbolLoop] at h
  | succ n ih =>
    intro lex sb sb1 lr lex1 hi hd h
    simp only [lexer.lexSymbolLoop] at h
    obtain ⟨r1, r2, -⟩ := readRune_push input lex hi
    have d1 := r2 hd
    split at h
    · exact ih _ _ _ _ _ r1.1 (by rw [d1]; exact Nat.zero_le _) h
    · split at h
      · next h47 =>
        obtain ⟨q1, q2, q3⟩ := readRune_push input lex.readRune.2 r1.1
        have d2 := q2 (by rw [d1]; exact Nat.zero_le _)
        obtain ⟨u1, u2, u3⟩ := unreadRune_push q1
        split at h
        · exact ih _ _ _ _ _ u1 (u2 d2) h
        · next hpk =>
          simp only [Option.some.injEq, Prod.mk.injEq] at h
          obtain ⟨-, h2, h3⟩ := h
          subst h2 h3
          have hpk2 : lex.readRune.2.readRune.1.r = 47 := by
            simpa [lexer.peekRune] using hpk
          have hne : lex.readRune.2.readRune.1.r ≠ runeEof := by
            rw [hpk2]; decide
          refine ⟨u1, ?_, Or.inr ⟨h47, ?_⟩⟩
          · intro hx
            have := r1.2.1 hx
            rw [q3 hne] at this
            simp only [lexer.peekRune]
            rw [u3 hne]
            exact this
          · simp only [lexer.peekRune, lexer.unreadRune]
            rw [if_pos hne]
            simp only [d2, List.map_cons, List.map_nil, hpk2]
      · simp only [Option.some.injEq, Prod.mk.injEq] at h
        obtain ⟨-, h2, h3⟩ := h
        subst h2 h3
        exact r1

theorem lexSpace_push (input : List rune) (fuel : Nat) (lex : lexer) (first : lexRune)
    (tok : lexToken) (lex1 : lexer) (hi : lex.PushInv input)
    (h : lex.lexSpace fuel first = some (tok, lex1)) : lex1.PushInv input := by
  unfold lexer.lexSpace at h
  split at h
  · cases h
  · next lr lx hl =>
    simp only [Option.some.injEq, Prod.mk.injEq] at h
    obtain ⟨-, h2⟩ := h
    subst h2
    exact (unreadRune_push (lexSpaceLoop_push _ _ _ _ _ hi hl)).1

theorem lexComment_push (input : List rune) (fuel : Nat) (lex lex1 : lexer)
    (hi : lex.PushInv input) (h : lex.lexComment fuel = some lex1) : lex1.PushInv input := by
  unfold lexer.lexComment at h
  split at h
  · cases h
  · next lr lx hl =>
    simp only [Option.some.injEq] at h
    subst h
    exact (unreadRune_push (lexCommentLoop_push _ _ _ _ _ hi hl)).1

theorem checkJoinedStrings_push (input : List rune) (lex : lexer) (pos : LexPos)
    (hi : lex.PushInv input) :
    (lex.checkJoinedStrings pos).2.2.PushInv input ∧
    (lex.checkJoinedStrings pos).2.2.unreadRunes = lex.unreadRunes := by
  unfold lexer.checkJoinedStrings
  split
  · exact ⟨emitPosError_push _ _ _ _ hi, rfl⟩
  · exact ⟨hi, rfl⟩

theorem lexRawString_push (input : List rune) (fuel : Nat) (lex : lexer) (first : lexRune)
    (tok : lexToken) (lex1 : lexer) (hi : lex.PushInv input)
    (h : lex.lexRawString fuel first = some (tok, lex1)) : lex1.PushInv input := by
  unfold lexer.lexRawString at h
  obtain ⟨hc, -⟩ := checkJoinedStrings_push input lex first.pos hi
  split at h
  · next t lx hj =>
    rw [hj] at hc
    simp only [Option.some.injEq, Prod.mk.injEq] at h
    obtain ⟨-, h2⟩ := h
    subst h2
    exact hc
  · next t lx hj =>
    rw [hj] at hc
    split at h
    · cases h
    · next sb lr lx2 hl =>
      have h3 := lexRawLoop_push _ _ _ _ _ _ _ hc hl
      split at h
      · simp only [Option.some.injEq, Prod.mk.injEq] at h
        obtain ⟨-, h2⟩ := h
        subst h2
        exact emitPosError_push _ _ _ _ h3
      · simp only [Option.some.injEq, Prod.mk.injEq] at h
        obtain ⟨-, h2⟩ := h
        subst h2
        exact h3

theorem lexInterpretedString_push (input : List rune) (fuel : Nat) (lex : lexer)
    (first : lexRune) (tok : lexToken) (lex1 : lexer) (hi : lex.PushInv input)
    (h : lex.lexInterpretedString fuel first = some (tok, lex1)) : lex1.PushInv input := by
  unfold lexer.lexInterpretedString at h
  obtain ⟨hc, -⟩ := checkJoinedStrings_push input lex first.pos hi
  split at h
  · next t lx hj =>
    rw [hj] at hc
    simp only [Option.some.injEq, Prod.mk.injEq] at h
    obtain ⟨-, h2⟩ := h
    subst h2
    exact hc
  · next t lx hj =>
    rw [hj] at hc
    split at h
    · cases h
    · next t2 lx2 hl =>
      have h3 := lexInterpretedLoop_push _ _ _ _ _ _ _ hc hl
      simp only [Option.some.injEq, Prod.mk.injEq] at h
      obtain ⟨-, h2⟩ := h
      subst h2
      exact h3
    · next sb lr lx2 hl =>
      have h3 := lexInterpretedLoop_push _ _ _ _ _ _ _ hc hl
      split at h
      · simp only [Option.some.injEq, Prod.mk.injEq] at h
        obtain ⟨-, h2⟩ := h
        subst h2
        exact emitPosError_push _ _ _ _ h3
      · simp only [Option.some.injEq, Prod.mk.injEq] at h
        obtain ⟨-, h2⟩ := h
        subst h2
        exact h3

theorem lexSymbolString_push (input : List rune) (fuel : Nat) (lex : lexer) (first : lexRune)
    (tok : lexToken) (lex1 : lexer) (hi : lex.PushInv input) (hd : lex.unreadRunes.length ≤ 1)
    (h : lex.lexSymbolString fuel first = some (tok, lex1)) : lex1.PushInv input := by
  unfold lexer.lexSymbolString at h
  obtain ⟨hc, hcu⟩ := checkJoinedStrings_push input lex first.pos hi
  split at h
  · next t lx hj =>
    rw [hj] at hc
    simp only [Option.some.injEq, Prod.mk.injEq] at h
    obtain ⟨-, h2⟩ := h
    subst h2
    exact hc
  · next t lx hj =>
    rw [hj] at hc hcu
    simp only at hcu
    split at h
    · cases h
    · next sb lr lx2 hl =>
      have h3 := lexSymbolLoop_push _ _ _ _ _ _ _ hc (by rw [hcu]; exact hd) hl
      simp only [Option.some.injEq, Prod.mk.injEq] at h
      obtain ⟨-, h2⟩ := h
      subst h2
      exact (unreadRune_push h3).1

theorem readRune_two_slashes (lex : lexer)
    (h : lex.unreadRunes.map lexRune.r = [47, 47]) :
    lex.readRune.1.r = 47 ∧ lex.readRune.2.readRune.1.r = 47 ∧
    lex.readRune.2.readRune.2.unreadRunes = [] := by
  obtain ⟨rr, un, pos, pk, eof, es⟩ := lex
  simp only at h
  cases un with
  | nil => cases h
  | cons a rest =>
    cases rest with
    | nil => simp at h
    | cons b rest2 =>
      simp only [List.map_cons, List.cons.injEq, List.map_eq_nil_iff] at h
      obtain ⟨h1, h2, h3⟩ := h
      subst h3
      exact ⟨h1, h2, rfl⟩

set_option maxHeartbeats 1600000 in
theorem readTokenBegin_push (input : List rune) (fuel : Nat) : ∀ (lex : lexer)
    (tok : lexToken) (lex1 : lexer), lex.PushInv input →
    lex.readTokenBegin fuel = some (tok, lex1) → lex1.PushInv input := by
  induction fuel with
  | zero => intro lex tok lex1 _ h; simp [lexer.readTokenBegin] at h
  | succ n ih =>
    intro lex tok lex1 hi h
    simp only [lexer.readTokenBegin] at h
    obtain ⟨r1, r2, -⟩ := readRune_push input lex hi
    have ret : ∀ t : lexToken, some (t, lex.readRune.2) = some (tok, lex1) →
        lex1.PushInv input := by
      intro t h2
      simp only [Option.some.injEq, Prod.mk.injEq] at h2
      obtain ⟨-, h4⟩ := h2
      subst h4
      exact r1.1
    have sym : lex.readRune.1.r ≠ 47 → lex.readRune.2.unreadRunes.length ≤ 1 := by
      intro hne
      rcases hi.2.2.1 with hd | hd
      · rw [r2 hd]; exact Nat.zero_le _
      · exact absurd (readRune_two_slashes lex hd).1 hne
    split at h
    · exact ret _ h
    · split at h
      · obtain ⟨q1, q2, -⟩ := readRune_push input lex.readRune.2 r1.1
        split at h
        · split at h
          · cases h
          · next lx2 hc => exact ih _ _ _ (lexComment_push _ _ _ _ q1.1 hc) h
        · next hne =>
          obtain ⟨u1, u2, -⟩ := unreadRune_push q1
          have hd0 : lex.readRune.2.readRune.2.unreadRunes = [] := by
            rcases hi.2.2.1 with hd | hd
            · exact q2 (by rw [r2 hd]; exact Nat.zero_le _)
            · exact absurd (readRune_two_slashes lex hd).2.1 hne
          exact lexSymbolString_push _ _ _ _ _ _ u1 (u2 hd0) h
      · next hne47 =>
        split at h
        · split at h
          · cases h
          · next t lx2 hs =>
            have h3 := lexSpace_push _ _ _ _ _ _ r1.1 hs
            split at h
            · exact ih _ _ _ h3 h
            · simp only [Option.some.injEq, Prod.mk.injEq] at h
              obtain ⟨-, h4⟩ := h
              subst h4
              exact h3
        · split at h
          · exact ret _ h
          · split at h
            · exact ret _ h
            · split at h
              · exact ret _ h
              · split at h
                · exact ret _ h
                · split at h
                  · exact ret _ h
                  · split at h
                    · exact lexInterpretedString_push _ _ _ _ _ _ r1.1 h
                    · split at h
                      · exact lexRawString_push _ _ _ _ _ _ r1.1 h
                      · exact lexSymbolString_push _ _ _ _ _ _ r1.1 (sym hne47) h

theorem readToken_push (input : List rune) (fuel : Nat) (lex : lexer) (tok : lexToken)
    (err : Option error) (lex1 : lexer) (hi : lex.PushInv input)
    (h : lex.readToken fuel = some (tok, err, lex1)) : lex1.PushInv input := by
  unfold lexer.readToken at h
  split at h
  · cases h
  · next t lx hb =>
    have hk := readTokenBegin_push _ _ _ _ _ hi hb
    simp only at h
    split at h
    · simp only [Option.some.injEq, Prod.mk.injEq] at h
      obtain ⟨-, -, h4⟩ := h
      subst h4
      exact hk
    · simp only [Option.some.injEq, Prod.mk.injEq] at h
      obtain ⟨-, -, h4⟩ := h
      subst h4
      exact hk

theorem newLexer_push (reader : RuneReader) : (newLexer reader).PushInv reader.runes :=
  ⟨List.suffix_refl _, fun lr hlr => (List.not_mem_nil lr hlr).elim, Or.inl (Nat.zero_le _),
    fun hx => Bool.noConfusion hx⟩

theorem afterCalls_push (input : List rune) (fuel : Nat) : ∀ (k : Nat) (lex lexk : lexer),
    lex.PushInv input → lex.afterCalls fuel k = some lexk → lexk.PushInv input := by
  intro k
  induction k with
  | zero =>
    intro lex lexk hi h
    simp only [lexer.afterCalls, Option.some.injEq] at h
    subst h
    exact hi
  | succ k ih =>
    intro lex lexk hi h
    rw [lexer.afterCalls] at h
    split at h
    · cases h
    · next tok err lex1 hr => exact ih _ _ (readToken_push _ _ _ _ _ _ hi hr) h

theorem afterCalls_total (fuel : Nat) : ∀ (k : Nat) (lex : lexer), lex.measure < fuel →
    ∃ lexk, lex.afterCalls fuel k = some lexk := by
  intro k
  induction k with
  | zero => intro lex _; exact ⟨lex, rfl⟩
  | succ k ih =>
    intro lex hm
    have ht := readToken_total fuel lex hm
    cases hr : lex.readToken fuel with
    | none => rw [hr] at ht; cases ht
    | some res =>
      obtain ⟨tok, err, lex1⟩ := res
      obtain ⟨r1, -⟩ := readToken_some _ _ _ _ _ hr
      obtain ⟨lexk, hk⟩ := ih lex1 (by omega)
      exact ⟨lexk, by rw [lexer.afterCalls, hr]; exact hk⟩

theorem readTokenBegin_two_slashes (lex : lexer) (n : Nat)
    (h : lex.unreadRunes.map lexRune.r = [47, 47]) :
    lex.readTokenBegin (n + 1) =
      (lex.readRune.2.readRune.2.lexComment n).bind (fun lex2 => lex2.readTokenBegin n) := by
  obtain ⟨h1, h2, -⟩ := readRune_two_slashes lex h
  simp only [lexer.readTokenBegin, h1, h2, runeEof]
  cases lex.readRune.2.readRune.2.lexComment n <;> simp

/-- C28: after any number `k` of calls of `readToken` on a new lexer over any rune source
(the calls return with a fuel above the number of runes), the pushback stack holds at most
2 runes and no sentinel, and the runes of the stack from its top down, followed by the
runes still in the source, are an end piece of the input in input order; when the stack
holds 2 runes, both are slashes, and the next call reads both and goes on with the scan of
a comment. -/
theorem C28_pushback (reader : RuneReader) (fuel k : Nat) :
    (reader.runes.length < fuel → ∃ lexk, (newLexer reader).afterCalls fuel k = some lexk) ∧
    ∀ lexk, (newLexer reader).afterCalls fuel k = some lexk →
      lexk.unreadRunes.length ≤ 2 ∧ (∀ lr ∈ lexk.unreadRunes, lr.r ≠ runeEof) ∧
      (lexk.unreadRunes.map lexRune.r ++ lexk.rr.runes) <:+ reader.runes ∧
      (lexk.unreadRunes.length = 2 → lexk.unreadRunes.map lexRune.r = [47, 47] ∧
        lexk.readRune.2.readRune.2.unreadRunes = [] ∧
        ∀ n, lexk.readTokenBegin (n + 1) =
          (lexk.readRune.2.readRune.2.lexComment n).bind
            (fun lex2 => lex2.readTokenBegin n)) := by
  refine ⟨fun hf => afterCalls_total fuel k _ (by simpa [lexer.measure, newLexer] using hf), ?_⟩
  intro lexk h
  obtain ⟨h1, h2, h3, -⟩ := afterCalls_push reader.runes fuel k _ lexk (newLexer_push reader) h
  have two : lexk.unreadRunes.length = 2 → lexk.unreadRunes.map lexRune.r = [47, 47] := by
    intro hl
    rcases h3 with h3 | h3
    · omega
    · exact h3
  refine ⟨?_, h2, h1, fun hl => ⟨two hl, (readRune_two_slashes lexk (two hl)).2.2,
    fun n => readTokenBegin_two_slashes lexk n (two hl)⟩⟩
  rcases h3 with h3 | h3
  · omega
  · have : (lexk.unreadRunes.map lexRune.r).length = 2 := by rw [h3]; rfl
    simpa using this.le

theorem C28_pushback_witness :
    (newLexer (RuneReader.mk [97, 47, 47, 99] none)).afterCalls 5 1 = some pushbackExample ∧
    pushbackExample.unreadRunes.length = 2 ∧
    pushbackExample.unreadRunes.map lexRune.r = [47, 47] ∧
    (pushbackExample.unreadRunes.map lexRune.r ++ pushbackExample.rr.runes) <:+
      [97, 47, 47, 99] :=
  ⟨by decide, rfl,
    ((C28_pushback (RuneReader.mk [97, 47, 47, 99] none) 5 1).2 pushbackExample
      (by decide)).2.2.2 rfl |>.1,
    ((C28_pushback (RuneReader.mk [97, 47, 47, 99] none) 5 1).2 pushbackExample
      (by decide)).2.2.1⟩

/-! ## The end-of-stream sentinel -/

/-- C27, amended: on a source that delivers no rune equal to the sentinel, and in every
state that satisfies the invariant of the pushback stack (every state between tokens
does), `readRune` returns the sentinel exactly when the pushback stack is empty and either
the end-of-stream flag is set or the source is exhausted; and then the source is exhausted
(it has ended or failed) or an error is recorded. -/
theorem C27_readRune_sentinel (input : List rune) (lex : lexer)
    (hs : ∀ r ∈ input, r ≠ runeEof) (hi : lex.PushInv input) :
    (lex.readRune.1.r = runeEof ↔
      lex.unreadRunes = [] ∧ (lex.eof = true ∨ lex.rr.runes = [])) ∧
    (lex.readRune.1.r = runeEof → lex.rr.runes = [] ∨ lex.es.cause ≠ none) := by
  obtain ⟨h1, h2, -, h4⟩ := hi
  have hsrc : ∀ r ∈ lex.rr.runes, r ≠ runeEof := by
    intro r hr
    refine hs r (h1.subset ?_)
    simp only [lexer.pending, List.mem_append]
    exact Or.inr hr
  have key : lex.readRune.1.r = runeEof ↔
      lex.unreadRunes = [] ∧ (lex.eof = true ∨ lex.rr.runes = []) := by
    unfold lexer.readRune
    cases hu : lex.unreadRunes with
    | cons u us =>
      simp only
      rw [hu] at h2
      constructor
      · intro hx
        exact absurd hx (h2 u (List.mem_cons_self _ _))
      · intro hx
        exact absurd hx.1 (List.cons_ne_nil _ _)
    | nil =>
      simp only
      by_cases he : lex.eof = true
      · simp only [he, if_true, true_or, and_self]
      · simp only [he, Bool.false_eq_true, if_false, false_or, true_and]
        cases hr : lex.rr.runes with
        | nil => simp only
        | cons r rs =>
          simp only
          rw [hr] at hsrc
          constructor
          · intro hx
            exact absurd hx (hsrc r (List.mem_cons_self _ _))
          · intro hx
            exact absurd hx (List.cons_ne_nil _ _)
  refine ⟨key, fun hx => ?_⟩
  obtain ⟨-, k2⟩ := key.1 hx
  rcases k2 with k2 | k2
  · exact h4 k2
  · exact Or.inl k2

theorem C27_readRune_sentinel_witness :
    (∀ r ∈ ([97, 47, 47, 99] : List rune), r ≠ runeEof) ∧
    pushbackExample.PushInv [97, 47, 47, 99] ∧
    (pushbackExample.readRune.1.r = runeEof ↔
      pushbackExample.unreadRunes = [] ∧
        (pushbackExample.eof = true ∨ pushbackExample.rr.runes = [])) ∧
    (newLexer (RuneReader.mk [] none)).PushInv [] ∧
    ((newLexer (RuneReader.mk [] none)).readRune.1.r = runeEof →
      (newLexer (RuneReader.mk [] none)).rr.runes = [] ∨
        (newLexer (RuneReader.mk [] none)).es.cause ≠ none) :=
  ⟨by decide,
    afterCalls_push _ 5 1 _ _ (newLexer_push (RuneReader.mk [97, 47, 47, 99] none))
      (by decide),
    (C27_readRune_sentinel [97, 47, 47, 99] pushbackExample (by decide)
      (afterCalls_push _ 5 1 _ _ (newLexer_push (RuneReader.mk [97, 47, 47, 99] none))
        (by decide))).1,
    newLexer_push (RuneReader.mk [] none),
    (C27_readRune_sentinel [] (newLexer (RuneReader.mk [] none)) (by decide)
      (newLexer_push (RuneReader.mk [] none))).2⟩

/-- C27, as stated, fails: a source that delivers the rune -1 and then the rune `a` is not
exhausted and has not failed, yet `readRune` returns the sentinel for the delivered rune;
`readToken` answers with the end-of-stream token while `a` is still in the source, and
`Parse` returns no element and no error. -/
theorem C27_readRune_sentinel_counterexample :
    (newLexer (RuneReader.mk [-1, 97] none)).readRune.1.r = runeEof ∧
    (newLexer (RuneReader.mk [-1, 97] none)).unreadRunes = [] ∧
    (newLexer (RuneReader.mk [-1, 97] none)).eof = false ∧
    (newLexer (RuneReader.mk [-1, 97] none)).rr.runes ≠ [] ∧
    (newLexer (RuneReader.mk [-1, 97] none)).readRune.2.rr.runes = [97] ∧
    (newLexer (RuneReader.mk [-1, 97] none)).readRune.2.es.cause = none ∧
    (newLexer (RuneReader.mk [-1, 97] none)).readToken 3 =
      some (lexToken.mk lexKind.Eof [] (LexPos.mk 1 0), none,
        lexer.mk (RuneReader.mk [97] none) [] (LexPos.mk 1 1) lexKind.Eof false
          (Sink.mk none)) ∧
    Parse 14 (RuneReader.mk [-1, 97] none) = some ([], none) := by
  refine ⟨by decide, by decide, by decide, by decide, by decide, by decide, by decide, rfl⟩

/-! ## The counted parser is the parser -/

theorem lexC_erase (n : Nat) (p : parser) (c : Nat) :
    (p.lexC n c).map (fun r => (r.1, r.2.1)) = p.lex n := by
  unfold parser.lexC parser.lex
  cases p.lexer.readToken n with
  | none => rfl
  | some r => rfl

theorem consumeC_erase (n : Nat) (p : parser) (c : Nat) :
    (p.consumeC n c).map Prod.fst = p.consume n := by
  unfold parser.consumeC parser.consume
  simp only
  split
  · rw [← lexC_erase n _ c]
    cases parser.lexC n { p with prev := p.next } c with
    | none => rfl
    | some r => rfl
  · rfl

theorem acceptC_erase (n : Nat) (p : parser) (k : lexKind) (c : Nat) :
    (p.acceptC n k c).map (fun r => (r.1, r.2.1)) = p.accept n k := by
  unfold parser.acceptC parser.accept
  split
  · rw [← consumeC_erase n p c]
    cases p.consumeC n c with
    | none => rfl
    | some r => rfl
  · rfl

theorem expectC_erase (n : Nat) (p : parser) (k : lexKind) (msg : String) (c : Nat) :
    (p.expectC n k msg c).map (fun r => (r.1, r.2.1)) = p.expect n k msg := by
  unfold parser.expectC parser.expect
  split
  · rfl
  · rw [← consumeC_erase n p c]
    cases p.consumeC n c with
    | none => rfl
    | some r => rfl

theorem expectPC_erase (n : Nat) (p : parser) (pred : lexToken → Bool) (msg : String)
    (c : Nat) :
    (p.expectPC n pred msg c).map (fun r => (r.1, r.2.1)) = p.expectP n pred msg := by
  unfold parser.expectPC parser.expectP
  split
  · rfl
  · rw [← consumeC_erase n p c]
    cases p.consumeC n c with
    | none => rfl
    | some r => rfl

theorem parseStringC_erase (n : Nat) (p : parser) (c : Nat) :
    (p.parseStringC n c).map (fun r => (r.1, r.2.1)) = p.parseString n := by
  unfold parser.parseStringC parser.parseString
  rw [← consumeC_erase n p c]
  cases p.consumeC n c with
  | none => rfl
  | some r => rfl

theorem parseListLoopC_erase (n : Nat) (ih : eraseAt n) (p : parser) (L : List Elem)
    (c : Nat) :
    (parser.parseListLoopC (n + 1) p L c).map (fun r => (r.1, r.2.1)) =
      parser.parseListLoop (n + 1) p L := by
  obtain ⟨ihLL, ihL, -, ihA, -⟩ := ih
  rw [parser.parseListLoopC, parser.parseListLoop]
  split
  · rw [← acceptC_erase n p lexKind.Space c]
    cases p.acceptC n lexKind.Space c with
    | none => rfl
    | some r =>
      obtain ⟨b, p1, c1⟩ := r
      cases b with
      | true => exact ihLL p1 L c1
      | false =>
        simp only [Option.map_some']
        split
        · rw [← parseStringC_erase n p1 c1]
          cases p1.parseStringC n c1 with
          | none => rfl
          | some r =>
            obtain ⟨s, p2, c2⟩ := r
            exact ihLL p2 _ c2
        · split
          · rw [← ihL p1 c1]
            cases parser.parseListC n p1 c1 with
            | none => rfl
            | some r =>
              obtain ⟨s, p2, c2⟩ := r
              exact ihLL p2 _ c2
          · split
            · rw [← ihA p1 c1]
              cases parser.parseAssocC n p1 c1 with
              | none => rfl
              | some r =>
                obtain ⟨s, p2, c2⟩ := r
                exact ihLL p2 _ c2
            · rw [← acceptC_erase n p1 lexKind.RBracket c1]
              cases p1.acceptC n lexKind.RBracket c1 with
              | none => rfl
              | some r =>
                obtain ⟨b, p2, c2⟩ := r
                cases b with
                | true => rfl
                | false =>
                  simp only [Option.map_some']
                  split
                  · exact ihLL _ L c2
                  · exact ihLL _ L c2
  · rfl

theorem parseListC_erase (n : Nat) (ih : eraseAt n) (p : parser) (c : Nat) :
    (parser.parseListC (n + 1) p c).map (fun r => (r.1, r.2.1)) =
      parser.parseList (n + 1) p := by
  obtain ⟨ihLL, -, -, -, -⟩ := ih
  rw [parser.parseListC, parser.parseList]
  rw [← consumeC_erase n p c]
  cases p.consumeC n c with
  | none => rfl
  | some r =>
    obtain ⟨p1, c1⟩ := r
    simp only [Option.map_some']
    rw [← ihLL p1 [] c1]
    cases parser.parseListLoopC n p1 [] c1 with
    | none => rfl
    | some r => rfl

theorem parseAssocLoopC_erase (n : Nat) (ih : eraseAt n) (p : parser) (L : List Pair)
    (c : Nat) :
    (parser.parseAssocLoopC (n + 1) p L c).map (fun r => (r.1, r.2.1)) =
      parser.parseAssocLoop (n + 1) p L := by
  obtain ⟨-, -, ihAL, -, ihP⟩ := ih
  rw [parser.parseAssocLoopC, parser.parseAssocLoop]
  split
  · rw [← acceptC_erase n p lexKind.Space c]
    cases p.acceptC n lexKind.Space c with
    | none => rfl
    | some r =>
      obtain ⟨b, p1, c1⟩ := r
      cases b with
      | true => exact ihAL p1 L c1
      | false =>
        simp only [Option.map_some']
        rw [← acceptC_erase n p1 lexKind.RBrace c1]
        cases p1.acceptC n lexKind.RBrace c1 with
        | none => rfl
        | some r =>
          obtain ⟨b, p2, c2⟩ := r
          cases b with
          | true => rfl
          | false =>
            simp only [Option.map_some']
            split
            · exact ihAL _ L c2
            · rw [← ihP p2 c2]
              cases parser.parsePairC n p2 c2 with
              | none => rfl
              | some r =>
                obtain ⟨pair, p3, c3⟩ := r
                simp only [Option.map_some']
                split
                · rw [← expectC_erase n p3 lexKind.Space _ c3]
                  cases p3.expectC n lexKind.Space
                      "association list pairs must be separated by whitespace" c3 with
                  | none => rfl
                  | some r =>
                    obtain ⟨b, p4, c4⟩ := r
                    exact ihAL p4 _ c4
                · exact ihAL p3 _ c3
  · rfl

theorem parseAssocC_erase (n : Nat) (ih : eraseAt n) (p : parser) (c : Nat) :
    (parser.parseAssocC (n + 1) p c).map (fun r => (r.1, r.2.1)) =
      parser.parseAssoc (n + 1) p := by
  obtain ⟨-, -, ihAL, -, -⟩ := ih
  rw [parser.parseAssocC, parser.parseAssoc]
  rw [← consumeC_erase n p c]
  cases p.consumeC n c with
  | none => rfl
  | some r =>
    obtain ⟨p1, c1⟩ := r
    simp only [Option.map_some']
    rw [← ihAL p1 [] c1]
    cases parser.parseAssocLoopC n p1 [] c1 with
    | none => rfl
    | some r => rfl

theorem parsePairC_erase (n : Nat) (ih : eraseAt n) (p : parser) (c : Nat) :
    (parser.parsePairC (n + 1) p c).map (fun r => (r.1, r.2.1)) =
      parser.parsePair (n + 1) p := by
  obtain ⟨-, ihL, -, ihA, -⟩ := ih
  rw [parser.parsePairC, parser.parsePair]
  rw [← expectPC_erase n p keyPred _ c]
  cases p.expectPC n keyPred
      "key in association list pair must be of symbol or interpreted string form" c with
  | none => rfl
  | some r =>
    obtain ⟨b, p1, c1⟩ := r
    simp only [Option.map_some']
    rw [← acceptC_erase n p1 lexKind.Colon c1]
    cases p1.acceptC n lexKind.Colon c1 with
    | none => rfl
    | some r =>
      obtain ⟨ok, p2, c2⟩ := r
      simp only [Option.map_some']
      rw [← acceptC_erase n _ lexKind.Space c2]
      cases parser.acceptC n (if (!ok) = true then
          p2.posError
            (error.New "key in association list pair must be immediately followed by colon")
            p2.prev.pos
        else p2) lexKind.Space c2 with
      | none => rfl
      | some r =>
        obtain ⟨b4, p4, c4⟩ := r
        simp only [Option.map_some']
        split
        · rw [← parseStringC_erase n p4 c4]
          cases p4.parseStringC n c4 with
          | none => rfl
          | some r => rfl
        · split
          · rw [← ihL p4 c4]
            cases parser.parseListC n p4 c4 with
            | none => rfl
            | some r => rfl
          · split
            · rw [← ihA p4 c4]
              cases parser.parseAssocC n p4 c4 with
              | none => rfl
              | some r => rfl
            · split
              · rfl
              · rfl

theorem parseErase (fuel : Nat) : eraseAt fuel := by
  induction fuel with
  | zero =>
    refine ⟨?_, ?_, ?_, ?_, ?_⟩
    · intro p L c; simp [parser.parseListLoopC, parser.parseListLoop]
    · intro p c; simp [parser.parseListC, parser.parseList]
    · intro p L c; simp [parser.parseAssocLoopC, parser.parseAssocLoop]
    · intro p c; simp [parser.parseAssocC, parser.parseAssoc]
    · intro p c; simp [parser.parsePairC, parser.parsePair]
  | succ n ih =>
    exact ⟨parseListLoopC_erase n ih, parseListC_erase n ih, parseAssocLoopC_erase n ih,
      parseAssocC_erase n ih, parsePairC_erase n ih⟩

theorem parseRootLoopC_erase (n : Nat) : ∀ (p : parser) (L : List Elem) (c : Nat),
    (parser.parseRootLoopC n p L c).map (fun r => (r.1, r.2.1)) =
      parser.parseRootLoop n p L := by
  induction n with
  | zero => intro p L c; simp [parser.parseRootLoopC, parser.parseRootLoop]
  | succ n ihR =>
    intro p L c
    obtain ⟨-, ihL, -, ihA, -⟩ := parseErase n
    rw [parser.parseRootLoopC, parser.parseRootLoop]
    split
    · rw [← acceptC_erase n p lexKind.Space c]
      cases p.acceptC n lexKind.Space c with
      | none => rfl
      | some r =>
        obtain ⟨b, p1, c1⟩ := r
        cases b with
        | true => exact ihR p1 L c1
        | false =>
          simp only [Option.map_some']
          split
          · rw [← parseStringC_erase n p1 c1]
            cases p1.parseStringC n c1 with
            | none => rfl
            | some r =>
              obtain ⟨s, p2, c2⟩ := r
              exact ihR p2 _ c2
          · split
            · rw [← ihL p1 c1]
              cases parser.parseListC n p1 c1 with
              | none => rfl
              | some r =>
                obtain ⟨s, p2, c2⟩ := r
                exact ihR p2 _ c2
            · split
              · rw [← ihA p1 c1]
                cases parser.parseAssocC n p1 c1 with
                | none => rfl
                | some r =>
                  obtain ⟨s, p2, c2⟩ := r
                  exact ihR p2 _ c2
              · split
                · rfl
                · exact ihR _ L c1
    · rfl

theorem parseRootC_erase (n : Nat) (p : parser) (c : Nat) :
    (p.parseRootC n c).map (fun r => (r.1, r.2.1)) = p.parseRoot n := by
  unfold parser.parseRootC parser.parseRoot
  rw [← lexC_erase n p c]
  cases p.lexC n c with
  | none => rfl
  | some r =>
    obtain ⟨tok, p1, c1⟩ := r
    exact parseRootLoopC_erase n _ [] c1

theorem ParseC_erase (n : Nat) (reader : RuneReader) :
    (ParseC n reader).map (fun r => (r.1, r.2.1)) = Parse n reader := by
  unfold ParseC Parse
  rw [← parseRootC_erase n (newParser reader) 0]
  cases (newParser reader).parseRootC n 0 with
  | none => rfl
  | some r =>
    obtain ⟨elems, p, c⟩ := r
    simp only [Option.map_some']
    split <;> rfl

/-! ## Calls of readToken after the first error -/

theorem erase_some {α : Type} {o : Option (α × parser × Nat)} {o2 : Option (α × parser)}
    {x : α} {p : parser} {c : Nat}
    (h : o.map (fun r => (r.1, r.2.1)) = o2) (hx : o = some (x, p, c)) : o2 = some (x, p) := by
  rw [← h, hx]; rfl

theorem parser.Late.of_key {c c1 : Nat} {p1 : parser} {e : error}
    (he : p1.es.cause = some e) (hk : keyError e = true) : parser.Late c p1 c1 := by
  refine ⟨fun hn => ?_, fun e2 he2 hk2 => ?_⟩
  · rw [he] at hn; cases hn
  · rw [he] at he2
    simp only [Option.some.injEq] at he2
    subst he2
    rw [hk] at hk2; cases hk2

theorem parser.Late.of_error {c : Nat} {p1 : parser} (he : p1.es.cause ≠ none)
    (hs : p1.next.k ≠ lexKind.Space) : parser.Late c p1 c :=
  ⟨fun hn => absurd hn he, fun _ _ _ => ⟨rfl, hs⟩⟩

theorem parser.Calm.late {c c1 : Nat} {q : parser} (h : parser.Calm c q c1) :
    parser.Late c q c1 := by
  obtain ⟨h1, h2, h3⟩ := h
  refine ⟨fun hn => ⟨h2 hn, h1⟩, fun e he _ => ⟨h1, ?_⟩⟩
  rw [h3 e he]; decide

theorem parser.Calm.start {c : Nat} {p : parser} (hok : p.es.cause = none) (hs : p.Sync) :
    parser.Calm c p c :=
  ⟨rfl, fun _ => hs, fun e he => by rw [hok] at he; cases he⟩

theorem posError_some (p : parser) (err : error) (pos : LexPos) :
    (p.posError err pos).es.cause ≠ none := by
  simp only [parser.posError, Sink.Send]
  split
  · next e he => simp [he]
  · simp

theorem posError_late {c c1 : Nat} {q : parser} (h : parser.Calm c q c1)
    (hs : q.next.k ≠ lexKind.Space) (err : error) (pos : LexPos) :
    parser.Late c (q.posError err pos) c1 := by
  rw [h.1]
  exact parser.Late.of_error (posError_some q err pos) hs

theorem consumeC_calm {n : Nat} {p q : parser} {c c1 c2 : Nat} (hc : parser.Calm c p c1)
    (h : p.consumeC n c1 = some (q, c2)) :
    parser.Calm c q c2 ∧ (p.next.k = lexKind.Space → q.next.k ≠ lexKind.Space) := by
  obtain ⟨h1, h2, h3⟩ := hc
  unfold parser.consumeC parser.lexC at h
  simp only at h
  by_cases hk : p.next.k = lexKind.Eof
  · rw [if_neg (by simpa using hk)] at h
    simp only [Option.some.injEq, Prod.mk.injEq] at h
    obtain ⟨rfl, rfl⟩ := h
    exact ⟨⟨h1, h2, h3⟩, fun hx => by rw [hk] at hx; cases hx⟩
  · rw [if_pos (by simpa using hk)] at h
    have hok : p.es.cause = none := by
      cases hcs : p.es.cause with
      | none => rfl
      | some e => exact absurd (h3 e hcs) hk
    cases hr : p.lexer.readToken n with
    | none => simp [hr] at h
    | some r =>
      obtain ⟨tok, err, lx⟩ := r
      obtain ⟨-, -, r3, r4, r5, r6⟩ := readToken_some _ _ _ _ _ hr
      simp only [hr, Sink.ok_of_none _ hok, if_true, Option.some.injEq, Prod.mk.injEq] at h
      obtain ⟨rfl, rfl⟩ := h
      have hes : (p.es.Send err).cause = err := by simp [Sink.Send, hok]
      refine ⟨⟨h1, fun _ => r3, fun e he => ?_⟩, fun hx => ?_⟩
      · simp only [hes] at he
        exact r6 (by rw [he]; exact fun hx => Option.noConfusion hx)
      · exact r4 (by rw [h2 hok]; exact hx)

theorem acceptC_calm {n : Nat} {p q : parser} {k : lexKind} {b : Bool} {c c1 c2 : Nat}
    (hc : parser.Calm c p c1) (h : p.acceptC n k c1 = some (b, q, c2)) :
    parser.Calm c q c2 ∧ (b = false → q = p ∧ p.next.k ≠ k) ∧
    (k = lexKind.Space → q.next.k ≠ lexKind.Space) := by
  unfold parser.acceptC at h
  by_cases hk : p.next.k = k
  · rw [if_pos hk] at h
    cases hcons : p.consumeC n c1 with
    | none => simp [hcons] at h
    | some r =>
      obtain ⟨q1, c3⟩ := r
      simp only [hcons, Option.some.injEq, Prod.mk.injEq] at h
      obtain ⟨rfl, rfl, rfl⟩ := h
      obtain ⟨a1, a2⟩ := consumeC_calm hc hcons
      exact ⟨a1, fun hx => Bool.noConfusion hx, fun hs => a2 (by rw [hk, hs])⟩
  · rw [if_neg hk] at h
    simp only [Option.some.injEq, Prod.mk.injEq] at h
    obtain ⟨rfl, rfl, rfl⟩ := h
    exact ⟨hc, fun _ => ⟨rfl, hk⟩, fun hs => by rw [← hs]; exact hk⟩

theorem parseStringC_calm {n : Nat} {p q : parser} {s : Str} {c c1 c2 : Nat}
    (hc : parser.Calm c p c1) (h : p.parseStringC n c1 = some (s, q, c2)) :
    parser.Calm c q c2 := by
  unfold parser.parseStringC at h
  cases hcons : p.consumeC n c1 with
  | none => simp [hcons] at h
  | some r =>
    obtain ⟨q1, c3⟩ := r
    simp only [hcons, Option.some.injEq, Prod.mk.injEq] at h
    obtain ⟨-, rfl, rfl⟩ := h
    exact (consumeC_calm hc hcons).1

theorem parseListLoopC_err {n : Nat} {p : parser} {e : error} (L : List Elem) (c : Nat)
    (he : p.es.cause = some e) : parser.parseListLoopC (n + 1) p L c = some (L, p, c) := by
  rw [parser.parseListLoopC, if_neg (by rw [Sink.not_ok_of_some _ _ he]; decide)]

theorem parseAssocLoopC_err {n : Nat} {p : parser} {e : error} (L : List Pair) (c : Nat)
    (he : p.es.cause = some e) : parser.parseAssocLoopC (n + 1) p L c = some (L, p, c) := by
  rw [parser.parseAssocLoopC, if_neg (by rw [Sink.not_ok_of_some _ _ he]; decide)]

theorem parseRootLoopC_err {n : Nat} {p : parser} {e : error} (L : List Elem) (c : Nat)
    (he : p.es.cause = some e) : parser.parseRootLoopC (n + 1) p L c = some (L, p, c) := by
  rw [parser.parseRootLoopC, if_neg (by rw [Sink.not_ok_of_some _ _ he]; decide)]

/-- The list loop after a step that counted no late call. -/
theorem parseListLoopC_chain {n : Nat} (ih : lateAt n) {q p1 : parser} {L L1 : List Elem}
    {c c2 c1 : Nat} (hl : parser.Late c q c2)
    (h : parser.parseListLoopC n q L c2 = some (L1, p1, c1)) : parser.Late c p1 c1 := by
  cases hq : q.es.cause with
  | none =>
    obtain ⟨hs, rfl⟩ := hl.1 hq
    exact ih.1 _ _ _ _ _ _ hq hs h
  | some e =>
    cases n with
    | zero => simp [parser.parseListLoopC] at h
    | succ m =>
      rw [parseListLoopC_err L c2 hq] at h
      simp only [Option.some.injEq, Prod.mk.injEq] at h
      obtain ⟨-, rfl, rfl⟩ := h
      exact hl

/-- The association list loop after a step that counted no late call. -/
theorem parseAssocLoopC_chain {n : Nat} (ih : lateAt n) {q p1 : parser} {L L1 : List Pair}
    {c c2 c1 : Nat} (hl : parser.Late c q c2)
    (h : parser.parseAssocLoopC n q L c2 = some (L1, p1, c1)) : parser.Late c p1 c1 := by
  cases hq : q.es.cause with
  | none =>
    obtain ⟨hs, rfl⟩ := hl.1 hq
    exact ih.2.2.1 _ _ _ _ _ _ hq hs h
  | some e =>
    cases n with
    | zero => simp [parser.parseAssocLoopC] at h
    | succ m =>
      rw [parseAssocLoopC_err L c2 hq] at h
      simp only [Option.some.injEq, Prod.mk.injEq] at h
      obtain ⟨-, rfl, rfl⟩ := h
      exact hl

theorem parseListLoopC_late (n : Nat) (ih : lateAt n) (p p1 : parser) (L L1 : List Elem)
    (c c1 : Nat) (hok : p.es.cause = none) (hs : p.Sync)
    (h : parser.parseListLoopC (n + 1) p L c = some (L1, p1, c1)) : parser.Late c p1 c1 := by
  have hc : parser.Calm c p c := parser.Calm.start hok hs
  rw [parser.parseListLoopC, if_pos (Sink.ok_of_none _ hok)] at h
  cases ha : p.acceptC n lexKind.Space c with
  | none => simp [ha] at h
  | some r =>
    obtain ⟨b, q, c2⟩ := r
    obtain ⟨a1, a2, a3⟩ := acceptC_calm hc ha
    simp only [ha] at h
    cases b with
    | true => exact parseListLoopC_chain ih a1.late h
    | false =>
      obtain ⟨rfl, -⟩ := a2 rfl
      have hns := a3 rfl
      simp only at h
      by_cases h1 : q.isP lexToken.isString = true
      · rw [if_pos h1] at h
        cases hp : q.parseStringC n c2 with
        | none => simp [hp] at h
        | some r =>
          obtain ⟨s, q2, c3⟩ := r
          simp only [hp] at h
          exact parseListLoopC_chain ih (parseStringC_calm a1 hp).late h
      rw [if_neg h1] at h
      by_cases h2 : q.is lexKind.LBracket = true
      · rw [if_pos h2] at h
        cases hp : parser.parseListC n q c2 with
        | none => simp [hp] at h
        | some r =>
          obtain ⟨s, q2, c3⟩ := r
          simp only [hp] at h
          have := ih.2.1 _ _ _ _ _ hok hs hp
          rw [a1.1] at this
          exact parseListLoopC_chain ih this h
      rw [if_neg h2] at h
      by_cases h3 : q.is lexKind.LBrace = true
      · rw [if_pos h3] at h
        cases hp : parser.parseAssocC n q c2 with
        | none => simp [hp] at h
        | some r =>
          obtain ⟨s, q2, c3⟩ := r
          simp only [hp] at h
          have := ih.2.2.2.1 _ _ _ _ _ hok hs hp
          rw [a1.1] at this
          exact parseListLoopC_chain ih this h
      rw [if_neg h3] at h
      cases hb : q.acceptC n lexKind.RBracket c2 with
      | none => simp [hb] at h
      | some r =>
        obtain ⟨b2, q2, c3⟩ := r
        obtain ⟨b1, b2', -⟩ := acceptC_calm a1 hb
        simp only [hb] at h
        cases b2 with
        | true =>
          simp only [Option.some.injEq, Prod.mk.injEq] at h
          obtain ⟨-, rfl, rfl⟩ := h
          exact b1.late
        | false =>
          obtain ⟨rfl, -⟩ := b2' rfl
          simp only at h
          split at h
          · exact parseListLoopC_chain ih (posError_late b1 hns _ _) h
          · exact parseListLoopC_chain ih (posError_late b1 hns _ _) h

theorem parseListC_late (n : Nat) (ih : lateAt n) (p p1 : parser) (x : Elem)
    (c c1 : Nat) (hok : p.es.cause = none) (hs : p.Sync)
    (h : parser.parseListC (n + 1) p c = some (x, p1, c1)) : parser.Late c p1 c1 := by
  rw [parser.parseListC] at h
  cases hcons : p.consumeC n c with
  | none => simp [hcons] at h
  | some r =>
    obtain ⟨q, c2⟩ := r
    simp only [hcons] at h
    cases hl : parser.parseListLoopC n q [] c2 with
    | none => simp [hl] at h
    | some r =>
      obtain ⟨L, q2, c3⟩ := r
      simp only [hl, Option.some.injEq, Prod.mk.injEq] at h
      obtain ⟨-, rfl, rfl⟩ := h
      exact parseListLoopC_chain ih (consumeC_calm (parser.Calm.start hok hs) hcons).1.late hl

theorem parseAssocC_late (n : Nat) (ih : lateAt n) (p p1 : parser) (x : Elem)
    (c c1 : Nat) (hok : p.es.cause = none) (hs : p.Sync)
    (h : parser.parseAssocC (n + 1) p c = some (x, p1, c1)) : parser.Late c p1 c1 := by
  rw [parser.parseAssocC] at h
  cases hcons : p.consumeC n c with
  | none => simp [hcons] at h
  | some r =>
    obtain ⟨q, c2⟩ := r
    simp only [hcons] at h
    cases hl : parser.parseAssocLoopC n q [] c2 with
    | none => simp [hl] at h
    | some r =>
      obtain ⟨L, q2, c3⟩ := r
      simp only [hl, Option.some.injEq, Prod.mk.injEq] at h
      obtain ⟨-, rfl, rfl⟩ := h
      exact parseAssocLoopC_chain ih (consumeC_calm (parser.Calm.start hok hs) hcons).1.late hl

theorem parseAssocLoopC_late (n : Nat) (ih : lateAt n) (p p1 : parser) (L L1 : List Pair)
    (c c1 : Nat) (hok : p.es.cause = none) (hs : p.Sync)
    (h : parser.parseAssocLoopC (n + 1) p L c = some (L1, p1, c1)) : parser.Late c p1 c1 := by
  have hc : parser.Calm c p c := parser.Calm.start hok hs
  rw [parser.parseAssocLoopC, if_pos (Sink.ok_of_none _ hok)] at h
  cases ha : p.acceptC n lexKind.Space c with
  | none => simp [ha] at h
  | some r =>
    obtain ⟨b, q, c2⟩ := r
    obtain ⟨a1, a2, a3⟩ := acceptC_calm hc ha
    simp only [ha] at h
    cases b with
    | true => exact parseAssocLoopC_chain ih a1.late h
    | false =>
      obtain ⟨rfl, -⟩ := a2 rfl
      have hns := a3 rfl
      simp only at h
      cases hb : q.acceptC n lexKind.RBrace c2 with
      | none => simp [hb] at h
      | some r =>
        obtain ⟨b2, q2, c3⟩ := r
        obtain ⟨b1, b2', -⟩ := acceptC_calm a1 hb
        simp only [hb] at h
        cases b2 with
        | true =>
          simp only [Option.some.injEq, Prod.mk.injEq] at h
          obtain ⟨-, rfl, rfl⟩ := h
          exact b1.late
        | false =>
          obtain ⟨rfl, -⟩ := b2' rfl
          simp only at h
          by_cases he : q2.is lexKind.Eof = true
          · rw [if_pos he] at h
            exact parseAssocLoopC_chain ih (posError_late b1 hns _ _) h
          rw [if_neg he] at h
          cases hp : parser.parsePairC n q2 c3 with
          | none => simp [hp] at h
          | some r =>
            obtain ⟨pair, q3, c4⟩ := r
            simp only [hp] at h
            have hl3 : parser.Late c q3 c4 := by
              have := ih.2.2.2.2 _ _ _ _ _ hok hs hp
              rw [b1.1] at this
              exact this
            by_cases hcond : (!q3.is lexKind.RBrace && !q3.is lexKind.Eof) = true
            · rw [if_pos hcond] at h
              cases hx : q3.expectC n lexKind.Space
                  "association list pairs must be separated by whitespace" c4 with
              | none => simp [hx] at h
              | some r =>
                obtain ⟨b4, q4, c5⟩ := r
                simp only [hx] at h
                have hl4 : parser.Late c q4 c5 := by
                  cases hq3 : q3.es.cause with
                  | none =>
                    obtain ⟨s3, rfl⟩ := hl3.1 hq3
                    have hc3 : parser.Calm c4 q3 c4 := parser.Calm.start hq3 s3
                    unfold parser.expectC at hx
                    by_cases hk : q3.next.k = lexKind.Space
                    · rw [if_neg (by simpa using hk)] at hx
                      cases hcons : q3.consumeC n c4 with
                      | none => simp [hcons] at hx
                      | some r =>
                        obtain ⟨q5, c6⟩ := r
                        simp only [hcons, Option.some.injEq, Prod.mk.injEq] at hx
                        obtain ⟨-, rfl, rfl⟩ := hx
                        exact (consumeC_calm hc3 hcons).1.late
                    · rw [if_pos hk] at hx
                      simp only [Option.some.injEq, Prod.mk.injEq] at hx
                      obtain ⟨-, rfl, rfl⟩ := hx
                      exact posError_late hc3 hk _ _
                  | some e =>
                    have hk4 : q4.es.cause = some e :=
                      expect_keeps (erase_some (expectC_erase n q3 _ _ c4) hx) hq3
                    by_cases hke : keyError e = true
                    · exact parser.Late.of_key hk4 hke
                    · obtain ⟨rfl, hns3⟩ := hl3.2 e hq3 (by simpa using hke)
                      unfold parser.expectC at hx
                      rw [if_pos hns3] at hx
                      simp only [Option.some.injEq, Prod.mk.injEq] at hx
                      obtain ⟨-, rfl, rfl⟩ := hx
                      exact parser.Late.of_error (posError_some _ _ _) hns3
                exact parseAssocLoopC_chain ih hl4 h
            · rw [if_neg hcond] at h
              exact parseAssocLoopC_chain ih hl3 h

theorem parsePairC_late (n : Nat) (ih : lateAt n) (p p1 : parser) (x : Pair)
    (c c1 : Nat) (hok : p.es.cause = none) (hs : p.Sync)
    (h : parser.parsePairC (n + 1) p c = some (x, p1, c1)) : parser.Late c p1 c1 := by
  have horig : parser.parsePair (n + 1) p = some (x, p1) :=
    erase_some (parsePairC_erase n (parseErase n) p c) h
  rw [parser.parsePairC] at h
  cases hE : p.expectPC n keyPred
      "key in association list pair must be of symbol or interpreted string form" c with
  | none => simp [hE] at h
  | some r =>
    obtain ⟨b, q, c2⟩ := r
    simp only [hE] at h
    have hEo := erase_some (expectPC_erase n p keyPred _ c) hE
    by_cases hkp : keyPred p.next = true
    · have hcq : parser.Calm c q c2 := by
        unfold parser.expectPC at hE
        rw [if_neg (by simp [hkp])] at hE
        cases hcons : p.consumeC n c with
        | none => simp [hcons] at hE
        | some r =>
          obtain ⟨q1, c3⟩ := r
          simp only [hcons, Option.some.injEq, Prod.mk.injEq] at hE
          obtain ⟨-, rfl, rfl⟩ := hE
          exact (consumeC_calm (parser.Calm.start hok hs) hcons).1
      cases hA : q.acceptC n lexKind.Colon c2 with
      | none => simp [hA] at h
      | some r =>
        obtain ⟨ok, q2, c3⟩ := r
        simp only [hA] at h
        obtain ⟨a1, a2, -⟩ := acceptC_calm hcq hA
        have hAo := erase_some (acceptC_erase n q lexKind.Colon c2) hA
        generalize hp3 : (if (!ok) = true then
            q2.posError
              (error.New "key in association list pair must be immediately followed by colon")
              q2.prev.pos
          else q2) = p3 at h
        have hsplit : (∃ e, p3.es.cause = some e ∧ keyError e = true) ∨
            parser.Calm c p3 c3 := by
          cases ok with
          | true =>
            right
            simp only [Bool.not_true, Bool.false_eq_true, if_false] at hp3
            rw [← hp3]; exact a1
          | false =>
            simp only [Bool.not_false, if_true] at hp3
            cases hq2 : q2.es.cause with
            | none =>
              left
              exact ⟨error.Wrap (error.New
                "key in association list pair must be immediately followed by colon")
                q2.prev.pos.String, by rw [← hp3]; exact posError_cause _ _ _ hq2, rfl⟩
            | some e =>
              right
              rw [← hp3]
              refine ⟨a1.1, fun hn => ?_, fun e2 _ => a1.2.2 e hq2⟩
              rw [posError_keeps _ _ _ _ hq2] at hn
              cases hn
        rcases hsplit with ⟨e, he, hk⟩ | hc3
        · exact parser.Late.of_key
            (parsePair_keeps horig hEo hAo (by rw [hp3]; exact he)) hk
        · cases hS : p3.acceptC n lexKind.Space c3 with
          | none => simp [hS] at h
          | some r =>
            obtain ⟨b4, q4, c4⟩ := r
            simp only [hS] at h
            obtain ⟨s1, -, s3⟩ := acceptC_calm hc3 hS
            have hns := s3 rfl
            have alive : q4.next.k ≠ lexKind.Eof → q4.es.cause = none := by
              intro hne
              cases hq4 : q4.es.cause with
              | none => rfl
              | some e => exact absurd (s1.2.2 e hq4) hne
            by_cases h1 : q4.isP lexToken.isString = true
            · rw [if_pos h1] at h
              cases hp : q4.parseStringC n c4 with
              | none => simp [hp] at h
              | some r =>
                obtain ⟨s, q5, c5⟩ := r
                simp only [hp, Option.some.injEq, Prod.mk.injEq] at h
                obtain ⟨-, rfl, rfl⟩ := h
                exact (parseStringC_calm s1 hp).late
            rw [if_neg h1] at h
            by_cases h2 : q4.is lexKind.LBracket = true
            · rw [if_pos h2] at h
              have hk4 : q4.next.k = lexKind.LBracket := by simpa [parser.is] using h2
              have hq4 := alive (by rw [hk4]; decide)
              cases hp : parser.parseListC n q4 c4 with
              | none => simp [hp] at h
              | some r =>
                obtain ⟨s, q5, c5⟩ := r
                simp only [hp, Option.some.injEq, Prod.mk.injEq] at h
                obtain ⟨-, rfl, rfl⟩ := h
                have := ih.2.1 _ _ _ _ _ hq4 (s1.2.1 hq4) hp
                rw [s1.1] at this
                exact this
            rw [if_neg h2] at h
            by_cases h3 : q4.is lexKind.LBrace = true
            · rw [if_pos h3] at h
              have hk4 : q4.next.k = lexKind.LBrace := by simpa [parser.is] using h3
              have hq4 := alive (by rw [hk4]; decide)
              cases hp : parser.parseAssocC n q4 c4 with
              | none => simp [hp] at h
              | some r =>
                obtain ⟨s, q5, c5⟩ := r
                simp only [hp, Option.some.injEq, Prod.mk.injEq] at h
                obtain ⟨-, rfl, rfl⟩ := h
                have := ih.2.2.2.1 _ _ _ _ _ hq4 (s1.2.1 hq4) hp
                rw [s1.1] at this
                exact this
            rw [if_neg h3] at h
            split at h
            · simp only [Option.some.injEq, Prod.mk.injEq] at h
              obtain ⟨-, rfl, rfl⟩ := h
              exact posError_late s1 hns _ _
            · simp only [Option.some.injEq, Prod.mk.injEq] at h
              obtain ⟨-, rfl, rfl⟩ := h
              exact posError_late s1 hns _ _
    · have hq : q.es.cause = some (error.Wrap (error.New
          "key in association list pair must be of symbol or interpreted string form")
          p.next.pos.String) := by
        unfold parser.expectPC at hE
        rw [if_pos (by simpa using hkp)] at hE
        simp only [Option.some.injEq, Prod.mk.injEq] at hE
        obtain ⟨-, rfl, -⟩ := hE
        exact posError_cause _ _ _ hok
      exact parser.Late.of_key (parsePair_keeps_key horig hEo hq) rfl

theorem parseLate (fuel : Nat) : lateAt fuel := by
  induction fuel with
  | zero =>
    refine ⟨?_, ?_, ?_, ?_, ?_⟩
    · intro p p1 L L1 c c1 _ _ h; simp [parser.parseListLoopC] at h
    · intro p p1 x c c1 _ _ h; simp [parser.parseListC] at h
    · intro p p1 L L1 c c1 _ _ h; simp [parser.parseAssocLoopC] at h
    · intro p p1 x c c1 _ _ h; simp [parser.parseAssocC] at h
    · intro p p1 x c c1 _ _ h; simp [parser.parsePairC] at h
  | succ n ih =>
    exact ⟨parseListLoopC_late n ih, parseListC_late n ih, parseAssocLoopC_late n ih,
      parseAssocC_late n ih, parsePairC_late n ih⟩

theorem parseRootLoopC_late (n : Nat) : ∀ (q p1 : parser) (L L1 : List Elem)
    (c c2 c1 : Nat), parser.Late c q c2 →
    parser.parseRootLoopC n q L c2 = some (L1, p1, c1) → parser.Late c p1 c1 := by
  induction n with
  | zero => intro q p1 L L1 c c2 c1 _ h; simp [parser.parseRootLoopC] at h
  | succ n ihR =>
    intro p p1 L L1 c c2 c1 hl h
    have ih := parseLate n
    cases hq : p.es.cause with
    | some e =>
      rw [parseRootLoopC_err L c2 hq] at h
      simp only [Option.some.injEq, Prod.mk.injEq] at h
      obtain ⟨-, rfl, rfl⟩ := h
      exact hl
    | none =>
      obtain ⟨hs, rfl⟩ := hl.1 hq
      have hc : parser.Calm c2 p c2 := parser.Calm.start hq hs
      rw [parser.parseRootLoopC, if_pos (Sink.ok_of_none _ hq)] at h
      cases ha : p.acceptC n lexKind.Space c2 with
      | none => simp [ha] at h
      | some r =>
        obtain ⟨b, q, c3⟩ := r
        obtain ⟨a1, a2, a3⟩ := acceptC_calm hc ha
        simp only [ha] at h
        cases b with
        | true => exact ihR _ _ _ _ _ _ _ a1.late h
        | false =>
          obtain ⟨rfl, -⟩ := a2 rfl
          have hns := a3 rfl
          simp only at h
          by_cases h1 : q.isP lexToken.isString = true
          · rw [if_pos h1] at h
            cases hp : q.parseStringC n c3 with
            | none => simp [hp] at h
            | some r =>
              obtain ⟨s, q2, c4⟩ := r
              simp only [hp] at h
              exact ihR _ _ _ _ _ _ _ (parseStringC_calm a1 hp).late h
          rw [if_neg h1] at h
          by_cases h2 : q.is lexKind.LBracket = true
          · rw [if_pos h2] at h
            cases hp : parser.parseListC n q c3 with
            | none => simp [hp] at h
            | some r =>
              obtain ⟨s, q2, c4⟩ := r
              simp only [hp] at h
              have := ih.2.1 _ _ _ _ _ hq hs hp
              rw [a1.1] at this
              exact ihR _ _ _ _ _ _ _ this h
          rw [if_neg h2] at h
          by_cases h3 : q.is lexKind.LBrace = true
          · rw [if_pos h3] at h
            cases hp : parser.parseAssocC n q c3 with
            | none => simp [hp] at h
            | some r =>
              obtain ⟨s, q2, c4⟩ := r
              simp only [hp] at h
              have := ih.2.2.2.1 _ _ _ _ _ hq hs hp
              rw [a1.1] at this
              exact ihR _ _ _ _ _ _ _ this h
          rw [if_neg h3] at h
          split at h
          · simp only [Option.some.injEq, Prod.mk.injEq] at h
            obtain ⟨-, rfl, rfl⟩ := h
            exact a1.late
          · exact ihR _ _ _ _ _ _ _ (posError_late a1 hns _ _) h

theorem parseRootC_late (n : Nat) (reader : RuneReader) (elems : List Elem) (p1 : parser)
    (c1 : Nat) (h : (newParser reader).parseRootC n 0 = some (elems, p1, c1)) :
    parser.Late 0 p1 c1 := by
  unfold parser.parseRootC parser.lexC at h
  cases hr : (newParser reader).lexer.readToken n with
  | none => simp [hr] at h
  | some r =>
    obtain ⟨tok, err, lx⟩ := r
    obtain ⟨-, -, r3, -, r5, r6⟩ := readToken_some _ _ _ _ _ hr
    simp only [hr] at h
    have hstart : parser.Calm 0
        { lexer := lx, next := tok, prev := (newParser reader).prev,
          es := (newParser reader).es.Send err } 0 := by
      refine ⟨rfl, fun _ => r3, fun e he => ?_⟩
      have hes : ((newParser reader).es.Send err).cause = err := by
        simp [Sink.Send, newParser]
      simp only [hes] at he
      exact r6 (by rw [he]; exact fun hx => Option.noConfusion hx)
    exact parseRootLoopC_late n _ _ _ _ _ _ _ hstart.late h

/-- C25, amended: `ParseC` is `Parse` with a count of the calls of `readToken` made while
the error sink of the parser already held an error.  It returns whenever the fuel is at
least three units per rune plus eight, it returns what `Parse` returns, and the count is
zero when `Parse` succeeds and whenever the error is not one of the two key errors of
`parsePair` (wrong form of key, no colon after the key). -/
theorem C25_late_calls (reader : RuneReader) (fuel : Nat) :
    (3 * reader.runes.length + 8 ≤ fuel →
      ∃ elems err c, ParseC fuel reader = some (elems, err, c)) ∧
    ∀ elems err c, ParseC fuel reader = some (elems, err, c) →
      Parse fuel reader = some (elems, err) ∧ (err = none → c = 0) ∧
      (∀ e, err = some e → keyError e = false → c = 0) := by
  have her := ParseC_erase fuel reader
  refine ⟨fun hf => ?_, fun elems err c h => ?_⟩
  · obtain ⟨elems, err, hp, -⟩ := Parse_total fuel reader hf
    rw [hp] at her
    cases hc : ParseC fuel reader with
    | none => rw [hc] at her; cases her
    | some r =>
      obtain ⟨a, b, c⟩ := r
      exact ⟨a, b, c, rfl⟩
  · refine ⟨by rw [← her, h]; rfl, ?_⟩
    unfold ParseC at h
    cases hr : (newParser reader).parseRootC fuel 0 with
    | none => simp [hr] at h
    | some r =>
      obtain ⟨el, p, c2⟩ := r
      have hl := parseRootC_late fuel reader el p c2 hr
      simp only [hr] at h
      by_cases hn : p.err = none
      · rw [if_pos hn] at h
        simp only [Option.some.injEq, Prod.mk.injEq] at h
        obtain ⟨-, rfl, rfl⟩ := h
        exact ⟨fun _ => (hl.1 hn).2, fun e he => Option.noConfusion he⟩
      · rw [if_neg hn] at h
        simp only [Option.some.injEq, Prod.mk.injEq] at h
        obtain ⟨-, rfl, rfl⟩ := h
        exact ⟨fun he => absurd he hn, fun e he hk => (hl.2 e he hk).1⟩

theorem C25_late_calls_witness :
    ParseC 14 (RuneReader.mk [91, 58] none) =
      some ([], some (error.Wrap (error.New "expected string, list or association list")
        (LexPos.mk 1 1).String), 0) ∧
    Parse 14 (RuneReader.mk [91, 58] none) =
      some ([], some (error.Wrap (error.New "expected string, list or association list")
        (LexPos.mk 1 1).String)) ∧
    (LexPos.mk 1 1).String = "1:1" :=
  ⟨rfl, ((C25_late_calls (RuneReader.mk [91, 58] none) 14).2 _ _ _ rfl).1, by decide⟩

/-- C25, as stated, fails: on the input `{:a}` the error of the key is recorded first, and
`parsePair` goes on and reads two more tokens, the symbol `a` and the closing brace; on
`{: a b` four tokens are read after the error. -/
theorem C25_late_calls_counterexample :
    ParseC 23 (RuneReader.mk [123, 58, 97, 125] none) =
      some ([], some (error.Wrap (error.New
        "key in association list pair must be of symbol or interpreted string form")
        (LexPos.mk 1 1).String), 2) ∧
    ParseC 29 (RuneReader.mk [123, 58, 32, 97, 32, 98] none) =
      some ([], some (error.Wrap (error.New
        "key in association list pair must be of symbol or interpreted string form")
        (LexPos.mk 1 1).String), 4) ∧
    (LexPos.mk 1 1).String = "1:1" :=
  ⟨rfl, rfl, by decide⟩

/-! ## The canonical rendering -/

theorem renderElems_cons (e : Elem) (rest : List Elem) :
    renderElems (e :: rest) = renderElem e ++ moreElems rest := by
  cases rest <;> rfl

theorem renderPairList_cons (q : Pair) (rest : List Pair) :
    renderPairList (q :: rest) = renderPair q ++ morePairs rest := by
  cases rest <;> rfl

theorem validText_valid {s : Text} (h : validText s = true) : ∀ r ∈ s, validRune r := by
  intro r hr
  have := List.all_eq_true.1 h r hr
  simpa using this

theorem renderElem_spaceStop (e : Elem) (Y : List rune) : spaceStop (renderElem e ++ Y) := by
  cases e with
  | String s => exact ⟨by decide, by decide⟩
  | List pos L => exact ⟨by decide, by decide⟩
  | Assoc pos L => exact ⟨by decide, by decide⟩

theorem renderPair_spaceStop (q : Pair) (Y : List rune) : spaceStop (renderPair q ++ Y) := by
  cases q with
  | mk K V => exact ⟨by decide, by decide⟩

theorem stopOk_moreElems (rest : List Elem) (Z : List rune) (hz : stopOk Z) :
    stopOk (moreElems rest ++ Z) := by
  cases rest with
  | nil => exact hz
  | cons e rest2 =>
    refine Or.inl ⟨rfl, ?_⟩
    show spaceStop (renderElems (e :: rest2) ++ Z)
    rw [renderElems_cons, List.append_assoc]
    exact renderElem_spaceStop _ _

theorem stopOk_morePairs (rest : List Pair) (Z : List rune) (hz : stopOk Z) :
    stopOk (morePairs rest ++ Z) := by
  cases rest with
  | nil => exact hz
  | cons e rest2 =>
    refine Or.inl ⟨rfl, ?_⟩
    show spaceStop (renderPairList (e :: rest2) ++ Z)
    rw [renderPairList_cons, List.append_assoc]
    exact renderPair_spaceStop _ _

theorem stopKind_ne_string (X : List rune) : (stopKind X).isString = false := by
  unfold stopKind
  cases X with
  | nil => rfl
  | cons r Y =>
    simp only
    split
    · rfl
    · split <;> rfl

/-- The token that the runes after a rendered element begin with. -/
theorem NextToken_stop (fuel : Nat) (pos : LexPos) (X : List rune) (pk : lexKind)
    (hx : stopOk X) (hpk : pk ≠ lexKind.Space) (hf : 2 ≤ fuel) :
    NextToken fuel pos X pk { k := stopKind X, s := [], pos := pos }
      (posAfter pos (X.take 1)) X.tail := by
  cases X with
  | nil => exact NextToken_eof fuel pos pk (by omega)
  | cons r Y =>
    rcases hx with ⟨rfl, hs⟩ | rfl | rfl
    · have := NextToken_of_Begin
        (BeginToken_space fuel pos 32 [] Y pk hpk (by decide) (fun r hr => by cases hr) hs
          (by simpa using hf))
      simpa [stopKind] using this
    · exact NextToken_struct fuel pos 93 lexKind.RBracket Y pk rfl (by omega)
    · exact NextToken_struct fuel pos 125 lexKind.RBrace Y pk rfl (by omega)

theorem stop_length (X : List rune) : X.tail.length + 1 ≤ X.length + 1 := by
  cases X <;> simp

theorem NextToken_string (fuel : Nat) (pos : LexPos) (s X : List rune) (pk : lexKind)
    (hpk : pk.isString = false) (hs : validText s = true)
    (hf : (renderString s ++ X).length < fuel) :
    NextToken fuel pos (renderString s ++ X) pk
      { k := lexKind.InterpString, s := s, pos := pos } (posAfter pos (renderString s)) X := by
  have := NextToken_interp fuel pos s X pk hpk (validText_valid hs)
    (by simp [renderString] at hf; omega)
  simpa [renderString] using this

/-- The first token of a rendered element. -/
theorem NextToken_firstElem (fuel : Nat) (pos : LexPos) (e : Elem) (X : List rune)
    (pk : lexKind) (hpk : pk.isString = false) (he : e.textsOk = true)
    (hf : (renderElem e ++ X).length < fuel) :
    NextToken fuel pos (renderElem e ++ X) pk (firstElem pos e X).1 (firstElem pos e X).2.1
      (firstElem pos e X).2.2 := by
  cases e with
  | String s =>
    simp only [Elem.textsOk] at he
    exact NextToken_string fuel pos s.V X pk hpk he hf
  | List p L =>
    have := NextToken_struct fuel pos 91 lexKind.LBracket (renderElems L ++ 93 :: X) pk rfl
      (by omega)
    simpa [renderElem, firstElem] using this
  | Assoc p L =>
    have := NextToken_struct fuel pos 123 lexKind.LBrace (renderPairList L ++ 125 :: X) pk rfl
      (by omega)
    simpa [renderElem, firstElem] using this

/-- The first token of rendered elements joined by spaces and followed by `Z`. -/
theorem NextToken_firstElems (fuel : Nat) (pos : LexPos) (L : List Elem) (Z : List rune)
    (pk : lexKind) (hpk : pk.isString = false) (hsp : pk ≠ lexKind.Space)
    (hz : stopOk Z) (hl : elemsOk L = true) (hf : (renderElems L ++ Z).length + 1 < fuel) :
    NextToken fuel pos (renderElems L ++ Z) pk (firstElems pos L Z).1 (firstElems pos L Z).2.1
      (firstElems pos L Z).2.2 := by
  cases L with
  | nil => exact NextToken_stop fuel pos Z pk hz hsp (by omega)
  | cons e rest =>
    simp only [elemsOk, Bool.and_eq_true] at hl
    rw [renderElems_cons, List.append_assoc] at hf ⊢
    exact NextToken_firstElem fuel pos e _ pk hpk hl.1 (by omega)

/-- The first token of a rendered pair: its key. -/
theorem NextToken_firstPair (fuel : Nat) (pos : LexPos) (q : Pair) (X : List rune)
    (pk : lexKind) (hpk : pk.isString = false) (hq : q.textsOk = true)
    (hf : (renderPair q ++ X).length < fuel) :
    NextToken fuel pos (renderPair q ++ X) pk (firstPair pos q X).1 (firstPair pos q X).2.1
      (firstPair pos q X).2.2 := by
  cases q with
  | mk K V =>
    simp only [Pair.textsOk, Bool.and_eq_true] at hq
    have := NextToken_string fuel pos K.V (58 :: (renderElem V ++ X)) pk hpk hq.1
      (by simpa [renderPair] using hf)
    simpa [renderPair, firstPair, Pair.K, Pair.V] using this

/-- The first token of rendered pairs joined by spaces and followed by `Z`. -/
theorem NextToken_firstPairs (fuel : Nat) (pos : LexPos) (L : List Pair) (Z : List rune)
    (pk : lexKind) (hpk : pk.isString = false) (hsp : pk ≠ lexKind.Space)
    (hz : stopOk Z) (hl : pairsOk L = true) (hf : (renderPairList L ++ Z).length + 1 < fuel) :
    NextToken fuel pos (renderPairList L ++ Z) pk (firstPairs pos L Z).1
      (firstPairs pos L Z).2.1 (firstPairs pos L Z).2.2 := by
  cases L with
  | nil => exact NextToken_stop fuel pos Z pk hz hsp (by omega)
  | cons q rest =>
    simp only [pairsOk, Bool.and_eq_true] at hl
    rw [renderPairList_cons, List.append_assoc] at hf ⊢
    exact NextToken_firstPair fuel pos q _ pk hpk hl.1 (by omega)

/-! ## Parsing a canonical rendering -/

theorem firstElem_kind (pos : LexPos) (e : Elem) (X : List rune) :
    (firstElem pos e X).1.k = lexKind.InterpString ∨
    (firstElem pos e X).1.k = lexKind.LBracket ∨ (firstElem pos e X).1.k = lexKind.LBrace := by
  cases e with
  | String s => exact Or.inl rfl
  | List p L => exact Or.inr (Or.inl rfl)
  | Assoc p L => exact Or.inr (Or.inr rfl)

theorem firstElem_length (pos : LexPos) (e : Elem) (X : List rune) :
    (firstElem pos e X).2.2.length + 1 ≤ (renderElem e ++ X).length ∧
    X.length ≤ (firstElem pos e X).2.2.length := by
  cases e with
  | String s => simp [firstElem, renderElem, renderString]; omega
  | List p L => simp [firstElem, renderElem]; omega
  | Assoc p L => simp [firstElem, renderElem]; omega

theorem firstPair_length (pos : LexPos) (q : Pair) (X : List rune) :
    (firstPair pos q X).2.2.length + 1 ≤ (renderPair q ++ X).length ∧
    (renderElem q.V ++ X).length + 1 ≤ (firstPair pos q X).2.2.length := by
  cases q with
  | mk K V => simp [firstPair, renderPair, renderString, Pair.V]; omega

theorem parseListLoop_value {n : Nat} {p : parser} (L : List Elem) (hok : p.es.cause = none)
    (hk : p.next.k = lexKind.InterpString ∨ p.next.k = lexKind.LBracket ∨
      p.next.k = lexKind.LBrace) :
    parser.parseListLoop (n + 1) p L =
      (p.parseValue n).bind (fun r => parser.parseListLoop n r.2 (L ++ [r.1])) := by
  have hs : p.next.k ≠ lexKind.Space := by
    rcases hk with hk | hk | hk <;> rw [hk] <;> decide
  rw [parser.parseListLoop, if_pos (Sink.ok_of_none _ hok), accept_no hs]
  unfold parser.parseValue
  rcases hk with hk | hk | hk
  · simp only [parser.isP, lexToken.isString, lexKind.isString, hk, decide_True,
      decide_False, Bool.or_true, Bool.true_or, if_true]
    cases p.parseString n with
    | none => rfl
    | some r => rfl
  · simp only [parser.isP, parser.is, lexToken.isString, lexKind.isString, hk, decide_True,
      decide_False, Bool.or_self, Bool.false_eq_true, if_false, if_true, reduceCtorEq]
    cases parser.parseList n p with
    | none => rfl
    | some r => rfl
  · simp only [parser.isP, parser.is, lexToken.isString, lexKind.isString, hk, decide_True,
      decide_False, Bool.or_self, Bool.false_eq_true, if_false, if_true, reduceCtorEq]
    cases parser.parseAssoc n p with
    | none => rfl
    | some r => rfl

theorem parseRootLoop_value {n : Nat} {p : parser} (L : List Elem) (hok : p.es.cause = none)
    (hk : p.next.k = lexKind.InterpString ∨ p.next.k = lexKind.LBracket ∨
      p.next.k = lexKind.LBrace) :
    parser.parseRootLoop (n + 1) p L =
      (p.parseValue n).bind (fun r => parser.parseRootLoop n r.2 (L ++ [r.1])) := by
  have hs : p.next.k ≠ lexKind.Space := by
    rcases hk with hk | hk | hk <;> rw [hk] <;> decide
  rw [parser.parseRootLoop, if_pos (Sink.ok_of_none _ hok), accept_no hs]
  unfold parser.parseValue
  rcases hk with hk | hk | hk
  · simp only [parser.isP, lexToken.isString, lexKind.isString, hk, decide_True,
      decide_False, Bool.or_true, Bool.true_or, if_true]
    cases p.parseString n with
    | none => rfl
    | some r => rfl
  · simp only [parser.isP, parser.is, lexToken.isString, lexKind.isString, hk, decide_True,
      decide_False, Bool.or_self, Bool.false_eq_true, if_false, if_true, reduceCtorEq]
    cases parser.parseList n p with
    | none => rfl
    | some r => rfl
  · simp only [parser.isP, parser.is, lexToken.isString, lexKind.isString, hk, decide_True,
      decide_False, Bool.or_self, Bool.false_eq_true, if_false, if_true, reduceCtorEq]
    cases parser.parseAssoc n p with
    | none => rfl
    | some r => rfl

theorem parseListLoop_space {n : Nat} {p : parser} {tok tok2 : lexToken} {pos pos2 : LexPos}
    {input rest : List rune} (h : p.PReady tok pos input) (hk : tok.k = lexKind.Space)
    (hn : NextToken n pos input tok.k tok2 pos2 rest) (L : List Elem) :
    ∃ p1, parser.parseListLoop (n + 1) p L = parser.parseListLoop n p1 L ∧
      p1.PReady tok2 pos2 rest := by
  obtain ⟨p1, e1, e2, -⟩ := accept_yes h (by rw [hk]; decide) hn
  rw [hk] at e1
  exact ⟨p1, by rw [parser.parseListLoop, if_pos h.es_ok, e1], e2⟩

/-- A rendered string is parsed as a string. -/
theorem valueParses_string (s : Str) : valueParses (Elem.String s) := by
  intro X n p pos hx he hn h
  have h1 : p.PReady { k := lexKind.InterpString, s := s.V, pos := pos }
      (posAfter pos (renderString s.V)) X := h
  obtain ⟨p1, e1, r1⟩ := parseString_ready h1 (by simp)
    (NextToken_stop n _ X lexKind.InterpString hx (by decide) (by omega))
  refine ⟨Elem.String { pos := pos, V := s.V }, p1, ?_, rfl, r1⟩
  unfold parser.parseValue
  simp only [parser.isP, h1.2.1, lexToken.isString, lexKind.isString, decide_True,
    Bool.or_true, Bool.true_or, if_true, e1]

/-- A rendered list is parsed as a list, when its elements are. -/
theorem valueParses_list (pos0 : LexPos) (L : List Elem) (ih : listParses L) :
    valueParses (Elem.List pos0 L) := by
  intro X n p pos hx he hn h
  have h1 : p.PReady { k := lexKind.LBracket, s := [], pos := pos } (pos.update 91)
      (renderElems L ++ 93 :: X) := h
  have hl : elemsOk L = true := he
  have hlen : (firstElem pos (Elem.List pos0 L) X).2.2.length =
      (renderElems L ++ 93 :: X).length := rfl
  rw [hlen] at hn
  obtain ⟨m, rfl⟩ : ∃ m, n = m + 1 := ⟨n - 1, by omega⟩
  have hfe : (firstElems (pos.update 91) L (93 :: X)).2.2.length + 1 ≤
      (renderElems L ++ 93 :: X).length := by
    cases L with
    | nil => simp [firstElems]
    | cons e rest =>
      have := (firstElem_length (pos.update 91) e (moreElems rest ++ 93 :: X)).1
      rw [renderElems_cons, List.append_assoc]
      exact this
  obtain ⟨p1, e1, r1, q1⟩ := consume_ready h1 (by simp)
    (NextToken_firstElems m (pos.update 91) L (93 :: X) lexKind.LBracket rfl (by decide)
      (Or.inr (Or.inl rfl)) hl (by omega))
  obtain ⟨L1, p2, e2, s2, r2⟩ := ih X m p1 (pos.update 91) [] hx hl (by omega) r1
  refine ⟨Elem.List p1.prev.pos L1, p2, ?_, ?_, r2⟩
  · unfold parser.parseValue
    simp only [parser.isP, parser.is, h1.2.1, lexToken.isString, lexKind.isString,
      decide_True, decide_False, Bool.or_self, Bool.false_eq_true, if_false, if_true,
      reduceCtorEq]
    rw [parser.parseList, e1]
    simp only [e2, List.nil_append]
  · simp only [Elem.strip, s2]

/-- The closing bracket ends the loop of `parseList`. -/
theorem listParses_nil : listParses [] := by
  intro X n p pos acc hx _ hn h
  have h1 : p.PReady { k := lexKind.RBracket, s := [], pos := pos } (pos.update 93) X := h
  obtain ⟨m, rfl⟩ : ∃ m, n = m + 1 := ⟨n - 1, by omega⟩
  obtain ⟨p1, e1, r1, -⟩ := accept_yes h1 (by simp)
    (NextToken_stop m _ X lexKind.RBracket hx (by decide) (by omega))
  refine ⟨[], p1, ?_, rfl, r1⟩
  rw [parser.parseListLoop, if_pos h1.es_ok, accept_no (by rw [h1.2.1]; simp)]
  simp only [parser.isP, parser.is, h1.2.1, lexToken.isString, lexKind.isString,
    decide_True, decide_False, Bool.or_self, Bool.false_eq_true, if_false, reduceCtorEq, e1,
    List.append_nil]

/-- The loop of `parseList` parses one more element in front. -/
theorem listParses_cons (e : Elem) (rest : List Elem) (ihe : valueParses e)
    (ihl : listParses rest) : listParses (e :: rest) := by
  intro X n p pos acc hx hok hn h
  simp only [elemsOk, Bool.and_eq_true] at hok
  have h1 : p.ReadyAt (firstElem pos e (moreElems rest ++ 93 :: X)) := h
  have hlen : (firstElems pos (e :: rest) (93 :: X)).2.2.length =
      (firstElem pos e (moreElems rest ++ 93 :: X)).2.2.length := rfl
  rw [hlen] at hn
  obtain ⟨hl1, hl2⟩ := firstElem_length pos e (moreElems rest ++ 93 :: X)
  obtain ⟨m, rfl⟩ : ∃ m, n = m + 1 := ⟨n - 1, by omega⟩
  have hx1 : stopOk (moreElems rest ++ 93 :: X) :=
    stopOk_moreElems rest _ (Or.inr (Or.inl rfl))
  obtain ⟨e1, p1, v1, s1, r1⟩ := ihe _ m p pos hx1 hok.1 (by omega) h1
  have hk := firstElem_kind pos e (moreElems rest ++ 93 :: X)
  rw [← h1.2.1] at hk
  rw [parseListLoop_value acc h1.1 hk, v1]
  simp only [Option.some_bind]
  cases rest with
  | nil =>
    simp only [moreElems, List.nil_append, List.length_cons] at hl2 hn
    obtain ⟨L1, p2, e2, s2, r2⟩ := ihl X m p1 (posAfter pos (renderElem e)) (acc ++ [e1]) hx
      rfl (by simp only [firstElems, List.tail_cons]; omega) r1
    refine ⟨e1 :: L1, p2, by rw [e2]; simp, ?_, ?_⟩
    · simp only [stripElems, s1] at s2 ⊢
      rw [s2]
    · have hp : posAfter (posAfter pos (renderElem e)) (renderElems [] ++ [93]) =
          posAfter pos (renderElems [e] ++ [93]) := by
        rw [renderElems_cons]
        simp only [moreElems, List.append_nil, renderElems, List.nil_append, posAfter_append]
      rw [← hp]
      exact r2
  | cons e2 rest2 =>
    have hX : moreElems (e2 :: rest2) ++ 93 :: X =
        32 :: (renderElems (e2 :: rest2) ++ 93 :: X) := rfl
    rw [hX] at r1 hl2 hn
    simp only [List.length_cons] at hl2
    have hk1 : (stopKind (32 :: (renderElems (e2 :: rest2) ++ 93 :: X))) = lexKind.Space := rfl
    rw [hk1] at r1
    simp only [List.take_succ_cons, List.take_zero, List.tail_cons] at r1
    obtain ⟨hf1, -⟩ := firstElem_length ((posAfter pos (renderElem e)).update 32) e2
      (moreElems rest2 ++ 93 :: X)
    have hrw : renderElems (e2 :: rest2) ++ 93 :: X =
        renderElem e2 ++ (moreElems rest2 ++ 93 :: X) := by
      rw [renderElems_cons, List.append_assoc]
    rw [hrw] at r1 hl2 hn
    obtain ⟨m2, rfl⟩ : ∃ m2, m = m2 + 1 := ⟨m - 1, by omega⟩
    obtain ⟨p2, e2', r2⟩ := parseListLoop_space r1 rfl
      (NextToken_firstElem m2 _ e2 (moreElems rest2 ++ 93 :: X) lexKind.Space rfl
        (by simp only [elemsOk, Bool.and_eq_true] at hok; exact hok.2.1) (by omega))
      (acc ++ [e1])
    obtain ⟨L1, p3, e3, s3, r3⟩ := ihl X m2 p2 ((posAfter pos (renderElem e)).update 32)
      (acc ++ [e1]) hx hok.2 (by simp only [firstElems]; omega) r2
    refine ⟨e1 :: L1, p3, by rw [e2', e3]; simp, ?_, ?_⟩
    · simp only [stripElems, s1] at s3 ⊢
      rw [s3]
    · have hp : posAfter ((posAfter pos (renderElem e)).update 32)
          (renderElems (e2 :: rest2) ++ [93]) =
          posAfter pos (renderElems (e :: e2 :: rest2) ++ [93]) := by
        rw [renderElems_cons e (e2 :: rest2)]
        simp only [moreElems, List.append_assoc, posAfter_append, List.cons_append, posAfter]
      rw [← hp]
      exact r3

/-- A rendered association list is parsed as an association list, when its pairs are. -/
theorem valueParses_assoc (pos0 : LexPos) (L : List Pair) (ih : assocParses L) :
    valueParses (Elem.Assoc pos0 L) := by
  intro X n p pos hx he hn h
  have h1 : p.PReady { k := lexKind.LBrace, s := [], pos := pos } (pos.update 123)
      (renderPairList L ++ 125 :: X) := h
  have hl : pairsOk L = true := he
  have hlen : (firstElem pos (Elem.Assoc pos0 L) X).2.2.length =
      (renderPairList L ++ 125 :: X).length := rfl
  rw [hlen] at hn
  obtain ⟨m, rfl⟩ : ∃ m, n = m + 1 := ⟨n - 1, by omega⟩
  have hfe : (firstPairs (pos.update 123) L (125 :: X)).2.2.length + 1 ≤
      (renderPairList L ++ 125 :: X).length := by
    cases L with
    | nil => simp [firstPairs]
    | cons e rest =>
      have := (firstPair_length (pos.update 123) e (morePairs rest ++ 125 :: X)).1
      rw [renderPairList_cons, List.append_assoc]
      exact this
  obtain ⟨p1, e1, r1, q1⟩ := consume_ready h1 (by simp)
    (NextToken_firstPairs m (pos.update 123) L (125 :: X) lexKind.LBrace rfl (by decide)
      (Or.inr (Or.inr rfl)) hl (by omega))
  obtain ⟨L1, p2, e2, s2, r2⟩ := ih X m p1 (pos.update 123) [] hx hl (by omega) r1
  refine ⟨Elem.Assoc p1.prev.pos L1, p2, ?_, ?_, r2⟩
  · unfold parser.parseValue
    simp only [parser.isP, parser.is, h1.2.1, lexToken.isString, lexKind.isString,
      decide_True, decide_False, Bool.or_self, Bool.false_eq_true, if_false, if_true,
      reduceCtorEq]
    rw [parser.parseAssoc, e1]
    simp only [e2, List.nil_append]
  · simp only [Elem.strip, s2]

/-- A rendered pair is parsed as a pair, when its value is. -/
theorem pairParses_mk (K : Str) (V : Elem) (ihv : valueParses V) :
    pairParses (Pair.mk K V) := by
  intro X n p pos hx hq hn h
  simp only [Pair.textsOk, Bool.and_eq_true] at hq
  have h1 : p.PReady { k := lexKind.InterpString, s := K.V, pos := pos }
      (posAfter pos (renderString K.V)) (58 :: (renderElem V ++ X)) := h
  have hlen : (firstPair pos (Pair.mk K V) X).2.2.length =
      (renderElem V ++ X).length + 1 := rfl
  rw [hlen] at hn
  obtain ⟨j, rfl⟩ : ∃ j, n = j + 1 := ⟨n - 1, by omega⟩
  obtain ⟨hf1, -⟩ := firstElem_length ((posAfter pos (renderString K.V)).update 58) V X
  obtain ⟨p1, e1, r1, q1⟩ := expectP_yes keyPred
    "key in association list pair must be of symbol or interpreted string form" h1 rfl
    (by simp) (NextToken_struct j _ 58 lexKind.Colon (renderElem V ++ X) _ rfl (by omega))
  obtain ⟨p2, e2, r2, q2⟩ := accept_yes r1 (by simp)
    (NextToken_firstElem j ((posAfter pos (renderString K.V)).update 58) V X lexKind.Colon
      rfl hq.2 (by omega))
  obtain ⟨v1, p5, ev, sv, rv⟩ := ihv X j p2 _ hx hq.2 (by omega) r2
  have hk := firstElem_kind ((posAfter pos (renderString K.V)).update 58) V X
  rw [← r2.2.1] at hk
  have hs : p2.next.k ≠ lexKind.Space := by
    rcases hk with hk | hk | hk <;> rw [hk] <;> decide
  refine ⟨Pair.mk { pos := p1.prev.pos, V := p1.prev.s } v1, p5, ?_, ?_, ?_⟩
  · rw [parser.parsePair, e1]
    simp only [e2, Bool.not_true, Bool.false_eq_true, if_false]
    rw [accept_no hs]
    unfold parser.parseValue at ev
    rcases hk with hk | hk | hk
    · simp only [parser.isP, lexToken.isString, lexKind.isString, hk, decide_True,
        decide_False, Bool.or_true, Bool.true_or, if_true] at ev ⊢
      cases hp : p2.parseString j with
      | none => rw [hp] at ev; cases ev
      | some r =>
        rw [hp] at ev
        simp only [Option.some.injEq, Prod.mk.injEq] at ev ⊢
        exact ⟨by rw [ev.1], ev.2⟩
    · simp only [parser.isP, parser.is, lexToken.isString, lexKind.isString, hk,
        decide_True, decide_False, Bool.or_self, Bool.false_eq_true, if_false, if_true,
        reduceCtorEq] at ev ⊢
      rw [ev]
    · simp only [parser.isP, parser.is, lexToken.isString, lexKind.isString, hk,
        decide_True, decide_False, Bool.or_self, Bool.false_eq_true, if_false, if_true,
        reduceCtorEq] at ev ⊢
      rw [ev]
  · simp only [Pair.strip, q1, sv]
  · have hp : posAfter ((posAfter pos (renderString K.V)).update 58) (renderElem V) =
        posAfter pos (renderPair (Pair.mk K V)) := by
      have hr : renderPair (Pair.mk K V) = renderString K.V ++ 58 :: renderElem V := rfl
      rw [hr, posAfter_append]
      rfl
    rw [← hp]
    exact rv

/-- The closing brace ends the loop of `parseAssoc`. -/
theorem assocParses_nil : assocParses [] := by
  intro X n p pos acc hx _ hn h
  have h1 : p.PReady { k := lexKind.RBrace, s := [], pos := pos } (pos.update 125) X := h
  obtain ⟨m, rfl⟩ : ∃ m, n = m + 1 := ⟨n - 1, by omega⟩
  obtain ⟨p1, e1, r1, -⟩ := accept_yes h1 (by simp)
    (NextToken_stop m _ X lexKind.RBrace hx (by decide) (by omega))
  refine ⟨[], p1, ?_, rfl, r1⟩
  rw [parser.parseAssocLoop, if_pos h1.es_ok, accept_no (by rw [h1.2.1]; simp)]
  simp only [e1, List.append_nil]

/-- The loop of `parseAssoc` parses one more pair in front. -/
theorem assocParses_cons (q : Pair) (rest : List Pair) (ihq : pairParses q)
    (ihl : assocParses rest) : assocParses (q :: rest) := by
  intro X n p pos acc hx hok hn h
  simp only [pairsOk, Bool.and_eq_true] at hok
  have h1 : p.ReadyAt (firstPair pos q (morePairs rest ++ 125 :: X)) := h
  have hlen : (firstPairs pos (q :: rest) (125 :: X)).2.2.length =
      (firstPair pos q (morePairs rest ++ 125 :: X)).2.2.length := rfl
  rw [hlen] at hn
  obtain ⟨hl1, hl2⟩ := firstPair_length pos q (morePairs rest ++ 125 :: X)
  obtain ⟨m, rfl⟩ : ∃ m, n = m + 1 := ⟨n - 1, by omega⟩
  have hx1 : stopOk (morePairs rest ++ 125 :: X) :=
    stopOk_morePairs rest _ (Or.inr (Or.inr rfl))
  obtain ⟨q1, p1, v1, s1, r1⟩ := ihq _ m p pos hx1 hok.1 (by omega) h1
  have hk : p.next.k = lexKind.InterpString := by rw [h1.2.1]; rfl
  rw [parser.parseAssocLoop, if_pos h1.es_ok, accept_no (by rw [hk]; decide)]
  simp only []
  rw [accept_no (by rw [hk]; decide)]
  simp only [parser.is, hk, decide_False, Bool.false_eq_true, if_false, reduceCtorEq, v1]
  have hvl : X.length + 1 ≤ (renderElem q.V ++ (morePairs rest ++ 125 :: X)).length := by
    simp only [List.length_append, List.length_cons]
    omega
  cases rest with
  | nil =>
    have hX : morePairs [] ++ 125 :: X = 125 :: X := rfl
    rw [hX] at r1
    have hk1 : p1.next.k = lexKind.RBrace := by rw [r1.2.1]; rfl
    simp only [hk1, decide_True, Bool.not_true, Bool.false_and, Bool.false_eq_true, if_false]
    obtain ⟨L1, p2, e2, s2, r2⟩ := ihl X m p1 (posAfter pos (renderPair q)) (acc ++ [q1]) hx
      rfl (by simp only [firstPairs, List.tail_cons]; omega) r1
    refine ⟨q1 :: L1, p2, by rw [e2]; simp, ?_, ?_⟩
    · simp only [stripPairs, s1] at s2 ⊢
      rw [s2]
    · have hp : posAfter (posAfter pos (renderPair q)) (renderPairList [] ++ [125]) =
          posAfter pos (renderPairList [q] ++ [125]) := by
        rw [renderPairList_cons]
        simp only [morePairs, List.append_nil, renderPairList, List.nil_append,
          posAfter_append]
      rw [← hp]
      exact r2
  | cons q2 rest2 =>
    have hX : morePairs (q2 :: rest2) ++ 125 :: X =
        32 :: (renderPairList (q2 :: rest2) ++ 125 :: X) := rfl
    rw [hX] at r1 hl2 hn hvl
    have hk1 : (stopKind (32 :: (renderPairList (q2 :: rest2) ++ 125 :: X))) =
        lexKind.Space := rfl
    rw [hk1] at r1
    simp only [List.take_succ_cons, List.take_zero, List.tail_cons] at r1
    obtain ⟨hf1, -⟩ := firstPair_length ((posAfter pos (renderPair q)).update 32) q2
      (morePairs rest2 ++ 125 :: X)
    have hrw : renderPairList (q2 :: rest2) ++ 125 :: X =
        renderPair q2 ++ (morePairs rest2 ++ 125 :: X) := by
      rw [renderPairList_cons, List.append_assoc]
    rw [hrw] at r1 hl2 hn hvl
    simp only [List.length_append, List.length_cons] at hl2 hf1 hvl
    have hk2 : p1.next.k = lexKind.Space := by rw [r1.2.1]
    simp only [hk2, decide_False, Bool.not_false, Bool.and_self, if_true, reduceCtorEq]
    obtain ⟨p2, e2', r2⟩ := expect_yes
      "association list pairs must be separated by whitespace" r1 (by simp)
      (NextToken_firstPair m _ q2 (morePairs rest2 ++ 125 :: X) lexKind.Space rfl
        (by simp only [pairsOk, Bool.and_eq_true] at hok; exact hok.2.1)
        (by simp only [List.length_append, List.length_cons]; omega))
    simp only at e2'
    rw [e2']
    simp only
    obtain ⟨L1, p3, e3, s3, r3⟩ := ihl X m p2 ((posAfter pos (renderPair q)).update 32)
      (acc ++ [q1]) hx hok.2 (by simp only [firstPairs]; omega) r2
    refine ⟨q1 :: L1, p3, by rw [e3]; simp, ?_, ?_⟩
    · simp only [stripPairs, s1] at s3 ⊢
      rw [s3]
    · have hp : posAfter ((posAfter pos (renderPair q)).update 32)
          (renderPairList (q2 :: rest2) ++ [125]) =
          posAfter pos (renderPairList (q :: q2 :: rest2) ++ [125]) := by
        rw [renderPairList_cons q (q2 :: rest2)]
        simp only [morePairs, List.append_assoc, posAfter_append, List.cons_append, posAfter]
      rw [← hp]
      exact r3

/-- The value branches parse every rendered element with valid texts. -/
theorem valueParses_all (e : Elem) : valueParses e :=
  @Elem.rec (fun e => valueParses e) (fun q => pairParses q) (fun L => listParses L)
    (fun L => assocParses L) valueParses_string
    (fun pos L ih => valueParses_list pos L ih) (fun pos L ih => valueParses_assoc pos L ih)
    (fun K V ih => pairParses_mk K V ih) listParses_nil
    (fun e rest ihe ihl => listParses_cons e rest ihe ihl) assocParses_nil
    (fun q rest ihq ihl => assocParses_cons q rest ihq ihl) e

/-- The loop of `parseRoot` parses the joined rendering of the roots `ts`. -/
theorem rootParses : ∀ (ts : List Elem) (n : Nat) (p : parser) (pos : LexPos)
    (acc : List Elem), elemsOk ts = true →
    3 * (renderElems ts).length + 5 ≤ n → p.ReadyAt (firstElems pos ts []) →
    ∃ L1 p1, parser.parseRootLoop n p acc = some (acc ++ L1, p1) ∧
      stripElems L1 = stripElems ts ∧ p1.es.cause = none := by
  intro ts
  induction ts with
  | nil =>
    intro n p pos acc _ hn h
    have h1 : p.PReady { k := lexKind.Eof, s := [], pos := pos } pos [] := h
    obtain ⟨m, rfl⟩ : ∃ m, n = m + 1 := ⟨n - 1, by omega⟩
    exact ⟨[], p, by rw [parseRootLoop_eof h1 rfl acc, List.append_nil], rfl, h1.1⟩
  | cons e rest ihl =>
    intro n p pos acc hok hn h
    simp only [elemsOk, Bool.and_eq_true] at hok
    have h1 : p.ReadyAt (firstElem pos e (moreElems rest ++ [])) := h
    have hlen : renderElems (e :: rest) = renderElem e ++ (moreElems rest ++ []) := by
      rw [renderElems_cons, List.append_nil]
    rw [hlen] at hn
    obtain ⟨hl1, hl2⟩ := firstElem_length pos e (moreElems rest ++ [])
    obtain ⟨m, rfl⟩ : ∃ m, n = m + 1 := ⟨n - 1, by omega⟩
    have hx1 : stopOk (moreElems rest ++ []) := stopOk_moreElems rest _ trivial
    obtain ⟨e1, p1, v1, s1, r1⟩ := valueParses_all e _ m p pos hx1 hok.1 (by omega) h1
    have hk := firstElem_kind pos e (moreElems rest ++ [])
    rw [← h1.2.1] at hk
    rw [parseRootLoop_value acc h1.1 hk, v1]
    simp only [Option.some_bind]
    cases rest with
    | nil =>
      obtain ⟨L1, p2, e2, s2, r2⟩ := ihl m p1 (posAfter pos (renderElem e)) (acc ++ [e1])
        rfl (by
          simp only [moreElems, List.append_nil, List.length_append, List.length_nil] at hl1 hn
          simp only [renderElems, List.length_nil]
          omega) r1
      refine ⟨e1 :: L1, p2, by rw [e2]; simp, ?_, r2⟩
      simp only [stripElems, s1] at s2 ⊢
      rw [s2]
    | cons e2 rest2 =>
      have hX : moreElems (e2 :: rest2) ++ [] = 32 :: (renderElems (e2 :: rest2) ++ []) := rfl
      rw [hX] at r1 hl1 hl2 hn
      simp only [List.length_cons, List.length_append] at hl1 hl2 hn
      have hk1 : (stopKind (32 :: (renderElems (e2 :: rest2) ++ []))) = lexKind.Space := rfl
      rw [hk1] at r1
      simp only [List.take_succ_cons, List.take_zero, List.tail_cons] at r1
      obtain ⟨hf1, -⟩ := firstElem_length ((posAfter pos (renderElem e)).update 32) e2
        (moreElems rest2 ++ [])
      have hrw : renderElems (e2 :: rest2) ++ [] = renderElem e2 ++ (moreElems rest2 ++ []) := by
        rw [renderElems_cons, List.append_assoc]
      rw [hrw] at r1
      have hrl : (renderElems (e2 :: rest2)).length =
          (renderElem e2 ++ (moreElems rest2 ++ [])).length := by
        rw [← hrw, List.append_nil]
      simp only [List.length_nil, Nat.add_zero] at hl1 hl2 hn
      obtain ⟨m2, rfl⟩ : ∃ m2, m = m2 + 1 := ⟨m - 1, by omega⟩
      obtain ⟨p2, e2', r2⟩ := parseRootLoop_space r1 rfl
        (NextToken_firstElem m2 _ e2 (moreElems rest2 ++ []) lexKind.Space rfl
          (by simp only [elemsOk, Bool.and_eq_true] at hok; exact hok.2.1) (by omega))
        (acc ++ [e1])
      obtain ⟨L1, p3, e3, s3, r3⟩ := ihl m2 p2 ((posAfter pos (renderElem e)).update 32)
        (acc ++ [e1]) hok.2 (by omega) r2
      refine ⟨e1 :: L1, p3, by rw [e2', e3]; simp, ?_, r3⟩
      simp only [stripElems, s1] at s3 ⊢
      rw [s3]

/-- C29: for every sequence `ts` of element trees whose string values and keys are valid
texts (sequences of Unicode scalar values), `Parse` of the canonical rendering of `ts`
(with every fuel of at least three units per rune plus eight) succeeds and returns
elements equal to `ts` once every position is set aside: the same variants, string
values, keys, child order and pair order. -/
theorem C29_render_roundtrip (ts : List Elem) (hok : elemsOk ts = true) (fuel : Nat)
    (hf : 3 * (renderElems ts).length + 8 ≤ fuel) :
    ∃ elems, Parse fuel { runes := renderElems ts, err := none } = some (elems, none) ∧
      stripElems elems = stripElems ts := by
  have hnt := NextToken_firstElems fuel { Line := 1, Column := 0 } ts [] lexKind.Eof rfl
    (by decide) trivial hok (by rw [List.append_nil]; omega)
  rw [List.append_nil] at hnt
  obtain ⟨p, e0, r0⟩ := parseRoot_ready hnt
  obtain ⟨L1, p1, e1, s1, c1⟩ := rootParses ts fuel p { Line := 1, Column := 0 } [] hok
    (by omega) r0
  rw [e1] at e0
  exact ⟨L1, Parse_of_parseRoot (by rw [e0]; rfl) c1, s1⟩

theorem C29_render_roundtrip_witness :
    elemsOk [Elem.List (LexPos.mk 0 0) [Elem.String (Str.mk (LexPos.mk 0 0) [97, 34, 10]),
        Elem.Assoc (LexPos.mk 0 0) [Pair.mk (Str.mk (LexPos.mk 0 0) [107])
          (Elem.List (LexPos.mk 0 0) []),
          Pair.mk (Str.mk (LexPos.mk 0 0) [107]) (Elem.String (Str.mk (LexPos.mk 0 0) []))]],
      Elem.String (Str.mk (LexPos.mk 0 0) [92])] = true ∧
    renderElems [Elem.List (LexPos.mk 0 0) [Elem.String (Str.mk (LexPos.mk 0 0) [97, 34, 10]),
        Elem.Assoc (LexPos.mk 0 0) [Pair.mk (Str.mk (LexPos.mk 0 0) [107])
          (Elem.List (LexPos.mk 0 0) []),
          Pair.mk (Str.mk (LexPos.mk 0 0) [107]) (Elem.String (Str.mk (LexPos.mk 0 0) []))]],
      Elem.String (Str.mk (LexPos.mk 0 0) [92])] =
      [91, 34, 97, 92, 34, 92, 110, 34, 32, 123, 34, 107, 34, 58, 91, 93, 32, 34, 107, 34, 58,
        34, 34, 125, 93, 32, 34, 92, 92, 34] ∧
    ∃ elems, Parse 98 (RuneReader.mk (renderElems [Elem.List (LexPos.mk 0 0)
        [Elem.String (Str.mk (LexPos.mk 0 0) [97, 34, 10]),
        Elem.Assoc (LexPos.mk 0 0) [Pair.mk (Str.mk (LexPos.mk 0 0) [107])
          (Elem.List (LexPos.mk 0 0) []),
          Pair.mk (Str.mk (LexPos.mk 0 0) [107]) (Elem.String (Str.mk (LexPos.mk 0 0) []))]],
      Elem.String (Str.mk (LexPos.mk 0 0) [92])]) none) = some (elems, none) ∧
      stripElems elems = stripElems [Elem.List (LexPos.mk 0 0)
        [Elem.String (Str.mk (LexPos.mk 0 0) [97, 34, 10]),
        Elem.Assoc (LexPos.mk 0 0) [Pair.mk (Str.mk (LexPos.mk 0 0) [107])
          (Elem.List (LexPos.mk 0 0) []),
          Pair.mk (Str.mk (LexPos.mk 0 0) [107]) (Elem.String (Str.mk (LexPos.mk 0 0) []))]],
      Elem.String (Str.mk (LexPos.mk 0 0) [92])] :=
  ⟨by decide, by decide, C29_render_roundtrip _ (by decide) 98 (by decide)⟩

theorem structKind_spaceStop {c : rune} {k : lexKind} (hc : structKind c = some k)
    (Y : List rune) : spaceStop (c :: Y) := by
  unfold structKind at hc
  split at hc
  · subst c; exact ⟨by decide, by decide⟩
  · split at hc
    · subst c; exact ⟨by decide, by decide⟩
    · split at hc
      · subst c; exact ⟨by decide, by decide⟩
      · split at hc
        · subst c; exact ⟨by decide, by decide⟩
        · split at hc
          · subst c; exact ⟨by decide, by decide⟩
          · cases hc

theorem prefixThen_spaceStop {c : rune} {k : lexKind} (hc : structKind c = some k)
    (ts : List Elem) (Y : List rune) : spaceStop (prefixThen ts (c :: Y)) := by
  cases ts with
  | nil => exact structKind_spaceStop hc Y
  | cons e rest => exact renderElem_spaceStop _ _

theorem prefixThen_append (ts : List Elem) (A B : List rune) :
    prefixThen ts (A ++ B) = prefixThen ts A ++ B := by
  induction ts with
  | nil => rfl
  | cons e rest ih => simp only [prefixThen, ih, List.append_assoc, List.cons_append]

theorem NextToken_firstPrefix (fuel : Nat) (pos : LexPos) (ts : List Elem) (c : rune)
    (k : lexKind) (Y : List rune) (pk : lexKind) (hc : structKind c = some k)
    (hpk : pk.isString = false) (hok : elemsOk ts = true)
    (hf : (prefixThen ts (c :: Y)).length < fuel) :
    NextToken fuel pos (prefixThen ts (c :: Y)) pk (firstPrefix pos ts (c :: Y)).1
      (firstPrefix pos ts (c :: Y)).2.1 (firstPrefix pos ts (c :: Y)).2.2 := by
  cases ts with
  | nil =>
    simp only [firstPrefix, prefixThen, List.headD_cons, hc, Option.getD_some,
      List.tail_cons]
    exact NextToken_struct fuel pos c k Y pk hc (by omega)
  | cons e rest =>
    simp only [elemsOk, Bool.and_eq_true] at hok
    exact NextToken_firstElem fuel pos e _ pk hpk hok.1 hf

theorem firstPrefix_nil {p : parser} {pos : LexPos} {c : rune} {k : lexKind} {Y : List rune}
    (hc : structKind c = some k) (h : p.ReadyAt (firstPrefix pos [] (c :: Y))) :
    p.PReady { k := k, s := [], pos := pos } (pos.update c) Y := by
  simp only [parser.ReadyAt, firstPrefix, List.headD_cons, hc, Option.getD_some,
    List.tail_cons] at h
  exact h

/-- A loop that parses values and skips spaces the way the loops of `parseRoot` and
`parseList` do parses the rendered elements `ts`, each followed by a space, and goes on
with the structural rune `c` as the lookahead. -/
theorem loop_prefix (loop : Nat → parser → List Elem → Option (List Elem × parser))
    (hv : ∀ (n : Nat) (p : parser) (L : List Elem), p.es.cause = none →
      (p.next.k = lexKind.InterpString ∨ p.next.k = lexKind.LBracket ∨
        p.next.k = lexKind.LBrace) →
      loop (n + 1) p L = (p.parseValue n).bind (fun r => loop n r.2 (L ++ [r.1])))
    (hs : ∀ (n : Nat) (p : parser) (tok tok2 : lexToken) (pos pos2 : LexPos)
      (input rest : List rune), p.PReady tok pos input → tok.k = lexKind.Space →
      NextToken n pos input tok.k tok2 pos2 rest →
      ∀ L, ∃ p1, loop (n + 1) p L = loop n p1 L ∧ p1.PReady tok2 pos2 rest)
    (Q : parser → Prop) (c : rune) (k : lexKind) (Y : List rune)
    (hc : structKind c = some k) :
    ∀ (ts : List Elem) (n : Nat) (p : parser) (pos : LexPos) (acc : List Elem),
      elemsOk ts = true → 3 * (prefixThen ts (c :: Y)).length + 5 ≤ n →
      p.ReadyAt (firstPrefix pos ts (c :: Y)) →
      (∀ (n1 : Nat) (p1 : parser) (acc1 : List Elem), 3 * (c :: Y).length + 5 ≤ n1 →
        p1.PReady { k := k, s := [], pos := posAfter pos (prefixThen ts []) }
          ((posAfter pos (prefixThen ts [])).update c) Y →
        ∃ L q, loop n1 p1 acc1 = some (L, q) ∧ Q q) →
      ∃ L q, loop n p acc = some (L, q) ∧ Q q := by
  intro ts
  induction ts with
  | nil =>
    intro n p pos acc _ hn h hcont
    exact hcont n p acc hn (firstPrefix_nil hc h)
  | cons e rest ih =>
    intro n p pos acc hok hn h hcont
    simp only [elemsOk, Bool.and_eq_true] at hok
    have h1 : p.ReadyAt (firstElem pos e (32 :: prefixThen rest (c :: Y))) := h
    have hlen : prefixThen (e :: rest) (c :: Y) =
        renderElem e ++ 32 :: prefixThen rest (c :: Y) := rfl
    rw [hlen] at hn
    obtain ⟨hl1, hl2⟩ := firstElem_length pos e (32 :: prefixThen rest (c :: Y))
    simp only [List.length_append, List.length_cons] at hn hl1 hl2
    obtain ⟨m, rfl⟩ : ∃ m, n = m + 1 := ⟨n - 1, by omega⟩
    have hx1 : stopOk (32 :: prefixThen rest (c :: Y)) :=
      Or.inl ⟨rfl, prefixThen_spaceStop hc rest Y⟩
    obtain ⟨e1, p1, v1, -, r1⟩ := valueParses_all e _ m p pos hx1 hok.1 (by omega) h1
    have hk := firstElem_kind pos e (32 :: prefixThen rest (c :: Y))
    rw [← h1.2.1] at hk
    rw [hv m p acc h1.1 hk, v1]
    simp only [Option.some_bind]
    have hk1 : (stopKind (32 :: prefixThen rest (c :: Y))) = lexKind.Space := rfl
    rw [hk1] at r1
    simp only [List.take_succ_cons, List.take_zero, List.tail_cons] at r1
    obtain ⟨m2, rfl⟩ : ∃ m2, m = m2 + 1 := ⟨m - 1, by omega⟩
    obtain ⟨p2, e2, r2⟩ := hs m2 p1 _ _ _ _ _ _ r1 rfl
      (NextToken_firstPrefix m2 _ rest c k Y lexKind.Space hc rfl hok.2
        (by omega)) (acc ++ [e1])
    rw [e2]
    refine ih m2 p2 _ (acc ++ [e1]) hok.2 (by omega) r2 ?_
    intro n1 q1 acc1 hn1 hq1
    refine hcont n1 q1 acc1 hn1 ?_
    have hp : posAfter pos (prefixThen (e :: rest) []) =
        posAfter (posAfter (posAfter pos (renderElem e)) [32]) (prefixThen rest []) := by
      show posAfter pos (renderElem e ++ 32 :: prefixThen rest []) = _
      rw [posAfter_append]
      rfl
    rw [hp]
    exact hq1

theorem parseRootLoop_bad {n : Nat} {p : parser} {tok : lexToken} {pos : LexPos}
    {rest : List rune} (h : p.PReady tok pos rest)
    (hk : tok.k = lexKind.Colon ∨ tok.k = lexKind.RBrace ∨ tok.k = lexKind.RBracket)
    (elems : List Elem) :
    ∃ L p1, parser.parseRootLoop (n + 2) p elems = some (L, p1) ∧
      p1.es.cause = some (error.Wrap (error.New "expected string, list or association list")
        tok.pos.String) := by
  have hk2 : p.next.k = tok.k := by rw [h.2.1]
  have hc := posError_cause p (error.New "expected string, list or association list")
    p.next.pos h.1
  refine ⟨elems, p.posError (error.New "expected string, list or association list")
    p.next.pos, ?_, by rw [hc, h.2.1]⟩
  rw [parser.parseRootLoop, if_pos h.es_ok,
    accept_no (by rw [hk2]; rcases hk with hk | hk | hk <;> rw [hk] <;> decide)]
  rcases hk with hk | hk | hk <;>
  · rw [hk] at hk2
    simp only [parser.isP, parser.is, lexToken.isString, lexKind.isString, hk2, decide_True,
      decide_False, Bool.or_self, Bool.false_eq_true, if_false, if_true, reduceCtorEq]
    exact parseRootLoop_err elems hc

theorem parseListLoop_bad {n : Nat} {p : parser} {tok : lexToken} {pos : LexPos}
    {rest : List rune} (h : p.PReady tok pos rest)
    (hk : tok.k = lexKind.Colon ∨ tok.k = lexKind.RBrace) (L : List Elem) :
    ∃ L1 p1, parser.parseListLoop (n + 2) p L = some (L1, p1) ∧
      p1.es.cause = some (error.Wrap (error.New "expected string, list or association list")
        tok.pos.String) := by
  have hk2 : p.next.k = tok.k := by rw [h.2.1]
  have hc := posError_cause p (error.New "expected string, list or association list")
    p.next.pos h.1
  refine ⟨L, p.posError (error.New "expected string, list or association list")
    p.next.pos, ?_, by rw [hc, h.2.1]⟩
  rw [parser.parseListLoop, if_pos h.es_ok,
    accept_no (by rw [hk2]; rcases hk with hk | hk <;> rw [hk] <;> decide)]
  rcases hk with hk | hk <;>
  · rw [hk] at hk2
    simp only [parser.isP, parser.is, lexToken.isString, lexKind.isString, hk2, decide_True,
      decide_False, Bool.or_self, Bool.false_eq_true, if_false, if_true, reduceCtorEq]
    rw [accept_no (by rw [hk2]; decide)]
    simp only [parser.is, hk2, decide_False, Bool.false_eq_true, if_false, reduceCtorEq]
    exact parseListLoop_err L hc

theorem nestPre_head (more : List (List Elem)) (r : rune) (k0 : lexKind) (rest : List rune)
    (hr : structKind r = some k0) :
    ∃ c k Y, structKind c = some k ∧ nestPre more ++ r :: rest = c :: Y := by
  cases more with
  | nil => exact ⟨r, k0, rest, hr, rfl⟩
  | cons ts m2 => exact ⟨91, lexKind.LBracket, _, rfl, rfl⟩

/-- A loop that parses values the way the loops of `parseRoot` and `parseList` do, at an
opening bracket whose list fails with an error, returns with that error. -/
theorem loop_open (loop : Nat → parser → List Elem → Option (List Elem × parser))
    (hv : ∀ (n : Nat) (p : parser) (L : List Elem), p.es.cause = none →
      (p.next.k = lexKind.InterpString ∨ p.next.k = lexKind.LBracket ∨
        p.next.k = lexKind.LBrace) →
      loop (n + 1) p L = (p.parseValue n).bind (fun r => loop n r.2 (L ++ [r.1])))
    (herr : ∀ (n : Nat) (p : parser) (e : error) (L : List Elem), p.es.cause = some e →
      loop (n + 1) p L = some (L, p))
    {n : Nat} {p : parser} {pos posl pos2 : LexPos} {inner rest2 : List rune}
    {tok2 : lexToken} {err : error}
    (h : p.PReady { k := lexKind.LBracket, s := [], pos := pos } posl inner)
    (hn : NextToken n posl inner lexKind.LBracket tok2 pos2 rest2)
    (hin : ∀ p1 : parser, p1.PReady tok2 pos2 rest2 →
      ∃ L q, parser.parseListLoop n p1 [] = some (L, q) ∧ q.es.cause = some err)
    (acc : List Elem) :
    ∃ L q, loop (n + 2) p acc = some (L, q) ∧ q.es.cause = some err := by
  have hk : p.next.k = lexKind.LBracket := by rw [h.2.1]
  obtain ⟨p1, c1, r1, -⟩ := consume_ready h (fun hc => by cases hc) hn
  obtain ⟨L, q, l1, e1⟩ := hin p1 r1
  have hpv : p.parseValue (n + 1) = some (Elem.List p1.prev.pos L, q) := by
    unfold parser.parseValue
    simp only [parser.isP, parser.is, lexToken.isString, lexKind.isString, hk, decide_True,
      decide_False, Bool.or_self, Bool.false_eq_true, if_false, if_true, reduceCtorEq]
    rw [parser.parseList, c1]
    simp only [l1]
  refine ⟨acc ++ [Elem.List p1.prev.pos L], q, ?_, e1⟩
  rw [hv (n + 1) p acc h.1 (Or.inr (Or.inl hk)), hpv]
  simp only [Option.some_bind]
  exact herr n q err _ e1

theorem posAfter_nest (pos : LexPos) (ts ts1 : List Elem) (m2 : List (List Elem)) :
    posAfter pos (prefixThen ts (nestPre (ts1 :: m2))) =
      posAfter ((posAfter pos (prefixThen ts [])).update 91) (prefixThen ts1 (nestPre m2)) := by
  have h : prefixThen ts (nestPre (ts1 :: m2)) =
      prefixThen ts [] ++ 91 :: prefixThen ts1 (nestPre m2) := by
    rw [← prefixThen_append]
    rfl
  rw [h, posAfter_append]
  rfl

theorem nestPre_cons_append (ts1 : List Elem) (m2 : List (List Elem)) (Z : List rune) :
    nestPre (ts1 :: m2) ++ Z = 91 :: prefixThen ts1 (nestPre m2 ++ Z) := by
  show 91 :: (prefixThen ts1 (nestPre m2) ++ Z) = _
  rw [prefixThen_append]

/-- Inside a list, after the rendered elements `ts` and the opening of the nested lists
`more`, a colon or a closing brace makes the loop of `parseList` return with the error
"expected string, list or association list" at the position of that rune. -/
theorem listFails (r : rune) (rest : List rune) (hr : r = 58 ∨ r = 125) :
    ∀ (more : List (List Elem)) (ts : List Elem) (n : Nat) (p : parser) (pos : LexPos)
      (acc : List Elem), elemsOk ts = true → levelsOk more = true →
      3 * (prefixThen ts (nestPre more ++ r :: rest)).length + 5 ≤ n →
      p.ReadyAt (firstPrefix pos ts (nestPre more ++ r :: rest)) →
      ∃ L q, parser.parseListLoop n p acc = some (L, q) ∧
        q.es.cause = some (error.Wrap
          (error.New "expected string, list or association list")
          (posAfter pos (prefixThen ts (nestPre more))).String) := by
  have hsk : ∃ k, structKind r = some k ∧ (k = lexKind.Colon ∨ k = lexKind.RBrace) := by
    rcases hr with rfl | rfl
    · exact ⟨_, rfl, Or.inl rfl⟩
    · exact ⟨_, rfl, Or.inr rfl⟩
  obtain ⟨k0, hk0, hkk⟩ := hsk
  intro more
  induction more with
  | nil =>
    intro ts n p pos acc hok _ hn h
    refine loop_prefix parser.parseListLoop (fun n p L => parseListLoop_value L)
      (fun n p tok tok2 pos pos2 input rest hp hk hnt L => parseListLoop_space hp hk hnt L)
      _ r k0 rest hk0 ts n p pos acc hok hn h ?_
    intro n1 p1 acc1 hn1 hp1
    obtain ⟨m, rfl⟩ : ∃ m, n1 = m + 2 := ⟨n1 - 2, by omega⟩
    exact parseListLoop_bad hp1 hkk acc1
  | cons ts1 m2 ih =>
    intro ts n p pos acc hok hlv hn h
    simp only [levelsOk, Bool.and_eq_true] at hlv
    rw [nestPre_cons_append] at hn h
    refine loop_prefix parser.parseListLoop (fun n p L => parseListLoop_value L)
      (fun n p tok tok2 pos pos2 input rest hp hk hnt L => parseListLoop_space hp hk hnt L)
      _ 91 lexKind.LBracket _ rfl ts n p pos acc hok hn h ?_
    intro n1 p1 acc1 hn1 hp1
    simp only [List.length_cons] at hn1
    obtain ⟨m, rfl⟩ : ∃ m, n1 = m + 2 := ⟨n1 - 2, by omega⟩
    obtain ⟨c, k, Y, hck, hY⟩ := nestPre_head m2 r k0 rest hk0
    rw [posAfter_nest]
    have hnt := NextToken_firstPrefix m ((posAfter pos (prefixThen ts [])).update 91) ts1 c k
      Y lexKind.LBracket hck rfl hlv.1 (by rw [← hY]; omega)
    rw [← hY] at hnt
    exact loop_open parser.parseListLoop (fun n p L => parseListLoop_value L)
      (fun n p e L he => parseListLoop_err L he) hp1 hnt
      (fun q1 hq1 => ih ts1 m q1 _ [] hlv.1 hlv.2 (by omega) hq1) acc1

/-- At the root, after the rendered elements `ts` and the opening of the nested lists
`more`, a colon, a closing brace or, when no list is open, a closing bracket makes the
loop of `parseRoot` return with the error "expected string, list or association list" at
the position of that rune. -/
theorem rootFails (r : rune) (rest : List rune) (more : List (List Elem))
    (hr : r = 58 ∨ r = 125 ∨ (r = 93 ∧ more = [])) (ts : List Elem) (n : Nat) (p : parser)
    (pos : LexPos) (acc : List Elem) (hok : elemsOk ts = true) (hlv : levelsOk more = true)
    (hn : 3 * (prefixThen ts (nestPre more ++ r :: rest)).length + 5 ≤ n)
    (h : p.ReadyAt (firstPrefix pos ts (nestPre more ++ r :: rest))) :
    ∃ L q, parser.parseRootLoop n p acc = some (L, q) ∧
      q.es.cause = some (error.Wrap
        (error.New "expected string, list or association list")
        (posAfter pos (prefixThen ts (nestPre more))).String) := by
  cases more with
  | nil =>
    have hsk : ∃ k, structKind r = some k ∧
        (k = lexKind.Colon ∨ k = lexKind.RBrace ∨ k = lexKind.RBracket) := by
      rcases hr with rfl | rfl | ⟨rfl, -⟩
      · exact ⟨_, rfl, Or.inl rfl⟩
      · exact ⟨_, rfl, Or.inr (Or.inl rfl)⟩
      · exact ⟨_, rfl, Or.inr (Or.inr rfl)⟩
    obtain ⟨k0, hk0, hkk⟩ := hsk
    refine loop_prefix parser.parseRootLoop (fun n p L => parseRootLoop_value L)
      (fun n p tok tok2 pos pos2 input rest hp hk hnt L => parseRootLoop_space hp hk hnt L)
      _ r k0 rest hk0 ts n p pos acc hok hn h ?_
    intro n1 p1 acc1 hn1 hp1
    obtain ⟨m, rfl⟩ : ∃ m, n1 = m + 2 := ⟨n1 - 2, by omega⟩
    exact parseRootLoop_bad hp1 hkk acc1
  | cons ts1 m2 =>
    have hr2 : r = 58 ∨ r = 125 := by
      rcases hr with h1 | h1 | ⟨-, h1⟩
      · exact Or.inl h1
      · exact Or.inr h1
      · cases h1
    have hsk : ∃ k, structKind r = some k := by
      rcases hr2 with rfl | rfl
      · exact ⟨_, rfl⟩
      · exact ⟨_, rfl⟩
    obtain ⟨k0, hk0⟩ := hsk
    simp only [levelsOk, Bool.and_eq_true] at hlv
    rw [nestPre_cons_append] at hn h
    refine loop_prefix parser.parseRootLoop (fun n p L => parseRootLoop_value L)
      (fun n p tok tok2 pos pos2 input rest hp hk hnt L => parseRootLoop_space hp hk hnt L)
      _ 91 lexKind.LBracket _ rfl ts n p pos acc hok hn h ?_
    intro n1 p1 acc1 hn1 hp1
    simp only [List.length_cons] at hn1
    obtain ⟨m, rfl⟩ : ∃ m, n1 = m + 2 := ⟨n1 - 2, by omega⟩
    obtain ⟨c, k, Y, hck, hY⟩ := nestPre_head m2 r k0 rest hk0
    rw [posAfter_nest]
    have hnt := NextToken_firstPrefix m ((posAfter pos (prefixThen ts [])).update 91) ts1 c k
      Y lexKind.LBracket hck rfl hlv.1 (by rw [← hY]; omega)
    rw [← hY] at hnt
    exact loop_open parser.parseRootLoop (fun n p L => parseRootLoop_value L)
      (fun n p e L he => parseRootLoop_err L he) hp1 hnt
      (fun q1 hq1 => listFails r rest hr2 m2 ts1 m q1 _ [] hlv.1 hlv.2 (by omega) hq1) acc1

/-- C21: where an element is expected at the document root or inside a list, a token that
cannot start an element makes `Parse` fail with the error "expected string, list or
association list" at the position of that token.  The input is the rendered root
elements `ts`, each followed by a space, then for each entry of `more` an opening bracket
and the rendered elements of that list, each followed by a space, then the rune `r` and
any runes `rest`; all string values and keys are valid texts.  The rune `r` is a colon
(58) or a closing brace (125), or a closing bracket (93) when no list is open.  With
every fuel of at least three units per rune plus eight, `Parse` returns no element and
the error wrapped with the position of `r`, the position reached from 1:0 after the runes
before it. -/
theorem C21_expected_element (ts : List Elem) (more : List (List Elem)) (r : rune)
    (rest : List rune) (hok : elemsOk ts = true) (hlv : levelsOk more = true)
    (hr : r = 58 ∨ r = 125 ∨ (r = 93 ∧ more = [])) (fuel : Nat)
    (hf : 3 * (prefixThen ts (nestPre more ++ r :: rest)).length + 8 ≤ fuel) :
    Parse fuel { runes := prefixThen ts (nestPre more ++ r :: rest), err := none } =
      some ([], some (error.Wrap (error.New "expected string, list or association list")
        (posAfter { Line := 1, Column := 0 } (prefixThen ts (nestPre more))).String)) := by
  have hsk : ∃ k, structKind r = some k := by
    rcases hr with rfl | rfl | ⟨rfl, -⟩
    · exact ⟨_, rfl⟩
    · exact ⟨_, rfl⟩
    · exact ⟨_, rfl⟩
  obtain ⟨k0, hk0⟩ := hsk
  obtain ⟨c, k, Y, hck, hY⟩ := nestPre_head more r k0 rest hk0
  have hnt := NextToken_firstPrefix fuel { Line := 1, Column := 0 } ts c k Y lexKind.Eof hck
    rfl hok (by rw [← hY]; omega)
  rw [← hY] at hnt
  obtain ⟨p, e0, r0⟩ := parseRoot_ready hnt
  obtain ⟨L, q, e1, c1⟩ := rootFails r rest more hr ts fuel p { Line := 1, Column := 0 } []
    hok hlv (by omega) r0
  rw [e1] at e0
  exact Parse_of_parseRoot_err e0 c1

theorem C21_expected_element_witness :
    (Parse 11 (RuneReader.mk [58] none) =
        some ([], some (error.Wrap (error.New "expected string, list or association list")
          (posAfter (LexPos.mk 1 0) []).String)) ∧
      (posAfter (LexPos.mk 1 0) []).String = "1:0") ∧
    (Parse 14 (RuneReader.mk [91, 58] none) =
        some ([], some (error.Wrap (error.New "expected string, list or association list")
          (posAfter (LexPos.mk 1 0) [91]).String)) ∧
      (posAfter (LexPos.mk 1 0) [91]).String = "1:1") ∧
    (Parse 14 (RuneReader.mk [93, 93] none) =
        some ([], some (error.Wrap (error.New "expected string, list or association list")
          (posAfter (LexPos.mk 1 0) []).String))) ∧
    (elemsOk [Elem.String (Str.mk (LexPos.mk 0 0) [97])] = true ∧
      levelsOk [[Elem.List (LexPos.mk 0 0) []]] = true ∧
      prefixThen [Elem.String (Str.mk (LexPos.mk 0 0) [97])]
        (nestPre [[Elem.List (LexPos.mk 0 0) []]] ++ 125 :: [120]) =
        [34, 97, 34, 32, 91, 91, 93, 32, 125, 120] ∧
      Parse 38 (RuneReader.mk (prefixThen [Elem.String (Str.mk (LexPos.mk 0 0) [97])]
          (nestPre [[Elem.List (LexPos.mk 0 0) []]] ++ 125 :: [120])) none) =
        some ([], some (error.Wrap (error.New "expected string, list or association list")
          (posAfter (LexPos.mk 1 0) (prefixThen [Elem.String (Str.mk (LexPos.mk 0 0) [97])]
            (nestPre [[Elem.List (LexPos.mk 0 0) []]]))).String)) ∧
      (posAfter (LexPos.mk 1 0) (prefixThen [Elem.String (Str.mk (LexPos.mk 0 0) [97])]
        (nestPre [[Elem.List (LexPos.mk 0 0) []]]))).String = "1:8") :=
  ⟨⟨C21_expected_element [] [] 58 [] rfl rfl (Or.inl rfl) 11 (by decide), by decide⟩,
    ⟨C21_expected_element [] [[]] 58 [] rfl rfl (Or.inl rfl) 14 (by decide), by decide⟩,
    C21_expected_element [] [] 93 [93] rfl rfl (Or.inr (Or.inr ⟨rfl, rfl⟩)) 14 (by decide),
    ⟨by decide, by decide, by decide,
      C21_expected_element [Elem.String (Str.mk (LexPos.mk 0 0) [97])]
        [[Elem.List (LexPos.mk 0 0) []]] 125 [120] (by decide) (by decide)
        (Or.inr (Or.inl rfl)) 38 (by decide), by decide⟩⟩

/-! ## The nesting recursion on a bounded call stack -/

theorem parseListLoopS_step (n : Nat) (ih : parseSafeAt n) (d : Nat) (p : parser)
    (L : List Elem) (h : 3 * p.measure + 5 ≤ n + 1 ∨ (p.es.Ok = false ∧ 1 ≤ n + 1))
    (hd : 2 * p.measure ≤ d) :
    ∃ L1 p1, parser.parseListLoopS (n + 1) d p L = some (some (L1, p1)) ∧
      parser.parseListLoop (n + 1) p L = some (L1, p1) ∧ p.Prog p1 := by
  obtain ⟨ihLL, ihL, -, ihA, -⟩ := ih
  rw [parser.parseListLoopS, parser.parseListLoop]
  by_cases hok : p.es.Ok = true
  · rw [if_pos hok, if_pos hok]
    have hb : 3 * p.measure + 4 ≤ n := by
      rcases h with h | h
      · omega
      · rw [hok] at h; cases h.1
    have cont : ∀ (p2 : parser) (L2 : List Elem), p.Strict p2 →
        ∃ L1 p1, parser.parseListLoopS n d p2 L2 = some (some (L1, p1)) ∧
          parser.parseListLoop n p2 L2 = some (L1, p1) ∧ p.Prog p1 := by
      intro p2 L2 hs
      obtain ⟨L1, p1, e0, e1, e2⟩ := ihLL d p2 L2 (strict_fuel hs hb)
        (by have := hs.1.1; omega)
      exact ⟨L1, p1, e0, e1, hs.1.trans e2⟩
    obtain ⟨b, p1, hacc, hpr, ht, hf⟩ := accept_spec n p lexKind.Space (by omega)
    rw [hacc]
    cases b
    · obtain ⟨hp1, -⟩ := hf rfl
      subst hp1
      simp only
      by_cases hstr : p1.isP lexToken.isString = true
      · rw [if_pos hstr, if_pos hstr]
        obtain ⟨s, p2, hps, hst⟩ := parseString_spec n p1 (isString_ne_eof _ hstr) (by omega)
        rw [hps]
        exact cont _ _ hst
      rw [if_neg hstr, if_neg hstr]
      by_cases hlb : p1.is lexKind.LBracket = true
      · rw [if_pos hlb, if_pos hlb]
        have hk : p1.next.k = lexKind.LBracket := by simpa [parser.is] using hlb
        obtain ⟨e, p2, hS, hpl, hst⟩ := ihL d p1 (by rw [hk]; decide) (by omega) (by omega)
        rw [hS, hpl]
        exact cont _ _ hst
      rw [if_neg hlb, if_neg hlb]
      by_cases hlc : p1.is lexKind.LBrace = true
      · rw [if_pos hlc, if_pos hlc]
        have hk : p1.next.k = lexKind.LBrace := by simpa [parser.is] using hlc
        obtain ⟨e, p2, hS, hpl, hst⟩ := ihA d p1 (by rw [hk]; decide) (by omega) (by omega)
        rw [hS, hpl]
        exact cont _ _ hst
      rw [if_neg hlc, if_neg hlc]
      obtain ⟨b2, p2, hacc2, hpr2, ht2, hf2⟩ := accept_spec n p1 lexKind.RBracket (by omega)
      rw [hacc2]
      cases b2
      · obtain ⟨hp2, -⟩ := hf2 rfl
        subst hp2
        simp only
        by_cases he : p2.is lexKind.Eof = true
        · rw [if_pos he, if_pos he]
          exact cont _ _ (posError_Strict _ _ _)
        · rw [if_neg he, if_neg he]
          exact cont _ _ (posError_Strict _ _ _)
      · exact ⟨_, _, rfl, rfl, hpr2⟩
    · simp only
      exact cont _ _ (parser.Strict.of_lt hpr ((ht rfl).2 (by decide)))
  · rw [if_neg hok, if_neg hok]
    exact ⟨_, _, rfl, rfl, parser.Prog.refl p⟩

theorem parseListS_step (n : Nat) (ih : parseSafeAt n) (d : Nat) (p : parser)
    (hk : p.next.k ≠ lexKind.Eof) (h : 3 * p.measure + 3 ≤ n + 1)
    (hd : 2 * p.measure ≤ d + 1) :
    ∃ e p1, parser.parseListS (n + 1) d p = some (some (e, p1)) ∧
      parser.parseList (n + 1) p = some (e, p1) ∧ p.Strict p1 := by
  obtain ⟨ihLL, -⟩ := ih
  obtain ⟨p1, hc, hpr, -, hlt⟩ := consume_spec n p (by omega)
  have h1 := hlt hk
  obtain ⟨d1, rfl⟩ : ∃ d1, d = d1 + 1 := ⟨d - 1, by omega⟩
  rw [parser.parseListS, parser.parseList, hc]
  obtain ⟨L1, p2, e0, e1, e2⟩ := ihLL d1 p1 [] (Or.inl (by omega)) (by omega)
  simp only [e0, e1]
  exact ⟨_, _, rfl, rfl, (parser.Strict.of_lt hpr h1).trans_left e2⟩

theorem parseAssocS_step (n : Nat) (ih : parseSafeAt n) (d : Nat) (p : parser)
    (hk : p.next.k ≠ lexKind.Eof) (h : 3 * p.measure + 3 ≤ n + 1)
    (hd : 2 * p.measure ≤ d + 1) :
    ∃ e p1, parser.parseAssocS (n + 1) d p = some (some (e, p1)) ∧
      parser.parseAssoc (n + 1) p = some (e, p1) ∧ p.Strict p1 := by
  obtain ⟨-, -, ihAL, -⟩ := ih
  obtain ⟨p1, hc, hpr, -, hlt⟩ := consume_spec n p (by omega)
  have h1 := hlt hk
  obtain ⟨d1, rfl⟩ : ∃ d1, d = d1 + 1 := ⟨d - 1, by omega⟩
  rw [parser.parseAssocS, parser.parseAssoc, hc]
  obtain ⟨L1, p2, e0, e1, e2⟩ := ihAL d1 p1 [] (Or.inl (by omega)) (by omega)
  simp only [e0, e1]
  exact ⟨_, _, rfl, rfl, (parser.Strict.of_lt hpr h1).trans_left e2⟩

theorem parseAssocLoopS_step (n : Nat) (ih : parseSafeAt n) (d : Nat) (p : parser)
    (L : List Pair) (h : 3 * p.measure + 5 ≤ n + 1 ∨ (p.es.Ok = false ∧ 1 ≤ n + 1))
    (hd : 2 * p.measure ≤ d) :
    ∃ L1 p1, parser.parseAssocLoopS (n + 1) d p L = some (some (L1, p1)) ∧
      parser.parseAssocLoop (n + 1) p L = some (L1, p1) ∧ p.Prog p1 := by
  obtain ⟨-, -, ihAL, -, ihP⟩ := ih
  rw [parser.parseAssocLoopS, parser.parseAssocLoop]
  by_cases hok : p.es.Ok = true
  · rw [if_pos hok, if_pos hok]
    have hb : 3 * p.measure + 4 ≤ n := by
      rcases h with h | h
      · omega
      · rw [hok] at h; cases h.1
    have cont : ∀ (p2 : parser) (L2 : List Pair), p.Strict p2 →
        ∃ L1 p1, parser.parseAssocLoopS n d p2 L2 = some (some (L1, p1)) ∧
          parser.parseAssocLoop n p2 L2 = some (L1, p1) ∧ p.Prog p1 := by
      intro p2 L2 hs
      obtain ⟨L1, p1, e0, e1, e2⟩ := ihAL d p2 L2 (strict_fuel hs hb)
        (by have := hs.1.1; omega)
      exact ⟨L1, p1, e0, e1, hs.1.trans e2⟩
    obtain ⟨b, p1, hacc, hpr, ht, hf⟩ := accept_spec n p lexKind.Space (by omega)
    rw [hacc]
    cases b
    · obtain ⟨hp1, -⟩ := hf rfl
      subst hp1
      simp only
      obtain ⟨b2, p2, hacc2, hpr2, ht2, hf2⟩ := accept_spec n p1 lexKind.RBrace (by omega)
      rw [hacc2]
      cases b2
      · obtain ⟨hp2, -⟩ := hf2 rfl
        subst hp2
        simp only
        by_cases he : p2.is lexKind.Eof = true
        · rw [if_pos he, if_pos he]
          exact cont _ _ (posError_Strict _ _ _)
        · rw [if_neg he, if_neg he]
          have hk : p2.next.k ≠ lexKind.Eof := by simpa [parser.is] using he
          obtain ⟨pair, p3, hS, hpp, hst⟩ := ihP d p2 hk (by omega) hd
          rw [hS, hpp]
          simp only
          by_cases hsep : (!p3.is lexKind.RBrace && !p3.is lexKind.Eof) = true
          · rw [if_pos hsep, if_pos hsep]
            obtain ⟨b4, p4, hex, hpr4⟩ := expect_spec n p3 lexKind.Space
              "association list pairs must be separated by whitespace"
              (by have := hst.1.1; omega)
            rw [hex]
            exact cont _ _ (hst.trans_left hpr4)
          · rw [if_neg hsep, if_neg hsep]
            exact cont _ _ hst
      · exact ⟨_, _, rfl, rfl, hpr2⟩
    · simp only
      exact cont _ _ (parser.Strict.of_lt hpr ((ht rfl).2 (by decide)))
  · rw [if_neg hok, if_neg hok]
    exact ⟨_, _, rfl, rfl, parser.Prog.refl p⟩

theorem parsePairS_step (n : Nat) (ih : parseSafeAt n) (d : Nat) (p : parser)
    (hk0 : p.next.k ≠ lexKind.Eof) (h : 3 * p.measure + 4 ≤ n + 1) (hd : 2 * p.measure ≤ d) :
    ∃ pair p1, parser.parsePairS (n + 1) d p = some (some (pair, p1)) ∧
      parser.parsePair (n + 1) p = some (pair, p1) ∧ p.Strict p1 := by
  obtain ⟨-, ihL, -, ihA, -⟩ := ih
  have hpos : 1 ≤ p.measure := by
    unfold parser.measure
    rw [if_neg hk0]
    omega
  obtain ⟨d1, rfl⟩ : ∃ d1, d = d1 + 1 := ⟨d - 1, by omega⟩
  rw [parser.parsePairS, parser.parsePair]
  obtain ⟨b1, p1, hex, hst1⟩ := expectP_spec n p keyPred
    "key in association list pair must be of symbol or interpreted string form"
    (keyPred_ne_eof _) (by omega)
  rw [hex]
  simp only
  have hm1 := hst1.1.1
  obtain ⟨ok, p2, hacc, hpr2, -, -⟩ := accept_spec n p1 lexKind.Colon (by omega)
  rw [hacc]
  simp only
  have hm2 := hpr2.1
  have hpr3 : p2.Prog (if (!ok) = true then
      p2.posError
        (error.New "key in association list pair must be immediately followed by colon")
        p2.prev.pos
      else p2) := by
    split
    · exact (posError_Prog _ _ _).1
    · exact parser.Prog.refl _
  generalize (if (!ok) = true then
      p2.posError
        (error.New "key in association list pair must be immediately followed by colon")
        p2.prev.pos
      else p2) = p3 at hpr3 ⊢
  have hm3 := hpr3.1
  obtain ⟨b4, p4, hacc4, hpr4, -, -⟩ := accept_spec n p3 lexKind.Space (by omega)
  rw [hacc4]
  simp only
  have hm4 := hpr4.1
  have h14 : p1.Prog p4 := (hpr2.trans hpr3).trans hpr4
  by_cases hstr : p4.isP lexToken.isString = true
  · rw [if_pos hstr, if_pos hstr]
    obtain ⟨s, p5, hps, hst⟩ := parseString_spec n p4 (isString_ne_eof _ hstr) (by omega)
    rw [hps]
    exact ⟨_, _, rfl, rfl, hst1.trans_left (h14.trans hst.1)⟩
  rw [if_neg hstr, if_neg hstr]
  by_cases hlb : p4.is lexKind.LBracket = true
  · rw [if_pos hlb, if_pos hlb]
    have hk : p4.next.k = lexKind.LBracket := by simpa [parser.is] using hlb
    obtain ⟨e, p5, hS, hpl, hst⟩ := ihL d1 p4 (by rw [hk]; decide) (by omega) (by omega)
    rw [hS, hpl]
    exact ⟨_, _, rfl, rfl, hst1.trans_left (h14.trans hst.1)⟩
  rw [if_neg hlb, if_neg hlb]
  by_cases hlc : p4.is lexKind.LBrace = true
  · rw [if_pos hlc, if_pos hlc]
    have hk : p4.next.k = lexKind.LBrace := by simpa [parser.is] using hlc
    obtain ⟨e, p5, hS, hpl, hst⟩ := ihA d1 p4 (by rw [hk]; decide) (by omega) (by omega)
    rw [hS, hpl]
    exact ⟨_, _, rfl, rfl, hst1.trans_left (h14.trans hst.1)⟩
  rw [if_neg hlc, if_neg hlc]
  by_cases hend : (p4.is lexKind.RBrace || p4.is lexKind.Eof) = true
  · rw [if_pos hend, if_pos hend]
    exact ⟨_, _, rfl, rfl, hst1.trans_left (h14.trans (posError_Prog _ _ _).1)⟩
  · rw [if_neg hend, if_neg hend]
    exact ⟨_, _, rfl, rfl, hst1.trans_left (h14.trans (posError_Prog _ _ _).1)⟩

theorem parseSafe (fuel : Nat) : parseSafeAt fuel := by
  induction fuel with
  | zero =>
    refine ⟨?_, ?_, ?_, ?_, ?_⟩
    · intro d p L h; omega
    · intro d p hk h; omega
    · intro d p L h; omega
    · intro d p hk h; omega
    · intro d p hk h; omega
  | succ n ih =>
    exact ⟨parseListLoopS_step n ih, parseListS_step n ih, parseAssocLoopS_step n ih,
      parseAssocS_step n ih, parsePairS_step n ih⟩

theorem parseRootLoopS_safe (fuel : Nat) : ∀ (d : Nat) (p : parser) (elems : List Elem),
    (3 * p.measure + 5 ≤ fuel ∨ (p.es.Ok = false ∧ 1 ≤ fuel)) → 2 * p.measure ≤ d →
    ∃ L1 p1, parser.parseRootLoopS fuel d p elems = some (some (L1, p1)) ∧
      parser.parseRootLoop fuel p elems = some (L1, p1) ∧ p.Prog p1 := by
  induction fuel with
  | zero => intro d p elems h; omega
  | succ n ihR =>
    intro d p elems h hd
    obtain ⟨-, ihL, -, ihA, -⟩ := parseSafe n
    rw [parser.parseRootLoopS, parser.parseRootLoop]
    by_cases hok : p.es.Ok = true
    · rw [if_pos hok, if_pos hok]
      have hb : 3 * p.measure + 4 ≤ n := by
        rcases h with h | h
        · omega
        · rw [hok] at h; cases h.1
      have cont : ∀ (p2 : parser) (L2 : List Elem), p.Strict p2 →
          ∃ L1 p1, parser.parseRootLoopS n d p2 L2 = some (some (L1, p1)) ∧
            parser.parseRootLoop n p2 L2 = some (L1, p1) ∧ p.Prog p1 := by
        intro p2 L2 hs
        obtain ⟨L1, p1, e0, e1, e2⟩ := ihR d p2 L2 (strict_fuel hs hb)
          (by have := hs.1.1; omega)
        exact ⟨L1, p1, e0, e1, hs.1.trans e2⟩
      obtain ⟨b, p1, hacc, hpr, ht, hf⟩ := accept_spec n p lexKind.Space (by omega)
      rw [hacc]
      cases b
      · obtain ⟨hp1, -⟩ := hf rfl
        subst hp1
        simp only
        by_cases hstr : p1.isP lexToken.isString = true
        · rw [if_pos hstr, if_pos hstr]
          obtain ⟨s, p2, hps, hst⟩ :=
            parseString_spec n p1 (isString_ne_eof _ hstr) (by omega)
          rw [hps]
          exact cont _ _ hst
        rw [if_neg hstr, if_neg hstr]
        by_cases hlb : p1.is lexKind.LBracket = true
        · rw [if_pos hlb, if_pos hlb]
          have hk : p1.next.k = lexKind.LBracket := by simpa [parser.is] using hlb
          obtain ⟨e, p2, hS, hpl, hst⟩ := ihL d p1 (by rw [hk]; decide) (by omega) (by omega)
          rw [hS, hpl]
          exact cont _ _ hst
        rw [if_neg hlb, if_neg hlb]
        by_cases hlc : p1.is lexKind.LBrace = true
        · rw [if_pos hlc, if_pos hlc]
          have hk : p1.next.k = lexKind.LBrace := by simpa [parser.is] using hlc
          obtain ⟨e, p2, hS, hpl, hst⟩ := ihA d p1 (by rw [hk]; decide) (by omega) (by omega)
          rw [hS, hpl]
          exact cont _ _ hst
        rw [if_neg hlc, if_neg hlc]
        by_cases he : p1.is lexKind.Eof = true
        · rw [if_pos he, if_pos he]
          exact ⟨_, _, rfl, rfl, parser.Prog.refl _⟩
        · rw [if_neg he, if_neg he]
          exact cont _ _ (posError_Strict _ _ _)
      · simp only
        exact cont _ _ (parser.Strict.of_lt hpr ((ht rfl).2 (by decide)))
    · rw [if_neg hok, if_neg hok]
      exact ⟨_, _, rfl, rfl, parser.Prog.refl p⟩

theorem parseRootS_safe (fuel d : Nat) (reader : RuneReader)
    (h : 3 * reader.runes.length + 8 ≤ fuel) (hd : 2 * reader.runes.length + 2 ≤ d) :
    ∃ elems p, (newParser reader).parseRootS fuel d = some (some (elems, p)) ∧
      (newParser reader).parseRoot fuel = some (elems, p) := by
  unfold parser.parseRootS parser.parseRoot parser.lex
  have hm : (newParser reader).lexer.measure = reader.runes.length := by
    simp [newParser, newLexer, lexer.measure]
  have ht := readToken_total fuel (newParser reader).lexer (by omega)
  cases hr : (newParser reader).lexer.readToken fuel with
  | none => rw [hr] at ht; cases ht
  | some res =>
    obtain ⟨t, e, lx⟩ := res
    obtain ⟨r1, -⟩ := readToken_some _ _ _ _ _ hr
    have hm2 : ∀ q : parser, q.lexer = lx → q.measure ≤ reader.runes.length + 1 := by
      intro q hq
      unfold parser.measure
      rw [hq]
      split <;> omega
    have hq := hm2 ⟨lx, t, (newParser reader).prev, (newParser reader).es.Send e⟩ rfl
    obtain ⟨L1, p1, e0, e1, -⟩ := parseRootLoopS_safe fuel d
      ⟨lx, t, (newParser reader).prev, (newParser reader).es.Send e⟩ [] (Or.inl (by omega))
      (by omega)
    exact ⟨L1, p1, e0, e1⟩

/-- On a stack that holds two frames per rune plus two, `Parse` returns what it returns
without a stack. -/
theorem ParseS_safe (fuel d : Nat) (reader : RuneReader)
    (h : 3 * reader.runes.length + 8 ≤ fuel) (hd : 2 * reader.runes.length + 2 ≤ d) :
    ∃ r, ParseS fuel d reader = some (some r) ∧ Parse fuel reader = some r := by
  obtain ⟨elems, p, hS, hp⟩ := parseRootS_safe fuel d reader h hd
  unfold ParseS Parse
  rw [hS, hp]
  simp only
  by_cases he : p.err = none
  · rw [if_pos he, if_pos he]
    exact ⟨_, rfl, rfl⟩
  · rw [if_neg he, if_neg he]
    exact ⟨_, rfl, rfl⟩

/-- A call of `parseList` at an opening bracket that is followed by as many opening
brackets as the stack has frames left overflows the stack. -/
theorem parseListS_overflow : ∀ (d fuel : Nat) (p : parser) (pos : LexPos)
    (tail : List rune), 2 * d + 1 ≤ fuel →
    p.PReady { k := lexKind.LBracket, s := [], pos := pos } (pos.update 91)
      (List.replicate d 91 ++ tail) →
    parser.parseListS fuel d p = some none := by
  intro d
  induction d with
  | zero =>
    intro fuel p pos tail hf _
    obtain ⟨f, rfl⟩ : ∃ f, fuel = f + 1 := ⟨fuel - 1, by omega⟩
    rw [parser.parseListS]
  | succ d ih =>
    intro fuel p pos tail hf h
    obtain ⟨f, rfl⟩ : ∃ f, fuel = f + 2 := ⟨fuel - 2, by omega⟩
    have h1 : p.PReady { k := lexKind.LBracket, s := [], pos := pos } (pos.update 91)
        (91 :: (List.replicate d 91 ++ tail)) := h
    obtain ⟨p1, c1, r1, -⟩ := consume_ready h1 (fun hc => by cases hc)
      (NextToken_struct (f + 1) (pos.update 91) 91 lexKind.LBracket
        (List.replicate d 91 ++ tail) lexKind.LBracket rfl (by omega))
    have hk : p1.next.k = lexKind.LBracket := by rw [r1.2.1]
    rw [parser.parseListS, c1]
    simp only
    rw [parser.parseListLoopS, if_pos r1.es_ok, accept_no (by rw [hk]; decide)]
    simp only [parser.isP, parser.is, lexToken.isString, lexKind.isString, hk, decide_True,
      decide_False, Bool.or_self, Bool.false_eq_true, if_false, if_true, reduceCtorEq]
    rw [ih f p1 (pos.update 91) tail (by omega) r1]

/-- One opening bracket more than the stack has frames makes `Parse` overflow the stack,
whatever follows the brackets. -/
theorem ParseS_overflow (d fuel : Nat) (tail : List rune) (hf : 2 * d + 2 ≤ fuel) :
    ParseS fuel d { runes := List.replicate (d + 1) 91 ++ tail, err := none } = some none := by
  have hn := NextToken_struct fuel { Line := 1, Column := 0 } 91 lexKind.LBracket
    (List.replicate d 91 ++ tail) lexKind.Eof rfl (by omega)
  obtain ⟨lex1, e1, e2⟩ := hn _ (newLexer_Ready (91 :: (List.replicate d 91 ++ tail)))
  have hp : (⟨lex1, { k := lexKind.LBracket, s := [], pos := { Line := 1, Column := 0 } },
      { k := lexKind.Eof, s := [], pos := { Line := 0, Column := 0 } },
      { cause := none }⟩ : parser).PReady
      { k := lexKind.LBracket, s := [], pos := { Line := 1, Column := 0 } }
      (LexPos.update { Line := 1, Column := 0 } 91) (List.replicate d 91 ++ tail) :=
    ⟨rfl, rfl, e2⟩
  obtain ⟨f, rfl⟩ : ∃ f, fuel = f + 1 := ⟨fuel - 1, by omega⟩
  have hov := parseListS_overflow d f _ _ tail (by omega) hp
  have hr : List.replicate (d + 1) 91 ++ tail = 91 :: (List.replicate d 91 ++ tail) := rfl
  unfold ParseS parser.parseRootS parser.lex
  rw [hr]
  simp only [newParser, e1, Sink.Send]
  rw [parser.parseRootLoopS, if_pos hp.es_ok, accept_no (fun hc => by cases hc)]
  simp only [parser.isP, parser.is, lexToken.isString, lexKind.isString, decide_True,
    decide_False, Bool.or_self, Bool.false_eq_true, if_false, if_true, reduceCtorEq, hov]

theorem parseListLoopS_agrees (n : Nat) (ih : stackAt n) (d : Nat) (p : parser)
    (L : List Elem) :
    overflowsOrAgrees (parser.parseListLoopS (n + 1) d p L)
      (parser.parseListLoop (n + 1) p L) := by
  obtain ⟨ihLL, ihL, -, ihA, -⟩ := ih
  rw [parser.parseListLoopS, parser.parseListLoop]
  by_cases hok : p.es.Ok = true
  · rw [if_pos hok, if_pos hok]
    cases p.accept n lexKind.Space with
    | none => exact Or.inr rfl
    | some r =>
      obtain ⟨b, p1⟩ := r
      cases b with
      | true => exact ihLL d p1 L
      | false =>
        simp only
        by_cases hstr : p1.isP lexToken.isString = true
        · rw [if_pos hstr, if_pos hstr]
          cases p1.parseString n with
          | none => exact Or.inr rfl
          | some r => exact ihLL d r.2 _
        rw [if_neg hstr, if_neg hstr]
        by_cases hlb : p1.is lexKind.LBracket = true
        · rw [if_pos hlb, if_pos hlb]
          rcases ihL d p1 with ho | he
          · rw [ho]
            exact Or.inl rfl
          · rw [he]
            cases parser.parseList n p1 with
            | none => exact Or.inr rfl
            | some r =>
              obtain ⟨e, p2⟩ := r
              exact ihLL d p2 _
        rw [if_neg hlb, if_neg hlb]
        by_cases hlc : p1.is lexKind.LBrace = true
        · rw [if_pos hlc, if_pos hlc]
          rcases ihA d p1 with ho | he
          · rw [ho]
            exact Or.inl rfl
          · rw [he]
            cases parser.parseAssoc n p1 with
            | none => exact Or.inr rfl
            | some r =>
              obtain ⟨e, p2⟩ := r
              exact ihLL d p2 _
        rw [if_neg hlc, if_neg hlc]
        cases p1.accept n lexKind.RBracket with
        | none => exact Or.inr rfl
        | some r =>
          obtain ⟨b, p2⟩ := r
          cases b with
          | true => exact Or.inr rfl
          | false =>
            simp only
            by_cases he : p2.is lexKind.Eof = true
            · rw [if_pos he, if_pos he]
              exact ihLL d _ L
            · rw [if_neg he, if_neg he]
              exact ihLL d _ L
  · rw [if_neg hok, if_neg hok]
    exact Or.inr rfl

theorem parseListS_agrees (n : Nat) (ih : stackAt n) (d : Nat) (p : parser) :
    overflowsOrAgrees (parser.parseListS (n + 1) d p) (parser.parseList (n + 1) p) := by
  obtain ⟨ihLL, -⟩ := ih
  cases d with
  | zero =>
    rw [parser.parseListS]
    exact Or.inl rfl
  | succ d1 =>
    rw [parser.parseListS, parser.parseList]
    cases p.consume n with
    | none => exact Or.inr rfl
    | some p1 =>
      simp only
      rcases ihLL d1 p1 [] with ho | he
      · rw [ho]
        exact Or.inl rfl
      · rw [he]
        cases parser.parseListLoop n p1 [] with
        | none => exact Or.inr rfl
        | some r =>
          obtain ⟨e, p2⟩ := r
          exact Or.inr rfl

theorem parseAssocS_agrees (n : Nat) (ih : stackAt n) (d : Nat) (p : parser) :
    overflowsOrAgrees (parser.parseAssocS (n + 1) d p) (parser.parseAssoc (n + 1) p) := by
  obtain ⟨-, -, ihAL, -⟩ := ih
  cases d with
  | zero =>
    rw [parser.parseAssocS]
    exact Or.inl rfl
  | succ d1 =>
    rw [parser.parseAssocS, parser.parseAssoc]
    cases p.consume n with
    | none => exact Or.inr rfl
    | some p1 =>
      simp only
      rcases ihAL d1 p1 [] with ho | he
      · rw [ho]
        exact Or.inl rfl
      · rw [he]
        cases parser.parseAssocLoop n p1 [] with
        | none => exact Or.inr rfl
        | some r =>
          obtain ⟨e, p2⟩ := r
          exact Or.inr rfl

theorem parseAssocLoopS_agrees (n : Nat) (ih : stackAt n) (d : Nat) (p : parser)
    (L : List Pair) :
    overflowsOrAgrees (parser.parseAssocLoopS (n + 1) d p L)
      (parser.parseAssocLoop (n + 1) p L) := by
  obtain ⟨-, -, ihAL, -, ihP⟩ := ih
  rw [parser.parseAssocLoopS, parser.parseAssocLoop]
  by_cases hok : p.es.Ok = true
  · rw [if_pos hok, if_pos hok]
    cases p.accept n lexKind.Space with
    | none => exact Or.inr rfl
    | some r =>
      obtain ⟨b, p1⟩ := r
      cases b with
      | true => exact ihAL d p1 L
      | false =>
        simp only
        cases p1.accept n lexKind.RBrace with
        | none => exact Or.inr rfl
        | some r =>
          obtain ⟨b, p2⟩ := r
          cases b with
          | true => exact Or.inr rfl
          | false =>
            simp only
            by_cases he : p2.is lexKind.Eof = true
            · rw [if_pos he, if_pos he]
              exact ihAL d _ L
            · rw [if_neg he, if_neg he]
              rcases ihP d p2 with ho | he2
              · rw [ho]
                exact Or.inl rfl
              · rw [he2]
                cases parser.parsePair n p2 with
                | none => exact Or.inr rfl
                | some r =>
                  obtain ⟨pair, p3⟩ := r
                  simp only [Option.map_some']
                  by_cases hsep : (!p3.is lexKind.RBrace && !p3.is lexKind.Eof) = true
                  · rw [if_pos hsep, if_pos hsep]
                    cases p3.expect n lexKind.Space
                        "association list pairs must be separated by whitespace" with
                    | none => exact Or.inr rfl
                    | some r =>
                      obtain ⟨b4, p4⟩ := r
                      exact ihAL d p4 _
                  · rw [if_neg hsep, if_neg hsep]
                    exact ihAL d p3 _
  · rw [if_neg hok, if_neg hok]
    exact Or.inr rfl

theorem parsePairS_agrees (n : Nat) (ih : stackAt n) (d : Nat) (p : parser) :
    overflowsOrAgrees (parser.parsePairS (n + 1) d p) (parser.parsePair (n + 1) p) := by
  obtain ⟨-, ihL, -, ihA, -⟩ := ih
  cases d with
  | zero =>
    rw [parser.parsePairS]
    exact Or.inl rfl
  | succ d1 =>
    rw [parser.parsePairS, parser.parsePair]
    cases p.expectP n keyPred
        "key in association list pair must be of symbol or interpreted string form" with
    | none => exact Or.inr rfl
    | some r1 =>
      obtain ⟨b1, p1⟩ := r1
      simp only
      cases p1.accept n lexKind.Colon with
      | none => exact Or.inr rfl
      | some r2 =>
        obtain ⟨ok, p2⟩ := r2
        simp only
        generalize (if (!ok) = true then
            p2.posError
              (error.New "key in association list pair must be immediately followed by colon")
              p2.prev.pos
            else p2) = p3
        cases p3.accept n lexKind.Space with
        | none => exact Or.inr rfl
        | some r4 =>
          obtain ⟨b4, p4⟩ := r4
          simp only
          by_cases hstr : p4.isP lexToken.isString = true
          · rw [if_pos hstr, if_pos hstr]
            cases p4.parseString n with
            | none => exact Or.inr rfl
            | some r => exact Or.inr rfl
          rw [if_neg hstr, if_neg hstr]
          by_cases hlb : p4.is lexKind.LBracket = true
          · rw [if_pos hlb, if_pos hlb]
            rcases ihL d1 p4 with ho | he
            · rw [ho]
              exact Or.inl rfl
            · rw [he]
              cases parser.parseList n p4 with
              | none => exact Or.inr rfl
              | some r =>
                obtain ⟨e, p2⟩ := r
                exact Or.inr rfl
          rw [if_neg hlb, if_neg hlb]
          by_cases hlc : p4.is lexKind.LBrace = true
          · rw [if_pos hlc, if_pos hlc]
            rcases ihA d1 p4 with ho | he
            · rw [ho]
              exact Or.inl rfl
            · rw [he]
              cases parser.parseAssoc n p4 with
              | none => exact Or.inr rfl
              | some r =>
                obtain ⟨e, p2⟩ := r
                exact Or.inr rfl
          rw [if_neg hlc, if_neg hlc]
          by_cases hend : (p4.is lexKind.RBrace || p4.is lexKind.Eof) = true
          · rw [if_pos hend, if_pos hend]
            exact Or.inr rfl
          · rw [if_neg hend, if_neg hend]
            exact Or.inr rfl

theorem parseStack (fuel : Nat) : stackAt fuel := by
  induction fuel with
  | zero =>
    refine ⟨?_, ?_, ?_, ?_, ?_⟩
    · intro d p L; exact Or.inr rfl
    · intro d p; exact Or.inr rfl
    · intro d p L; exact Or.inr rfl
    · intro d p; exact Or.inr rfl
    · intro d p; exact Or.inr rfl
  | succ n ih =>
    exact ⟨parseListLoopS_agrees n ih, parseListS_agrees n ih, parseAssocLoopS_agrees n ih,
      parseAssocS_agrees n ih, parsePairS_agrees n ih⟩

theorem parseRootLoopS_agrees (fuel : Nat) : ∀ (d : Nat) (p : parser) (elems : List Elem),
    overflowsOrAgrees (parser.parseRootLoopS fuel d p elems)
      (parser.parseRootLoop fuel p elems) := by
  induction fuel with
  | zero => intro d p elems; exact Or.inr rfl
  | succ n ihR =>
    intro d p elems
    obtain ⟨-, ihL, -, ihA, -⟩ := parseStack n
    rw [parser.parseRootLoopS, parser.parseRootLoop]
    by_cases hok : p.es.Ok = true
    · rw [if_pos hok, if_pos hok]
      cases p.accept n lexKind.Space with
      | none => exact Or.inr rfl
      | some r =>
        obtain ⟨b, p1⟩ := r
        cases b with
        | true => exact ihR d p1 elems
        | false =>
          simp only
          by_cases hstr : p1.isP lexToken.isString = true
          · rw [if_pos hstr, if_pos hstr]
            cases p1.parseString n with
            | none => exact Or.inr rfl
            | some r => exact ihR d r.2 _
          rw [if_neg hstr, if_neg hstr]
          by_cases hlb : p1.is lexKind.LBracket = true
          · rw [if_pos hlb, if_pos hlb]
            rcases ihL d p1 with ho | he
            · rw [ho]
              exact Or.inl rfl
            · rw [he]
              cases parser.parseList n p1 with
              | none => exact Or.inr rfl
              | some r =>
                obtain ⟨e, p2⟩ := r
                exact ihR d p2 _
          rw [if_neg hlb, if_neg hlb]
          by_cases hlc : p1.is lexKind.LBrace = true
          · rw [if_pos hlc, if_pos hlc]
            rcases ihA d p1 with ho | he
            · rw [ho]
              exact Or.inl rfl
            · rw [he]
              cases parser.parseAssoc n p1 with
              | none => exact Or.inr rfl
              | some r =>
                obtain ⟨e, p2⟩ := r
                exact ihR d p2 _
          rw [if_neg hlc, if_neg hlc]
          by_cases he : p1.is lexKind.Eof = true
          · rw [if_pos he, if_pos he]
            exact Or.inr rfl
          · rw [if_neg he, if_neg he]
            exact ihR d _ elems
    · rw [if_neg hok, if_neg hok]
      exact Or.inr rfl

/-- On any stack, `Parse` overflows the stack or ends as `Parse` without a stack does. -/
theorem ParseS_agrees (fuel d : Nat) (reader : RuneReader) :
    overflowsOrAgrees (ParseS fuel d reader) (Parse fuel reader) := by
  unfold ParseS Parse parser.parseRootS parser.parseRoot
  cases (newParser reader).lex fuel with
  | none => exact Or.inr rfl
  | some r =>
    obtain ⟨tok, p1⟩ := r
    simp only
    rcases parseRootLoopS_agrees fuel d { p1 with next := tok } [] with ho | he
    · rw [ho]
      exact Or.inl rfl
    · rw [he]
      cases parser.parseRootLoop fuel { p1 with next := tok } [] with
      | none => exact Or.inr rfl
      | some r =>
        obtain ⟨elems, q⟩ := r
        simp only [Option.map_some']
        by_cases hq : q.err = none
        · rw [if_pos hq, if_pos hq]
          exact Or.inr rfl
        · rw [if_neg hq, if_neg hq]
          exact Or.inr rfl

/-! ## The claim on termination -/

/-- C2: for every finite rune source of `n` runes, `Parse` terminates: a fuel of three
units per rune plus eight is enough for every loop and for the nesting recursion, for the
parser and for the token loop of the lexer alike; every call of `readToken` with more
fuel than runes left returns, never leaves more runes than it found, and leaves strictly
fewer unless it returns the end-of-stream token.  The nesting recursion is bounded by the
input length: on a stack that holds `2 * n + 2` nested frames of `parseList`, `parseAssoc`
and `parsePair`, `Parse` returns, and returns what it returns without a stack.  On a
smaller stack it overflows the stack, which ends the process, or returns the same. -/
theorem C2_Parse_terminates (reader : RuneReader) (fuel : Nat)
    (h : 3 * reader.runes.length + 8 ≤ fuel) :
    (Parse fuel reader).isSome = true ∧
    (lexLoop fuel (newLexer reader) []).isSome = true ∧
    (∀ (lex : lexer), lex.measure < fuel →
      ∃ tok err lex1, lex.readToken fuel = some (tok, err, lex1) ∧
        lex1.measure ≤ lex.measure ∧ (tok.k ≠ lexKind.Eof → lex1.measure < lex.measure)) ∧
    (∀ d : Nat, 2 * reader.runes.length + 2 ≤ d →
      ∃ r, ParseS fuel d reader = some (some r) ∧ Parse fuel reader = some r) ∧
    (∀ d : Nat, ParseS fuel d reader = some none ∨
      ParseS fuel d reader = (Parse fuel reader).map some) := by
  refine ⟨?_, ?_, ?_, ?_, ?_⟩
  · obtain ⟨elems, err, h1, -⟩ := Parse_total fuel reader h
    rw [h1]; rfl
  · apply lexLoop_total
    simp only [newLexer, lexer.measure, List.length_nil]
    omega
  · intro lex hl
    have ht := readToken_total fuel lex hl
    cases hr : lex.readToken fuel with
    | none => rw [hr] at ht; cases ht
    | some res =>
      obtain ⟨tok, err, lex1⟩ := res
      obtain ⟨r1, r2, -⟩ := readToken_some _ _ _ _ _ hr
      exact ⟨tok, err, lex1, rfl, r1, r2⟩
  · intro d hd
    exact ParseS_safe fuel d reader h hd
  · intro d
    exact ParseS_agrees fuel d reader

theorem C2_Parse_terminates_witness :
    3 * (RuneReader.mk [91, 123, 97] none).runes.length + 8 ≤ 17 ∧
    ((Parse 17 (RuneReader.mk [91, 123, 97] none)).isSome = true ∧
    (lexLoop 17 (newLexer (RuneReader.mk [91, 123, 97] none)) []).isSome = true ∧
    (∀ (lex : lexer), lex.measure < 17 →
      ∃ tok err lex1, lex.readToken 17 = some (tok, err, lex1) ∧
        lex1.measure ≤ lex.measure ∧ (tok.k ≠ lexKind.Eof → lex1.measure < lex.measure)) ∧
    (∀ d : Nat, 2 * (RuneReader.mk [91, 123, 97] none).runes.length + 2 ≤ d →
      ∃ r, ParseS 17 d (RuneReader.mk [91, 123, 97] none) = some (some r) ∧
        Parse 17 (RuneReader.mk [91, 123, 97] none) = some r) ∧
    (∀ d : Nat, ParseS 17 d (RuneReader.mk [91, 123, 97] none) = some none ∨
      ParseS 17 d (RuneReader.mk [91, 123, 97] none) =
        (Parse 17 (RuneReader.mk [91, 123, 97] none)).map some)) ∧
    ParseS 17 3 (RuneReader.mk [91, 123, 97] none) =
      some (some ([], some (error.Wrap (error.New
        "key in association list pair must be immediately followed by colon")
        (LexPos.mk 1 2).String))) ∧
    ParseS 17 2 (RuneReader.mk [91, 123, 97] none) = some none :=
  ⟨by decide, C2_Parse_terminates (RuneReader.mk [91, 123, 97] none) 17 (by decide),
    rfl, rfl⟩

theorem C2_Parse_terminates_counterexample :
    (Parse 17 (RuneReader.mk [91, 91, 91] none) =
        some ([], some (error.Wrap (error.New "unterminated list") (LexPos.mk 1 3).String)) ∧
      ParseS 17 3 (RuneReader.mk [91, 91, 91] none) =
        some (some ([], some (error.Wrap (error.New "unterminated list")
          (LexPos.mk 1 3).String))) ∧
      ParseS 17 2 (RuneReader.mk [91, 91, 91] none) = some none) ∧
    ParseS 15000011 5000000
      (RuneReader.mk (List.replicate (5000000 + 1) 91 ++ []) none) = some none ∧
    (∀ d : Nat, ParseS (3 * (d + 1) + 8) d
      (RuneReader.mk (List.replicate (d + 1) 91 ++ []) none) = some none) :=
  ⟨⟨rfl, rfl, ParseS_overflow 2 17 [] (by decide)⟩, ParseS_overflow 5000000 15000011 [] (by norm_num),
    fun d => ParseS_overflow d (3 * (d + 1) + 8) [] (by omega)⟩

end saft
